import Mathlib

/-!
# A shallow embedding of the file server `fs.cc`

The development follows `src/fs.cc`:

* the on-disk engine `conduct_operation` (path tokenisation, the
  hand-over-hand walk, and the four cases READ / WRITE / CREATE / DELETE),
  together with the lock manager `mm_fs_locks_t` run by a single thread;
* the session registry and the request handler `message_handler`.

Conventions.  A function that in C++ may fail to return (a null lock
pointer is dereferenced, a thread waits for a lock it holds itself, an
array is indexed outside its bounds, `front()` is taken of an empty deque)
returns `none`; `some` carries what the C++ function returns together with
the new global state.  Machine integers are natural numbers, reduced modulo
`2^32` where the code can wrap.
-/

namespace FS

/-! ## Constants and on-disk records -/

/-- Modelled from the spec: the size constants of `fs_param.h` / `fs_server.h`
(`MAXFILENAME`, `MAXUSERNAME`, `MAXPATHNAME`, `MAXFILEBLOCKS`, `DIRENTRIES`,
`BLOCKSIZE`, `DISKSIZE`), which are not part of the sources; they are taken as
parameters. -/
structure Params where
  FS_MAXFILENAME : Nat
  FS_MAXUSERNAME : Nat
  FS_MAXPATHNAME : Nat
  FS_MAXFILEBLOCKS : Nat
  FS_DIRENTRIES : Nat
  FS_BLOCKSIZE : Nat
  FS_DISKSIZE : Nat

/-- The modulus of `unsigned int` arithmetic. -/
def UINT_MOD : Nat := 2 ^ 32

/-- Modelled from the spec: the declaration of `fs_direntry` (a `(name, inode_block)`
pair) is missing from the sources.  `name` is the C string held in the name array. -/
structure fs_direntry where
  name : List Char
  inode_block : Nat
deriving DecidableEq

/-- Modelled from the spec: the declaration of `fs_inode` (type byte, owner string,
`size`, and the array `blocks[]`) is missing from the sources.  `owner` is the C
string held in the owner array; `blocks j` is `blocks[j]`, meaningful for
`j < FS_MAXFILEBLOCKS`. -/
structure fs_inode where
  type : Char
  owner : List Char
  size : Nat
  blocks : Nat → Nat

/-- Modelled from the spec: how the bytes of a disk block are seen through the casts
`(void*)inode_buf` and `(void*)dirs_buf`.  `β` is the type of raw blocks;
every raw block can be read as an inode or as an array of directory entries, and
what was written as one is read back unchanged. -/
structure Layout (β : Type) where
  toInode : β → fs_inode
  toDirs : β → Nat → fs_direntry
  ofInode : fs_inode → β
  ofDirs : (Nat → fs_direntry) → β
  toInode_ofInode : ∀ i, toInode (ofInode i) = i
  toDirs_ofDirs : ∀ d, toDirs (ofDirs d) = d

/-- The calls made on the lock manager, in the order they are made. -/
inductive LockEv where
  | r_lock (inode : Nat)
  | w_lock (inode : Nat)
  | r_unlock (inode : Nat)
  | w_unlock (inode : Nat)
  | add_lock (inode : Nat)
  | delete_lock (inode : Nat)
deriving DecidableEq, Repr

/-- The enum `request_type`. -/
inductive request_type where
  | SESSION | READ | WRITE | CREATE | DELETE | INVALID
deriving DecidableEq, Repr

/-- The global state touched by `conduct_operation`: the disk behind
`disk_readblock` / `disk_writeblock`, the free list with its counter, and the lock
table `mm_fs_locks.fs_locks`, whose entries are the pairs
`(reading_num, writing_num)` of each `rw_mutex_t`.  `log` records the lock calls. -/
structure State (β : Type) where
  disk : Nat → β
  free_blocks : List Nat
  num_block_remain : Nat
  fs_locks : Nat → Option (Nat × Nat)
  log : List LockEv

/-- The indeterminate initial contents of the two objects that CREATE uses without
initialising them: the local `fs_inode new_inode` and the array
`fd_direts = new fs_direntry[FS_DIRENTRIES]`. -/
structure Uninit where
  new_inode : fs_inode
  fd_direts : Nat → fs_direntry

/-! ## The lock manager, run by one thread -/

section Locks
variable {β : Type}

/-- The method `mm_fs_locks.r_lock`: the looked-up pointer is null when the key is absent, and
`read_lock` waits while `writing_num > 0`. -/
def r_lock (s : State β) (inode : Nat) : Option (State β) :=
  match s.fs_locks inode with
  | none => none
  | some (r, w) =>
    if w > 0 then none
    else some { s with fs_locks := Function.update s.fs_locks inode (some ((r + 1) % UINT_MOD, w)),
                       log := s.log ++ [LockEv.r_lock inode] }

/-- The method `mm_fs_locks.w_lock`: `write_lock` waits while `reading_num + writing_num > 0`. -/
def w_lock (s : State β) (inode : Nat) : Option (State β) :=
  match s.fs_locks inode with
  | none => none
  | some (r, w) =>
    if (r + w) % UINT_MOD > 0 then none
    else some { s with fs_locks := Function.update s.fs_locks inode (some (r, (w + 1) % UINT_MOD)),
                       log := s.log ++ [LockEv.w_lock inode] }

/-- The method `mm_fs_locks.r_unlock`: `reading_num--`. -/
def r_unlock (s : State β) (inode : Nat) : Option (State β) :=
  match s.fs_locks inode with
  | none => none
  | some (r, w) =>
    some { s with fs_locks := Function.update s.fs_locks inode (some ((r + UINT_MOD - 1) % UINT_MOD, w)),
                  log := s.log ++ [LockEv.r_unlock inode] }

/-- The method `mm_fs_locks.w_unlock`: `writing_num--`. -/
def w_unlock (s : State β) (inode : Nat) : Option (State β) :=
  match s.fs_locks inode with
  | none => none
  | some (r, w) =>
    some { s with fs_locks := Function.update s.fs_locks inode (some (r, (w + UINT_MOD - 1) % UINT_MOD)),
                  log := s.log ++ [LockEv.w_unlock inode] }

/-- The method `mm_fs_locks.add_lock`: a fresh `rw_mutex_t` is stored under the key. -/
def add_lock (s : State β) (inode : Nat) : State β :=
  { s with fs_locks := Function.update s.fs_locks inode (some (0, 0)),
           log := s.log ++ [LockEv.add_lock inode] }

/-- The method `mm_fs_locks.delete_lock`: the key is erased. -/
def delete_lock (s : State β) (inode : Nat) : State β :=
  { s with fs_locks := Function.update s.fs_locks inode none,
           log := s.log ++ [LockEv.delete_lock inode] }

/-- The disk primitive `disk_writeblock`. -/
def disk_writeblock (s : State β) (block : Nat) (buf : β) : State β :=
  { s with disk := Function.update s.disk block buf }

end Locks

/-! ## Path tokenisation (lines 169-195) -/

/-- The character test of the inner `while` of the tokeniser. -/
def tokenChar (c : Char) : Bool := c != '/' && c != '\x00'

/-- The outer `while (i < n)` loop; the argument list is `path_str` from index `i`
on, so that its head is the separator at index `i`.  `none` is `return false`. -/
def tokenize (P : Params) : Nat → List Char → Option (List (List Char))
  | 0, _ => some []
  | _, [] => some []
  | fuel + 1, _ :: rest =>
    let tok := rest.takeWhile tokenChar
    if tok = [] then none
    else if tok.length > P.FS_MAXFILENAME then none
    else (tokenize P fuel (rest.dropWhile tokenChar)).map (fun ts => tok :: ts)

/-- Lines 181-195: the three syntactic checks, then the token vector `paths`. -/
def parse_path (P : Params) (path : List Char) : Option (List (List Char)) :=
  if path = [] then none
  else if path.getLast? = some '/' then none
  else if path.head? ≠ some '/' then none
  else tokenize P path.length path

/-- The string of the specification of the token vector: the concatenation of
"/" followed by the token, over the tokens in order. -/
def concat_tokens : List (List Char) → List Char
  | [] => []
  | t :: ts => '/' :: t ++ concat_tokens ts

/-- The syntax errors of a path named by the specification: the path is empty, does
not begin with '/', ends with '/', has two '/' in a row, or has more than
`FS_MAXFILENAME` bytes in a row without a '/'. -/
def path_malformed (P : Params) (path : List Char) : Prop :=
  path = [] ∨ path.head? ≠ some '/' ∨ path.getLast? = some '/' ∨
  (∃ a b, path = a ++ '/' :: '/' :: b) ∨
  (∃ a t b, path = a ++ t ++ b ∧ '/' ∉ t ∧ P.FS_MAXFILENAME < t.length)

/-! ## The hand-over-hand walk (lines 197-265) -/

section Engine
variable {β : Type}

/-- The loop over `k < FS_DIRENTRIES` at lines 239-246: the first entry whose name
compares equal to the token (`inode_block` is not looked at). -/
def find_entry (P : Params) (d : Nat → fs_direntry) (tok : List Char) : Option Nat :=
  (List.range P.FS_DIRENTRIES).find? (fun k => decide ((d k).name = tok))

/-- The loop over `j < size` at lines 234-258, given the indices `j` still to visit.
`none`: `blocks[j]` is read outside the array; `some none`: `find == false`;
`some (some c)`: the child `inode_tmp = c`. -/
def walk_scan (P : Params) (L : Layout β) (disk : Nat → β) (inode : fs_inode)
    (tok : List Char) : List Nat → Option (Option Nat)
  | [] => some none
  | j :: js =>
    if j < P.FS_MAXFILEBLOCKS then
      let d := L.toDirs (disk (inode.blocks j))
      match find_entry P d tok with
      | some k => some (some (d k).inode_block)
      | none => walk_scan P L disk inode tok js
    else none

/-- The owner test `strcmp(owners, username) != 0 && strcmp("", owners) != 0`. -/
def owner_denied (owner username : List Char) : Bool :=
  decide (owner ≠ username) && decide (owner ≠ [])

/-- The loop `for (i = 0; i < path_depth; i++)` at lines 212-265, on the tokens still
to resolve, holding a read lock on `inode_block`.  The result is the state together
with `none` when the function returns false inside the loop, or with the inode
reached when the loop ends. -/
def walk (P : Params) (L : Layout β) (username : List Char) (rtype : request_type) :
    State β → Nat → List (List Char) → Option (State β × Option Nat)
  | s, inode_block, [] => some (s, some inode_block)
  | s, inode_block, tok :: rest =>
    let inode := L.toInode (s.disk inode_block)
    if inode.type ≠ 'd' then
      (r_unlock s inode_block).map (fun s1 => (s1, none))
    else if owner_denied inode.owner username then
      (r_unlock s inode_block).map (fun s1 => (s1, none))
    else
      match walk_scan P L s.disk inode tok (List.range inode.size) with
      | none => none
      | some none => (r_unlock s inode_block).map (fun s1 => (s1, none))
      | some (some inode_tmp) =>
        (if rest = [] ∧ rtype ≠ request_type.READ then w_lock s inode_tmp
         else r_lock s inode_tmp).bind fun s1 =>
        (r_unlock s1 inode_block).bind fun s2 =>
        walk P L username rtype s2 inode_tmp rest

/-- The inode blocks read into `inode_buf` by `disk_readblock` on the way down: line
213 at every step of the loop, and line 270 for the block the loop ends on.  The walk
stops at the block at which it fails. -/
def walk_visits (P : Params) (L : Layout β) (username : List Char) (disk : Nat → β) :
    Nat → List (List Char) → List Nat
  | inode_block, [] => [inode_block]
  | inode_block, tok :: rest =>
    let inode := L.toInode (disk inode_block)
    if inode.type ≠ 'd' then [inode_block]
    else if owner_denied inode.owner username then [inode_block]
    else
      match walk_scan P L disk inode tok (List.range inode.size) with
      | some (some inode_tmp) => inode_block :: walk_visits P L username disk inode_tmp rest
      | _ => [inode_block]

/-! ## READ and WRITE (lines 290-369) -/

/-- The result of `conduct_operation`: the returned boolean, the new global state and
the contents of the buffer `read_data`. -/
abbrev Outcome (β : Type) := Option (Bool × State β × β)

/-- The branch `case READ`, entered with a read lock on `inode_block`. -/
def op_READ (P : Params) (s : State β) (inode_block : Nat) (inode : fs_inode)
    (offset : Nat) (read_data : β) : Outcome β :=
  if inode.type ≠ 'f' ∨ offset ≥ inode.size then
    (r_unlock s inode_block).map (fun s1 => (false, s1, read_data))
  else if offset < P.FS_MAXFILEBLOCKS then
    (r_unlock s inode_block).map (fun s1 => (true, s1, s.disk (inode.blocks offset)))
  else none

/-- The branch `case WRITE`, entered with a write lock on `inode_block`. -/
def op_WRITE (P : Params) (L : Layout β) (s : State β) (inode_block : Nat) (inode : fs_inode)
    (offset : Nat) (write_data read_data : β) : Outcome β :=
  if inode.type ≠ 'f' ∨ offset > inode.size ∨ offset ≥ P.FS_MAXFILEBLOCKS then
    (w_unlock s inode_block).map (fun s1 => (false, s1, read_data))
  else if offset = inode.size then
    if s.num_block_remain < 1 then
      (w_unlock s inode_block).map (fun s1 => (false, s1, read_data))
    else
      match s.free_blocks with
      | [] => none
      | block_idx :: rest =>
        let s1 : State β := { s with num_block_remain := s.num_block_remain - 1, free_blocks := rest }
        let s2 := disk_writeblock s1 block_idx write_data
        let inode1 : fs_inode :=
          { inode with size := inode.size + 1, blocks := Function.update inode.blocks offset block_idx }
        let s3 := disk_writeblock s2 inode_block (L.ofInode inode1)
        (w_unlock s3 inode_block).map (fun s4 => (true, s4, read_data))
  else
    let s2 := disk_writeblock s (inode.blocks offset) write_data
    (w_unlock s2 inode_block).map (fun s4 => (true, s4, read_data))

/-! ## CREATE (lines 372-488) -/

/-- The variables `diret_found`, `block_num`, `dir_num` and the copy `fd_direts` kept
by the scans of CREATE and DELETE. -/
structure Slot where
  diret_found : Bool
  block_num : Nat
  dir_num : Nat
  fd_direts : Nat → fs_direntry

/-- The inner loop over `j < FS_DIRENTRIES` of the CREATE scan (lines 398-412) for the
directory block `tmp_direts` at position `i`.  `none` is the `return false` taken when
a live entry already has the name. -/
def create_scan_block (tmp_direts : Nat → fs_direntry) (name : List Char) (i : Nat) :
    Slot → List Nat → Option Slot
  | sl, [] => some sl
  | sl, j :: js =>
    let sl1 : Slot :=
      if (tmp_direts j).inode_block = 0 ∧ sl.diret_found = false then
        { diret_found := true, block_num := i, dir_num := j, fd_direts := tmp_direts }
      else sl
    if (tmp_direts j).inode_block ≠ 0 ∧ (tmp_direts j).name = name then none
    else create_scan_block tmp_direts name i sl1 js

/-- The outer loop over `i < inode->size` of the CREATE scan (lines 395-413).  `none`:
`blocks[i]` is read outside the array; `some none`: the name exists;
`some (some sl)`: the scan ends with the variables `sl`. -/
def create_scan (P : Params) (L : Layout β) (disk : Nat → β) (inode : fs_inode)
    (name : List Char) : Slot → List Nat → Option (Option Slot)
  | sl, [] => some (some sl)
  | sl, i :: is =>
    if i < P.FS_MAXFILEBLOCKS then
      match create_scan_block (L.toDirs (disk (inode.blocks i))) name i sl
              (List.range P.FS_DIRENTRIES) with
      | none => some none
      | some sl1 => create_scan P L disk inode name sl1 is
    else none

/-- Lines 470-472: every entry of the new directory block is marked free. -/
def clear_entries (P : Params) (d : Nat → fs_direntry) : Nat → fs_direntry :=
  fun i => if i < P.FS_DIRENTRIES then { d i with inode_block := 0 } else d i

/-- Lines 424-439: the number of fresh blocks asked of the allocator. -/
def blocks_needed (sl : Slot) : Nat := if sl.diret_found then 1 else 2

/-- Lines 449-487 of `case CREATE`: the new inode is written and locked, then the
directory entry is written, in a free slot or in a new directory block. -/
def create_write (P : Params) (L : Layout β) (u : Uninit) (s1 : State β) (inode_block : Nat)
    (inode : fs_inode) (name username : List Char) (cr_type : Char) (read_data : β)
    (sl : Slot) : Outcome β :=
  match s1.free_blocks with
  | [] => none
  | inode_idx :: rest =>
    if username.length > P.FS_MAXUSERNAME then none
    else
      let new_inode : fs_inode :=
        { u.new_inode with type := cr_type, size := 0, owner := username }
      let s3 := add_lock
        (disk_writeblock { s1 with free_blocks := rest } inode_idx (L.ofInode new_inode)) inode_idx
      if sl.diret_found then
        let fd : Nat → fs_direntry :=
          Function.update sl.fd_direts sl.dir_num { name := name, inode_block := inode_idx }
        let s4 := disk_writeblock s3 (inode.blocks sl.block_num) (L.ofDirs fd)
        (w_unlock s4 inode_block).map (fun s5 => (true, s5, read_data))
      else
        match rest with
        | [] => none
        | block :: rest1 =>
          if inode.size < P.FS_MAXFILEBLOCKS then
            let fd : Nat → fs_direntry :=
              Function.update (clear_entries P sl.fd_direts) 0
                { name := name, inode_block := inode_idx }
            let inode1 : fs_inode :=
              { inode with size := inode.size + 1,
                           blocks := Function.update inode.blocks inode.size block }
            let s5 := disk_writeblock { s3 with free_blocks := rest1 }
              (inode1.blocks (inode1.size - 1)) (L.ofDirs fd)
            let s6 := disk_writeblock s5 inode_block (L.ofInode inode1)
            (w_unlock s6 inode_block).map (fun s7 => (true, s7, read_data))
          else none

/-- Lines 416-447 of `case CREATE`, after the scan ended with the variables `sl`: the
two error checks, then the count is lowered and the writes are made. -/
def create_commit (P : Params) (L : Layout β) (u : Uninit) (s : State β) (inode_block : Nat)
    (inode : fs_inode) (name username : List Char) (cr_type : Char) (read_data : β)
    (sl : Slot) : Outcome β :=
  if sl.diret_found = false ∧ inode.size = P.FS_MAXFILEBLOCKS then
    (w_unlock s inode_block).map (fun s1 => (false, s1, read_data))
  else if s.num_block_remain < blocks_needed sl then
    (w_unlock s inode_block).map (fun s1 => (false, s1, read_data))
  else
    create_write P L u { s with num_block_remain := s.num_block_remain - blocks_needed sl }
      inode_block inode name username cr_type read_data sl

/-- The variables of the CREATE scan before the first iteration. -/
def slot0 (u : Uninit) : Slot :=
  { diret_found := false, block_num := 0, dir_num := 0, fd_direts := u.fd_direts }

/-- The branch `case CREATE`, entered with a write lock on `inode_block`; `name` is
`paths.back()`. -/
def op_CREATE (P : Params) (L : Layout β) (u : Uninit) (s : State β) (inode_block : Nat)
    (inode : fs_inode) (name username : List Char) (cr_type : Char) (read_data : β) :
    Outcome β :=
  if cr_type ≠ 'f' ∧ cr_type ≠ 'd' then
    (w_unlock s inode_block).map (fun s1 => (false, s1, read_data))
  else if inode.type ≠ 'd' then
    (w_unlock s inode_block).map (fun s1 => (false, s1, read_data))
  else
    match create_scan P L s.disk inode name (slot0 u) (List.range inode.size) with
    | none => none
    | some none => (w_unlock s inode_block).map (fun s1 => (false, s1, read_data))
    | some (some sl) =>
      create_commit P L u s inode_block inode name username cr_type read_data sl

/-! ## DELETE (lines 491-604) -/

/-- The inner loop over `j < FS_DIRENTRIES` of the DELETE scan (lines 510-518): the
first live entry with the name. -/
def delete_find (P : Params) (tmp_direts : Nat → fs_direntry) (name : List Char) : Option Nat :=
  (List.range P.FS_DIRENTRIES).find?
    (fun j => decide ((tmp_direts j).inode_block ≠ 0) && decide ((tmp_direts j).name = name))

/-- The outer loop over `i < inode->size` of the DELETE scan (lines 507-522).  `none`:
`blocks[i]` is read outside the array; `some none`: `diret_found` stays false;
`some (some sl)`: the entry found. -/
def delete_scan (P : Params) (L : Layout β) (disk : Nat → β) (inode : fs_inode)
    (name : List Char) : List Nat → Option (Option Slot)
  | [] => some none
  | i :: is =>
    if i < P.FS_MAXFILEBLOCKS then
      let tmp_direts := L.toDirs (disk (inode.blocks i))
      match delete_find P tmp_direts name with
      | some j => some (some { diret_found := true, block_num := i, dir_num := j,
                               fd_direts := tmp_direts })
      | none => delete_scan P L disk inode name is
    else none

/-- Lines 554-559: the number of live entries of `fd_direts`. -/
def count_live (P : Params) (fd_direts : Nat → fs_direntry) : Nat :=
  ((List.range P.FS_DIRENTRIES).filter (fun i => decide ((fd_direts i).inode_block ≠ 0))).length

/-- Lines 564-566: `for (i = block_num; i+1 < size; i++) blocks[i] = blocks[i+1]`, with
the number of iterations left as fuel.  `none`: an index outside the array. -/
def shift_blocks (P : Params) (size : Nat) : Nat → Nat → (Nat → Nat) → Option (Nat → Nat)
  | 0, _, blocks => some blocks
  | fuel + 1, i, blocks =>
    if i + 1 < size then
      if i + 1 < P.FS_MAXFILEBLOCKS then
        shift_blocks P size fuel (i + 1) (Function.update blocks i (blocks (i + 1)))
      else none
    else some blocks

/-- Lines 587-592: the data blocks `blocks[0..size)` of a deleted file are pushed to
the back of the free list, each with `num_block_remain++`.  `none`: an index outside
the array. -/
def release_blocks (P : Params) (blocks : Nat → Nat) : State β → List Nat → Option (State β)
  | s, [] => some s
  | s, i :: is =>
    if i < P.FS_MAXFILEBLOCKS then
      release_blocks P blocks
        { s with num_block_remain := (s.num_block_remain + 1) % UINT_MOD,
                 free_blocks := s.free_blocks ++ [blocks i] } is
    else none

/-- Lines 553-580: the directory update of DELETE.  When the entry is the only live one
of its block, the parent's later blocks are shifted left, the parent is written and
`inode->blocks[block_num]` is pushed to the free list; otherwise the entry is cleared
and the directory block is written. -/
def delete_entry (P : Params) (L : Layout β) (s1 : State β) (inode_block : Nat)
    (inode : fs_inode) (sl : Slot) : Option (State β) :=
  if count_live P sl.fd_direts = 1 then
    (shift_blocks P inode.size inode.size sl.block_num inode.blocks).map fun blocks1 =>
      let inode1 : fs_inode :=
        { inode with blocks := blocks1, size := (inode.size + UINT_MOD - 1) % UINT_MOD }
      let s2 := disk_writeblock s1 inode_block (L.ofInode inode1)
      { s2 with num_block_remain := (s2.num_block_remain + 1) % UINT_MOD,
                free_blocks := s2.free_blocks ++ [inode1.blocks sl.block_num] }
  else
    let fd : Nat → fs_direntry :=
      Function.update sl.fd_direts sl.dir_num { name := [], inode_block := 0 }
    some (disk_writeblock s1 (inode.blocks sl.block_num) (L.ofDirs fd))

/-- Lines 582-597: the data blocks of a deleted file, then the deleted inode block,
are pushed to the free list. -/
def delete_reclaim (P : Params) (s3 : State β) (inode_del : fs_inode) (inode_del_idx : Nat) :
    Option (State β) :=
  (if inode_del.type = 'f' then
    release_blocks P inode_del.blocks s3
      (List.range (if inode_del.size < 2 ^ 31 then inode_del.size else 0))
   else some s3).map fun s4 =>
    { s4 with num_block_remain := (s4.num_block_remain + 1) % UINT_MOD,
              free_blocks := s4.free_blocks ++ [inode_del_idx] }

/-- Lines 532-603 of `case DELETE`, after the scan found the entry `sl`. -/
def delete_commit (P : Params) (L : Layout β) (s : State β) (inode_block : Nat)
    (inode : fs_inode) (username : List Char) (read_data : β) (sl : Slot) : Outcome β :=
  let inode_del_idx := (sl.fd_direts sl.dir_num).inode_block
  (w_lock s inode_del_idx).bind fun s1 =>
  let inode_del := L.toInode (s1.disk inode_del_idx)
  if (inode_del.type = 'd' ∧ inode_del.size > 0) ∨ inode_del.owner ≠ username then
    (w_unlock s1 inode_del_idx).bind fun s2 =>
    (w_unlock s2 inode_block).map (fun s3 => (false, s3, read_data))
  else
    (delete_entry P L s1 inode_block inode sl).bind fun s3 =>
    (delete_reclaim P s3 inode_del inode_del_idx).bind fun s5 =>
    (w_unlock s5 inode_del_idx).bind fun s6 =>
    (w_unlock (delete_lock s6 inode_del_idx) inode_block).map
      (fun s7 => (true, s7, read_data))

/-- The branch `case DELETE`, entered with a write lock on `inode_block`; `name` is
`paths.back()`. -/
def op_DELETE (P : Params) (L : Layout β) (s : State β) (inode_block : Nat)
    (inode : fs_inode) (name username : List Char) (read_data : β) : Outcome β :=
  if inode.type ≠ 'd' then
    (w_unlock s inode_block).map (fun s1 => (false, s1, read_data))
  else
    match delete_scan P L s.disk inode name (List.range inode.size) with
    | none => none
    | some none => (w_unlock s inode_block).map (fun s1 => (false, s1, read_data))
    | some (some sl) => delete_commit P L s inode_block inode username read_data sl

/-! ## `conduct_operation` (lines 164-610) -/

/-- Line 204: `path_depth`. -/
def path_depth (rtype : request_type) (paths : List (List Char)) : Nat :=
  if rtype = request_type.CREATE ∨ rtype = request_type.DELETE then paths.length - 1
  else paths.length

/-- Lines 205-209: the lock taken on the root. -/
def lock_root (s : State β) (depth : Nat) (rtype : request_type) : Option (State β) :=
  if depth = 0 ∧ (rtype = request_type.DELETE ∨ rtype = request_type.CREATE) then w_lock s 0
  else r_lock s 0

/-- Lines 275-279: the unlock made when the owner check of the target fails. -/
def unlock_target (s : State β) (inode_block : Nat) (rtype : request_type) :
    Option (State β) :=
  if rtype ≠ request_type.READ then w_unlock s inode_block else r_unlock s inode_block

/-- Lines 288-607: the `switch` on the request type. -/
def dispatch (P : Params) (L : Layout β) (u : Uninit) (s1 : State β) (inode_block : Nat)
    (inode : fs_inode) (name username : List Char) (offset : Nat) (cr_type : Char)
    (write_data read_data : β) : request_type → Outcome β
  | request_type.READ => op_READ P s1 inode_block inode offset read_data
  | request_type.WRITE => op_WRITE P L s1 inode_block inode offset write_data read_data
  | request_type.CREATE => op_CREATE P L u s1 inode_block inode name username cr_type read_data
  | request_type.DELETE => op_DELETE P L s1 inode_block inode name username read_data
  | _ => some (true, s1, read_data)

/-- Lines 267-609: what is done once the walk has ended on `inode_block`. -/
def on_target (P : Params) (L : Layout β) (u : Uninit) (s1 : State β) (inode_block : Nat)
    (name username : List Char) (offset : Nat) (cr_type : Char)
    (write_data read_data : β) (rtype : request_type) : Outcome β :=
  let inode := L.toInode (s1.disk inode_block)
  if owner_denied inode.owner username then
    (unlock_target s1 inode_block rtype).map (fun s2 => (false, s2, read_data))
  else
    dispatch P L u s1 inode_block inode name username offset cr_type write_data read_data rtype

/-- The function `conduct_operation`.  `u` stands for the uninitialised objects used
by CREATE. -/
def conduct_operation (P : Params) (L : Layout β) (u : Uninit) (s : State β)
    (path username : List Char) (offset : Nat) (cr_type : Char) (write_data read_data : β)
    (rtype : request_type) : Outcome β :=
  if rtype = request_type.SESSION then some (true, s, read_data)
  else
    match parse_path P path with
    | none => some (false, s, read_data)
    | some paths =>
      (lock_root s (path_depth rtype paths) rtype).bind fun s0 =>
      (walk P L username rtype s0 0 (paths.take (path_depth rtype paths))).bind fun r =>
      match r.2 with
      | none => some (false, r.1, read_data)
      | some inode_block =>
        on_target P L u r.1 inode_block (paths.getLastD []) username offset cr_type
          write_data read_data rtype

end Engine

/-! ## A concrete layout and concrete disks, used to run the model -/

/-- A raw block that remembers which record was last written to it; a block read as
a record of another kind gives the zeroed record. -/
inductive Block where
  | inode (i : fs_inode)
  | dirs (d : Nat → fs_direntry)
  | data (bytes : List Nat)

/-- The zeroed inode. -/
def zero_inode : fs_inode := { type := '\x00', owner := [], size := 0, blocks := fun _ => 0 }

/-- The zeroed directory block. -/
def zero_dirs : Nat → fs_direntry := fun _ => { name := [], inode_block := 0 }

/-- The layout of `Block`. -/
def Block.layout : Layout Block where
  toInode b := match b with
    | Block.inode i => i
    | _ => zero_inode
  toDirs b := match b with
    | Block.dirs d => d
    | _ => zero_dirs
  ofInode := Block.inode
  ofDirs := Block.dirs
  toInode_ofInode _ := rfl
  toDirs_ofDirs _ := rfl

/-- An array given by its first elements, `0` elsewhere. -/
def arr (l : List Nat) : Nat → Nat := fun i => l.getD i 0

/-- A directory block given by its first entries, free entries elsewhere. -/
def dirblock (l : List (List Char × Nat)) : Block :=
  Block.dirs (fun k => match l.get? k with
    | some e => { name := e.1, inode_block := e.2 }
    | none => { name := [], inode_block := 0 })

/-- A disk given by its first blocks, empty data blocks elsewhere. -/
def mkdisk (l : List Block) : Nat → Block := fun n => l.getD n (Block.data [])

/-- A lock table with a free lock for each listed inode. -/
def mklocks (l : List Nat) : Nat → Option (Nat × Nat) :=
  fun n => if n ∈ l then some (0, 0) else none

/-- Small constants for running the model: names of at most 4 bytes, 3 blocks per
inode, 2 entries per directory block, a disk of 8 blocks. -/
def P0 : Params :=
  { FS_MAXFILENAME := 4, FS_MAXUSERNAME := 4, FS_MAXPATHNAME := 16, FS_MAXFILEBLOCKS := 3,
    FS_DIRENTRIES := 2, FS_BLOCKSIZE := 4, FS_DISKSIZE := 8 }

/-- The uninitialised objects of CREATE, here zeroed. -/
def u0 : Uninit := { new_inode := zero_inode, fd_direts := zero_dirs }

/-- A disk whose root directory has two directory blocks, block 1 holding the single
entry `a` (file inode 3) and block 2 the single entry `b` (file inode 4); blocks 5, 6
and 7 are free. -/
def sEvict : State Block :=
  { disk := mkdisk
      [ Block.inode { type := 'd', owner := [], size := 2, blocks := arr [1, 2] },
        dirblock [(['a'], 3)],
        dirblock [(['b'], 4)],
        Block.inode { type := 'f', owner := ['u'], size := 0, blocks := arr [] },
        Block.inode { type := 'f', owner := ['u'], size := 0, blocks := arr [] } ],
    free_blocks := [5, 6, 7],
    num_block_remain := 3,
    fs_locks := mklocks [0, 3, 4],
    log := [] }

/-! ## Utility functions (lines 613-639) -/

/-- The view `c_str()` of a byte string: the bytes before the first NUL. -/
def c_str (str : List Char) : List Char := str.takeWhile (fun c => c != '\x00')

/-- The function `count_spaces`, on the C string `str`. -/
def count_spaces (str : List Char) : Nat := ((c_str str).filter (fun c => c == ' ')).length

/-- The library function `isdigit`. -/
def isdigit (c : Char) : Bool := decide (48 ≤ c.toNat) && decide (c.toNat ≤ 57)

/-- The library function `isspace` (space, and the controls 9 to 13). -/
def isspace (c : Char) : Bool := c == ' ' || (decide (9 ≤ c.toNat) && decide (c.toNat ≤ 13))

/-- A value of type `long long`: the integer reduced to the range of 64-bit two's
complement. -/
def wrap64 (x : Int) : Int := (x + 2 ^ 63) % 2 ^ 64 - 2 ^ 63

/-- The loop of `cvt_int` (lines 631-634) on the bytes still to read; `none` is the
`return false` taken at a byte that is not a digit. -/
def cvt_loop : List Char → Int → Option Int
  | [], long_int => some long_int
  | c :: cs, long_int =>
    if isdigit c then cvt_loop cs (wrap64 (long_int * 10 + ((c.toNat : Int) - 48)))
    else none

/-- The function `cvt_int(str, size, num)` on the bytes `str[0..size)`: `none` is
`return false` (and `num` is left alone), `some n` is `return true` with `num = n`. -/
def cvt_int (str : List Char) : Option Nat :=
  if str.length = 0 then none
  else
    match cvt_loop str 0 with
    | none => none
    | some long_int =>
      if str.length > 1 ∧ str.head? = some '0' then none
      else if long_int > 2 ^ 32 - 1 then none
      else some (long_int % 2 ^ 32).toNat

/-! ## Request parsing and the session registry (lines 693-928) -/

/-- The constant `MAXSIZE_INT`. -/
def MAXSIZE_INT : Nat := 10

/-- The index at which a loop `for (r = l; r < size && !stop(buf[r]); r++)` ends. -/
def scan (stop : Char → Bool) (buf : List Char) (l : Nat) : Nat :=
  l + ((buf.drop l).takeWhile (fun c => !stop c)).length

/-- The index at which a loop `for (r = l; (r-l+1) < size && !stop(buf[r]); r++)` of
`parse_req` ends. -/
def scan_req (stop : Char → Bool) (buf : List Char) (l size : Nat) : Nat :=
  l + (((buf.drop l).take (size - 1)).takeWhile (fun c => !stop c)).length

/-- The output parameters `pathname`, `block`, `cr_type`, `data` of `parse_req`. -/
structure Args where
  pathname : List Char
  block : Nat
  cr_type : Char
  data : List Char
deriving DecidableEq

/-- The function `parse_req` on the bytes `req_begin[0..size)`, where `a` holds the
output parameters as they are on entry and `num_block_remain` is the global counter.
`none` is `return false`. -/
def parse_req (P : Params) (num_block_remain : Nat) (req_begin : List Char)
    (type : request_type) (a : Args) : Option Args :=
  let size := req_begin.length
  if size = 0 then none
  else if type = request_type.SESSION then
    if size = 1 ∧ req_begin.head? = some '\x00' then some a else none
  else if req_begin.head? ≠ some ' ' then none
  else
    let l := 1
    let size := size - 1
    if size = 0 then none
    else
      let r := scan_req (fun c => c == ' ') req_begin l size
      let name := (req_begin.drop l).take (r - l)
      if name.any isspace then none
      else if r - l > P.FS_MAXPATHNAME then none
      else
        let a1 := { a with pathname := a.pathname ++ name }
        let size := size - (r - l + 1)
        let l := r + 1
        match type with
        | request_type.READ =>
          if size = 0 then none
          else
            let r := scan_req (fun c => c == '\x00') req_begin l size
            match cvt_int ((req_begin.drop l).take (r - l)) with
            | none => none
            | some block =>
              if block ≥ P.FS_MAXFILEBLOCKS then none
              else if req_begin.get? r = some '\x00' ∧ size - (r - l + 1) = 0 then
                some { a1 with block := block }
              else none
        | request_type.WRITE =>
          if size = 0 then none
          else
            let r := scan_req (fun c => c == '\x00') req_begin l size
            match cvt_int ((req_begin.drop l).take (r - l)) with
            | none => none
            | some block =>
              if block ≥ P.FS_MAXFILEBLOCKS then none
              else
                let size := size - (r - l + 1)
                let l := r + 1
                if size ≠ P.FS_BLOCKSIZE then none
                else some { a1 with block := block, data := (req_begin.drop l).take size }
        | request_type.CREATE =>
          if size ≠ 2 then none
          else
            match req_begin.get? l with
            | none => none
            | some cr_type =>
              if cr_type ≠ 'd' ∧ cr_type ≠ 'f' then none
              else if req_begin.get? (l + 1) ≠ some '\x00' then none
              else if num_block_remain ≤ 0 then none
              else some { a1 with cr_type := cr_type }
        | request_type.DELETE =>
          if size = 0 ∧ req_begin.get? r = some '\x00' then some a1 else none
        | _ => some a1

/-- The session registry: the counter `session_id`, the flag `session_max`, and the
maps `SS_map` (session id to largest sequence number), `US_map` (user to the set of
its session ids, kept as a list without repetition) and `UP_map` (user to password). -/
structure Sessions where
  session_id : Nat
  session_max : Bool
  SS_map : Nat → Option Nat
  US_map : List Char → Option (List Nat)
  UP_map : List Char → Option (List Char)

/-- Lines 877-888 (EH3): the check of the session and of the sequence number of a
request that is not FS_SESSION.  `SS_map[session]` creates the entry 0 when the key is
missing.  The boolean is false when the handler returns. -/
def session_check (st : Sessions) (username : List Char) (session sequence : Nat) :
    Bool × Sessions :=
  match st.US_map username with
  | none => (false, st)
  | some sessions =>
    if session ∉ sessions then (false, st)
    else
      match st.SS_map session with
      | none =>
        let st1 := { st with SS_map := Function.update st.SS_map session (some 0) }
        if 0 ≥ sequence then (false, st1)
        else (true, { st1 with SS_map := Function.update st1.SS_map session (some sequence) })
      | some last =>
        if last ≥ sequence then (false, st)
        else (true, { st with SS_map := Function.update st.SS_map session (some sequence) })

/-- Lines 904-919: a session id is issued, unless `session_max` is set.  `none` is the
`return` of line 909; otherwise the id issued and the new registry. -/
def open_session (st : Sessions) (username : List Char) (sequence : Nat) :
    Option (Nat × Sessions) :=
  if st.session_max then none
  else
    some (st.session_id,
      { st with
        session_max := if st.session_id = UINT_MOD - 1 then true else st.session_max,
        US_map := Function.update st.US_map username
          (some (((st.US_map username).getD []).insert st.session_id)),
        SS_map := Function.update st.SS_map st.session_id (some sequence),
        session_id := (st.session_id + 1) % UINT_MOD })

/-- The server state: the session registry and the file-system state. -/
structure Server (β : Type) where
  sess : Sessions
  fs : State β

/-- The arguments with which `send_response` is called. -/
structure Reply (β : Type) where
  type : request_type
  session : Nat
  sequence : Nat
  read_data : β

/-- What `message_handler` takes from outside the sources: the function
`fs_decrypt` (`none` is the null pointer, otherwise the cleartext, whose length is
`size_cleartext`), the raw block made of the bytes of `write_data`, and the
indeterminate initial values of the locals used before they are set
(`size_ciphertext`, `block`, `cr_type`, `write_data`, `read_data`, and the objects of
CREATE). -/
structure Env (β : Type) where
  fs_decrypt : List Char → List Char → Nat → Option (List Char)
  ofData : List Char → β
  u : Uninit
  size_ciphertext : Nat
  args : Args
  read_data : β

/-- The head of a request once parsed (lines 837-873): its type, session and sequence
numbers, and the index `r` at which the arguments start. -/
structure Head where
  type : request_type
  session : Nat
  sequence : Nat
  r : Nat
deriving DecidableEq

/-- Lines 793-824: the header is split at its space, the password is looked up and
the body decrypted.  `none` is `return`; otherwise the user name, the password and the
cleartext. -/
def decode {β : Type} (E : Env β) (UP_map : List Char → Option (List Char))
    (header request_body : List Char) : Option (List Char × List Char × List Char) :=
  if count_spaces header ≠ 1 then none
  else
    let pos := header.indexOf ' '
    let username := header.take pos
    let size := header.drop (pos + 1)
    match UP_map username with
    | none => none
    | some password =>
      let size_ciphertext := (cvt_int (c_str size)).getD E.size_ciphertext
      (E.fs_decrypt (c_str password) request_body size_ciphertext).map
        fun cleartext => (username, password, cleartext)

/-- Lines 842-862: the request type named by `op_str`, and the largest value of
`size_cleartext-r-1` accepted for it. -/
def verb (P : Params) (op_str : List Char) : Option (request_type × Nat) :=
  if op_str = "FS_SESSION".toList then some (request_type.SESSION, 2 * MAXSIZE_INT + 2)
  else if op_str = "FS_CREATE".toList then
    some (request_type.CREATE, 2 * MAXSIZE_INT + 4 + P.FS_MAXPATHNAME + 1)
  else if op_str = "FS_DELETE".toList then
    some (request_type.DELETE, 2 * MAXSIZE_INT + 3 + P.FS_MAXPATHNAME)
  else if op_str = "FS_READBLOCK".toList then
    some (request_type.READ, 3 * MAXSIZE_INT + 4 + P.FS_MAXPATHNAME)
  else if op_str = "FS_WRITEBLOCK".toList then
    some (request_type.WRITE, 3 * MAXSIZE_INT + 4 + P.FS_MAXPATHNAME + P.FS_BLOCKSIZE)
  else none

/-- Lines 837-873: the operation name, the session number and the sequence number are
read from the cleartext `crequest`.  `none` is `return`. -/
def parse_head (P : Params) (crequest : List Char) : Option Head :=
  let size_cleartext := crequest.length
  let r := scan (fun c => c == ' ') crequest 0
  match verb P (crequest.take r) with
  | none => none
  | some (type, limit) =>
    if (size_cleartext + UINT_MOD - r - 1) % UINT_MOD > limit then none
    else
      let l := r + 1
      let r := scan (fun c => c == ' ') crequest l
      match cvt_int ((crequest.drop l).take (r - l)) with
      | none => none
      | some session =>
        let l := r + 1
        let r := scan (fun c => c == ' ' || c == '\x00') crequest l
        match cvt_int ((crequest.drop l).take (r - l)) with
        | none => none
        | some sequence => some { type := type, session := session, sequence := sequence, r := r }

/-- Lines 875-928: the session check, `parse_req`, the opening of a session, the
operation and the response.  The result is the new server state with the arguments of
`send_response` when it is called; `none` when `conduct_operation` does not return. -/
def serve {β : Type} (P : Params) (L : Layout β) (E : Env β) (sv : Server β)
    (username crequest : List Char) (hd : Head) : Option (Server β × Option (Reply β)) :=
  let chk : Bool × Sessions :=
    if hd.type ≠ request_type.SESSION then
      session_check sv.sess username hd.session hd.sequence
    else (true, sv.sess)
  if chk.1 = false then some ({ sv with sess := chk.2 }, none)
  else
    match parse_req P sv.fs.num_block_remain (crequest.drop hd.r) hd.type
            { E.args with pathname := [] } with
    | none => some ({ sv with sess := chk.2 }, none)
    | some a =>
      let opened : Option (Nat × Sessions) :=
        if hd.type = request_type.SESSION then
          if hd.session ≠ 0 then none else open_session chk.2 username hd.sequence
        else some (hd.session, chk.2)
      match opened with
      | none => some ({ sv with sess := chk.2 }, none)
      | some (session, st) =>
        (conduct_operation P L E.u sv.fs a.pathname (c_str username) a.block a.cr_type
            (E.ofData a.data) E.read_data hd.type).map fun res =>
          if res.1 = false then ({ sess := st, fs := res.2.1 }, none)
          else ({ sess := st, fs := res.2.1 },
                some { type := hd.type, session := session, sequence := hd.sequence,
                       read_data := res.2.2 })

/-- The function `message_handler`. -/
def message_handler {β : Type} (P : Params) (L : Layout β) (E : Env β) (sv : Server β)
    (header request_body : List Char) : Option (Server β × Option (Reply β)) :=
  match decode E sv.sess.UP_map header request_body with
  | none => some (sv, none)
  | some (username, _, crequest) =>
    match parse_head P crequest with
    | none => some (sv, none)
    | some hd => serve P L E sv username crequest hd

/-- The requests of a list handled one after the other, with the responses made. -/
def run {β : Type} (P : Params) (L : Layout β) (E : Env β) :
    Server β → List (List Char × List Char) → Option (Server β × List (Option (Reply β)))
  | sv, [] => some (sv, [])
  | sv, req :: reqs =>
    (message_handler P L E sv req.1 req.2).bind fun r1 =>
    (run P L E r1.1 reqs).map fun r2 => (r2.1, r1.2 :: r2.2)

/-- The session ids carried by the responses to FS_SESSION requests, in order. -/
def issued {β : Type} : List (Option (Reply β)) → List Nat
  | [] => []
  | some rep :: reps =>
    if rep.type = request_type.SESSION then rep.session :: issued reps else issued reps
  | none :: reps => issued reps

/-- The registry at start-up (lines 34-38), with the passwords read by `main`. -/
def sessions0 (UP_map : List Char → Option (List Char)) : Sessions :=
  { session_id := 0, session_max := false, SS_map := fun _ => none,
    US_map := fun _ => none, UP_map := UP_map }

/-! ## Decimal numbers, as the specification reads them -/

/-- The value of a string of decimal digits, most significant digit first. -/
def decimal_value (str : List Char) : Nat :=
  str.foldl (fun v c => v * 10 + (c.toNat - 48)) 0

/-- A canonical decimal numeral: at least one byte, every byte a decimal digit, and
no leading zero unless the numeral is "0". -/
def canonical_decimal (str : List Char) : Prop :=
  str ≠ [] ∧ (∀ c, c ∈ str → isdigit c = true) ∧ (str.length > 1 → str.head? ≠ some '0')

/-! ## The reader/writer lock `rw_mutex_t` (lines 47-106) -/

/-- The method `read_lock` on the counters `(reading_num, writing_num)`: `none` while
the caller waits in the loop `while (writing_num > 0)`, otherwise the counters after
`reading_num++`. -/
def read_lock (m : Nat × Nat) : Option (Nat × Nat) :=
  if m.2 > 0 then none else some ((m.1 + 1) % UINT_MOD, m.2)

/-- The method `read_unlock`: `reading_num--`. -/
def read_unlock (m : Nat × Nat) : Nat × Nat := ((m.1 + UINT_MOD - 1) % UINT_MOD, m.2)

/-- The method `write_lock`: `none` while the caller waits in the loop
`while (reading_num + writing_num > 0)`, otherwise the counters after `writing_num++`. -/
def write_lock (m : Nat × Nat) : Option (Nat × Nat) :=
  if (m.1 + m.2) % UINT_MOD > 0 then none else some (m.1, (m.2 + 1) % UINT_MOD)

/-- The method `write_unlock`: `writing_num--`. -/
def write_unlock (m : Nat × Nat) : Nat × Nat := (m.1, (m.2 + UINT_MOD - 1) % UINT_MOD)

/-- One step of the lock: a `read_lock` or a `write_lock` that completes, or an unlock
made by a thread that holds the lock in that mode (so the counter of that mode is not
0). -/
inductive rw_step : Nat × Nat → Nat × Nat → Prop where
  | read_lock (m m1 : Nat × Nat) : read_lock m = some m1 → rw_step m m1
  | write_lock (m m1 : Nat × Nat) : write_lock m = some m1 → rw_step m m1
  | read_unlock (m : Nat × Nat) : m.1 > 0 → rw_step m (read_unlock m)
  | write_unlock (m : Nat × Nat) : m.2 > 0 → rw_step m (write_unlock m)

/-- The counters reachable from `(0, 0)`, the values set by the constructor. -/
inductive rw_reach : Nat × Nat → Prop where
  | init : rw_reach (0, 0)
  | step (m m1 : Nat × Nat) : rw_reach m → rw_step m m1 → rw_reach m1

/-! ## The response (lines 644-669) -/

/-- The library function `std::to_string` on an unsigned integer: its decimal
digits. -/
def to_string (n : Nat) : List Char := Nat.toDigits 10 n

/-- Lines 649-664 of `send_response`: the buffer `cleartext` and the length
`size_cleartext` given to `fs_encrypt`.  `rd_data` is the read buffer, `uninit` the
value of a byte of the buffer that is never written.  `strcpy` copies the bytes of
`tmp` before its first NUL, and a NUL.  The string `tmp` has at most 41 bytes, so the
lengths stay far below 2^32. -/
def response_cleartext (P : Params) (type : request_type) (session_id sequence : Nat)
    (rd_data : Nat → Char) (uninit : Char) : List Char × Nat :=
  let tmp := to_string session_id ++ [' '] ++ to_string sequence
  let tmp_size := tmp.length
  if type ≠ request_type.READ then
    let cleartext := c_str tmp ++ ['\x00'] ++ List.replicate (tmp_size - (c_str tmp).length) uninit
    (cleartext, (c_str cleartext).length + 1)
  else
    let cleartext := c_str tmp ++ ['\x00'] ++ List.replicate (tmp_size - (c_str tmp).length) uninit
      ++ (List.range P.FS_BLOCKSIZE).map rd_data
    (cleartext, tmp_size + 1 + P.FS_BLOCKSIZE)

/-! ## Traces of lock calls -/

/-- The locks `(inode, is_write)` held by the caller after one more call of the lock
manager; `none` when the call is an unlock that matches no lock held, on that inode and
in that mode.  The calls `add_lock` and `delete_lock` take and release nothing. -/
def lock_step (held : List (Nat × Bool)) : LockEv → Option (List (Nat × Bool))
  | LockEv.r_lock n => some ((n, false) :: held)
  | LockEv.w_lock n => some ((n, true) :: held)
  | LockEv.r_unlock n => if (n, false) ∈ held then some (held.erase (n, false)) else none
  | LockEv.w_unlock n => if (n, true) ∈ held then some (held.erase (n, true)) else none
  | LockEv.add_lock _ => some held
  | LockEv.delete_lock _ => some held

/-- A stretch of calls in the middle of an operation: every unlock matches a lock held,
and after every call the caller holds one or two locks.  The result is the list of
locks held at the end. -/
def lock_seg : List (Nat × Bool) → List LockEv → Option (List (Nat × Bool))
  | held, [] => some held
  | held, ev :: evs =>
    match lock_step held ev with
    | none => none
    | some held1 =>
      if held1.length ≤ 2 ∧ held1 ≠ [] then lock_seg held1 evs else none

/-- The lock discipline of a whole trace, started with the locks `held`: every unlock
matches in mode a lock held on that inode; at most two locks are held at any point; as
long as calls follow, a lock is held (so a lock is released only after the next one is
taken); no lock is held at the end. -/
def lock_discipline : List (Nat × Bool) → List LockEv → Bool
  | held, [] => held.isEmpty
  | held, ev :: evs =>
    match lock_step held ev with
    | none => false
    | some held1 =>
      decide (held1.length ≤ 2) && (evs.isEmpty || !held1.isEmpty) &&
        lock_discipline held1 evs

/-! ## Predicates on states -/

/-- The registry after `k` session ids have been issued: while `session_max` is not
set the counter is `k`; once it is set all the ids of `unsigned int` have been issued;
the ids held by the users are exactly those below `k`, each held by one user only. -/
def IssuedInv (st : Sessions) (k : Nat) : Prop :=
  (st.session_max = false → st.session_id = k ∧ k < UINT_MOD) ∧
  (st.session_max = true → k = UINT_MOD) ∧
  (∀ u sessions, st.US_map u = some sessions → ∀ x, x ∈ sessions → x < k) ∧
  (∀ x, x < k → ∃ u sessions, st.US_map u = some sessions ∧ x ∈ sessions) ∧
  (∀ u1 u2 s1 s2 x, st.US_map u1 = some s1 → st.US_map u2 = some s2 →
    x ∈ s1 → x ∈ s2 → u1 = u2)

/-- Every session id held by a user has an entry in `SS_map`. -/
def SessInv (st : Sessions) : Prop :=
  ∀ u sessions, st.US_map u = some sessions → ∀ x, x ∈ sessions → (st.SS_map x).isSome = true

/-- The keys of `SS_map` after `k` session ids have been issued: exactly the ids
below `k`. -/
def SeqInv (st : Sessions) (k : Nat) : Prop :=
  ∀ x, (st.SS_map x).isSome = true ↔ x < k

/-- Every entry of `SS_map` in `st` is still there in `st1`, with a sequence number at
least as large. -/
def SeqLe (st st1 : Sessions) : Prop :=
  ∀ x v, st.SS_map x = some v → ∃ v1, st1.SS_map x = some v1 ∧ v ≤ v1

section Predicates
variable {β : Type}

/-- The state `s1` has the disk, the free list and the free count of `s`, and a lock
under the same keys. -/
def Frame (s s1 : State β) : Prop :=
  s1.disk = s.disk ∧ s1.free_blocks = s.free_blocks ∧
    s1.num_block_remain = s.num_block_remain ∧
    ∀ n, (s1.fs_locks n).isSome = (s.fs_locks n).isSome

/-- The role of a disk block: free, an inode, a directory block, or a data block of a
file. -/
inductive Kind where
  | free | inode | dir | data
deriving DecidableEq, Repr

/-- A directory entry is live when its `inode_block` is not 0. -/
def live (e : fs_direntry) : Prop := e.inode_block ≠ 0

instance (e : fs_direntry) : Decidable (live e) := by unfold live; infer_instance

/-- Name uniqueness (P2) for the inode in block `n`: if it is a directory, two live
entries of its directory blocks `blocks[0..size)` with the same name are the same
entry. -/
def names_distinct (P : Params) (L : Layout β) (disk : Nat → β) (n : Nat) : Prop :=
  (L.toInode (disk n)).type = 'd' →
    ∀ j1, j1 < (L.toInode (disk n)).size → ∀ j2, j2 < (L.toInode (disk n)).size →
    ∀ k1, k1 < P.FS_DIRENTRIES → ∀ k2, k2 < P.FS_DIRENTRIES →
      live (L.toDirs (disk ((L.toInode (disk n)).blocks j1)) k1) →
      live (L.toDirs (disk ((L.toInode (disk n)).blocks j2)) k2) →
      (L.toDirs (disk ((L.toInode (disk n)).blocks j1)) k1).name =
        (L.toDirs (disk ((L.toInode (disk n)).blocks j2)) k2).name →
      j1 = j2 ∧ k1 = k2

/-- The disk is a well-formed tree for the assignment `kind` of roles to blocks:
block 0 is an inode; the blocks `blocks[0..size)` of a directory inode are directory
blocks, each referenced from one place only; those of a file inode are data blocks;
the live entries of a directory block point to inodes; sizes are within the array; and
live names are unique in every directory (P2). -/
structure DiskTyped (P : Params) (L : Layout β) (kind : Nat → Kind) (disk : Nat → β) :
    Prop where
  root_inode : kind 0 = Kind.inode
  size_le : ∀ n, kind n = Kind.inode → (L.toInode (disk n)).size ≤ P.FS_MAXFILEBLOCKS
  dir_blocks : ∀ n, kind n = Kind.inode → (L.toInode (disk n)).type = 'd' →
    ∀ j, j < (L.toInode (disk n)).size → kind ((L.toInode (disk n)).blocks j) = Kind.dir
  dir_inj : ∀ n1 n2, kind n1 = Kind.inode → kind n2 = Kind.inode →
    (L.toInode (disk n1)).type = 'd' → (L.toInode (disk n2)).type = 'd' →
    ∀ j1, j1 < (L.toInode (disk n1)).size → ∀ j2, j2 < (L.toInode (disk n2)).size →
    (L.toInode (disk n1)).blocks j1 = (L.toInode (disk n2)).blocks j2 → n1 = n2 ∧ j1 = j2
  file_blocks : ∀ n, kind n = Kind.inode → (L.toInode (disk n)).type = 'f' →
    ∀ j, j < (L.toInode (disk n)).size → kind ((L.toInode (disk n)).blocks j) = Kind.data
  entries : ∀ b, kind b = Kind.dir → ∀ k, k < P.FS_DIRENTRIES →
    live (L.toDirs (disk b) k) → kind (L.toDirs (disk b) k).inode_block = Kind.inode
  names : ∀ n, kind n = Kind.inode → names_distinct P L disk n

/-- The disk invariants of a state at rest: the disk is a well-formed tree, the free
list holds free blocks, each once (P1), and no lock of the table is held. -/
structure DiskInv (P : Params) (L : Layout β) (kind : Nat → Kind) (s : State β) : Prop where
  typed : DiskTyped P L kind s.disk
  free_kind : ∀ b, b ∈ s.free_blocks → kind b = Kind.free
  free_nodup : s.free_blocks.Nodup
  locks_free : ∀ n v, s.fs_locks n = some v → v = (0, 0)

/-- The inode blocks reachable from the root: the root, and the inodes named by the
live entries of the directory blocks `blocks[0..size)` of a reachable directory. -/
inductive ReachInode (P : Params) (L : Layout β) (disk : Nat → β) : Nat → Prop where
  | root : ReachInode P L disk 0
  | child (n j k : Nat) : ReachInode P L disk n → (L.toInode (disk n)).type = 'd' →
      j < (L.toInode (disk n)).size → k < P.FS_DIRENTRIES →
      live (L.toDirs (disk ((L.toInode (disk n)).blocks j)) k) →
      ReachInode P L disk (L.toDirs (disk ((L.toInode (disk n)).blocks j)) k).inode_block

/-- The blocks reachable from the root: the reachable inodes and the blocks
`blocks[0..size)` of each of them. -/
def Reachable (P : Params) (L : Layout β) (disk : Nat → β) (b : Nat) : Prop :=
  ∃ n, ReachInode P L disk n ∧
    (b = n ∨ ∃ j, j < (L.toInode (disk n)).size ∧ b = (L.toInode (disk n)).blocks j)

/-- The partition invariant P1: no free block is reachable, and every block of the disk
is free or reachable. -/
def P1 (P : Params) (L : Layout β) (s : State β) : Prop :=
  (∀ b, b ∈ s.free_blocks → ¬ Reachable P L s.disk b) ∧
  (∀ b, b < P.FS_DISKSIZE → b ∈ s.free_blocks ∨ Reachable P L s.disk b)

/-- The directory `inode` has a free slot: an entry with `inode_block` 0 in one of its
directory blocks `blocks[0..size)`. -/
def has_free_slot (P : Params) (L : Layout β) (disk : Nat → β) (inode : fs_inode) : Prop :=
  ∃ j, j < inode.size ∧ ∃ k, k < P.FS_DIRENTRIES ∧
    (L.toDirs (disk (inode.blocks j)) k).inode_block = 0

/-- The free count is the length of the free list. -/
def FreeCount (s : State β) : Prop := s.num_block_remain = s.free_blocks.length

/-- Every inode is named by one live directory entry at most. -/
def entries_inj (P : Params) (L : Layout β) (kind : Nat → Kind) (disk : Nat → β) : Prop :=
  ∀ b1 b2, kind b1 = Kind.dir → kind b2 = Kind.dir →
    ∀ k1, k1 < P.FS_DIRENTRIES → ∀ k2, k2 < P.FS_DIRENTRIES →
    live (L.toDirs (disk b1) k1) → live (L.toDirs (disk b2) k2) →
    (L.toDirs (disk b1) k1).inode_block = (L.toDirs (disk b2) k2).inode_block →
    b1 = b2 ∧ k1 = k2

/-- The inode `m` is a child of the inode `n`: `n` is a directory and a live entry of
one of its directory blocks `blocks[0..size)` has `inode_block` `m`. -/
def ChildOf (P : Params) (L : Layout β) (disk : Nat → β) (n m : Nat) : Prop :=
  (L.toInode (disk n)).type = 'd' ∧
    ∃ j, j < (L.toInode (disk n)).size ∧ ∃ k, k < P.FS_DIRENTRIES ∧
      live (L.toDirs (disk ((L.toInode (disk n)).blocks j)) k) ∧
      (L.toDirs (disk ((L.toInode (disk n)).blocks j)) k).inode_block = m

/-- Every directory block `blocks[0..size)` of the inode `n`, when it is a directory,
has a live entry. -/
def BlocksLive (P : Params) (L : Layout β) (disk : Nat → β) (n : Nat) : Prop :=
  (L.toInode (disk n)).type = 'd' →
    ∀ j, j < (L.toInode (disk n)).size →
      ∃ k, k < P.FS_DIRENTRIES ∧ live (L.toDirs (disk ((L.toInode (disk n)).blocks j)) k)

/-- Directory-size consistency (P3): every directory block `blocks[0..size)` of a
directory inode of the tree has a live entry. -/
def P3 (P : Params) (L : Layout β) (disk : Nat → β) : Prop :=
  ∀ n, ReachInode P L disk n → BlocksLive P L disk n

/-- Lock hygiene (P4): the keys of the lock table are the inode blocks reachable from
the root. -/
def P4 (P : Params) (L : Layout β) (s : State β) : Prop :=
  ∀ n, (s.fs_locks n).isSome = true ↔ ReachInode P L s.disk n

/-- Name uniqueness (P2): in every directory of the tree the live entries have pairwise
distinct names. -/
def P2 (P : Params) (L : Layout β) (disk : Nat → β) : Prop :=
  ∀ n, ReachInode P L disk n → names_distinct P L disk n

/-- The list `l` of inodes holds, with a directory, the inodes of its live entries. -/
def ListClosed (P : Params) (L : Layout β) (disk : Nat → β) (l : List Nat) : Prop :=
  ∀ n, n ∈ l → (L.toInode (disk n)).type = 'd' →
    ∀ j, j < (L.toInode (disk n)).size → ∀ k, k < P.FS_DIRENTRIES →
      live (L.toDirs (disk ((L.toInode (disk n)).blocks j)) k) →
      (L.toDirs (disk ((L.toInode (disk n)).blocks j)) k).inode_block ∈ l

set_option synthInstance.maxSize 2000 in
instance (P : Params) (L : Layout β) (disk : Nat → β) (l : List Nat) :
    Decidable (ListClosed P L disk l) := by unfold ListClosed; infer_instance

set_option synthInstance.maxSize 2000 in
instance (P : Params) (L : Layout β) (disk : Nat → β) (n : Nat) :
    Decidable (names_distinct P L disk n) := by unfold names_distinct; infer_instance

set_option synthInstance.maxSize 2000 in
instance (P : Params) (L : Layout β) (disk : Nat → β) (n : Nat) :
    Decidable (BlocksLive P L disk n) := by unfold BlocksLive; infer_instance

end Predicates

/-! ## The start-up (lines 932-957, 1040-1044) -/

section Startup
variable {β : Type}

/-- The statement `free_blocks.erase(remove(free_blocks.begin(), free_blocks.end(), x))`:
`std::remove` moves the entries other than `x` to the front, in order, and leaves the
entries behind them as they were; `erase` then removes the single entry that follows the
entries kept.  `none`: `x` is not in the list, and `erase` is given the end iterator. -/
def erase_remove (l : List Nat) (x : Nat) : Option (List Nat) :=
  if x ∈ l then some (l.filter (fun y => decide (y ≠ x)) ++ l.drop (l.length - l.count x + 1))
  else none

/-- Lines 936-937 and 939-940 of `traverse_fs`: `num_block_remain--`, then the block is
removed from `free_blocks`. -/
def traverse_take (s : State β) (block : Nat) : Option (State β) :=
  (erase_remove s.free_blocks block).map fun l =>
    { s with num_block_remain := (s.num_block_remain + UINT_MOD - 1) % UINT_MOD,
             free_blocks := l }

/-- The loop of lines 938-941 over the blocks `blocks[i]` of the inode.  `none`: an
index outside the array, or a block that is not in `free_blocks`. -/
def traverse_take_blocks (P : Params) (inode : fs_inode) : State β → List Nat → Option (State β)
  | s, [] => some s
  | s, i :: is =>
    if i < P.FS_MAXFILEBLOCKS then
      (traverse_take s (inode.blocks i)).bind fun s1 => traverse_take_blocks P inode s1 is
    else none

/-- The loop of lines 951-954 over the entries of the directory block `blk_direts`;
`visit` is the recursive call of `traverse_fs`. -/
def traverse_entries (visit : State β → Nat → Option (State β))
    (blk_direts : Nat → fs_direntry) : State β → List Nat → Option (State β)
  | s, [] => some s
  | s, j :: js =>
    if (blk_direts j).inode_block = 0 then traverse_entries visit blk_direts s js
    else (visit s (blk_direts j).inode_block).bind fun s1 =>
      traverse_entries visit blk_direts s1 js

/-- The loop of lines 949-955 over the directory blocks of the inode. -/
def traverse_blocks (P : Params) (L : Layout β) (visit : State β → Nat → Option (State β))
    (inode : fs_inode) : State β → List Nat → Option (State β)
  | s, [] => some s
  | s, i :: is =>
    if i < P.FS_MAXFILEBLOCKS then
      (traverse_entries visit (L.toDirs (s.disk (inode.blocks i))) s
        (List.range P.FS_DIRENTRIES)).bind fun s1 =>
      traverse_blocks P L visit inode s1 is
    else none

/-- The function `traverse_fs`, with a bound `fuel` on the depth of the recursion.
`none`: the call does not return within that depth, or it fails in one of the loops. -/
def traverse_fs (P : Params) (L : Layout β) : Nat → State β → Nat → Option (State β)
  | 0, _, _ => none
  | fuel + 1, s, inode_block =>
    let inode := L.toInode (s.disk inode_block)
    (traverse_take s inode_block).bind fun s1 =>
    (traverse_take_blocks P inode s1 (List.range inode.size)).bind fun s2 =>
    let s3 := add_lock s2 inode_block
    if inode.type = 'f' ∨ inode.size = 0 then some s3
    else traverse_blocks P L (traverse_fs P L fuel) inode s3 (List.range inode.size)

/-- Lines 1040-1043 of `main`: the free list is seeded with every block of the disk and
the free count with `FS_DISKSIZE`; the lock table is empty. -/
def startup_state (P : Params) (disk : Nat → β) : State β :=
  { disk := disk, free_blocks := List.range P.FS_DISKSIZE, num_block_remain := P.FS_DISKSIZE,
    fs_locks := fun _ => none, log := [] }

/-- The inodes named by the live entries of the directory blocks `blocks[0..size)` of
the inode `n`, in the order of the blocks and of the entries; none for a file. -/
def child_inodes (P : Params) (L : Layout β) (disk : Nat → β) (n : Nat) : List Nat :=
  if (L.toInode (disk n)).type = 'd' then
    (List.range (L.toInode (disk n)).size).flatMap fun j =>
      ((List.range P.FS_DIRENTRIES).filter fun k =>
        decide ((L.toDirs (disk ((L.toInode (disk n)).blocks j)) k).inode_block ≠ 0)).map
        fun k => (L.toDirs (disk ((L.toInode (disk n)).blocks j)) k).inode_block
  else []

/-- The inodes `roots` are the roots of finite trees of the disk: every inode met is a
file or a directory with at most `FS_MAXFILEBLOCKS` blocks.  The second list gives the
blocks of the trees (every inode, followed by its blocks `blocks[0..size)` and by the
blocks of the trees of its children), the third list their inodes. -/
inductive Forest (P : Params) (L : Layout β) (disk : Nat → β) :
    List Nat → List Nat → List Nat → Prop where
  | nil : Forest P L disk [] [] []
  | cons (n : Nat) (roots lsub isub l ins : List Nat) :
      ((L.toInode (disk n)).type = 'f' ∨ (L.toInode (disk n)).type = 'd') →
      (L.toInode (disk n)).size ≤ P.FS_MAXFILEBLOCKS →
      Forest P L disk (child_inodes P L disk n) lsub isub →
      Forest P L disk roots l ins →
      Forest P L disk (n :: roots)
        (n :: (List.range (L.toInode (disk n)).size).map (L.toInode (disk n)).blocks ++ lsub ++ l)
        (n :: isub ++ ins)

/-- The disk image is a well-formed tree rooted at block 0: a finite tree of inodes,
in which no block is referenced twice and every block referenced is a block of the
disk. -/
def WellFormedTree (P : Params) (L : Layout β) (disk : Nat → β) : Prop :=
  ∃ l ins, Forest P L disk [0] l ins ∧ l.Nodup ∧ ∀ b, b ∈ l → b < P.FS_DISKSIZE

/-- What a traversal leaves: from the state `s`, the blocks `l` have been taken from the
free list and from the free count, a free lock has been added for the inodes `ins`, and
the disk is as it was. -/
def TraversePost (s : State β) (l ins : List Nat) (s1 : State β) : Prop :=
  s1.disk = s.disk ∧
  s1.free_blocks = s.free_blocks.filter (fun b => decide (b ∉ l)) ∧
  (s1.num_block_remain + l.length) % UINT_MOD = s.num_block_remain % UINT_MOD ∧
  s1.num_block_remain < UINT_MOD ∧
  ∀ n, s1.fs_locks n = if n ∈ ins then some (0, 0) else s.fs_locks n

end Startup

/-! ## A state changed from outside an operation -/

section Changes
variable {β : Type}

/-- A change made to a state from outside an operation: the blocks selected by `Zd` get
the contents `vd`, the lock entries selected by `Zl` become `vl`, the free list and the
free count are replaced when `fr` is given, and `pre` is put before the log. -/
structure Overlay (β : Type) where
  Zd : Nat → Bool
  vd : Nat → β
  Zl : Nat → Bool
  vl : Nat → Option (Nat × Nat)
  fr : Option (List Nat × Nat)
  pre : List LockEv

/-- The state `x` after the change `o`. -/
def Overlay.app (o : Overlay β) (x : State β) : State β :=
  { disk := fun b => if o.Zd b then o.vd b else x.disk b,
    free_blocks := match o.fr with
      | none => x.free_blocks
      | some p => p.1,
    num_block_remain := match o.fr with
      | none => x.num_block_remain
      | some p => p.2,
    fs_locks := fun n => if o.Zl n then o.vl n else x.fs_locks n,
    log := o.pre ++ x.log }

/-- The change applied to the state of a result. -/
def Overlay.out (o : Overlay β) (r : Bool × State β × β) : Bool × State β × β :=
  (r.1, o.app r.2.1, r.2.2)

/-- The free count after `k` blocks are pushed to the free list, each with
`num_block_remain++`, starting from the count `n`. -/
def bump (k n : Nat) : Nat := (fun m => (m + 1) % UINT_MOD)^[k] n

/-- A change of the free list and of the free count made from outside an operation:
the list becomes `F` of the list, the count `G` of the list and the count. -/
structure Refree where
  F : List Nat → List Nat
  G : List Nat → Nat → Nat

/-- The state `y` with the free list and the free count changed from outside. -/
def Refree.app (f : Refree) (y : State β) : State β :=
  { y with free_blocks := f.F y.free_blocks,
           num_block_remain := f.G y.free_blocks y.num_block_remain }

/-- The change applied to the state of a result. -/
def Refree.out (f : Refree) (r : Bool × State β × β) : Bool × State β × β :=
  (r.1, f.app r.2.1, r.2.2)

/-- The blocks `suf` are pushed to the back of the free list, the count being raised
with each. -/
def extend (suf : List Nat) : Refree :=
  { F := fun l => l ++ suf, G := fun _ n => bump suf.length n }

end Changes

/-! ## Concrete states -/

/-- A disk whose root directory holds the file `f` (inode 2, owned by `u`) with one
data block (block 3); blocks 4 to 7 are free. -/
def sFile : State Block :=
  { disk := mkdisk
      [ Block.inode { type := 'd', owner := [], size := 1, blocks := arr [1] },
        dirblock [(['f'], 2)],
        Block.inode { type := 'f', owner := ['u'], size := 1, blocks := arr [3] },
        Block.data [1, 2, 3, 4] ],
    free_blocks := [4, 5, 6, 7],
    num_block_remain := 4,
    fs_locks := mklocks [0, 2],
    log := [] }

/-- The roles of the blocks of `sFile`. -/
def kindFile : Nat → Kind
  | 0 => Kind.inode
  | 1 => Kind.dir
  | 2 => Kind.inode
  | 3 => Kind.data
  | _ => Kind.free

/-- A disk in which the directory `a` (inode 2) has two directory blocks: block 3 with
the live entry `b` and a cleared entry, block 4 with the live entry `c` and a free
entry whose name field holds `n`.  Block 7 is free. -/
def sDead : State Block :=
  { disk := mkdisk
      [ Block.inode { type := 'd', owner := [], size := 1, blocks := arr [1] },
        dirblock [(['a'], 2)],
        Block.inode { type := 'd', owner := ['u'], size := 2, blocks := arr [3, 4] },
        dirblock [(['b'], 5), ([], 0)],
        dirblock [(['c'], 6), (['n'], 0)],
        Block.inode { type := 'f', owner := ['u'], size := 0, blocks := arr [] },
        Block.inode { type := 'f', owner := ['u'], size := 0, blocks := arr [] } ],
    free_blocks := [7],
    num_block_remain := 1,
    fs_locks := mklocks [0, 2, 5, 6],
    log := [] }

/-- A freshly formatted disk: the root directory is empty and blocks 1 to 7 are free. -/
def sEmpty : State Block :=
  { disk := mkdisk [ Block.inode { type := 'd', owner := [], size := 0, blocks := arr [] } ],
    free_blocks := [1, 2, 3, 4, 5, 6, 7],
    num_block_remain := 7,
    fs_locks := mklocks [0],
    log := [] }

/-- Uninitialised objects of CREATE in which the name field of entry 1 of the array
`fd_direts` holds the bytes `n`. -/
def uStale : Uninit :=
  { new_inode := zero_inode,
    fd_direts := fun k => if k = 1 then { name := ['n'], inode_block := 0 }
                          else { name := [], inode_block := 0 } }

/-- A list of requests `(type, path, cr_type)` of user `u` made one after the other,
with the booleans returned. -/
def run_ops (P : Params) (L : Layout Block) (u : Uninit) :
    State Block → List (request_type × List Char × Char) → Option (State Block × List Bool)
  | s, [] => some (s, [])
  | s, op :: ops =>
    (conduct_operation P L u s op.2.1 ['u'] 0 op.2.2 (Block.data []) (Block.data []) op.1).bind
      fun r => (run_ops P L u r.2.1 ops).map fun r2 => (r2.1, r.1 :: r2.2)

/-- The roles of the blocks of `sDead`. -/
def kindDead : Nat → Kind
  | 0 => Kind.inode
  | 1 => Kind.dir
  | 2 => Kind.inode
  | 3 => Kind.dir
  | 4 => Kind.dir
  | 5 => Kind.inode
  | 6 => Kind.inode
  | _ => Kind.free

/-- An environment for running the handler: decryption returns the body as it is, and
the uninitialised locals are zeroed. -/
def E0 : Env Block :=
  { fs_decrypt := fun _ body _ => some body,
    ofData := fun d => Block.data (d.map Char.toNat),
    u := u0,
    size_ciphertext := 0,
    args := { pathname := [], block := 0, cr_type := '\x00', data := [] },
    read_data := Block.data [] }

/-- The password table with the single user `u`, password `p`. -/
def UP0 : List Char → Option (List Char) := fun name => if name = ['u'] then some ['p'] else none

/-- The server at start-up on the disk `sFile`. -/
def sv0 : Server Block := { sess := sessions0 UP0, fs := sFile }

/-- A server whose session counter has reached the largest `unsigned int`, the flag
`session_max` not being set yet. -/
def svLast : Server Block :=
  { sess := { sessions0 UP0 with session_id := UINT_MOD - 1 }, fs := sFile }

/-- The request `FS_SESSION 0 1` of user `u`: header and cleartext. -/
def reqSession : List Char × List Char := ("u 15\x00".toList, "FS_SESSION 0 1\x00".toList)

/-- The request `FS_READBLOCK 0 2 /f 0` of user `u`: header and cleartext. -/
def reqRead : List Char × List Char := ("u 22\x00".toList, "FS_READBLOCK 0 2 /f 0\x00".toList)

/-- A registry in which user `u` holds session 0, whose last sequence number is 1. -/
def stOne : Sessions :=
  { session_id := 1, session_max := false,
    SS_map := fun x => if x = 0 then some 1 else none,
    US_map := fun name => if name = ['u'] then some [0] else none,
    UP_map := UP0 }

/-- The server with the registry `stOne` on the disk `sFile`. -/
def svOne : Server Block := { sess := stOne, fs := sFile }

/-- A server whose flag `session_max` is set. -/
def svMax : Server Block :=
  { sess := { sessions0 UP0 with session_max := true }, fs := sFile }

/-- A disk whose root directory has three directory blocks: block 1 with the single
entry `a` (file inode 4), block 2 with the single entry `e` (the empty directory of
inode 5) and block 3 with the single entry `c` (file inode 6); block 7 is free. -/
def sReuse : State Block :=
  { disk := mkdisk
      [ Block.inode { type := 'd', owner := [], size := 3, blocks := arr [1, 2, 3] },
        dirblock [(['a'], 4)],
        dirblock [(['e'], 5)],
        dirblock [(['c'], 6)],
        Block.inode { type := 'f', owner := ['u'], size := 0, blocks := arr [] },
        Block.inode { type := 'd', owner := ['u'], size := 0, blocks := arr [] },
        Block.inode { type := 'f', owner := ['u'], size := 0, blocks := arr [] } ],
    free_blocks := [7],
    num_block_remain := 1,
    fs_locks := mklocks [0, 4, 5, 6],
    log := [] }

/-- The roles of the blocks of `sReuse`. -/
def kindReuse : Nat → Kind
  | 0 => Kind.inode
  | 1 => Kind.dir
  | 2 => Kind.dir
  | 3 => Kind.dir
  | 4 => Kind.inode
  | 5 => Kind.inode
  | 6 => Kind.inode
  | _ => Kind.free

section Frame
variable {β : Type}

theorem Frame.refl (s : State β) : Frame s s := ⟨rfl, rfl, rfl, fun _ => rfl⟩

theorem Frame.trans {s s1 s2 : State β} (h1 : Frame s s1) (h2 : Frame s1 s2) : Frame s s2 :=
  ⟨h2.1.trans h1.1, h2.2.1.trans h1.2.1, h2.2.2.1.trans h1.2.2.1,
    fun n => (h2.2.2.2 n).trans (h1.2.2.2 n)⟩

theorem update_isSome_of_isSome (f : Nat → Option (Nat × Nat)) (x : Nat) (v : Nat × Nat)
    (hx : (f x).isSome = true) (n : Nat) :
    (Function.update f x (some v) n).isSome = (f n).isSome := by
  by_cases hn : n = x
  · subst hn; simp [hx]
  · simp [Function.update_noteq hn]

theorem r_lock_frame {s s1 : State β} {x : Nat} (h : r_lock s x = some s1) : Frame s s1 := by
  unfold r_lock at h
  split at h
  · exact absurd h (by simp)
  · rename_i r w hx
    split at h
    · exact absurd h (by simp)
    · cases h
      exact ⟨rfl, rfl, rfl, update_isSome_of_isSome _ _ _ (by simp [hx])⟩

theorem w_lock_frame {s s1 : State β} {x : Nat} (h : w_lock s x = some s1) : Frame s s1 := by
  unfold w_lock at h
  split at h
  · exact absurd h (by simp)
  · rename_i r w hx
    split at h
    · exact absurd h (by simp)
    · cases h
      exact ⟨rfl, rfl, rfl, update_isSome_of_isSome _ _ _ (by simp [hx])⟩

theorem r_unlock_frame {s s1 : State β} {x : Nat} (h : r_unlock s x = some s1) :
    Frame s s1 := by
  unfold r_unlock at h
  split at h
  · exact absurd h (by simp)
  · rename_i r w hx
    cases h
    exact ⟨rfl, rfl, rfl, update_isSome_of_isSome _ _ _ (by simp [hx])⟩

theorem w_unlock_frame {s s1 : State β} {x : Nat} (h : w_unlock s x = some s1) :
    Frame s s1 := by
  unfold w_unlock at h
  split at h
  · exact absurd h (by simp)
  · rename_i r w hx
    cases h
    exact ⟨rfl, rfl, rfl, update_isSome_of_isSome _ _ _ (by simp [hx])⟩

/-- A `return false` that only releases a lock. -/
theorem unlock_false_frame {s : State β} {o : Option (State β)} {rd rb : β} {ok : Bool}
    {s' : State β} (ho : ∀ s1, o = some s1 → Frame s s1)
    (h : o.map (fun s1 => (false, s1, rd)) = some (ok, s', rb)) :
    ok = false ∧ Frame s s' ∧ rb = rd := by
  cases o with
  | none => exact absurd h (by simp)
  | some s1 =>
    simp only [Option.map_some', Option.some.injEq, Prod.mk.injEq] at h
    obtain ⟨h1, h2, h3⟩ := h
    subst h2
    exact ⟨h1.symm, ho _ rfl, h3.symm⟩

/-- The walk changes neither the disk nor the free list nor the set of lock keys. -/
theorem walk_frame (P : Params) (L : Layout β) (username : List Char) (rtype : request_type) :
    ∀ (ts : List (List Char)) (s : State β) (ib : Nat) (r : State β × Option Nat),
      walk P L username rtype s ib ts = some r → Frame s r.1 := by
  intro ts
  induction ts with
  | nil =>
    intro s ib r h
    simp only [walk, Option.some.injEq] at h
    subst h
    exact Frame.refl s
  | cons tok rest ih =>
    intro s ib r h
    have hfail : ∀ r, (r_unlock s ib).map (fun s1 => (s1, (none : Option Nat))) = some r →
        Frame s r.1 := by
      intro r hr
      cases hu : r_unlock s ib with
      | none => rw [hu] at hr; exact absurd hr (by simp)
      | some s1 =>
        rw [hu] at hr
        simp only [Option.map_some', Option.some.injEq] at hr
        subst hr
        exact r_unlock_frame hu
    rw [walk] at h
    split at h
    · exact hfail r h
    · split at h
      · exact hfail r h
      · split at h
        · exact absurd h (by simp)
        · exact hfail r h
        · rename_i child _
          simp only [Option.bind_eq_some] at h
          obtain ⟨s1, h1, s2, h2, h3⟩ := h
          have f1 : Frame s s1 := by
            split at h1
            · exact w_lock_frame h1
            · exact r_lock_frame h1
          exact (f1.trans (r_unlock_frame h2)).trans (ih s2 child r h3)

theorem map_true_ne_false {o : Option (State β)} {rd rb : β} {s' : State β}
    (h : o.map (fun s1 => (true, s1, rd)) = some (false, s', rb)) : False := by
  cases o with
  | none => exact absurd h (by simp)
  | some s1 => simp at h

theorem op_READ_false (P : Params) {s s' : State β} {ib : Nat} {inode : fs_inode}
    {offset : Nat} {rd rb : β}
    (h : op_READ P s ib inode offset rd = some (false, s', rb)) : Frame s s' := by
  unfold op_READ at h
  split at h
  · exact (unlock_false_frame (fun _ => r_unlock_frame) h).2.1
  · split at h
    · cases hu : r_unlock s ib with
      | none => rw [hu] at h; exact absurd h (by simp)
      | some s1 => rw [hu] at h; simp at h
    · exact absurd h (by simp)

theorem op_WRITE_false (P : Params) (L : Layout β) {s s' : State β} {ib : Nat}
    {inode : fs_inode} {offset : Nat} {wd rd rb : β}
    (h : op_WRITE P L s ib inode offset wd rd = some (false, s', rb)) : Frame s s' := by
  unfold op_WRITE at h
  split at h
  · exact (unlock_false_frame (fun _ => w_unlock_frame) h).2.1
  · split at h
    · split at h
      · exact (unlock_false_frame (fun _ => w_unlock_frame) h).2.1
      · split at h
        · exact absurd h (by simp)
        · exact (map_true_ne_false h).elim
    · exact (map_true_ne_false h).elim

theorem create_write_true (P : Params) (L : Layout β) (u : Uninit) {s1 s' : State β}
    {ib : Nat} {inode : fs_inode} {name username : List Char} {c : Char} {rd rb : β}
    {sl : Slot} {ok : Bool}
    (h : create_write P L u s1 ib inode name username c rd sl = some (ok, s', rb)) :
    ok = true := by
  unfold create_write at h
  cases hf : s1.free_blocks with
  | nil => rw [hf] at h; exact absurd h (by simp)
  | cons inode_idx rest =>
    rw [hf] at h
    dsimp only at h
    by_cases hu : username.length > P.FS_MAXUSERNAME
    · rw [if_pos hu] at h; exact absurd h (by simp)
    · rw [if_neg hu] at h
      by_cases hd : sl.diret_found = true
      · rw [if_pos hd] at h
        simp only [Option.map_eq_some', Prod.mk.injEq] at h
        obtain ⟨_, _, h, _⟩ := h
        exact h.symm
      · rw [if_neg hd] at h
        cases rest with
        | nil => exact absurd h (by simp)
        | cons block rest1 =>
          dsimp only at h
          by_cases hs : inode.size < P.FS_MAXFILEBLOCKS
          · rw [if_pos hs] at h
            simp only [Option.map_eq_some', Prod.mk.injEq] at h
            obtain ⟨_, _, h, _⟩ := h
            exact h.symm
          · rw [if_neg hs] at h; exact absurd h (by simp)

theorem create_commit_false (P : Params) (L : Layout β) (u : Uninit) {s s' : State β}
    {ib : Nat} {inode : fs_inode} {name username : List Char} {c : Char} {rd rb : β}
    {sl : Slot}
    (h : create_commit P L u s ib inode name username c rd sl = some (false, s', rb)) :
    Frame s s' := by
  unfold create_commit at h
  split at h
  · exact (unlock_false_frame (fun _ => w_unlock_frame) h).2.1
  · split at h
    · exact (unlock_false_frame (fun _ => w_unlock_frame) h).2.1
    · exact absurd (create_write_true P L u h) (by simp)

theorem op_CREATE_false (P : Params) (L : Layout β) (u : Uninit) {s s' : State β} {ib : Nat}
    {inode : fs_inode} {name username : List Char} {c : Char} {rd rb : β}
    (h : op_CREATE P L u s ib inode name username c rd = some (false, s', rb)) :
    Frame s s' := by
  unfold op_CREATE at h
  split at h
  · exact (unlock_false_frame (fun _ => w_unlock_frame) h).2.1
  · split at h
    · exact (unlock_false_frame (fun _ => w_unlock_frame) h).2.1
    · split at h
      · exact absurd h (by simp)
      · exact (unlock_false_frame (fun _ => w_unlock_frame) h).2.1
      · exact create_commit_false P L u h

theorem delete_commit_false (P : Params) (L : Layout β) {s s' : State β} {ib : Nat}
    {inode : fs_inode} {username : List Char} {rd rb : β} {sl : Slot}
    (h : delete_commit P L s ib inode username rd sl = some (false, s', rb)) :
    Frame s s' := by
  unfold delete_commit at h
  simp only [Option.bind_eq_some] at h
  obtain ⟨s1, h1, h⟩ := h
  split at h
  · simp only [Option.bind_eq_some] at h
    obtain ⟨s2, h2, h⟩ := h
    exact ((w_lock_frame h1).trans (w_unlock_frame h2)).trans
      (unlock_false_frame (fun _ => w_unlock_frame) h).2.1
  · simp only [Option.bind_eq_some] at h
    obtain ⟨s3, _, s4, _, s6, _, h⟩ := h
    exact (map_true_ne_false h).elim

theorem op_DELETE_false (P : Params) (L : Layout β) {s s' : State β} {ib : Nat}
    {inode : fs_inode} {name username : List Char} {rd rb : β}
    (h : op_DELETE P L s ib inode name username rd = some (false, s', rb)) :
    Frame s s' := by
  unfold op_DELETE at h
  split at h
  · exact (unlock_false_frame (fun _ => w_unlock_frame) h).2.1
  · split at h
    · exact absurd h (by simp)
    · exact (unlock_false_frame (fun _ => w_unlock_frame) h).2.1
    · exact delete_commit_false P L h

theorem lock_root_frame {s s0 : State β} {d : Nat} {rtype : request_type}
    (h : lock_root s d rtype = some s0) : Frame s s0 := by
  unfold lock_root at h
  split at h
  · exact w_lock_frame h
  · exact r_lock_frame h

theorem unlock_target_frame {s s1 : State β} {ib : Nat} {rtype : request_type}
    (h : unlock_target s ib rtype = some s1) : Frame s s1 := by
  unfold unlock_target at h
  split at h
  · exact w_unlock_frame h
  · exact r_unlock_frame h

theorem on_target_false (P : Params) (L : Layout β) (u : Uninit) {s1 s' : State β}
    {ib : Nat} {name username : List Char} {offset : Nat} {c : Char} {wd rd rb : β}
    {rtype : request_type}
    (h : on_target P L u s1 ib name username offset c wd rd rtype = some (false, s', rb)) :
    Frame s1 s' := by
  unfold on_target at h
  dsimp only at h
  split at h
  · exact (unlock_false_frame (fun _ => unlock_target_frame) h).2.1
  · cases rtype with
    | READ => exact op_READ_false P h
    | WRITE => exact op_WRITE_false P L h
    | CREATE => exact op_CREATE_false P L u h
    | DELETE => exact op_DELETE_false P L h
    | SESSION => simp [dispatch] at h
    | INVALID => simp [dispatch] at h

/-- Whenever `conduct_operation` returns false, the disk, the free list, the free
count and the set of lock keys are those it started with. -/
theorem conduct_operation_false_frame (P : Params) (L : Layout β) (u : Uninit)
    {s s' : State β} {path username : List Char} {offset : Nat} {c : Char}
    {wd rd rb : β} {rtype : request_type}
    (h : conduct_operation P L u s path username offset c wd rd rtype = some (false, s', rb)) :
    Frame s s' := by
  unfold conduct_operation at h
  split at h
  · simp at h
  · split at h
    · simp only [Option.some.injEq, Prod.mk.injEq, true_and] at h
      rw [← h.1]; exact Frame.refl s
    · rename_i paths _
      simp only [Option.bind_eq_some] at h
      obtain ⟨s0, h0, r, hw, h⟩ := h
      have f1 : Frame s r.1 :=
        (lock_root_frame h0).trans (walk_frame P L username rtype _ _ _ _ hw)
      split at h
      · simp only [Option.some.injEq, Prod.mk.injEq, true_and] at h
        rw [← h.1]; exact f1
      · exact f1.trans (on_target_false P L u h)

end Frame

/-! ## The walk, step by step -/

section Walk
variable {β : Type}

theorem uint_arith : (0 + 1) % UINT_MOD = 1 ∧ (1 + 1) % UINT_MOD = 2 ∧
    (1 + UINT_MOD - 1) % UINT_MOD = 0 ∧ (2 + UINT_MOD - 1) % UINT_MOD = 1 ∧
    (0 + 0) % UINT_MOD = 0 ∧ (1 + 0) % UINT_MOD = 1 := by
  unfold UINT_MOD; decide

theorem r_lock_eq {s : State β} {c r : Nat} (h : s.fs_locks c = some (r, 0)) :
    r_lock s c = some { s with fs_locks := Function.update s.fs_locks c (some ((r + 1) % UINT_MOD, 0)),
                               log := s.log ++ [LockEv.r_lock c] } := by
  simp [r_lock, h]

theorem r_unlock_eq {s : State β} {c r w : Nat} (h : s.fs_locks c = some (r, w)) :
    r_unlock s c = some { s with fs_locks := Function.update s.fs_locks c (some ((r + UINT_MOD - 1) % UINT_MOD, w)),
                                 log := s.log ++ [LockEv.r_unlock c] } := by
  simp [r_unlock, h]

/-- Taking a read lock on `c` and releasing the read lock on `ib`, from a table in
which only `ib` is held (read). -/
theorem hand_over_read {s : State β} {Q : Nat → Option (Nat × Nat)} {ib c : Nat}
    (hs : s.fs_locks = Function.update Q ib (some (1, 0)))
    (hib : Q ib = some (0, 0)) (hc : Q c = some (0, 0)) :
    ∃ s1 s2, r_lock s c = some s1 ∧ r_unlock s1 ib = some s2 ∧
      s2.fs_locks = Function.update Q c (some (1, 0)) ∧ s2.disk = s.disk := by
  obtain ⟨a1, a2, a3, a4, _, _⟩ := uint_arith
  by_cases hci : c = ib
  · subst hci
    have h1 : s.fs_locks c = some (1, 0) := by rw [hs]; simp
    refine ⟨_, _, r_lock_eq h1, r_unlock_eq (r := 2) (w := 0) ?_, ?_, rfl⟩
    · simp [a2]
    · simp only [Function.update_idem, hs, a4]
  · have h1 : s.fs_locks c = some (0, 0) := by rw [hs, Function.update_noteq hci]; exact hc
    refine ⟨_, _, r_lock_eq h1, r_unlock_eq (r := 1) (w := 0) ?_, ?_, rfl⟩
    · simp [Function.update_noteq (Ne.symm hci), hs]
    · simp only [hs, a1, a3]
      funext n
      simp only [Function.update_apply]
      split_ifs with h2 h3 h3
      · exact absurd (h2.symm.trans h3) (Ne.symm hci)
      · rw [h2, hib]
      · rfl
      · rfl

/-- Inversion of one successful step of the walk. -/
theorem walk_cons_some (P : Params) (L : Layout β) (username : List Char)
    (rtype : request_type) {s s1 : State β} {ib t : Nat} {tok : List Char}
    {rest : List (List Char)}
    (h : walk P L username rtype s ib (tok :: rest) = some (s1, some t)) :
    (L.toInode (s.disk ib)).type = 'd' ∧
    owner_denied (L.toInode (s.disk ib)).owner username = false ∧
    ∃ c sa sb,
      walk_scan P L s.disk (L.toInode (s.disk ib)) tok
        (List.range (L.toInode (s.disk ib)).size) = some (some c) ∧
      (if rest = [] ∧ rtype ≠ request_type.READ then w_lock s c else r_lock s c) = some sa ∧
      r_unlock sa ib = some sb ∧
      walk P L username rtype sb c rest = some (s1, some t) := by
  rw [walk] at h
  have hno : ∀ o : Option (State β),
      o.map (fun s1 => (s1, (none : Option Nat))) ≠ some (s1, some t) := by
    intro o; cases o <;> simp
  by_cases h1 : (L.toInode (s.disk ib)).type ≠ 'd'
  · rw [if_pos h1] at h; exact absurd h (hno _)
  · rw [if_neg h1] at h
    by_cases h2 : owner_denied (L.toInode (s.disk ib)).owner username = true
    · rw [if_pos h2] at h; exact absurd h (hno _)
    · rw [if_neg h2] at h
      refine ⟨not_not.mp h1, by simpa using h2, ?_⟩
      cases hsc : walk_scan P L s.disk (L.toInode (s.disk ib)) tok
          (List.range (L.toInode (s.disk ib)).size) with
      | none => rw [hsc] at h; exact absurd h (by simp)
      | some r =>
        cases r with
        | none => rw [hsc] at h; exact absurd h (hno _)
        | some c =>
          rw [hsc] at h
          simp only [Option.bind_eq_some] at h
          obtain ⟨sa, ha, sb, hb, hw⟩ := h
          exact ⟨c, sa, sb, rfl, ha, hb, hw⟩

/-- One successful step of the walk, from its parts. -/
theorem walk_cons_of (P : Params) (L : Layout β) (username : List Char)
    (rtype : request_type) {s sa sb : State β} {ib c : Nat} {tok : List Char}
    {rest : List (List Char)} {r : State β × Option Nat}
    (h1 : (L.toInode (s.disk ib)).type = 'd')
    (h2 : owner_denied (L.toInode (s.disk ib)).owner username = false)
    (hsc : walk_scan P L s.disk (L.toInode (s.disk ib)) tok
        (List.range (L.toInode (s.disk ib)).size) = some (some c))
    (ha : (if rest = [] ∧ rtype ≠ request_type.READ then w_lock s c else r_lock s c) = some sa)
    (hb : r_unlock sa ib = some sb)
    (hw : walk P L username rtype sb c rest = some r) :
    walk P L username rtype s ib (tok :: rest) = some r := by
  rw [walk]
  rw [if_neg (by simp [h1]), if_neg (by simp [h2]), hsc]
  simp only [Option.bind_eq_some]
  exact ⟨sa, ha, sb, hb, hw⟩

theorem w_lock_eq {s : State β} {c : Nat} (h : s.fs_locks c = some (0, 0)) :
    w_lock s c = some { s with fs_locks := Function.update s.fs_locks c (some (0, 1)),
                               log := s.log ++ [LockEv.w_lock c] } := by
  obtain ⟨a1, _, _, _, a5, _⟩ := uint_arith
  simp [w_lock, h, a1, a5]

theorem w_unlock_eq {s : State β} {c r w : Nat} (h : s.fs_locks c = some (r, w)) :
    w_unlock s c = some { s with fs_locks := Function.update s.fs_locks c (some (r, (w + UINT_MOD - 1) % UINT_MOD)),
                                 log := s.log ++ [LockEv.w_unlock c] } := by
  simp [w_unlock, h]

/-- What a successful hand-over says about the table: the child had a free lock, and
afterwards only the child is held, in the mode asked for. -/
theorem hand_over_inv {s sa sb : State β} {Q : Nat → Option (Nat × Nat)} {ib c : Nat}
    {wr : Prop} [Decidable wr]
    (hQ : ∀ n v, Q n = some v → v = (0, 0))
    (hs : s.fs_locks = Function.update Q ib (some (1, 0)))
    (hib : Q ib = some (0, 0))
    (ha : (if wr then w_lock s c else r_lock s c) = some sa)
    (hb : r_unlock sa ib = some sb) :
    Q c = some (0, 0) ∧
      sb.fs_locks = Function.update Q c (some (if wr then (0, 1) else (1, 0))) := by
  obtain ⟨a1, a2, a3, a4, a5, a6⟩ := uint_arith
  by_cases hw : wr
  · rw [if_pos hw] at ha
    rw [if_pos hw]
    by_cases hci : c = ib
    · subst hci
      have h1 : s.fs_locks c = some (1, 0) := by rw [hs]; simp
      simp [w_lock, h1, a6] at ha
    · have h0 : s.fs_locks c = Q c := by rw [hs, Function.update_noteq hci]
      cases hqc : Q c with
      | none => simp [w_lock, h0, hqc] at ha
      | some v =>
        have hv := hQ c v hqc
        subst hv
        refine ⟨rfl, ?_⟩
        rw [w_lock_eq (h0.trans hqc)] at ha
        cases ha
        rw [r_unlock_eq (r := 1) (w := 0)
          (by simp [Function.update_noteq (Ne.symm hci), hs])] at hb
        cases hb
        simp only [hs, a3]
        funext n
        simp only [Function.update_apply]
        split_ifs with h2 h3 h3
        · exact absurd (h2.symm.trans h3) (Ne.symm hci)
        · rw [h2, hib]
        · rfl
        · rfl
  · rw [if_neg hw] at ha
    rw [if_neg hw]
    by_cases hci : c = ib
    · subst hci
      have h1 : s.fs_locks c = some (1, 0) := by rw [hs]; simp
      refine ⟨hib, ?_⟩
      rw [r_lock_eq h1] at ha
      cases ha
      rw [r_unlock_eq (r := 2) (w := 0) (by simp [a2])] at hb
      cases hb
      simp only [Function.update_idem, hs, a4]
    · have h0 : s.fs_locks c = Q c := by rw [hs, Function.update_noteq hci]
      cases hqc : Q c with
      | none => simp [r_lock, h0, hqc] at ha
      | some v =>
        have hv := hQ c v hqc
        subst hv
        refine ⟨rfl, ?_⟩
        rw [r_lock_eq (h0.trans hqc)] at ha
        cases ha
        rw [r_unlock_eq (r := 1) (w := 0)
          (by simp [Function.update_noteq (Ne.symm hci), hs, a1])] at hb
        cases hb
        simp only [hs, a1, a3]
        funext n
        simp only [Function.update_apply]
        split_ifs with h2 h3 h3
        · exact absurd (h2.symm.trans h3) (Ne.symm hci)
        · rw [h2, hib]
        · rfl
        · rfl

theorem find_entry_lt {P : Params} {d : Nat → fs_direntry} {tok : List Char} {k : Nat}
    (h : find_entry P d tok = some k) : k < P.FS_DIRENTRIES ∧ (d k).name = tok := by
  unfold find_entry at h
  have h1 := List.find?_some h
  have h2 := List.mem_of_find?_eq_some h
  exact ⟨List.mem_range.mp h2, by simpa using h1⟩

/-- The child found by the scan of a well-formed directory is an inode. -/
theorem walk_scan_kind (P : Params) (L : Layout β) {kind : Nat → Kind} {disk : Nat → β}
    (hT : DiskTyped P L kind disk) {n : Nat} (hn : kind n = Kind.inode)
    (hd : (L.toInode (disk n)).type = 'd') (tok : List Char) {c : Nat} :
    ∀ js : List Nat, (∀ j ∈ js, j < (L.toInode (disk n)).size) →
      walk_scan P L disk (L.toInode (disk n)) tok js = some (some c) → kind c = Kind.inode := by
  intro js
  induction js with
  | nil => intro _ h; simp [walk_scan] at h
  | cons j js ih =>
    intro hjs h
    rw [walk_scan] at h
    by_cases hj : j < P.FS_MAXFILEBLOCKS
    · rw [if_pos hj] at h
      dsimp only at h
      cases hf : find_entry P (L.toDirs (disk ((L.toInode (disk n)).blocks j))) tok with
      | none =>
        rw [hf] at h
        exact ih (fun j' hj' => hjs j' (List.mem_cons_of_mem _ hj')) h
      | some k =>
        rw [hf] at h
        simp only [Option.some.injEq] at h
        have hk := (find_entry_lt hf).1
        have hb := hT.dir_blocks n hn hd j (hjs j (List.mem_cons_self _ _))
        by_cases hz : (L.toDirs (disk ((L.toInode (disk n)).blocks j)) k).inode_block = 0
        · rw [← h, hz]; exact hT.root_inode
        · rw [← h]; exact hT.entries _ hb k hk hz
    · rw [if_neg hj] at h; exact absurd h (by simp)

/-- The scan only looks at the directory blocks of the inode. -/
theorem walk_scan_congr (P : Params) (L : Layout β) (disk disk' : Nat → β) (inode : fs_inode)
    (tok : List Char) :
    ∀ js : List Nat, (∀ j ∈ js, disk' (inode.blocks j) = disk (inode.blocks j)) →
      walk_scan P L disk' inode tok js = walk_scan P L disk inode tok js := by
  intro js
  induction js with
  | nil => intro _; rfl
  | cons j js ih =>
    intro h
    rw [walk_scan, walk_scan, h j (List.mem_cons_self _ _),
      ih (fun j' hj' => h j' (List.mem_cons_of_mem _ hj'))]

/-- The walk of a READ follows the walk of any request on the same path, on a disk that
agrees with the original one on directory inodes and directory blocks. -/
theorem walk_sim (P : Params) (L : Layout β) (username : List Char) (rtype : request_type)
    {kind : Nat → Kind} (Q : Nat → Option (Nat × Nat)) (disk disk' : Nat → β)
    (hQ : ∀ n v, Q n = some v → v = (0, 0))
    (hT : DiskTyped P L kind disk)
    (hagree : ∀ b, kind b = Kind.dir ∨
      (kind b = Kind.inode ∧ (L.toInode (disk b)).type = 'd') → disk' b = disk b) :
    ∀ (ts : List (List Char)) (s s' : State β) (ib : Nat) (s1 : State β) (t : Nat),
      s.disk = disk → s'.disk = disk' →
      s.fs_locks = Function.update Q ib (some (1, 0)) →
      s'.fs_locks = Function.update Q ib (some (1, 0)) →
      Q ib = some (0, 0) → kind ib = Kind.inode →
      walk P L username rtype s ib ts = some (s1, some t) →
      kind t = Kind.inode ∧ Q t = some (0, 0) ∧
      s1.fs_locks = Function.update Q t
        (some (if ts = [] ∨ rtype = request_type.READ then (1, 0) else (0, 1))) ∧
      ∃ s1', walk P L username request_type.READ s' ib ts = some (s1', some t) ∧
        s1'.disk = disk' ∧ s1'.fs_locks = Function.update Q t (some (1, 0)) := by
  intro ts
  induction ts with
  | nil =>
    intro s s' ib s1 t hd hd' hl hl' hib hk h
    simp only [walk, Option.some.injEq, Prod.mk.injEq] at h
    obtain ⟨h1, h2⟩ := h
    subst h1; subst h2
    exact ⟨hk, hib, by simpa using hl, s', by simp [walk], hd', hl'⟩
  | cons tok rest ih =>
    intro s s' ib s1 t hd hd' hl hl' hib hk h
    obtain ⟨hty, hown, c, sa, sb, hsc, ha, hb, hw⟩ := walk_cons_some P L username rtype h
    rw [hd] at hty hown hsc
    have hkc : kind c = Kind.inode :=
      walk_scan_kind P L hT hk hty tok _ (fun j hj => List.mem_range.mp hj) hsc
    obtain ⟨hqc, hlb⟩ := hand_over_inv hQ hl hib ha hb
    have hdb : sb.disk = disk := by
      have f1 : Frame s sa := by
        split at ha
        · exact w_lock_frame ha
        · exact r_lock_frame ha
      rw [(f1.trans (r_unlock_frame hb)).1, hd]
    -- the READ side
    have hib' : disk' ib = disk ib := hagree ib (Or.inr ⟨hk, hty⟩)
    obtain ⟨sa', sb', ha', hb', hlb', hdb'⟩ := hand_over_read hl' hib hqc
    have hsc' : walk_scan P L s'.disk (L.toInode (s'.disk ib)) tok
        (List.range (L.toInode (s'.disk ib)).size) = some (some c) := by
      rw [hd', hib', ← hsc]
      apply walk_scan_congr
      intro j hj
      exact hagree _ (Or.inl (hT.dir_blocks ib hk hty j (List.mem_range.mp hj)))
    have hstep : ∀ r, walk P L username request_type.READ sb' c rest = some r →
        walk P L username request_type.READ s' ib (tok :: rest) = some r := by
      intro r hr
      refine walk_cons_of P L username request_type.READ ?_ ?_ hsc' ?_ hb' hr
      · rw [hd', hib']; exact hty
      · rw [hd', hib']; exact hown
      · rw [if_neg (by simp)]; exact ha'
    by_cases hmode : rest = [] ∧ rtype ≠ request_type.READ
    · obtain ⟨hr, hnr⟩ := hmode
      subst hr
      simp only [walk, Option.some.injEq, Prod.mk.injEq] at hw
      obtain ⟨h1, h2⟩ := hw
      subst h1; subst h2
      refine ⟨hkc, hqc, ?_, sb', hstep _ (by simp [walk]), by rw [hdb', hd'], hlb'⟩
      rw [hlb]
      simp [hnr]
    · rw [if_neg hmode] at hlb
      obtain ⟨h1, h2, h3, s1', h4, h5, h6⟩ :=
        ih sb sb' c s1 t hdb (by rw [hdb', hd']) hlb hlb' hqc hkc hw
      refine ⟨h1, h2, ?_, s1', hstep _ h4, h5, h6⟩
      rw [h3]
      by_cases hr : rtype = request_type.READ
      · simp [hr]
      · have : rest ≠ [] := fun h0 => hmode ⟨h0, hr⟩
        simp [hr, this]

/-- The fuel given to `tokenize` by `parse_path` is never used up: any fuel at least
the length of the bytes left gives the same tokens. -/
theorem tokenize_fuel (P : Params) :
    ∀ (fuel : Nat) (rest : List Char), rest.length ≤ fuel →
      tokenize P (fuel + 1) rest = tokenize P fuel rest := by
  intro fuel
  induction fuel with
  | zero =>
    intro rest h
    cases rest with
    | nil => simp [tokenize]
    | cons c r => simp at h
  | succ fuel ih =>
    intro rest h
    cases rest with
    | nil => simp [tokenize]
    | cons c r =>
      have hlen : (r.dropWhile tokenChar).length ≤ fuel := by
        have h1 := (List.dropWhile_suffix tokenChar (l := r)).length_le
        simp only [List.length_cons] at h
        omega
      rw [tokenize, tokenize, ih _ hlen]

theorem tokenize_ne_nil (P : Params) {fuel : Nat} {c : Char} {rest : List Char}
    {paths : List (List Char)} (h : tokenize P (fuel + 1) (c :: rest) = some paths) :
    paths ≠ [] := by
  rw [tokenize] at h
  split at h
  · exact absurd h (by simp)
  · split at h
    · exact absurd h (by simp)
    · simp only [Option.map_eq_some'] at h
      obtain ⟨ts, _, h⟩ := h
      rw [← h]; simp

/-- A path accepted by the tokeniser has at least one token. -/
theorem parse_path_ne_nil (P : Params) {path : List Char} {paths : List (List Char)}
    (h : parse_path P path = some paths) : paths ≠ [] := by
  unfold parse_path at h
  split at h
  · exact absurd h (by simp)
  · split at h
    · exact absurd h (by simp)
    · split at h
      · exact absurd h (by simp)
      · cases path with
        | nil => contradiction
        | cons c rest => exact tokenize_ne_nil P h

/-- What a successful WRITE did. -/
theorem op_WRITE_true (P : Params) (L : Layout β) {s1 s' : State β} {t : Nat}
    {inode : fs_inode} {offset : Nat} {wd rd rb : β}
    (h : op_WRITE P L s1 t inode offset wd rd = some (true, s', rb)) :
    inode.type = 'f' ∧ offset ≤ inode.size ∧ offset < P.FS_MAXFILEBLOCKS ∧
    ∃ sw, w_unlock sw t = some s' ∧ sw.fs_locks = s1.fs_locks ∧
      ((offset = inode.size ∧ ∃ blk rest, s1.free_blocks = blk :: rest ∧
          sw.free_blocks = rest ∧ sw.num_block_remain = s1.num_block_remain - 1 ∧
          1 ≤ s1.num_block_remain ∧
          sw.disk = Function.update (Function.update s1.disk blk wd) t
            (L.ofInode { inode with size := inode.size + 1,
                                    blocks := Function.update inode.blocks offset blk })) ∨
       (offset < inode.size ∧ sw.free_blocks = s1.free_blocks ∧
          sw.num_block_remain = s1.num_block_remain ∧
          sw.disk = Function.update s1.disk (inode.blocks offset) wd)) := by
  unfold op_WRITE at h
  have hno : ∀ o : Option (State β),
      o.map (fun s1 => (false, s1, rd)) ≠ some (true, s', rb) := by
    intro o; cases o <;> simp
  by_cases hc : inode.type ≠ 'f' ∨ offset > inode.size ∨ offset ≥ P.FS_MAXFILEBLOCKS
  · rw [if_pos hc] at h; exact absurd h (hno _)
  · rw [if_neg hc] at h
    simp only [not_or, not_not, not_lt, ge_iff_le, gt_iff_lt, not_le] at hc
    obtain ⟨c1, c2, c3⟩ := hc
    refine ⟨c1, c2, c3, ?_⟩
    by_cases he : offset = inode.size
    · rw [if_pos he] at h
      by_cases hn : s1.num_block_remain < 1
      · rw [if_pos hn] at h; exact absurd h (hno _)
      · rw [if_neg hn] at h
        cases hf : s1.free_blocks with
        | nil => rw [hf] at h; exact absurd h (by simp)
        | cons blk rest =>
          rw [hf] at h
          dsimp only at h
          simp only [Option.map_eq_some', Prod.mk.injEq, true_and] at h
          obtain ⟨s4, h4, h5, _⟩ := h
          subst h5
          exact ⟨_, h4, rfl, Or.inl ⟨he, blk, rest, rfl, rfl, rfl, by omega, rfl⟩⟩
    · rw [if_neg he] at h
      dsimp only at h
      simp only [Option.map_eq_some', Prod.mk.injEq, true_and] at h
      obtain ⟨s4, h4, h5, _⟩ := h
      subst h5
      exact ⟨_, h4, rfl, Or.inr ⟨by omega, rfl, rfl, rfl⟩⟩

/-- C1. Write/read round trip.  From a state satisfying the disk invariants, if
`conduct_operation` WRITE of the block `D` at offset `k` of `path` returns true, then
`conduct_operation` READ of the same path and offset by the same user, run on the state
the WRITE left, returns true and its read buffer is `D`; this covers the WRITE that
overwrites an existing block and the one that appends a freshly allocated block. -/
theorem write_read_round_trip (P : Params) (L : Layout β) (u u' : Uninit)
    (kind : Nat → Kind) (s s' : State β) (path username : List Char) (k : Nat)
    (c c' : Char) (D rd rb wd' rd' : β)
    (hinv : DiskInv P L kind s)
    (hw : conduct_operation P L u s path username k c D rd request_type.WRITE
      = some (true, s', rb)) :
    ∃ s'', conduct_operation P L u' s' path username k c' wd' rd' request_type.READ
      = some (true, s'', D) := by
  obtain ⟨a1, a2, a3, a4, a5, a6⟩ := uint_arith
  unfold conduct_operation at hw
  rw [if_neg (by decide)] at hw
  cases hp : parse_path P path with
  | none => rw [hp] at hw; simp at hw
  | some paths =>
    rw [hp] at hw
    have hne := parse_path_ne_nil P hp
    have hdepth : path_depth request_type.WRITE paths = paths.length := by simp [path_depth]
    have hdepth' : path_depth request_type.READ paths = paths.length := by simp [path_depth]
    simp only [hdepth, List.take_length, Option.bind_eq_some] at hw
    obtain ⟨s0, h0, r, hwalk, hw⟩ := hw
    obtain ⟨s1, ot⟩ := r
    cases ot with
    | none => simp at hw
    | some t =>
      dsimp only at hw hwalk
      -- the root lock
      have hroot : lock_root s paths.length request_type.WRITE = r_lock s 0 := by
        simp [lock_root]
      rw [hroot] at h0
      have hq0 : s.fs_locks 0 = some (0, 0) := by
        cases hl : s.fs_locks 0 with
        | none => simp [r_lock, hl] at h0
        | some v => rw [hinv.locks_free 0 v hl]
      rw [r_lock_eq hq0, a1] at h0
      cases h0
      -- the walk of the WRITE
      obtain ⟨hkt, hqt, hl1, _⟩ :=
        walk_sim P L username request_type.WRITE s.fs_locks s.disk s.disk
          hinv.locks_free hinv.typed
          (fun _ _ => rfl) paths
          { s with fs_locks := Function.update s.fs_locks 0 (some (1, 0)),
                     log := s.log ++ [LockEv.r_lock 0] }
          { s with fs_locks := Function.update s.fs_locks 0 (some (1, 0)),
                     log := s.log ++ [LockEv.r_lock 0] }
          0 s1 t rfl rfl rfl rfl hq0 hinv.typed.root_inode hwalk
      have hd1 : s1.disk = s.disk := (walk_frame P L username _ _ _ _ _ hwalk).1
      have hf1 : s1.free_blocks = s.free_blocks := (walk_frame P L username _ _ _ _ _ hwalk).2.1
      rw [if_neg (by simp [hne])] at hl1
      -- the WRITE itself
      unfold on_target at hw
      dsimp only at hw
      by_cases hown : owner_denied (L.toInode (s1.disk t)).owner username = true
      · rw [if_pos hown] at hw
        cases hu : unlock_target s1 t request_type.WRITE <;> simp [hu] at hw
      · rw [if_neg hown] at hw
        simp only [dispatch] at hw
        obtain ⟨hty, hle, hlt, sw, hunl, hlw, hcase⟩ := op_WRITE_true P L hw
        have hswt : sw.fs_locks t = some (0, 1) := by rw [hlw, hl1]; simp
        rw [w_unlock_eq hswt, a3] at hunl
        simp only [Option.some.injEq] at hunl
        have hl' : s'.fs_locks = s.fs_locks := by
          rw [← hunl]
          simp only [hlw, hl1, Function.update_idem]
          funext n
          by_cases hn : n = t
          · rw [hn, Function.update_same, hqt]
          · rw [Function.update_noteq hn]
        have hd' : s'.disk = sw.disk := by rw [← hunl]
        rw [hd1] at hty hle hown hcase
        -- the disk after the WRITE agrees with the old one on directories
        have hagree : ∀ b, kind b = Kind.dir ∨
            (kind b = Kind.inode ∧ (L.toInode (s.disk b)).type = 'd') → s'.disk b = s.disk b := by
          intro b hb
          have hbt : b ≠ t := by
            rintro rfl
            rcases hb with hb | ⟨_, hb⟩
            · rw [hkt] at hb; cases hb
            · rw [hty] at hb; exact absurd hb (by decide)
          rcases hcase with ⟨_, blk, rest, hfree, _, _, _, hdisk⟩ | ⟨hlt2, _, _, hdisk⟩
          · have hkb : kind blk = Kind.free :=
              hinv.free_kind blk (by rw [← hf1, hfree]; exact List.mem_cons_self _ _)
            have hbb : b ≠ blk := by
              rintro rfl
              rcases hb with hb | ⟨hb, _⟩ <;> rw [hkb] at hb <;> cases hb
            rw [hd', hdisk, Function.update_noteq hbt, Function.update_noteq hbb]
          · have hkb : kind ((L.toInode (s.disk t)).blocks k) = Kind.data :=
              hinv.typed.file_blocks t hkt hty k hlt2
            have hbb : b ≠ (L.toInode (s.disk t)).blocks k := by
              rintro rfl
              rcases hb with hb | ⟨hb, _⟩ <;> rw [hkb] at hb <;> cases hb
            rw [hd', hdisk, Function.update_noteq hbb]
        -- the READ
        unfold conduct_operation
        rw [if_neg (by decide), hp]
        simp only [hdepth', List.take_length]
        have hroot' : lock_root s' paths.length request_type.READ = r_lock s' 0 := by
          simp [lock_root]
        have hq0' : s'.fs_locks 0 = some (0, 0) := by rw [hl']; exact hq0
        rw [hroot', r_lock_eq hq0', a1]
        simp only [Option.some_bind]
        obtain ⟨_, _, _, s1', hwalk', hd1', hl1'⟩ :=
          walk_sim P L username request_type.WRITE s.fs_locks s.disk s'.disk
            hinv.locks_free hinv.typed
            hagree paths
            { s with fs_locks := Function.update s.fs_locks 0 (some (1, 0)),
                     log := s.log ++ [LockEv.r_lock 0] }
            { s' with fs_locks := Function.update s'.fs_locks 0 (some (1, 0)),
                      log := s'.log ++ [LockEv.r_lock 0] }
            0 s1 t rfl rfl rfl (by rw [hl']) hq0 hinv.typed.root_inode hwalk
        rw [hwalk']
        simp only [Option.some_bind]
        unfold on_target
        dsimp only
        have hunl' : ∀ x : β, ∃ s'', (r_unlock s1' t).map (fun s2 => (true, s2, x))
            = some (true, s'', x) := by
          intro x
          rw [r_unlock_eq (r := 1) (w := 0) (by rw [hl1']; simp)]
          exact ⟨_, rfl⟩
        rcases hcase with ⟨heq, blk, rest, hfree, _, _, _, hdisk⟩ | ⟨hlt2, _, _, hdisk⟩
        · have hkb : kind blk = Kind.free :=
            hinv.free_kind blk (by rw [← hf1, hfree]; exact List.mem_cons_self _ _)
          have hbt : blk ≠ t := by
            rintro rfl; rw [hkt] at hkb; cases hkb
          have ht' : s'.disk t = L.ofInode
              { L.toInode (s.disk t) with
                size := (L.toInode (s.disk t)).size + 1,
                blocks := Function.update (L.toInode (s.disk t)).blocks k blk } := by
            rw [hd', hdisk, Function.update_same]
          have hb' : s'.disk blk = D := by
            rw [hd', hdisk, Function.update_noteq hbt, Function.update_same]
          rw [hd1', ht', L.toInode_ofInode]
          dsimp only
          rw [if_neg hown]
          simp only [dispatch, op_READ]
          rw [if_neg (by simp [hty]; omega), if_pos hlt]
          rw [hd1', Function.update_same, hb']
          exact hunl' D
        · have hkb : kind ((L.toInode (s.disk t)).blocks k) = Kind.data :=
            hinv.typed.file_blocks t hkt hty k hlt2
          have hbt : t ≠ (L.toInode (s.disk t)).blocks k := by
            intro h; rw [← h, hkt] at hkb; cases hkb
          have ht' : s'.disk t = s.disk t := by
            rw [hd', hdisk, Function.update_noteq hbt]
          have hb' : s'.disk ((L.toInode (s.disk t)).blocks k) = D := by
            rw [hd', hdisk, Function.update_same]
          rw [hd1', ht']
          rw [if_neg hown]
          simp only [dispatch, op_READ]
          rw [if_neg (by simp [hty]; omega), if_pos hlt]
          rw [hd1', hb']
          exact hunl' D

theorem kindFile_inode {n : Nat} (h : kindFile n = Kind.inode) : n = 0 ∨ n = 2 := by
  rcases n with _ | _ | _ | _ | n <;> simp_all [kindFile]

theorem kindFile_dir {n : Nat} (h : kindFile n = Kind.dir) : n = 1 := by
  rcases n with _ | _ | _ | _ | n <;> simp_all [kindFile]

theorem mklocks_free (l : List Nat) (n : Nat) (v : Nat × Nat) (h : mklocks l n = some v) :
    v = (0, 0) := by
  unfold mklocks at h
  split at h
  · exact (Option.some.inj h).symm
  · exact absurd h (by simp)

set_option synthInstance.maxSize 2000 in
theorem sFile_inv : DiskInv P0 Block.layout kindFile sFile where
  typed :=
    { root_inode := rfl
      size_le := by
        intro n hn
        rcases kindFile_inode hn with rfl | rfl <;> decide
      dir_blocks := by
        intro n hn
        rcases kindFile_inode hn with rfl | rfl <;> decide
      dir_inj := by
        intro n1 n2 h1 h2
        rcases kindFile_inode h1 with rfl | rfl <;> rcases kindFile_inode h2 with rfl | rfl <;>
          decide
      file_blocks := by
        intro n hn
        rcases kindFile_inode hn with rfl | rfl <;> decide
      entries := by
        intro b hb
        rw [kindFile_dir hb]
        decide
      names := by
        intro n hn
        rcases kindFile_inode hn with rfl | rfl <;> unfold names_distinct <;> decide }
  free_kind := by decide
  free_nodup := by decide
  locks_free := mklocks_free _

theorem write_read_round_trip_witness :
    DiskInv P0 Block.layout kindFile sFile ∧
    ∃ s' rb, conduct_operation P0 Block.layout u0 sFile ['/', 'f'] ['u'] 1 'f'
        (Block.data [9, 9, 9, 9]) (Block.data []) request_type.WRITE = some (true, s', rb) ∧
      ∃ s'', conduct_operation P0 Block.layout u0 s' ['/', 'f'] ['u'] 1 'f'
        (Block.data []) (Block.data []) request_type.READ
        = some (true, s'', Block.data [9, 9, 9, 9]) := by
  refine ⟨sFile_inv, ?_⟩
  have h1 : (conduct_operation P0 Block.layout u0 sFile ['/', 'f'] ['u'] 1 'f'
        (Block.data [9, 9, 9, 9]) (Block.data []) request_type.WRITE).map (fun r => r.1)
        = some true := by decide
  obtain ⟨⟨ok, s', rb⟩, hr, hok⟩ := Option.map_eq_some'.mp h1
  dsimp only at hok
  subst hok
  exact ⟨s', rb, hr, write_read_round_trip P0 Block.layout u0 u0 kindFile sFile s' _ _ 1 'f' 'f'
    _ _ rb _ _ sFile_inv hr⟩

/-- C5. Failure atomicity of the engine: whenever `conduct_operation` returns false,
whatever the request, the disk is the one it started with (no block was written), the
free list and `num_block_remain` are unchanged, and the lock table has a lock under
exactly the same keys. -/
theorem failure_atomicity (P : Params) (L : Layout β) (u : Uninit) (s s' : State β)
    (path username : List Char) (offset : Nat) (c : Char) (wd rd rb : β)
    (rtype : request_type)
    (h : conduct_operation P L u s path username offset c wd rd rtype = some (false, s', rb)) :
    s'.disk = s.disk ∧ s'.free_blocks = s.free_blocks ∧
      s'.num_block_remain = s.num_block_remain ∧
      ∀ n, (s'.fs_locks n).isSome = (s.fs_locks n).isSome :=
  conduct_operation_false_frame P L u h

theorem failure_atomicity_witness :
    ∃ s' rb, conduct_operation P0 Block.layout u0 sFile ['/', 'g'] ['u'] 0 'f'
        (Block.data []) (Block.data []) request_type.DELETE = some (false, s', rb) ∧
      s'.disk = sFile.disk ∧ s'.free_blocks = sFile.free_blocks ∧
      s'.num_block_remain = sFile.num_block_remain ∧
      ∀ n, (s'.fs_locks n).isSome = (sFile.fs_locks n).isSome := by
  have h1 : (conduct_operation P0 Block.layout u0 sFile ['/', 'g'] ['u'] 0 'f'
        (Block.data []) (Block.data []) request_type.DELETE).map (fun r => r.1)
        = some false := by decide
  obtain ⟨⟨ok, s', rb⟩, hr, hok⟩ := Option.map_eq_some'.mp h1
  dsimp only at hok
  subst hok
  exact ⟨s', rb, hr, failure_atomicity P0 Block.layout u0 sFile s' _ _ _ _ _ _ rb _ hr⟩

/-- C3. On the disk `sEvict` the parent (the root) holds the directory blocks 1 and 2,
and `a` is the only live entry of block 1, at position 0.  DELETE of `/a` succeeds and
the free list grows by block 2 (the block that stays in the directory) and the inode
block 3: the evicted block 1 is not the index appended. -/
theorem delete_evict_appends_next_block :
    (Block.layout.toInode (sEvict.disk 0)).blocks 0 = 1 ∧
    (Block.layout.toInode (sEvict.disk 0)).blocks 1 = 2 ∧
    count_live P0 (Block.layout.toDirs (sEvict.disk 1)) = 1 ∧
    (conduct_operation P0 Block.layout u0 sEvict ['/', 'a'] ['u'] 0 'f'
        (Block.data []) (Block.data []) request_type.DELETE).map
      (fun r => (r.1, r.2.1.free_blocks)) = some (true, [5, 6, 7, 2, 3]) := by
  decide

theorem sEvict_reach_inode {n : Nat} (h : ReachInode P0 Block.layout sEvict.disk n) :
    n = 0 ∨ n = 3 ∨ n = 4 := by
  induction h with
  | root => exact Or.inl rfl
  | child n j k _ hty hj hk hl ih =>
    rcases ih with rfl | rfl | rfl
    · have hj' : j < 2 := hj
      have hk' : k < 2 := hk
      interval_cases j <;> interval_cases k <;> revert hl <;> decide
    · exact absurd hty (by decide)
    · exact absurd hty (by decide)

theorem sEvict_P1 : P1 P0 Block.layout sEvict := by
  constructor
  · intro b hb hr
    obtain ⟨n, hn, hbn⟩ := hr
    have hb' : b = 5 ∨ b = 6 ∨ b = 7 := by simpa [sEvict] using hb
    rcases sEvict_reach_inode hn with rfl | rfl | rfl
    · rcases hbn with rfl | ⟨j, hj, rfl⟩
      · revert hb'; decide
      · have hj' : j < 2 := hj
        interval_cases j <;> revert hb' <;> decide
    · rcases hbn with rfl | ⟨j, hj, rfl⟩
      · revert hb'; decide
      · have hj' : j < 0 := hj
        exact absurd hj' (Nat.not_lt_zero j)
    · rcases hbn with rfl | ⟨j, hj, rfl⟩
      · revert hb'; decide
      · have hj' : j < 0 := hj
        exact absurd hj' (Nat.not_lt_zero j)
  · intro b hb
    have hb' : b < 8 := hb
    have r0 : ReachInode P0 Block.layout sEvict.disk 0 := ReachInode.root
    have r3 : ReachInode P0 Block.layout sEvict.disk 3 :=
      ReachInode.child 0 0 0 r0 (by decide) (by decide) (by decide) (by decide)
    have r4 : ReachInode P0 Block.layout sEvict.disk 4 :=
      ReachInode.child 0 1 0 r0 (by decide) (by decide) (by decide) (by decide)
    interval_cases b
    · exact Or.inr ⟨0, r0, Or.inl rfl⟩
    · exact Or.inr ⟨0, r0, Or.inr ⟨0, by decide, by decide⟩⟩
    · exact Or.inr ⟨0, r0, Or.inr ⟨1, by decide, by decide⟩⟩
    · exact Or.inr ⟨3, r3, Or.inl rfl⟩
    · exact Or.inr ⟨4, r4, Or.inl rfl⟩
    · exact Or.inl (by decide)
    · exact Or.inl (by decide)
    · exact Or.inl (by decide)

/-- C2. The disk `sEvict` satisfies the partition invariant P1, DELETE of `/a` succeeds
on it, and the state it leaves does not satisfy P1: block 2 is in the free list and is
still the root's `blocks[0]`. -/
theorem delete_breaks_partition :
    P1 P0 Block.layout sEvict ∧
    ∃ s' rb, conduct_operation P0 Block.layout u0 sEvict ['/', 'a'] ['u'] 0 'f'
        (Block.data []) (Block.data []) request_type.DELETE = some (true, s', rb) ∧
      2 ∈ s'.free_blocks ∧ Reachable P0 Block.layout s'.disk 2 ∧
      ¬ P1 P0 Block.layout s' := by
  refine ⟨sEvict_P1, ?_⟩
  have h1 : (conduct_operation P0 Block.layout u0 sEvict ['/', 'a'] ['u'] 0 'f'
        (Block.data []) (Block.data []) request_type.DELETE).map
      (fun r => (r.1, r.2.1.free_blocks, (Block.layout.toInode (r.2.1.disk 0)).size,
        (Block.layout.toInode (r.2.1.disk 0)).blocks 0))
      = some (true, [5, 6, 7, 2, 3], 1, 2) := by decide
  obtain ⟨⟨ok, s', rb⟩, hr, hv⟩ := Option.map_eq_some'.mp h1
  simp only [Prod.mk.injEq] at hv
  obtain ⟨hok, hfree, hsize, hblk⟩ := hv
  subst hok
  have hmem : 2 ∈ s'.free_blocks := by rw [hfree]; decide
  have hreach : Reachable P0 Block.layout s'.disk 2 :=
    ⟨0, ReachInode.root, Or.inr ⟨0, by rw [hsize]; decide, hblk.symm⟩⟩
  exact ⟨s', rb, hr, hmem, hreach, fun hP => hP.1 2 hmem hreach⟩

theorem kindDead_inode {n : Nat} (h : kindDead n = Kind.inode) :
    n = 0 ∨ n = 2 ∨ n = 5 ∨ n = 6 := by
  rcases n with _ | _ | _ | _ | _ | _ | _ | n <;> simp_all [kindDead]

theorem kindDead_dir {n : Nat} (h : kindDead n = Kind.dir) : n = 1 ∨ n = 3 ∨ n = 4 := by
  rcases n with _ | _ | _ | _ | _ | _ | _ | n <;> simp_all [kindDead]

set_option synthInstance.maxSize 2000 in
theorem sDead_inv : DiskInv P0 Block.layout kindDead sDead where
  typed :=
    { root_inode := rfl
      size_le := by
        intro n hn
        rcases kindDead_inode hn with rfl | rfl | rfl | rfl <;> decide
      dir_blocks := by
        intro n hn
        rcases kindDead_inode hn with rfl | rfl | rfl | rfl <;> decide
      dir_inj := by
        intro n1 n2 h1 h2
        rcases kindDead_inode h1 with rfl | rfl | rfl | rfl <;>
          rcases kindDead_inode h2 with rfl | rfl | rfl | rfl <;> decide
      file_blocks := by
        intro n hn
        rcases kindDead_inode hn with rfl | rfl | rfl | rfl <;> decide
      entries := by
        intro b hb
        rcases kindDead_dir hb with rfl | rfl | rfl <;> decide
      names := by
        intro n hn
        rcases kindDead_inode hn with rfl | rfl | rfl | rfl <;> unfold names_distinct <;>
          decide }
  free_kind := by decide
  free_nodup := by decide
  locks_free := mklocks_free _

theorem sDead_reach_inode {n : Nat} (h : ReachInode P0 Block.layout sDead.disk n) :
    n = 0 ∨ n = 2 ∨ n = 5 ∨ n = 6 := by
  induction h with
  | root => exact Or.inl rfl
  | child n j k _ hty hj hk hl ih =>
    rcases ih with rfl | rfl | rfl | rfl
    · have hj' : j < 1 := hj
      have hk' : k < 2 := hk
      interval_cases j
      interval_cases k <;> revert hl <;> decide
    · have hj' : j < 2 := hj
      have hk' : k < 2 := hk
      interval_cases j <;> interval_cases k <;> revert hl <;> decide
    · exact absurd hty (by decide)
    · exact absurd hty (by decide)

theorem sDead_P1 : P1 P0 Block.layout sDead := by
  constructor
  · intro b hb hr
    obtain ⟨n, hn, hbn⟩ := hr
    have hb' : b = 7 := by simpa [sDead] using hb
    subst hb'
    rcases sDead_reach_inode hn with rfl | rfl | rfl | rfl
    · rcases hbn with h | ⟨j, hj, h⟩
      · exact absurd h (by decide)
      · have hj' : j < 1 := hj
        interval_cases j; revert h; decide
    · rcases hbn with h | ⟨j, hj, h⟩
      · exact absurd h (by decide)
      · have hj' : j < 2 := hj
        interval_cases j <;> revert h <;> decide
    · rcases hbn with h | ⟨j, hj, h⟩
      · exact absurd h (by decide)
      · have hj' : j < 0 := hj
        exact absurd hj' (Nat.not_lt_zero j)
    · rcases hbn with h | ⟨j, hj, h⟩
      · exact absurd h (by decide)
      · have hj' : j < 0 := hj
        exact absurd hj' (Nat.not_lt_zero j)
  · intro b hb
    have hb' : b < 8 := hb
    have r0 : ReachInode P0 Block.layout sDead.disk 0 := ReachInode.root
    have r2 : ReachInode P0 Block.layout sDead.disk 2 :=
      ReachInode.child 0 0 0 r0 (by decide) (by decide) (by decide) (by decide)
    have r5 : ReachInode P0 Block.layout sDead.disk 5 :=
      ReachInode.child 2 0 0 r2 (by decide) (by decide) (by decide) (by decide)
    have r6 : ReachInode P0 Block.layout sDead.disk 6 :=
      ReachInode.child 2 1 0 r2 (by decide) (by decide) (by decide) (by decide)
    interval_cases b
    · exact Or.inr ⟨0, r0, Or.inl rfl⟩
    · exact Or.inr ⟨0, r0, Or.inr ⟨0, by decide, by decide⟩⟩
    · exact Or.inr ⟨2, r2, Or.inl rfl⟩
    · exact Or.inr ⟨2, r2, Or.inr ⟨0, by decide, by decide⟩⟩
    · exact Or.inr ⟨2, r2, Or.inr ⟨1, by decide, by decide⟩⟩
    · exact Or.inr ⟨5, r5, Or.inl rfl⟩
    · exact Or.inr ⟨6, r6, Or.inl rfl⟩
    · exact Or.inl (by decide)

/-- C4. The disk `sDead` is a well-formed tree with unique live names, satisfies P1,
has a live entry in every directory block and a free lock for every inode.  On it
CREATE of the file `/a/n/a/n` by `u` returns true, and the DELETE of the same path by
`u` that follows returns false.  The same happens on a freshly formatted disk after
`/a`, `/a/b`, `/a/x` and `/a/c` are created and `/a/x` is deleted, when the memory that
CREATE takes for a new directory block holds the bytes `n` in the name of entry 1. -/
theorem create_then_delete_fails :
    DiskInv P0 Block.layout kindDead sDead ∧ P1 P0 Block.layout sDead ∧
    (∀ b ∈ [1, 3, 4], 0 < count_live P0 (Block.layout.toDirs (sDead.disk b))) ∧
    (∀ n ∈ [0, 2, 5, 6], sDead.fs_locks n = some (0, 0)) ∧
    (conduct_operation P0 Block.layout u0 sDead
        ['/', 'a', '/', 'n', '/', 'a', '/', 'n'] ['u'] 0 'f'
        (Block.data []) (Block.data []) request_type.CREATE).map (fun r => r.1) = some true ∧
    ((conduct_operation P0 Block.layout u0 sDead
        ['/', 'a', '/', 'n', '/', 'a', '/', 'n'] ['u'] 0 'f'
        (Block.data []) (Block.data []) request_type.CREATE).bind fun r =>
      conduct_operation P0 Block.layout u0 r.2.1
        ['/', 'a', '/', 'n', '/', 'a', '/', 'n'] ['u'] 0 'f'
        (Block.data []) (Block.data []) request_type.DELETE).map (fun r => r.1)
      = some false ∧
    (run_ops P0 Block.layout uStale sEmpty
        [ (request_type.CREATE, ['/', 'a'], 'd'),
          (request_type.CREATE, ['/', 'a', '/', 'b'], 'f'),
          (request_type.CREATE, ['/', 'a', '/', 'x'], 'f'),
          (request_type.CREATE, ['/', 'a', '/', 'c'], 'f'),
          (request_type.DELETE, ['/', 'a', '/', 'x'], 'f'),
          (request_type.CREATE, ['/', 'a', '/', 'n', '/', 'a', '/', 'n'], 'f'),
          (request_type.DELETE, ['/', 'a', '/', 'n', '/', 'a', '/', 'n'], 'f') ]).map
      (fun r => r.2) = some [true, true, true, true, true, true, false] :=
  ⟨sDead_inv, sDead_P1, by decide, by decide, by decide, by decide, by decide⟩

/-! ## Name uniqueness (P2) -/

theorem lock_isSome_of_lock {s sa : State β} {c : Nat} {wr : Prop} [Decidable wr]
    (ha : (if wr then w_lock s c else r_lock s c) = some sa) : (s.fs_locks c).isSome = true := by
  cases hc : s.fs_locks c with
  | none =>
    split at ha
    · simp [w_lock, hc] at ha
    · simp [r_lock, hc] at ha
  | some v => rfl

/-- The inode on which the walk ends is an inode of the tree, and its lock exists. -/
theorem walk_target (P : Params) (L : Layout β) (username : List Char) (rtype : request_type)
    {kind : Nat → Kind} :
    ∀ (ts : List (List Char)) (s s1 : State β) (ib t : Nat),
      DiskTyped P L kind s.disk → kind ib = Kind.inode → (s.fs_locks ib).isSome = true →
      walk P L username rtype s ib ts = some (s1, some t) →
      kind t = Kind.inode ∧ (s1.fs_locks t).isSome = true := by
  intro ts
  induction ts with
  | nil =>
    intro s s1 ib t _ hk hl h
    simp only [walk, Option.some.injEq, Prod.mk.injEq] at h
    obtain ⟨h1, h2⟩ := h
    subst h1; subst h2
    exact ⟨hk, hl⟩
  | cons tok rest ih =>
    intro s s1 ib t hT hk hl h
    obtain ⟨hty, _, c, sa, sb, hsc, ha, hb, hw⟩ := walk_cons_some P L username rtype h
    have hkc : kind c = Kind.inode :=
      walk_scan_kind P L hT hk hty tok _ (fun j hj => List.mem_range.mp hj) hsc
    have f1 : Frame s sa := by
      split at ha
      · exact w_lock_frame ha
      · exact r_lock_frame ha
    have f2 : Frame s sb := f1.trans (r_unlock_frame hb)
    have hlc : (sb.fs_locks c).isSome = true := by
      rw [f2.2.2.2 c]; exact lock_isSome_of_lock ha
    exact ih sb s1 c t (by rw [f2.1]; exact hT) hkc hlc hw

/-- Name uniqueness of a directory only depends on its inode and its directory
blocks. -/
theorem names_distinct_congr (P : Params) (L : Layout β) {disk disk' : Nat → β} {n : Nat}
    (h1 : disk' n = disk n)
    (h2 : (L.toInode (disk n)).type = 'd' → ∀ j, j < (L.toInode (disk n)).size →
      disk' ((L.toInode (disk n)).blocks j) = disk ((L.toInode (disk n)).blocks j))
    (h : names_distinct P L disk n) : names_distinct P L disk' n := by
  unfold names_distinct at h ⊢
  rw [h1]
  intro hty j1 hj1 j2 hj2 k1 hk1 k2 hk2
  rw [h2 hty j1 hj1, h2 hty j2 hj2]
  exact h hty j1 hj1 j2 hj2 k1 hk1 k2 hk2

/-- A directory of the tree other than `t` keeps its unique names when the disk
changes only at free blocks, at data blocks, at the inode `t` and at directory blocks
of `t`. -/
theorem names_distinct_other (P : Params) (L : Layout β) {kind : Nat → Kind}
    {disk disk' : Nat → β} (hT : DiskTyped P L kind disk) {t n : Nat}
    (ht : kind t = Kind.inode) (hn : kind n = Kind.inode) (hnt : n ≠ t)
    (hch : ∀ b, disk' b ≠ disk b → kind b = Kind.free ∨ kind b = Kind.data ∨ b = t ∨
      ((L.toInode (disk t)).type = 'd' ∧
        ∃ j, j < (L.toInode (disk t)).size ∧ b = (L.toInode (disk t)).blocks j)) :
    names_distinct P L disk' n := by
  have hsame : ∀ b, kind b = Kind.inode → b ≠ t → disk' b = disk b := by
    intro b hb hbt
    by_contra hne
    rcases hch b hne with h | h | h | ⟨htd, j, hj, h⟩
    · rw [hb] at h; cases h
    · rw [hb] at h; cases h
    · exact hbt h
    · have := hT.dir_blocks t ht htd j hj
      rw [← h, hb] at this; cases this
  apply names_distinct_congr P L (hsame n hn hnt) _ (hT.names n hn)
  intro hty j hj
  by_contra hne
  have hkd := hT.dir_blocks n hn hty j hj
  rcases hch _ hne with h | h | h | ⟨htd, j', hj', h⟩
  · rw [hkd] at h; cases h
  · rw [hkd] at h; cases h
  · rw [h, ht] at hkd; cases hkd
  · exact hnt (hT.dir_inj n t hn ht hty htd j hj j' hj' h).1

/-- The inner loop of the CREATE scan: when it ends normally no live entry of the block
has the name, and the slot is the one it started with or a free entry of this block. -/
theorem create_scan_block_spec (tmp : Nat → fs_direntry) (name : List Char) (i : Nat) :
    ∀ (js : List Nat) (sl sl' : Slot), create_scan_block tmp name i sl js = some sl' →
      (∀ k, k ∈ js → ¬ (live (tmp k) ∧ (tmp k).name = name)) ∧
      (sl' = sl ∨ (sl'.diret_found = true ∧ sl'.block_num = i ∧ sl'.dir_num ∈ js ∧
        sl'.fd_direts = tmp ∧ (tmp sl'.dir_num).inode_block = 0)) := by
  intro js
  induction js with
  | nil =>
    intro sl sl' h
    simp only [create_scan_block, Option.some.injEq] at h
    exact ⟨fun k hk => absurd hk (List.not_mem_nil k), Or.inl h.symm⟩
  | cons j js ih =>
    intro sl sl' h
    rw [create_scan_block] at h
    by_cases hc : (tmp j).inode_block ≠ 0 ∧ (tmp j).name = name
    · rw [if_pos hc] at h; exact absurd h (by simp)
    · rw [if_neg hc] at h
      obtain ⟨h1, h2⟩ := ih _ sl' h
      refine ⟨?_, ?_⟩
      · intro k hk
        rcases List.mem_cons.mp hk with rfl | hk'
        · exact hc
        · exact h1 k hk'
      · rcases h2 with h2 | ⟨a, b, c, d, e⟩
        · by_cases hs : (tmp j).inode_block = 0 ∧ sl.diret_found = false
          · rw [if_pos hs] at h2
            right
            rw [h2]
            exact ⟨rfl, rfl, List.mem_cons_self _ _, rfl, hs.1⟩
          · rw [if_neg hs] at h2
            exact Or.inl h2
        · exact Or.inr ⟨a, b, List.mem_cons_of_mem _ c, d, e⟩

/-- The CREATE scan: when it ends normally no live entry of the directory has the name,
and the slot is the one it started with or a free entry of the directory. -/
theorem create_scan_spec (P : Params) (L : Layout β) (disk : Nat → β) (inode : fs_inode)
    (name : List Char) :
    ∀ (is : List Nat) (sl sl' : Slot),
      create_scan P L disk inode name sl is = some (some sl') →
      (∀ i, i ∈ is → ∀ k, k < P.FS_DIRENTRIES →
        ¬ (live (L.toDirs (disk (inode.blocks i)) k) ∧
           (L.toDirs (disk (inode.blocks i)) k).name = name)) ∧
      (sl' = sl ∨ (sl'.diret_found = true ∧ sl'.block_num ∈ is ∧
        sl'.dir_num < P.FS_DIRENTRIES ∧
        sl'.fd_direts = L.toDirs (disk (inode.blocks sl'.block_num)) ∧
        (sl'.fd_direts sl'.dir_num).inode_block = 0)) := by
  intro is
  induction is with
  | nil =>
    intro sl sl' h
    simp only [create_scan, Option.some.injEq] at h
    exact ⟨fun i hi => absurd hi (List.not_mem_nil i), Or.inl h.symm⟩
  | cons i is ih =>
    intro sl sl' h
    rw [create_scan] at h
    by_cases hi : i < P.FS_MAXFILEBLOCKS
    · rw [if_pos hi] at h
      cases hb : create_scan_block (L.toDirs (disk (inode.blocks i))) name i sl
          (List.range P.FS_DIRENTRIES) with
      | none => rw [hb] at h; simp at h
      | some sl1 =>
        rw [hb] at h
        dsimp only at h
        obtain ⟨b1, b2⟩ := create_scan_block_spec _ name i _ sl sl1 hb
        obtain ⟨h1, h2⟩ := ih sl1 sl' h
        refine ⟨?_, ?_⟩
        · intro i' hi' k hk
          rcases List.mem_cons.mp hi' with rfl | hi''
          · exact b1 k (List.mem_range.mpr hk)
          · exact h1 i' hi'' k hk
        · rcases h2 with h2 | ⟨a, b, c, d, e⟩
          · rcases b2 with b2 | ⟨a, b, c, d, e⟩
            · exact Or.inl (h2.trans b2)
            · right
              rw [h2]
              refine ⟨a, by rw [b]; exact List.mem_cons_self _ _, List.mem_range.mp c, ?_, ?_⟩
              · rw [d, b]
              · rw [d]; exact e
          · exact Or.inr ⟨a, List.mem_cons_of_mem _ b, c, d, e⟩
    · rw [if_neg hi] at h; exact absurd h (by simp)

/-- The CREATE scan stops with `return false` when a live entry has the name. -/
theorem create_scan_block_exists (tmp : Nat → fs_direntry) (name : List Char) (i : Nat) :
    ∀ (js : List Nat) (sl : Slot) (k : Nat), k ∈ js → live (tmp k) → (tmp k).name = name →
      create_scan_block tmp name i sl js = none := by
  intro js
  induction js with
  | nil => intro sl k hk; exact absurd hk (List.not_mem_nil k)
  | cons j js ih =>
    intro sl k hk hl hn
    rw [create_scan_block]
    by_cases hc : (tmp j).inode_block ≠ 0 ∧ (tmp j).name = name
    · rw [if_pos hc]
    · rw [if_neg hc]
      rcases List.mem_cons.mp hk with rfl | hk'
      · exact absurd ⟨hl, hn⟩ hc
      · exact ih _ k hk' hl hn

theorem create_scan_exists (P : Params) (L : Layout β) (disk : Nat → β) (inode : fs_inode)
    (name : List Char) :
    ∀ (is : List Nat) (sl : Slot) (j k : Nat), (∀ i, i ∈ is → i < P.FS_MAXFILEBLOCKS) →
      j ∈ is → k < P.FS_DIRENTRIES →
      live (L.toDirs (disk (inode.blocks j)) k) →
      (L.toDirs (disk (inode.blocks j)) k).name = name →
      create_scan P L disk inode name sl is = some none := by
  intro is
  induction is with
  | nil => intro sl j k _ hj; exact absurd hj (List.not_mem_nil j)
  | cons i is ih =>
    intro sl j k hb hj hk hl hn
    rw [create_scan, if_pos (hb i (List.mem_cons_self _ _))]
    cases hsb : create_scan_block (L.toDirs (disk (inode.blocks i))) name i sl
        (List.range P.FS_DIRENTRIES) with
    | none => rfl
    | some sl1 =>
      dsimp only
      rcases List.mem_cons.mp hj with rfl | hj'
      · rw [create_scan_block_exists _ name j _ sl k (List.mem_range.mpr hk) hl hn] at hsb
        exact absurd hsb (by simp)
      · exact ih sl1 j k (fun i' hi' => hb i' (List.mem_cons_of_mem _ hi')) hj' hk hl hn

theorem delete_find_spec {P : Params} {tmp : Nat → fs_direntry} {name : List Char} {j : Nat}
    (h : delete_find P tmp name = some j) :
    j < P.FS_DIRENTRIES ∧ live (tmp j) ∧ (tmp j).name = name := by
  unfold delete_find at h
  have h1 := List.find?_some h
  have h2 := List.mem_of_find?_eq_some h
  simp only [Bool.and_eq_true, decide_eq_true_eq] at h1
  exact ⟨List.mem_range.mp h2, h1.1, h1.2⟩

/-- The DELETE scan finds a live entry of the directory with the name. -/
theorem delete_scan_spec (P : Params) (L : Layout β) (disk : Nat → β) (inode : fs_inode)
    (name : List Char) :
    ∀ (is : List Nat) (sl : Slot), delete_scan P L disk inode name is = some (some sl) →
      sl.block_num ∈ is ∧ sl.dir_num < P.FS_DIRENTRIES ∧
      sl.fd_direts = L.toDirs (disk (inode.blocks sl.block_num)) ∧
      live (sl.fd_direts sl.dir_num) ∧ (sl.fd_direts sl.dir_num).name = name := by
  intro is
  induction is with
  | nil => intro sl h; simp [delete_scan] at h
  | cons i is ih =>
    intro sl h
    rw [delete_scan] at h
    by_cases hi : i < P.FS_MAXFILEBLOCKS
    · rw [if_pos hi] at h
      dsimp only at h
      cases hf : delete_find P (L.toDirs (disk (inode.blocks i))) name with
      | none =>
        rw [hf] at h
        obtain ⟨a, b⟩ := ih sl h
        exact ⟨List.mem_cons_of_mem _ a, b⟩
      | some j =>
        rw [hf] at h
        simp only [Option.some.injEq] at h
        obtain ⟨a, b, c⟩ := delete_find_spec hf
        rw [← h]
        exact ⟨List.mem_cons_self _ _, a, rfl, b, c⟩
    · rw [if_neg hi] at h; exact absurd h (by simp)

/-- The shift loop: position `j` of the result holds the old `blocks[j+1]` for
`i ≤ j < size-1`, and the old `blocks[j]` elsewhere. -/
theorem shift_blocks_spec (P : Params) (size : Nat) :
    ∀ (fuel i : Nat) (blocks blocks1 : Nat → Nat), size ≤ i + 1 + fuel →
      shift_blocks P size fuel i blocks = some blocks1 →
      ∀ j, blocks1 j = if i ≤ j ∧ j + 1 < size then blocks (j + 1) else blocks j := by
  intro fuel
  induction fuel with
  | zero =>
    intro i blocks blocks1 hf h j
    simp only [shift_blocks, Option.some.injEq] at h
    rw [← h, if_neg (by omega)]
  | succ fuel ih =>
    intro i blocks blocks1 hf h j
    rw [shift_blocks] at h
    by_cases h1 : i + 1 < size
    · rw [if_pos h1] at h
      by_cases h2 : i + 1 < P.FS_MAXFILEBLOCKS
      · rw [if_pos h2] at h
        rw [ih (i + 1) _ blocks1 (by omega) h j]
        by_cases hj : j = i
        · subst hj
          rw [if_neg (by omega), if_pos ⟨le_refl _, h1⟩, Function.update_same]
        · by_cases hj2 : i + 1 ≤ j ∧ j + 1 < size
          · rw [if_pos hj2, if_pos ⟨by omega, hj2.2⟩,
              Function.update_noteq (by omega)]
          · rw [if_neg hj2, if_neg (by omega), Function.update_noteq hj]
      · rw [if_neg h2] at h; exact absurd h (by simp)
    · rw [if_neg h1] at h
      simp only [Option.some.injEq] at h
      rw [← h, if_neg (by omega)]

/-- The disk left by the writes of a successful CREATE. -/
theorem create_write_disk (P : Params) (L : Layout β) (u : Uninit) {s1 s' : State β}
    {t : Nat} {inode : fs_inode} {name username : List Char} {c : Char} {rd rb : β}
    {sl : Slot} {ok : Bool}
    (h : create_write P L u s1 t inode name username c rd sl = some (ok, s', rb)) :
    ∃ f0 rest, s1.free_blocks = f0 :: rest ∧
      ((sl.diret_found = true ∧
        s'.disk = Function.update
          (Function.update s1.disk f0
            (L.ofInode { u.new_inode with type := c, size := 0, owner := username }))
          (inode.blocks sl.block_num)
          (L.ofDirs (Function.update sl.fd_direts sl.dir_num
            { name := name, inode_block := f0 }))) ∨
       (sl.diret_found = false ∧ inode.size < P.FS_MAXFILEBLOCKS ∧
        ∃ f1 rest1, rest = f1 :: rest1 ∧
        s'.disk = Function.update
          (Function.update
            (Function.update s1.disk f0
              (L.ofInode { u.new_inode with type := c, size := 0, owner := username }))
            f1
            (L.ofDirs (Function.update (clear_entries P sl.fd_direts) 0
              { name := name, inode_block := f0 })))
          t
          (L.ofInode { inode with size := inode.size + 1,
                                  blocks := Function.update inode.blocks inode.size f1 }))) := by
  unfold create_write at h
  cases hf : s1.free_blocks with
  | nil => rw [hf] at h; exact absurd h (by simp)
  | cons f0 rest =>
    rw [hf] at h
    dsimp only at h
    refine ⟨f0, rest, rfl, ?_⟩
    by_cases hu : username.length > P.FS_MAXUSERNAME
    · rw [if_pos hu] at h; exact absurd h (by simp)
    · rw [if_neg hu] at h
      by_cases hd : sl.diret_found = true
      · rw [if_pos hd] at h
        simp only [Option.map_eq_some', Prod.mk.injEq] at h
        obtain ⟨s5, h5, _, h6, _⟩ := h
        subst h6
        left
        exact ⟨hd, (w_unlock_frame h5).1⟩
      · rw [if_neg hd] at h
        cases rest with
        | nil => exact absurd h (by simp)
        | cons f1 rest1 =>
          dsimp only at h
          by_cases hs : inode.size < P.FS_MAXFILEBLOCKS
          · rw [if_pos hs] at h
            simp only [Option.map_eq_some', Prod.mk.injEq] at h
            obtain ⟨s7, h7, _, h8, _⟩ := h
            subst h8
            right
            refine ⟨by simpa using hd, hs, f1, rest1, rfl, ?_⟩
            rw [(w_unlock_frame h7).1]
            have hidx : Function.update inode.blocks inode.size f1 (inode.size + 1 - 1) = f1 := by
              rw [Nat.add_sub_cancel, Function.update_same]
            simp only [disk_writeblock, add_lock, hidx]
          · rw [if_neg hs] at h; exact absurd h (by simp)

/-- A successful CREATE: the scan that preceded the writes, and the disk they left. -/
theorem op_CREATE_true (P : Params) (L : Layout β) (u : Uninit) {s s' : State β} {t : Nat}
    {inode : fs_inode} {name username : List Char} {c : Char} {rd rb : β}
    (h : op_CREATE P L u s t inode name username c rd = some (true, s', rb)) :
    inode.type = 'd' ∧ ∃ sl,
      create_scan P L s.disk inode name (slot0 u) (List.range inode.size) = some (some sl) ∧
      ∃ s1 : State β, s1.disk = s.disk ∧ s1.free_blocks = s.free_blocks ∧
        create_write P L u s1 t inode name username c rd sl = some (true, s', rb) := by
  have hno : ∀ o : Option (State β),
      o.map (fun s1 => (false, s1, rd)) ≠ some (true, s', rb) := by
    intro o; cases o <;> simp
  unfold op_CREATE at h
  by_cases h1 : c ≠ 'f' ∧ c ≠ 'd'
  · rw [if_pos h1] at h; exact absurd h (hno _)
  · rw [if_neg h1] at h
    by_cases h2 : inode.type ≠ 'd'
    · rw [if_pos h2] at h; exact absurd h (hno _)
    · rw [if_neg h2] at h
      refine ⟨not_not.mp h2, ?_⟩
      cases hsc : create_scan P L s.disk inode name (slot0 u) (List.range inode.size) with
      | none => rw [hsc] at h; exact absurd h (by simp)
      | some r =>
        cases r with
        | none => rw [hsc] at h; exact absurd h (hno _)
        | some sl =>
          rw [hsc] at h
          dsimp only at h
          unfold create_commit at h
          by_cases h3 : sl.diret_found = false ∧ inode.size = P.FS_MAXFILEBLOCKS
          · rw [if_pos h3] at h; exact absurd h (hno _)
          · rw [if_neg h3] at h
            by_cases h4 : s.num_block_remain < blocks_needed sl
            · rw [if_pos h4] at h; exact absurd h (hno _)
            · rw [if_neg h4] at h
              exact ⟨sl, rfl,
                { s with num_block_remain := s.num_block_remain - blocks_needed sl },
                rfl, rfl, h⟩

theorem release_blocks_disk (P : Params) (blocks : Nat → Nat) :
    ∀ (is : List Nat) (s s' : State β), release_blocks P blocks s is = some s' →
      s'.disk = s.disk ∧ s'.fs_locks = s.fs_locks := by
  intro is
  induction is with
  | nil =>
    intro s s' h
    simp only [release_blocks, Option.some.injEq] at h
    rw [← h]; exact ⟨rfl, rfl⟩
  | cons i is ih =>
    intro s s' h
    rw [release_blocks] at h
    by_cases hi : i < P.FS_MAXFILEBLOCKS
    · rw [if_pos hi] at h
      exact ih { s with num_block_remain := (s.num_block_remain + 1) % UINT_MOD,
                        free_blocks := s.free_blocks ++ [blocks i] } s' h
    · rw [if_neg hi] at h; exact absurd h (by simp)

theorem delete_reclaim_disk (P : Params) {s3 s5 : State β} {inode_del : fs_inode} {idx : Nat}
    (h : delete_reclaim P s3 inode_del idx = some s5) : s5.disk = s3.disk := by
  unfold delete_reclaim at h
  simp only [Option.map_eq_some'] at h
  obtain ⟨s4, h4, h5⟩ := h
  rw [← h5]
  split at h4
  · exact (release_blocks_disk P _ _ _ _ h4).1
  · cases h4; rfl

/-- The disk left by a successful DELETE: either the parent inode is rewritten with
the directory block shifted out, or the directory block is rewritten with the entry
cleared. -/
theorem op_DELETE_true (P : Params) (L : Layout β) {s s' : State β} {t : Nat}
    {inode : fs_inode} {name username : List Char} {rd rb : β}
    (h : op_DELETE P L s t inode name username rd = some (true, s', rb)) :
    inode.type = 'd' ∧ ∃ sl,
      delete_scan P L s.disk inode name (List.range inode.size) = some (some sl) ∧
      ((count_live P sl.fd_direts = 1 ∧ ∃ blocks1,
          shift_blocks P inode.size inode.size sl.block_num inode.blocks = some blocks1 ∧
          s'.disk = Function.update s.disk t
            (L.ofInode { inode with blocks := blocks1,
                                    size := (inode.size + UINT_MOD - 1) % UINT_MOD })) ∨
       (count_live P sl.fd_direts ≠ 1 ∧
          s'.disk = Function.update s.disk (inode.blocks sl.block_num)
            (L.ofDirs (Function.update sl.fd_direts sl.dir_num
              { name := [], inode_block := 0 })))) := by
  have hno : ∀ o : Option (State β),
      o.map (fun s1 => (false, s1, rd)) ≠ some (true, s', rb) := by
    intro o; cases o <;> simp
  unfold op_DELETE at h
  by_cases h2 : inode.type ≠ 'd'
  · rw [if_pos h2] at h; exact absurd h (hno _)
  · rw [if_neg h2] at h
    refine ⟨not_not.mp h2, ?_⟩
    cases hsc : delete_scan P L s.disk inode name (List.range inode.size) with
    | none => rw [hsc] at h; exact absurd h (by simp)
    | some r =>
      cases r with
      | none => rw [hsc] at h; exact absurd h (hno _)
      | some sl =>
        rw [hsc] at h
        dsimp only at h
        refine ⟨sl, rfl, ?_⟩
        unfold delete_commit at h
        simp only [Option.bind_eq_some] at h
        obtain ⟨s1, hl1, h⟩ := h
        have hd1 : s1.disk = s.disk := (w_lock_frame hl1).1
        by_cases hc : ((L.toInode (s1.disk (sl.fd_direts sl.dir_num).inode_block)).type = 'd' ∧
            (L.toInode (s1.disk (sl.fd_direts sl.dir_num).inode_block)).size > 0) ∨
            (L.toInode (s1.disk (sl.fd_direts sl.dir_num).inode_block)).owner ≠ username
        · rw [if_pos hc] at h
          simp only [Option.bind_eq_some] at h
          obtain ⟨s2, _, h⟩ := h
          exact absurd h (hno _)
        · rw [if_neg hc] at h
          simp only [Option.bind_eq_some, Option.map_eq_some', Prod.mk.injEq, true_and] at h
          obtain ⟨s3, h3, s5, h5, s6, h6, s7, h7, h8, _⟩ := h
          subst h8
          have hd : s7.disk = s3.disk := by
            rw [(w_unlock_frame h7).1]
            show s6.disk = s3.disk
            rw [(w_unlock_frame h6).1, delete_reclaim_disk P h5]
          unfold delete_entry at h3
          by_cases he : count_live P sl.fd_direts = 1
          · rw [if_pos he] at h3
            simp only [Option.map_eq_some'] at h3
            obtain ⟨blocks1, hb, h3⟩ := h3
            left
            refine ⟨he, blocks1, hb, ?_⟩
            rw [hd, ← h3]
            simp only [disk_writeblock, hd1]
          · rw [if_neg he] at h3
            simp only [Option.some.injEq] at h3
            right
            refine ⟨he, ?_⟩
            rw [hd, ← h3]
            simp only [disk_writeblock, hd1]

/-- Name uniqueness of the directory `t` on a new disk, when every live entry of the new
directory is either one new entry, whose name no old live entry has, or the old entry
at a position given by an injective map of the block positions. -/
theorem names_distinct_of_map (P : Params) (L : Layout β) (disk disk' : Nat → β) (t : Nat)
    (j0 k0 : Nat) (φ : Nat → Nat)
    (hold : names_distinct P L disk t)
    (hty : (L.toInode (disk' t)).type = 'd' → (L.toInode (disk t)).type = 'd')
    (hφ : ∀ j1 j2, j1 < (L.toInode (disk' t)).size → j2 < (L.toInode (disk' t)).size →
      φ j1 = φ j2 → j1 = j2)
    (H : ∀ j k, j < (L.toInode (disk' t)).size → k < P.FS_DIRENTRIES →
      live (L.toDirs (disk' ((L.toInode (disk' t)).blocks j)) k) →
      ((j = j0 ∧ k = k0) ∧ ∀ j2 k2, j2 < (L.toInode (disk t)).size → k2 < P.FS_DIRENTRIES →
          live (L.toDirs (disk ((L.toInode (disk t)).blocks j2)) k2) →
          (L.toDirs (disk ((L.toInode (disk t)).blocks j2)) k2).name ≠
            (L.toDirs (disk' ((L.toInode (disk' t)).blocks j)) k).name) ∨
      (L.toDirs (disk' ((L.toInode (disk' t)).blocks j)) k =
          L.toDirs (disk ((L.toInode (disk t)).blocks (φ j))) k ∧
        φ j < (L.toInode (disk t)).size)) :
    names_distinct P L disk' t := by
  intro htd j1 hj1 j2 hj2 k1 hk1 k2 hk2 hl1 hl2 hname
  have hold' := hold (hty htd)
  rcases H j1 k1 hj1 hk1 hl1 with ⟨⟨e1, e2⟩, hn1⟩ | ⟨m1, b1⟩ <;>
    rcases H j2 k2 hj2 hk2 hl2 with ⟨⟨e3, e4⟩, hn2⟩ | ⟨m2, b2⟩
  · exact ⟨e1.trans e3.symm, e2.trans e4.symm⟩
  · exfalso
    rw [m2] at hl2
    exact hn1 (φ j2) k2 b2 hk2 hl2 (by rw [hname, m2])
  · exfalso
    rw [m1] at hl1
    exact hn2 (φ j1) k1 b1 hk1 hl1 (by rw [← hname, m1])
  · rw [m1] at hl1 hname
    rw [m2] at hl2 hname
    obtain ⟨e1, e2⟩ := hold' (φ j1) b1 (φ j2) b2 k1 hk1 k2 hk2 hl1 hl2 hname
    exact ⟨hφ j1 j2 hj1 hj2 e1, e2⟩

/-- P2 after a successful WRITE. -/
theorem names_after_write (P : Params) (L : Layout β) {kind : Nat → Kind}
    {disk disk' : Nat → β} (hT : DiskTyped P L kind disk) {t : Nat}
    (ht : kind t = Kind.inode) (htf : (L.toInode (disk t)).type = 'f')
    (hch : ∀ b, disk' b ≠ disk b → kind b = Kind.free ∨ kind b = Kind.data ∨ b = t)
    (ht' : (L.toInode (disk' t)).type = 'f') :
    ∀ n, kind n = Kind.inode → names_distinct P L disk' n := by
  intro n hn
  by_cases hnt : n = t
  · subst hnt
    intro hd
    rw [ht'] at hd
    exact absurd hd (by decide)
  · apply names_distinct_other P L hT ht hn hnt
    intro b hb
    rcases hch b hb with h | h | h
    · exact Or.inl h
    · exact Or.inr (Or.inl h)
    · exact Or.inr (Or.inr (Or.inl h))

theorem kind_ne_of {kind : Nat → Kind} {a b : Nat} {ka kb : Kind} (ha : kind a = ka)
    (hb : kind b = kb) (hne : ka ≠ kb) : a ≠ b := by
  rintro rfl
  exact hne (ha.symm.trans hb)

/-- P2 after a CREATE that used a free slot of the directory `t`. -/
theorem names_after_create_slot (P : Params) (L : Layout β) {kind : Nat → Kind}
    {disk disk' : Nat → β} (hT : DiskTyped P L kind disk) {t f0 bn dn : Nat}
    {name : List Char} {I0 : fs_inode}
    (ht : kind t = Kind.inode) (htd : (L.toInode (disk t)).type = 'd')
    (hf0 : kind f0 = Kind.free) (hbn : bn < (L.toInode (disk t)).size)
    (hfree : ∀ i, i < (L.toInode (disk t)).size → ∀ k, k < P.FS_DIRENTRIES →
      ¬ (live (L.toDirs (disk ((L.toInode (disk t)).blocks i)) k) ∧
         (L.toDirs (disk ((L.toInode (disk t)).blocks i)) k).name = name))
    (hdisk : disk' = Function.update (Function.update disk f0 (L.ofInode I0))
      ((L.toInode (disk t)).blocks bn)
      (L.ofDirs (Function.update (L.toDirs (disk ((L.toInode (disk t)).blocks bn))) dn
        { name := name, inode_block := f0 }))) :
    (∀ n, kind n = Kind.inode → names_distinct P L disk' n) ∧
      disk' f0 = L.ofInode I0 := by
  have hkb : kind ((L.toInode (disk t)).blocks bn) = Kind.dir := hT.dir_blocks t ht htd bn hbn
  have hf0b : f0 ≠ (L.toInode (disk t)).blocks bn := kind_ne_of hf0 hkb (by decide)
  have htf0 : t ≠ f0 := kind_ne_of ht hf0 (by decide)
  have htb : t ≠ (L.toInode (disk t)).blocks bn := kind_ne_of ht hkb (by decide)
  have hdt : disk' t = disk t := by
    rw [hdisk, Function.update_noteq htb, Function.update_noteq htf0]
  refine ⟨?_, by rw [hdisk, Function.update_noteq hf0b, Function.update_same]⟩
  intro n hn
  by_cases hnt : n = t
  · subst hnt
    apply names_distinct_of_map P L disk disk' n bn dn id (hT.names n hn)
      (by rw [hdt]; exact id) (fun _ _ _ _ h => h)
    rw [hdt]
    intro j k hj hk hl
    by_cases hjb : j = bn
    · subst hjb
      have hblk : disk' ((L.toInode (disk n)).blocks j) = L.ofDirs
          (Function.update (L.toDirs (disk ((L.toInode (disk n)).blocks j))) dn
            { name := name, inode_block := f0 }) := by
        rw [hdisk, Function.update_same]
      rw [hblk, L.toDirs_ofDirs] at hl ⊢
      by_cases hkd : k = dn
      · subst hkd
        left
        refine ⟨⟨rfl, rfl⟩, ?_⟩
        intro j2 k2 hj2 hk2 hl2 hn2
        rw [Function.update_same] at hn2
        exact hfree j2 hj2 k2 hk2 ⟨hl2, hn2⟩
      · right
        rw [Function.update_noteq hkd]
        exact ⟨rfl, hj⟩
    · right
      have hne : (L.toInode (disk n)).blocks j ≠ (L.toInode (disk n)).blocks bn := by
        intro h
        exact hjb (hT.dir_inj n n hn hn htd htd j hj bn hbn h).2
      have hne2 : (L.toInode (disk n)).blocks j ≠ f0 :=
        kind_ne_of (hT.dir_blocks n hn htd j hj) hf0 (by decide)
      rw [hdisk, Function.update_noteq hne, Function.update_noteq hne2]
      exact ⟨rfl, hj⟩
  · apply names_distinct_other P L hT ht hn hnt
    intro b hb
    by_cases h1 : b = (L.toInode (disk t)).blocks bn
    · exact Or.inr (Or.inr (Or.inr ⟨htd, bn, hbn, h1⟩))
    · by_cases h2 : b = f0
      · rw [h2]; exact Or.inl hf0
      · exact absurd (by rw [hdisk, Function.update_noteq h1, Function.update_noteq h2]) hb

/-- P2 after a CREATE that added a directory block to the directory `t`. -/
theorem names_after_create_block (P : Params) (L : Layout β) {kind : Nat → Kind}
    {disk disk' : Nat → β} (hT : DiskTyped P L kind disk) {t f0 f1 : Nat}
    {name : List Char} {I0 : fs_inode} {fd : Nat → fs_direntry}
    (ht : kind t = Kind.inode) (htd : (L.toInode (disk t)).type = 'd')
    (hf0 : kind f0 = Kind.free) (hf1 : kind f1 = Kind.free) (hne : f0 ≠ f1)
    (hfree : ∀ i, i < (L.toInode (disk t)).size → ∀ k, k < P.FS_DIRENTRIES →
      ¬ (live (L.toDirs (disk ((L.toInode (disk t)).blocks i)) k) ∧
         (L.toDirs (disk ((L.toInode (disk t)).blocks i)) k).name = name))
    (hdisk : disk' = Function.update
      (Function.update (Function.update disk f0 (L.ofInode I0)) f1
        (L.ofDirs (Function.update (clear_entries P fd) 0 { name := name, inode_block := f0 })))
      t
      (L.ofInode { L.toInode (disk t) with
        size := (L.toInode (disk t)).size + 1,
        blocks := Function.update (L.toInode (disk t)).blocks (L.toInode (disk t)).size f1 })) :
    (∀ n, kind n = Kind.inode → names_distinct P L disk' n) ∧
      disk' f0 = L.ofInode I0 := by
  have htf0 : t ≠ f0 := kind_ne_of ht hf0 (by decide)
  have htf1 : t ≠ f1 := kind_ne_of ht hf1 (by decide)
  have hdt : disk' t = L.ofInode { L.toInode (disk t) with
        size := (L.toInode (disk t)).size + 1,
        blocks := Function.update (L.toInode (disk t)).blocks (L.toInode (disk t)).size f1 } := by
    rw [hdisk, Function.update_same]
  refine ⟨?_, by rw [hdisk, Function.update_noteq (Ne.symm htf0), Function.update_noteq hne,
    Function.update_same]⟩
  intro n hn
  by_cases hnt : n = t
  · subst hnt
    apply names_distinct_of_map P L disk disk' n (L.toInode (disk n)).size 0 id
      (hT.names n hn) (fun _ => htd) (fun _ _ _ _ h => h)
    rw [hdt, L.toInode_ofInode]
    dsimp only
    intro j k hj hk hl
    by_cases hjs : j = (L.toInode (disk n)).size
    · subst hjs
      rw [Function.update_same] at hl ⊢
      have hblk : disk' f1 = L.ofDirs
          (Function.update (clear_entries P fd) 0 { name := name, inode_block := f0 }) := by
        rw [hdisk, Function.update_noteq (Ne.symm htf1), Function.update_same]
      rw [hblk, L.toDirs_ofDirs] at hl ⊢
      by_cases hk0 : k = 0
      · subst hk0
        left
        refine ⟨⟨rfl, rfl⟩, ?_⟩
        intro j2 k2 hj2 hk2 hl2 hn2
        rw [Function.update_same] at hn2
        exact hfree j2 hj2 k2 hk2 ⟨hl2, hn2⟩
      · exfalso
        rw [Function.update_noteq hk0] at hl
        unfold live clear_entries at hl
        rw [if_pos hk] at hl
        exact hl rfl
    · right
      have hj' : j < (L.toInode (disk n)).size := by omega
      rw [Function.update_noteq hjs]
      have hkd := hT.dir_blocks n hn htd j hj'
      have h1 : (L.toInode (disk n)).blocks j ≠ n := kind_ne_of hkd hn (by decide)
      have h2 : (L.toInode (disk n)).blocks j ≠ f1 := kind_ne_of hkd hf1 (by decide)
      have h3 : (L.toInode (disk n)).blocks j ≠ f0 := kind_ne_of hkd hf0 (by decide)
      rw [hdisk, Function.update_noteq h1, Function.update_noteq h2, Function.update_noteq h3]
      exact ⟨rfl, hj'⟩
  · apply names_distinct_other P L hT ht hn hnt
    intro b hb
    by_cases h1 : b = t
    · exact Or.inr (Or.inr (Or.inl h1))
    · by_cases h2 : b = f1
      · rw [h2]; exact Or.inl hf1
      · by_cases h3 : b = f0
        · rw [h3]; exact Or.inl hf0
        · exact absurd (by rw [hdisk, Function.update_noteq h1, Function.update_noteq h2,
            Function.update_noteq h3]) hb

/-- P2 after a DELETE that cleared an entry of the directory `t`. -/
theorem names_after_delete_clear (P : Params) (L : Layout β) {kind : Nat → Kind}
    {disk disk' : Nat → β} (hT : DiskTyped P L kind disk) {t bn dn : Nat}
    (ht : kind t = Kind.inode) (htd : (L.toInode (disk t)).type = 'd')
    (hbn : bn < (L.toInode (disk t)).size)
    (hdisk : disk' = Function.update disk ((L.toInode (disk t)).blocks bn)
      (L.ofDirs (Function.update (L.toDirs (disk ((L.toInode (disk t)).blocks bn))) dn
        { name := [], inode_block := 0 }))) :
    ∀ n, kind n = Kind.inode → names_distinct P L disk' n := by
  have hkb : kind ((L.toInode (disk t)).blocks bn) = Kind.dir := hT.dir_blocks t ht htd bn hbn
  have htb : t ≠ (L.toInode (disk t)).blocks bn := kind_ne_of ht hkb (by decide)
  have hdt : disk' t = disk t := by rw [hdisk, Function.update_noteq htb]
  intro n hn
  by_cases hnt : n = t
  · subst hnt
    apply names_distinct_of_map P L disk disk' n bn dn id (hT.names n hn)
      (by rw [hdt]; exact id) (fun _ _ _ _ h => h)
    rw [hdt]
    intro j k hj hk hl
    right
    by_cases hjb : j = bn
    · subst hjb
      have hblk : disk' ((L.toInode (disk n)).blocks j) = L.ofDirs
          (Function.update (L.toDirs (disk ((L.toInode (disk n)).blocks j))) dn
            { name := [], inode_block := 0 }) := by
        rw [hdisk, Function.update_same]
      rw [hblk, L.toDirs_ofDirs] at hl ⊢
      by_cases hkd : k = dn
      · subst hkd
        rw [Function.update_same] at hl
        exact absurd rfl hl
      · rw [Function.update_noteq hkd]
        exact ⟨rfl, hj⟩
    · have hne : (L.toInode (disk n)).blocks j ≠ (L.toInode (disk n)).blocks bn := by
        intro h
        exact hjb (hT.dir_inj n n hn hn htd htd j hj bn hbn h).2
      rw [hdisk, Function.update_noteq hne]
      exact ⟨rfl, hj⟩
  · apply names_distinct_other P L hT ht hn hnt
    intro b hb
    by_cases h1 : b = (L.toInode (disk t)).blocks bn
    · exact Or.inr (Or.inr (Or.inr ⟨htd, bn, hbn, h1⟩))
    · exact absurd (by rw [hdisk, Function.update_noteq h1]) hb

/-- P2 after a DELETE that removed a directory block from the directory `t`. -/
theorem names_after_delete_evict (P : Params) (L : Layout β) {kind : Nat → Kind}
    {disk disk' : Nat → β} (hT : DiskTyped P L kind disk) {t bn : Nat}
    {blocks1 : Nat → Nat}
    (ht : kind t = Kind.inode) (htd : (L.toInode (disk t)).type = 'd')
    (hbn : bn < (L.toInode (disk t)).size)
    (hb1 : ∀ j, blocks1 j = if bn ≤ j ∧ j + 1 < (L.toInode (disk t)).size
      then (L.toInode (disk t)).blocks (j + 1) else (L.toInode (disk t)).blocks j)
    (hdisk : disk' = Function.update disk t
      (L.ofInode { L.toInode (disk t) with
        blocks := blocks1,
        size := ((L.toInode (disk t)).size + UINT_MOD - 1) % UINT_MOD })) :
    ∀ n, kind n = Kind.inode → names_distinct P L disk' n := by
  have hsz : ((L.toInode (disk t)).size + UINT_MOD - 1) % UINT_MOD + 1
      ≤ (L.toInode (disk t)).size := by
    have h1 : (L.toInode (disk t)).size + UINT_MOD - 1
        = ((L.toInode (disk t)).size - 1) + UINT_MOD := by unfold UINT_MOD; omega
    rw [h1, Nat.add_mod_right]
    have := Nat.mod_le ((L.toInode (disk t)).size - 1) UINT_MOD
    omega
  intro n hn
  by_cases hnt : n = t
  · subst hnt
    apply names_distinct_of_map P L disk disk' n 0 0 (fun j => if bn ≤ j then j + 1 else j)
      (hT.names n hn) (fun _ => htd)
    · intro j1 j2 _ _ h
      split at h <;> split at h <;> omega
    · have hdt : disk' n = L.ofInode { L.toInode (disk n) with
          blocks := blocks1,
          size := ((L.toInode (disk n)).size + UINT_MOD - 1) % UINT_MOD } := by
        rw [hdisk, Function.update_same]
      rw [hdt, L.toInode_ofInode]
      dsimp only
      intro j k hj hk hl
      right
      have hj' : j + 1 < (L.toInode (disk n)).size + 1 := by omega
      have hφ : blocks1 j = (L.toInode (disk n)).blocks (if bn ≤ j then j + 1 else j) := by
        rw [hb1 j]
        by_cases hc : bn ≤ j
        · rw [if_pos ⟨hc, by omega⟩, if_pos hc]
        · rw [if_neg (fun h => hc h.1), if_neg hc]
      have hlt : (if bn ≤ j then j + 1 else j) < (L.toInode (disk n)).size := by
        split <;> omega
      have hkd := hT.dir_blocks n hn htd _ hlt
      have hne : (L.toInode (disk n)).blocks (if bn ≤ j then j + 1 else j) ≠ n :=
        kind_ne_of hkd hn (by decide)
      rw [hφ, hdisk, Function.update_noteq hne]
      exact ⟨rfl, hlt⟩
  · apply names_distinct_other P L hT ht hn hnt
    intro b hb
    by_cases h1 : b = t
    · exact Or.inr (Or.inr (Or.inl h1))
    · exact absurd (by rw [hdisk, Function.update_noteq h1]) hb

theorem op_READ_frame (P : Params) {s s' : State β} {ib : Nat} {inode : fs_inode}
    {offset : Nat} {rd rb : β} {ok : Bool}
    (h : op_READ P s ib inode offset rd = some (ok, s', rb)) : Frame s s' := by
  unfold op_READ at h
  split at h
  · simp only [Option.map_eq_some', Prod.mk.injEq] at h
    obtain ⟨s1, h1, _, h2, _⟩ := h
    rw [← h2]; exact r_unlock_frame h1
  · split at h
    · simp only [Option.map_eq_some', Prod.mk.injEq] at h
      obtain ⟨s1, h1, _, h2, _⟩ := h
      rw [← h2]; exact r_unlock_frame h1
    · exact absurd h (by simp)

theorem lock_root_isSome {s s0 : State β} {d : Nat} {rtype : request_type}
    (h : lock_root s d rtype = some s0) : (s0.fs_locks 0).isSome = true := by
  rw [(lock_root_frame h).2.2.2 0]
  unfold lock_root at h
  exact lock_isSome_of_lock h

theorem w_unlock_of_isSome {s : State β} {t : Nat} (h : (s.fs_locks t).isSome = true) :
    ∃ s2, w_unlock s t = some s2 := by
  cases hl : s.fs_locks t with
  | none => rw [hl] at h; simp at h
  | some v => exact ⟨_, w_unlock_eq (r := v.1) (w := v.2) hl⟩

/-- The steps of `conduct_operation` before the operation itself. -/
theorem conduct_operation_target (P : Params) (L : Layout β) (u : Uninit)
    {s s' : State β} {path username : List Char} {offset : Nat} {c : Char}
    {wd rd rb : β} {rtype : request_type}
    (hne : rtype ≠ request_type.SESSION)
    (h : conduct_operation P L u s path username offset c wd rd rtype = some (true, s', rb)) :
    ∃ paths s0 s1 t, parse_path P path = some paths ∧
      lock_root s (path_depth rtype paths) rtype = some s0 ∧
      walk P L username rtype s0 0 (paths.take (path_depth rtype paths)) = some (s1, some t) ∧
      on_target P L u s1 t (paths.getLastD []) username offset c wd rd rtype
        = some (true, s', rb) := by
  unfold conduct_operation at h
  rw [if_neg hne] at h
  cases hp : parse_path P path with
  | none => rw [hp] at h; simp at h
  | some paths =>
    rw [hp] at h
    simp only [Option.bind_eq_some] at h
    obtain ⟨s0, h0, r, hw, h⟩ := h
    obtain ⟨s1, ot⟩ := r
    cases ot with
    | none => simp at h
    | some t => exact ⟨paths, s0, s1, t, rfl, h0, hw, h⟩

/-- P2 after any successful operation. -/
theorem names_after_success (P : Params) (L : Layout β) (u : Uninit) (kind : Nat → Kind)
    {s s' : State β} {path username : List Char} {offset : Nat} {c : Char}
    {wd rd rb : β} {rtype : request_type} (hinv : DiskInv P L kind s)
    (h : conduct_operation P L u s path username offset c wd rd rtype = some (true, s', rb)) :
    (∀ n, kind n = Kind.inode → names_distinct P L s'.disk n) ∧
    (rtype = request_type.CREATE → ∀ f0, s.free_blocks.head? = some f0 →
      names_distinct P L s'.disk f0) := by
  have hT := hinv.typed
  by_cases hse : rtype = request_type.SESSION
  · unfold conduct_operation at h
    rw [if_pos hse] at h
    simp only [Option.some.injEq, Prod.mk.injEq, true_and] at h
    rw [← h.1, hse]
    exact ⟨hT.names, fun h0 => absurd h0 (by decide)⟩
  · obtain ⟨paths, s0, s1, t, _, h0, hw, h⟩ := conduct_operation_target P L u hse h
    have f0 : Frame s s0 := lock_root_frame h0
    have f1 : Frame s s1 := f0.trans (walk_frame P L username rtype _ _ _ _ hw)
    obtain ⟨hkt, _⟩ := walk_target P L username rtype _ s0 s1 0 t (by rw [f0.1]; exact hT)
      hT.root_inode (lock_root_isSome h0) hw
    have hd1 : s1.disk = s.disk := f1.1
    unfold on_target at h
    dsimp only at h
    by_cases hown : owner_denied (L.toInode (s1.disk t)).owner username = true
    · rw [if_pos hown] at h
      cases hu : unlock_target s1 t rtype <;> simp [hu] at h
    · rw [if_neg hown] at h
      rw [hd1] at h
      cases rtype with
      | SESSION => exact absurd rfl hse
      | READ =>
        simp only [dispatch] at h
        have := (op_READ_frame P h).1
        rw [this, hd1]
        exact ⟨hT.names, fun h0 => absurd h0 (by decide)⟩
      | INVALID =>
        simp only [dispatch, Option.some.injEq, Prod.mk.injEq, true_and] at h
        rw [← h.1, hd1]
        exact ⟨hT.names, fun h0 => absurd h0 (by decide)⟩
      | WRITE =>
        refine ⟨?_, fun h0 => absurd h0 (by decide)⟩
        simp only [dispatch] at h
        obtain ⟨hty, hle, hlt, sw, hunl, _, hcase⟩ := op_WRITE_true P L h
        have hd' : s'.disk = sw.disk := (w_unlock_frame hunl).1
        rw [hd']
        rcases hcase with ⟨_, blk, rest, hfree, _, _, _, hdisk⟩ | ⟨hlt2, _, _, hdisk⟩
        · have hkb : kind blk = Kind.free :=
            hinv.free_kind blk (by rw [← f1.2.1, hfree]; exact List.mem_cons_self _ _)
          rw [hd1] at hdisk
          apply names_after_write P L hT hkt hty
          · intro b hb
            by_cases h1 : b = t
            · exact Or.inr (Or.inr h1)
            · by_cases h2 : b = blk
              · rw [h2]; exact Or.inl hkb
              · exact absurd (by rw [hdisk, Function.update_noteq h1,
                  Function.update_noteq h2]) hb
          · rw [hdisk, Function.update_same, L.toInode_ofInode]
            exact hty
        · have hkb := hT.file_blocks t hkt hty offset hlt2
          rw [hd1] at hdisk
          have htb : t ≠ (L.toInode (s.disk t)).blocks offset := by
            intro h0; rw [← h0, hkt] at hkb; cases hkb
          apply names_after_write P L hT hkt hty
          · intro b hb
            by_cases h2 : b = (L.toInode (s.disk t)).blocks offset
            · rw [h2]; exact Or.inr (Or.inl hkb)
            · exact absurd (by rw [hdisk, Function.update_noteq h2]) hb
          · rw [hdisk, Function.update_noteq htb]
            exact hty
      | CREATE =>
        simp only [dispatch] at h
        obtain ⟨htd, sl, hsc, sc, hdc, hfc, hcw⟩ := op_CREATE_true P L u h
        rw [hd1] at hsc
        obtain ⟨hnone, hslot⟩ := create_scan_spec P L s.disk _ _ _ _ sl hsc
        have hnone' : ∀ i, i < (L.toInode (s.disk t)).size → ∀ k, k < P.FS_DIRENTRIES →
            ¬ (live (L.toDirs (s.disk ((L.toInode (s.disk t)).blocks i)) k) ∧
              (L.toDirs (s.disk ((L.toInode (s.disk t)).blocks i)) k).name
                = paths.getLastD []) :=
          fun i hi => hnone i (List.mem_range.mpr hi)
        obtain ⟨f0, rest, hfree, hcase⟩ := create_write_disk P L u hcw
        have hfree' : s.free_blocks = f0 :: rest := by rw [← f1.2.1, ← hfc, hfree]
        have hk0 : kind f0 = Kind.free :=
          hinv.free_kind f0 (by rw [hfree']; exact List.mem_cons_self _ _)
        have key : (∀ n, kind n = Kind.inode → names_distinct P L s'.disk n) ∧
            names_distinct P L s'.disk f0 := by
          rcases hcase with ⟨hfound, hdisk⟩ | ⟨hnf, _, f1', rest1, hrest, hdisk⟩
          · rcases hslot with hsl | ⟨_, hbn, hdn, hfd, _⟩
            · rw [hsl] at hfound; simp [slot0] at hfound
            · rw [hdc, hd1, hfd] at hdisk
              obtain ⟨a, b⟩ := names_after_create_slot P L hT hkt htd hk0
                (List.mem_range.mp hbn) hnone' hdisk
              refine ⟨a, ?_⟩
              intro hd0
              rw [b, L.toInode_ofInode]
              intro j1 hj1
              exact absurd hj1 (Nat.not_lt_zero j1)
          · have hk1 : kind f1' = Kind.free :=
              hinv.free_kind f1' (by rw [hfree', hrest]; simp)
            have hne : f0 ≠ f1' := by
              have := hinv.free_nodup
              rw [hfree', hrest] at this
              intro h0
              rw [h0] at this
              simp at this
            rw [hdc, hd1] at hdisk
            obtain ⟨a, b⟩ := names_after_create_block P L hT hkt htd hk0 hk1 hne hnone' hdisk
            refine ⟨a, ?_⟩
            intro hd0
            rw [b, L.toInode_ofInode]
            intro j1 hj1
            exact absurd hj1 (Nat.not_lt_zero j1)
        refine ⟨key.1, ?_⟩
        intro _ f0' hhead
        rw [hfree'] at hhead
        simp only [List.head?_cons, Option.some.injEq] at hhead
        rw [← hhead]
        exact key.2
      | DELETE =>
        refine ⟨?_, fun h0 => absurd h0 (by decide)⟩
        simp only [dispatch] at h
        obtain ⟨htd, sl, hsc, hcase⟩ := op_DELETE_true P L h
        rw [hd1] at hsc hcase
        obtain ⟨hbn, hdn, hfd, _, _⟩ := delete_scan_spec P L s.disk _ _ _ sl hsc
        have hbn' := List.mem_range.mp hbn
        rcases hcase with ⟨_, blocks1, hsh, hdisk⟩ | ⟨_, hdisk⟩
        · have hb1 := shift_blocks_spec P _ _ _ _ blocks1 (by omega) hsh
          exact names_after_delete_evict P L hT hkt htd hbn' hb1 hdisk
        · rw [hfd] at hdisk
          exact names_after_delete_clear P L hT hkt htd hbn' hdisk

/-- CREATE of a name that a live entry of the parent already has returns false. -/
theorem create_existing_name (P : Params) (L : Layout β) (u : Uninit) (kind : Nat → Kind)
    {s s0 s1 : State β} {path username : List Char} (offset : Nat) (c : Char)
    (wd rd : β) (hinv : DiskInv P L kind s) {paths : List (List Char)} {t j k : Nat}
    (hp : parse_path P path = some paths)
    (h0 : lock_root s (path_depth request_type.CREATE paths) request_type.CREATE = some s0)
    (hw : walk P L username request_type.CREATE s0 0
      (paths.take (path_depth request_type.CREATE paths)) = some (s1, some t))
    (hj : j < (L.toInode (s.disk t)).size) (hk : k < P.FS_DIRENTRIES)
    (hl : live (L.toDirs (s.disk ((L.toInode (s.disk t)).blocks j)) k))
    (hn : (L.toDirs (s.disk ((L.toInode (s.disk t)).blocks j)) k).name = paths.getLastD []) :
    ∃ s', conduct_operation P L u s path username offset c wd rd request_type.CREATE
        = some (false, s', rd) ∧ Frame s s' := by
  have hT := hinv.typed
  have f0 : Frame s s0 := lock_root_frame h0
  have f1 : Frame s s1 := f0.trans (walk_frame P L username _ _ _ _ _ hw)
  obtain ⟨hkt, hlk⟩ := walk_target P L username _ _ s0 s1 0 t (by rw [f0.1]; exact hT)
    hT.root_inode (lock_root_isSome h0) hw
  have hd1 : s1.disk = s.disk := f1.1
  obtain ⟨s2, hu⟩ := w_unlock_of_isSome hlk
  have hres : on_target P L u s1 t (paths.getLastD []) username offset c wd rd
      request_type.CREATE = some (false, s2, rd) := by
    have hfalse : (w_unlock s1 t).map (fun s1 => (false, s1, rd)) = some (false, s2, rd) := by
      rw [hu]; rfl
    unfold on_target
    dsimp only
    by_cases hown : owner_denied (L.toInode (s1.disk t)).owner username = true
    · rw [if_pos hown]
      simp only [unlock_target, ne_eq, not_false_eq_true, if_true,
        show request_type.CREATE ≠ request_type.READ from by decide]
      exact hfalse
    · rw [if_neg hown]
      simp only [dispatch]
      unfold op_CREATE
      by_cases h1 : c ≠ 'f' ∧ c ≠ 'd'
      · rw [if_pos h1]; exact hfalse
      · rw [if_neg h1]
        by_cases h2 : (L.toInode (s1.disk t)).type ≠ 'd'
        · rw [if_pos h2]; exact hfalse
        · rw [if_neg h2, hd1]
          have hsz := hT.size_le t hkt
          rw [create_scan_exists P L s.disk _ _ _ (slot0 u) j k
            (fun i hi => lt_of_lt_of_le (List.mem_range.mp hi) hsz)
            (List.mem_range.mpr hj) hk hl hn]
          exact hfalse
  refine ⟨s2, ?_, f1.trans (w_unlock_frame hu)⟩
  unfold conduct_operation
  rw [if_neg (by decide), hp]
  simp only [h0, hw, Option.some_bind]
  exact hres

/-- Name uniqueness is preserved under the disk invariants.  From a state satisfying
the disk invariants,
after any call of `conduct_operation`, whatever it returns, every directory of the tree
still has pairwise distinct live names, and so has the inode created by a successful
CREATE (the former front of the free list).  Moreover, when the walk of a CREATE ends on
a parent that has, in any of its directory blocks, a live entry with the requested
name, the call returns false and leaves the disk, the free list and the free count as
they were, whether or not a free slot comes earlier in the scan. -/
theorem names_unique_preserved (P : Params) (L : Layout β) (u : Uninit) (kind : Nat → Kind)
    (s : State β) (path username : List Char) (offset : Nat) (c : Char) (wd rd : β)
    (rtype : request_type) (hinv : DiskInv P L kind s) :
    (∀ ok s' rb,
      conduct_operation P L u s path username offset c wd rd rtype = some (ok, s', rb) →
      (∀ n, kind n = Kind.inode → names_distinct P L s'.disk n) ∧
      (rtype = request_type.CREATE → ok = true → ∀ f0, s.free_blocks.head? = some f0 →
        names_distinct P L s'.disk f0)) ∧
    (∀ paths s0 s1 t j k, parse_path P path = some paths →
      lock_root s (path_depth request_type.CREATE paths) request_type.CREATE = some s0 →
      walk P L username request_type.CREATE s0 0
        (paths.take (path_depth request_type.CREATE paths)) = some (s1, some t) →
      j < (L.toInode (s.disk t)).size → k < P.FS_DIRENTRIES →
      live (L.toDirs (s.disk ((L.toInode (s.disk t)).blocks j)) k) →
      (L.toDirs (s.disk ((L.toInode (s.disk t)).blocks j)) k).name = paths.getLastD [] →
      ∃ s', conduct_operation P L u s path username offset c wd rd request_type.CREATE
          = some (false, s', rd) ∧
        s'.disk = s.disk ∧ s'.free_blocks = s.free_blocks ∧
        s'.num_block_remain = s.num_block_remain) := by
  constructor
  · intro ok s' rb h
    cases ok with
    | false =>
      have f := conduct_operation_false_frame P L u h
      rw [f.1]
      exact ⟨hinv.typed.names, fun _ h0 => absurd h0 (by decide)⟩
    | true =>
      obtain ⟨a, b⟩ := names_after_success P L u kind hinv h
      exact ⟨a, fun h1 _ => b h1⟩
  · intro paths s0 s1 t j k hp h0 hw hj hk hl hn
    obtain ⟨s', h1, f⟩ := create_existing_name P L u kind offset c wd rd hinv hp h0 hw hj hk hl hn
    exact ⟨s', h1, f.1, f.2.1, f.2.2.1⟩

theorem names_unique_preserved_witness :
    DiskInv P0 Block.layout kindFile sFile ∧
    (∃ s' rb, conduct_operation P0 Block.layout u0 sFile ['/', 'g'] ['u'] 0 'd'
        (Block.data []) (Block.data []) request_type.CREATE = some (true, s', rb) ∧
      (∀ n, kindFile n = Kind.inode → names_distinct P0 Block.layout s'.disk n) ∧
      names_distinct P0 Block.layout s'.disk 4) ∧
    (∃ s', conduct_operation P0 Block.layout u0 sFile ['/', 'f'] ['u'] 0 'd'
        (Block.data []) (Block.data []) request_type.CREATE = some (false, s', Block.data []) ∧
      s'.disk = sFile.disk ∧ s'.free_blocks = sFile.free_blocks ∧
      s'.num_block_remain = sFile.num_block_remain) := by
  refine ⟨sFile_inv, ?_, ?_⟩
  · have h1 : (conduct_operation P0 Block.layout u0 sFile ['/', 'g'] ['u'] 0 'd'
        (Block.data []) (Block.data []) request_type.CREATE).map (fun r => r.1)
        = some true := by decide
    obtain ⟨⟨ok, s', rb⟩, hr, hok⟩ := Option.map_eq_some'.mp h1
    dsimp only at hok
    subst hok
    obtain ⟨a, b⟩ := (names_unique_preserved P0 Block.layout u0 kindFile sFile ['/', 'g'] ['u']
      0 'd' (Block.data []) (Block.data []) request_type.CREATE sFile_inv).1 true s' rb hr
    exact ⟨s', rb, hr, a, b rfl rfl 4 rfl⟩
  · have hw : ∃ s0 s1, lock_root sFile (path_depth request_type.CREATE [['f']])
          request_type.CREATE = some s0 ∧
        walk P0 Block.layout ['u'] request_type.CREATE s0 0
          (List.take (path_depth request_type.CREATE [['f']]) [['f']]) = some (s1, some 0) :=
      ⟨_, _, rfl, rfl⟩
    obtain ⟨s0, s1, h0, hw⟩ := hw
    exact (names_unique_preserved P0 Block.layout u0 kindFile sFile ['/', 'f'] ['u']
      0 'd' (Block.data []) (Block.data []) request_type.CREATE sFile_inv).2
      [['f']] s0 s1 0 0 0 (by decide) h0 hw (by decide) (by decide) (by decide) (by decide)

end Walk

/-! ## The session registry and the request handler -/

section Sessions
variable {β : Type}

/-- C7. Session validation.  In a registry where every session id of a user has an
entry in `SS_map`, the check made for a request that is not FS_SESSION passes exactly
when the session belongs to the user and the sequence number is larger than the one
recorded; when it passes the registry changes only in `SS_map[session]`, which becomes
the sequence number; when it fails the registry is unchanged, and `serve` returns
without a response. -/
theorem session_validation (st : Sessions) (u : List Char) (s q : Nat) (hinv : SessInv st) :
    ((session_check st u s q).1 = true ↔
      ∃ sessions last, st.US_map u = some sessions ∧ s ∈ sessions ∧
        st.SS_map s = some last ∧ q > last) ∧
    ((session_check st u s q).1 = true →
      (session_check st u s q).2 = { st with SS_map := Function.update st.SS_map s (some q) }) ∧
    ((session_check st u s q).1 = false → (session_check st u s q).2 = st) ∧
    (∀ (P : Params) (L : Layout β) (E : Env β) (fs : State β) (crequest : List Char)
      (hd : Head), hd.type ≠ request_type.SESSION → hd.session = s → hd.sequence = q →
      (session_check st u s q).1 = false →
      serve P L E { sess := st, fs := fs } u crequest hd = some ({ sess := st, fs := fs }, none)) := by
  have key : ((session_check st u s q).1 = true ↔
      ∃ sessions last, st.US_map u = some sessions ∧ s ∈ sessions ∧
        st.SS_map s = some last ∧ q > last) ∧
    ((session_check st u s q).1 = true →
      (session_check st u s q).2 = { st with SS_map := Function.update st.SS_map s (some q) }) ∧
    ((session_check st u s q).1 = false → (session_check st u s q).2 = st) := by
    unfold session_check
    cases hU : st.US_map u with
    | none => simp
    | some sessions =>
      by_cases hm : s ∈ sessions
      · have hsome := hinv u sessions hU s hm
        cases hS : st.SS_map s with
        | none => rw [hS] at hsome; simp at hsome
        | some last =>
          by_cases hq : last ≥ q
          · simp [hm, hq]
          · simp [hm, hq]
            omega
      · simp [hm]
  refine ⟨key.1, key.2.1, key.2.2, ?_⟩
  intro P L E fs crequest hd hty hs hq hfail
  unfold serve
  simp only [hty, ne_eq, not_false_eq_true, if_true, hs, hq, hfail, key.2.2 hfail]

theorem stOne_inv : SessInv stOne := by
  intro u sessions hU x hx
  unfold stOne at hU
  simp only at hU
  split at hU
  · cases hU
    simp only [List.mem_singleton] at hx
    subst hx
    rfl
  · exact absurd hU (by simp)

theorem session_validation_witness :
    SessInv stOne ∧ (session_check stOne ['u'] 0 2).1 = true ∧
    (session_check stOne ['u'] 0 2).2
      = { stOne with SS_map := Function.update stOne.SS_map 0 (some 2) } ∧
    (session_check stOne ['u'] 0 1).1 = false ∧ (session_check stOne ['u'] 0 1).2 = stOne :=
  have h := @session_validation Block stOne ['u'] 0 2 stOne_inv
  have h' := @session_validation Block stOne ['u'] 0 1 stOne_inv
  ⟨stOne_inv, by decide, h.2.1 (by decide), by decide, h'.2.2.1 (by decide)⟩

/-- The session check of a request that has just been accepted fails, and leaves the
registry alone. -/
theorem session_check_replay (st : Sessions) (u : List Char) (s q : Nat)
    (h : (session_check st u s q).1 = true) :
    session_check (session_check st u s q).2 u s q = (false, (session_check st u s q).2) := by
  unfold session_check at h ⊢
  cases hU : st.US_map u with
  | none => rw [hU] at h; simp at h
  | some sessions =>
    rw [hU] at h
    simp only [hU]
    by_cases hm : s ∈ sessions
    · simp only [hm, not_true_eq_false, if_false] at h ⊢
      cases hS : st.SS_map s with
      | none =>
        rw [hS] at h
        simp only [hS]
        by_cases hq : 0 ≥ q
        · simp [hq] at h
        · simp [hq, hU, hm]
      | some last =>
        rw [hS] at h
        simp only [hS]
        by_cases hq : last ≥ q
        · simp [hq] at h
        · simp [hq, hU, hm]
    · simp [hm] at h

/-- A request that `serve` answered, other than FS_SESSION, is not answered again. -/
theorem serve_replay (P : Params) (L : Layout β) (E : Env β) (sv sv1 : Server β)
    (username crequest : List Char) (hd : Head) (rep : Reply β)
    (h : serve P L E sv username crequest hd = some (sv1, some rep))
    (hty : hd.type ≠ request_type.SESSION) :
    serve P L E sv1 username crequest hd = some (sv1, none) ∧
      sv1.sess.UP_map = sv.sess.UP_map ∧ rep.type = hd.type := by
  unfold serve at h
  simp only [hty, ne_eq, not_false_eq_true, if_true, if_false] at h
  by_cases hc : (session_check sv.sess username hd.session hd.sequence).1 = false
  · simp [hc] at h
  · simp only [hc, if_false] at h
    have hc' : (session_check sv.sess username hd.session hd.sequence).1 = true := by
      simpa using hc
    cases hp : parse_req P sv.fs.num_block_remain (List.drop hd.r crequest) hd.type
        { E.args with pathname := [] } with
    | none => simp [hp] at h
    | some a =>
      simp only [hp, Option.map_eq_some', eq_false (by decide : ¬ (true = false)), if_false] at h
      obtain ⟨res, _, hres⟩ := h
      by_cases hok : res.1 = false
      · simp [hok] at hres
      · rw [if_neg hok] at hres
        cases hres
        refine ⟨?_, ?_, rfl⟩
        · unfold serve
          simp only [hty, ne_eq, not_false_eq_true, if_true,
            session_check_replay _ _ _ _ hc']
        · unfold session_check
          cases hU : sv.sess.US_map username with
          | none => rfl
          | some sessions =>
            dsimp only
            split
            · rfl
            · split <;> split <;> rfl

/-- C8 (amended). Replay rejection for the requests that are not FS_SESSION: if
`message_handler` answers a request of type CREATE, DELETE, READ or WRITE, then
handling the identical request again returns without a response and leaves the server
state as it is. -/
theorem replay_rejected (P : Params) (L : Layout β) (E : Env β) (sv sv1 : Server β)
    (header request_body : List Char) (rep : Reply β)
    (h : message_handler P L E sv header request_body = some (sv1, some rep))
    (hty : rep.type ≠ request_type.SESSION) :
    message_handler P L E sv1 header request_body = some (sv1, none) := by
  unfold message_handler at h ⊢
  cases hd : decode E sv.sess.UP_map header request_body with
  | none => simp [hd] at h
  | some d =>
    obtain ⟨username, pw, crequest⟩ := d
    simp only [hd] at h
    cases hh : parse_head P crequest with
    | none => simp [hh] at h
    | some head =>
      simp only [hh] at h
      have hty' : head.type ≠ request_type.SESSION := by
        intro h0
        unfold serve at h
        simp only [h0, ne_eq, not_true_eq_false, if_false, if_true,
          eq_false (by decide : ¬ (true = false))] at h
        split at h
        · simp at h
        · split at h
          · simp at h
          · simp only [Option.map_eq_some'] at h
            obtain ⟨res, _, hres⟩ := h
            split at hres
            · simp at hres
            · cases hres
              exact hty rfl
      obtain ⟨h1, h2, _⟩ := serve_replay P L E sv sv1 username crequest head rep h hty'
      rw [h2, hd]
      simp only [hh]
      exact h1

theorem replay_rejected_witness :
    ∃ sv1 rep, message_handler P0 Block.layout E0 svOne reqRead.1 reqRead.2
        = some (sv1, some rep) ∧ rep.type ≠ request_type.SESSION ∧
      message_handler P0 Block.layout E0 sv1 reqRead.1 reqRead.2 = some (sv1, none) := by
  have h1 : (message_handler P0 Block.layout E0 svOne reqRead.1 reqRead.2).map
      (fun x => x.2.map (fun r => r.type)) = some (some request_type.READ) := by decide
  obtain ⟨⟨sv1, orep⟩, hr, hv⟩ := Option.map_eq_some'.mp h1
  simp only [Option.some.injEq] at hv
  obtain ⟨rep, hrep, hty⟩ := Option.map_eq_some'.mp hv
  subst hrep
  have hne : rep.type ≠ request_type.SESSION := by rw [hty]; decide
  exact ⟨sv1, rep, hr, hne,
    replay_rejected P0 Block.layout E0 svOne sv1 reqRead.1 reqRead.2 rep hr hne⟩

/-- C8 (counterexample). Two identical FS_SESSION requests handled in succession are
both answered. -/
theorem session_request_answered_twice :
    (run P0 Block.layout E0 sv0 [reqSession, reqSession]).map
      (fun x => x.2.map (fun o => o.map (fun rep => (rep.type, rep.session))))
      = some [some (request_type.SESSION, 0), some (request_type.SESSION, 1)] := by
  decide

/-- What a response of `serve` says about the request. -/
theorem serve_some_reply (P : Params) (L : Layout β) (E : Env β) (sv sv1 : Server β)
    (username crequest : List Char) (hd : Head) (rep : Reply β)
    (h : serve P L E sv username crequest hd = some (sv1, some rep)) :
    ∃ st a res session,
      parse_req P sv.fs.num_block_remain (crequest.drop hd.r) hd.type
        { E.args with pathname := [] } = some a ∧
      conduct_operation P L E.u sv.fs a.pathname (c_str username) a.block a.cr_type
        (E.ofData a.data) E.read_data hd.type = some res ∧
      sv1 = { sess := st, fs := res.2.1 } ∧
      rep = { type := hd.type, session := session, sequence := hd.sequence,
              read_data := res.2.2 } ∧
      ((hd.type ≠ request_type.SESSION ∧ session = hd.session ∧
          session_check sv.sess username hd.session hd.sequence = (true, st)) ∨
       (hd.type = request_type.SESSION ∧ hd.session = 0 ∧
          open_session sv.sess username hd.sequence = some (session, st))) := by
  unfold serve at h
  dsimp only at h
  by_cases hty : hd.type = request_type.SESSION
  · simp only [hty, ne_eq, not_true_eq_false, if_false, if_true,
      eq_false (by decide : ¬ (true = false))] at h
    cases hp : parse_req P sv.fs.num_block_remain (List.drop hd.r crequest)
        request_type.SESSION { E.args with pathname := [] } with
    | none => rw [hp] at h; simp at h
    | some a =>
      rw [hp] at h
      dsimp only at h
      by_cases hs : hd.session = 0
      · simp only [hs, not_true_eq_false, if_false] at h
        cases ho : open_session sv.sess username hd.sequence with
        | none => rw [ho] at h; simp at h
        | some o =>
          obtain ⟨session, st⟩ := o
          rw [ho] at h
          simp only [Option.map_eq_some'] at h
          obtain ⟨res, hres, hv⟩ := h
          by_cases hok : res.1 = false
          · rw [if_pos hok] at hv; simp at hv
          · rw [if_neg hok] at hv
            cases hv
            exact ⟨st, a, res, session, by rw [hty]; exact hp, by rw [hty]; exact hres, rfl,
              by rw [hty], Or.inr ⟨hty, hs, rfl⟩⟩
      · simp [hs] at h
  · simp only [hty, ne_eq, not_false_eq_true, if_true, if_false] at h
    by_cases hc : (session_check sv.sess username hd.session hd.sequence).1 = false
    · rw [if_pos hc] at h; simp at h
    · rw [if_neg hc] at h
      cases hp : parse_req P sv.fs.num_block_remain (List.drop hd.r crequest)
          hd.type { E.args with pathname := [] } with
      | none => rw [hp] at h; simp at h
      | some a =>
        rw [hp] at h
        simp only [Option.map_eq_some'] at h
        obtain ⟨res, hres, hv⟩ := h
        by_cases hok : res.1 = false
        · rw [if_pos hok] at hv; simp at hv
        · rw [if_neg hok] at hv
          cases hv
          refine ⟨_, a, res, hd.session, rfl, hres, rfl, rfl, Or.inl ⟨hty, rfl, ?_⟩⟩
          have hc' : (session_check sv.sess username hd.session hd.sequence).1 = true := by
            simpa using hc
          rw [← hc']

/-- A request that is handled leaves the flag `session_max` set if it was. -/
theorem serve_session_max (P : Params) (L : Layout β) (E : Env β) (sv sv1 : Server β)
    (username crequest : List Char) (hd : Head) (orep : Option (Reply β))
    (hmax : sv.sess.session_max = true)
    (h : serve P L E sv username crequest hd = some (sv1, orep)) :
    sv1.sess.session_max = true ∧
      (hd.type = request_type.SESSION → sv1 = sv ∧ orep = none) := by
  have hchk : (session_check sv.sess username hd.session hd.sequence).2.session_max = true := by
    unfold session_check
    cases sv.sess.US_map username with
    | none => exact hmax
    | some sessions =>
      dsimp only
      split
      · exact hmax
      · split <;> split <;> exact hmax
  unfold serve at h
  by_cases hty : hd.type = request_type.SESSION
  · simp only [hty, ne_eq, not_true_eq_false, if_false, if_true,
      eq_false (by decide : ¬ (true = false))] at h
    have hopen : open_session sv.sess username hd.sequence = none := by
      simp [open_session, hmax]
    rw [hopen] at h
    have hsv : ({ sess := sv.sess, fs := sv.fs } : Server β) = sv := rfl
    split at h
    · simp only [ite_self, Option.some.injEq, Prod.mk.injEq, hsv] at h
      obtain ⟨h1, h2⟩ := h
      subst h1
      exact ⟨hmax, fun _ => ⟨rfl, h2.symm⟩⟩
    · simp only [ite_self, Option.some.injEq, Prod.mk.injEq, hsv] at h
      obtain ⟨h1, h2⟩ := h
      subst h1
      exact ⟨hmax, fun _ => ⟨rfl, h2.symm⟩⟩
  · refine ⟨?_, fun h0 => absurd h0 hty⟩
    simp only [hty, ne_eq, not_false_eq_true, if_true, if_false] at h
    split at h
    · cases h; exact hchk
    · split at h
      · cases h; exact hchk
      · simp only [Option.map_eq_some'] at h
        obtain ⟨res, _, hres⟩ := h
        split at hres
        · cases hres; exact hchk
        · cases hres; exact hchk

/-- Once the flag `session_max` is set, FS_SESSION requests are refused and the flag
stays set. -/
theorem session_max_refuses (P : Params) (L : Layout β) (E : Env β) (sv : Server β)
    (header request_body : List Char) (hmax : sv.sess.session_max = true) :
    (∀ username password crequest hd,
      decode E sv.sess.UP_map header request_body = some (username, password, crequest) →
      parse_head P crequest = some hd → hd.type = request_type.SESSION →
      message_handler P L E sv header request_body = some (sv, none)) ∧
    (∀ sv1 orep, message_handler P L E sv header request_body = some (sv1, orep) →
      sv1.sess.session_max = true ∧ ∀ rep, orep = some rep → rep.type ≠ request_type.SESSION) := by
  constructor
  · intro username password crequest hd hdec hph hty
    unfold message_handler
    simp only [hdec, hph]
    cases hs : serve P L E sv username crequest hd with
    | none =>
      exfalso
      unfold serve at hs
      simp only [hty, ne_eq, not_true_eq_false, if_false, if_true,
        eq_false (by decide : ¬ (true = false))] at hs
      have hopen : open_session sv.sess username hd.sequence = none := by
        simp [open_session, hmax]
      rw [hopen] at hs
      split at hs
      · simp at hs
      · simp at hs
    | some r =>
      obtain ⟨sv1, orep⟩ := r
      obtain ⟨_, h2⟩ := serve_session_max P L E sv sv1 username crequest hd orep hmax hs
      obtain ⟨h3, h4⟩ := h2 hty
      rw [h3, h4]
  · intro sv1 orep h
    unfold message_handler at h
    cases hdec : decode E sv.sess.UP_map header request_body with
    | none =>
      simp only [hdec, Option.some.injEq, Prod.mk.injEq] at h
      obtain ⟨h1, h2⟩ := h
      subst h1; subst h2
      exact ⟨hmax, fun rep hrep => by simp at hrep⟩
    | some d =>
      obtain ⟨username, pw, crequest⟩ := d
      simp only [hdec] at h
      cases hph : parse_head P crequest with
      | none =>
        simp only [hph, Option.some.injEq, Prod.mk.injEq] at h
        obtain ⟨h1, h2⟩ := h
        subst h1; subst h2
        exact ⟨hmax, fun rep hrep => by simp at hrep⟩
      | some hd =>
        simp only [hph] at h
        obtain ⟨h1, h2⟩ := serve_session_max P L E sv sv1 username crequest hd orep hmax h
        refine ⟨h1, ?_⟩
        intro rep hrep hty
        have hty' : hd.type = request_type.SESSION := by
          rw [hrep] at h
          obtain ⟨_, _, _, _, _, _, _, hr, _⟩ :=
            serve_some_reply P L E sv sv1 username crequest hd rep h
          rw [hr] at hty
          exact hty
        rw [(h2 hty').2] at hrep
        simp at hrep

/-- The FS_SESSION request answered when the counter has reached the largest
`unsigned int` gets that id and sets the flag. -/
theorem last_id_sets_flag (P : Params) (L : Layout β) (E : Env β) (sv sv1 : Server β)
    (header request_body username password crequest : List Char) (hd : Head) (rep : Reply β)
    (hid : sv.sess.session_id = UINT_MOD - 1)
    (hdec : decode E sv.sess.UP_map header request_body = some (username, password, crequest))
    (hph : parse_head P crequest = some hd) (hty : hd.type = request_type.SESSION)
    (h : message_handler P L E sv header request_body = some (sv1, some rep)) :
    rep.type = request_type.SESSION ∧ rep.session = UINT_MOD - 1 ∧
      sv1.sess.session_max = true := by
  unfold message_handler at h
  simp only [hdec, hph] at h
  obtain ⟨st, a, res, session, _, _, hsv, hrep, hcase⟩ :=
    serve_some_reply P L E sv sv1 username crequest hd rep h
  rcases hcase with ⟨hne, _⟩ | ⟨_, _, hopen⟩
  · exact absurd hty hne
  · unfold open_session at hopen
    split at hopen
    · exact absurd hopen (by simp)
    · simp only [Option.some.injEq, Prod.mk.injEq] at hopen
      obtain ⟨h1, h2⟩ := hopen
      rw [hrep, hsv, ← h1, ← h2]
      exact ⟨hty, hid, by simp [hid]⟩

/-- C10 (amended). Session exhaustion.  Once the flag `session_max` is set, an
FS_SESSION request returns without a response and leaves the whole server state,
`US_map` and `SS_map` included, as it is; and whatever request is handled, the flag
stays set and no FS_SESSION response is made, so that every later FS_SESSION request
is refused as well.  The flag is set by the FS_SESSION request that is answered while
`session_id` equals the largest `unsigned int`: that request still gets this id. -/
theorem session_exhaustion (P : Params) (L : Layout β) (E : Env β) (sv : Server β)
    (header request_body : List Char) :
    (sv.sess.session_max = true →
      (∀ username password crequest hd,
        decode E sv.sess.UP_map header request_body = some (username, password, crequest) →
        parse_head P crequest = some hd → hd.type = request_type.SESSION →
        message_handler P L E sv header request_body = some (sv, none)) ∧
      (∀ sv1 orep, message_handler P L E sv header request_body = some (sv1, orep) →
        sv1.sess.session_max = true ∧
        ∀ rep, orep = some rep → rep.type ≠ request_type.SESSION)) ∧
    (sv.sess.session_id = UINT_MOD - 1 →
      ∀ username password crequest hd sv1 rep,
        decode E sv.sess.UP_map header request_body = some (username, password, crequest) →
        parse_head P crequest = some hd → hd.type = request_type.SESSION →
        message_handler P L E sv header request_body = some (sv1, some rep) →
        rep.type = request_type.SESSION ∧ rep.session = UINT_MOD - 1 ∧
          sv1.sess.session_max = true) :=
  ⟨fun hmax => session_max_refuses P L E sv header request_body hmax,
   fun hid username password crequest hd sv1 rep hdec hph hty h =>
     last_id_sets_flag P L E sv sv1 header request_body username password crequest hd rep
       hid hdec hph hty h⟩

theorem session_exhaustion_witness :
    svMax.sess.session_max = true ∧
    message_handler P0 Block.layout E0 svMax reqSession.1 reqSession.2 = some (svMax, none) :=
  ⟨rfl, ((session_exhaustion P0 Block.layout E0 svMax reqSession.1 reqSession.2).1 rfl).1
    ['u'] ['p'] reqSession.2
    { type := request_type.SESSION, session := 0, sequence := 1, r := 14 }
    (by decide) (by decide) rfl⟩

/-- C10 (counterexample). With `session_id` equal to the largest `unsigned int` and the
flag not yet set, an FS_SESSION request is answered, with that id. -/
theorem last_session_id_is_issued :
    svLast.sess.session_id = UINT_MOD - 1 ∧ svLast.sess.session_max = false ∧
    (message_handler P0 Block.layout E0 svLast reqSession.1 reqSession.2).map
      (fun x => (x.1.sess.session_max, x.2.map (fun rep => (rep.type, rep.session))))
      = some (true, some (request_type.SESSION, 4294967295)) := by
  decide

/-- The session check changes neither the counter, nor the flag, nor `US_map`. -/
theorem session_check_keeps (st : Sessions) (u : List Char) (s q : Nat) :
    (session_check st u s q).2.session_id = st.session_id ∧
    (session_check st u s q).2.session_max = st.session_max ∧
    (session_check st u s q).2.US_map = st.US_map := by
  unfold session_check
  cases st.US_map u with
  | none => exact ⟨rfl, rfl, rfl⟩
  | some sessions =>
    dsimp only
    split
    · exact ⟨rfl, rfl, rfl⟩
    · split <;> split <;> exact ⟨rfl, rfl, rfl⟩

theorem IssuedInv_of_keeps {st st' : Sessions} {k : Nat} (h : IssuedInv st k)
    (h1 : st'.session_id = st.session_id) (h2 : st'.session_max = st.session_max)
    (h3 : st'.US_map = st.US_map) : IssuedInv st' k := by
  unfold IssuedInv at h ⊢
  rw [h1, h2, h3]
  exact h

/-- Opening a session issues the next id. -/
theorem open_session_inv {st st' : Sessions} {k id : Nat} {u : List Char} {q : Nat}
    (h : IssuedInv st k) (ho : open_session st u q = some (id, st')) :
    id = k ∧ IssuedInv st' (k + 1) := by
  unfold open_session at ho
  by_cases hm : st.session_max = true
  · simp [hm] at ho
  · have hm' : st.session_max = false := by simpa using hm
    simp only [hm', Bool.false_eq_true, if_false, Option.some.injEq, Prod.mk.injEq] at ho
    obtain ⟨hid, hst⟩ := ho
    obtain ⟨i1, _, i3, i4, i5⟩ := h
    obtain ⟨hk, hlt⟩ := i1 hm'
    rw [hk] at hid hst
    refine ⟨hid.symm, ?_⟩
    subst hst
    have hus : ∀ v sessions, Function.update st.US_map u
        (some (((st.US_map u).getD []).insert k)) v = some sessions →
        (v = u ∧ sessions = ((st.US_map u).getD []).insert k) ∨
        (v ≠ u ∧ st.US_map v = some sessions) := by
      intro v sessions hv
      by_cases hvu : v = u
      · subst hvu
        rw [Function.update_same] at hv
        exact Or.inl ⟨rfl, (Option.some.inj hv).symm⟩
      · rw [Function.update_noteq hvu] at hv
        exact Or.inr ⟨hvu, hv⟩
    have hold : ∀ x, x ∈ (st.US_map u).getD [] → x < k := by
      intro x hx
      cases hU : st.US_map u with
      | none => rw [hU] at hx; simp at hx
      | some sessions => rw [hU] at hx; exact i3 u sessions hU x hx
    refine ⟨?_, ?_, ?_, ?_, ?_⟩
    · intro hmax
      dsimp only at hmax ⊢
      have hne : k ≠ UINT_MOD - 1 := by
        intro h0; simp [h0] at hmax
      have : k + 1 < UINT_MOD := by unfold UINT_MOD at *; omega
      exact ⟨Nat.mod_eq_of_lt this, this⟩
    · intro hmax
      dsimp only at hmax
      by_cases h0 : k = UINT_MOD - 1
      · unfold UINT_MOD at *; omega
      · simp [h0, hm'] at hmax
    · intro v sessions hv x hx
      rcases hus v sessions hv with ⟨_, rfl⟩ | ⟨_, hv'⟩
      · rcases List.mem_insert_iff.mp hx with rfl | hx'
        · exact Nat.lt_succ_self _
        · exact Nat.lt_succ_of_lt (hold x hx')
      · exact Nat.lt_succ_of_lt (i3 v sessions hv' x hx)
    · intro x hx
      by_cases hxk : x = k
      · subst hxk
        exact ⟨u, _, Function.update_same _ _ _, List.mem_insert_self _ _⟩
      · obtain ⟨v, sessions, hv, hxs⟩ := i4 x (by omega)
        by_cases hvu : v = u
        · subst hvu
          refine ⟨v, _, Function.update_same _ _ _, ?_⟩
          rw [hv]
          exact List.mem_insert_of_mem hxs
        · exact ⟨v, sessions, (Function.update_noteq hvu _ _).trans hv, hxs⟩
    · intro u1 u2 s1 s2 x h1 h2 hx1 hx2
      rcases hus u1 s1 h1 with ⟨e1, rfl⟩ | ⟨n1, h1'⟩ <;>
        rcases hus u2 s2 h2 with ⟨e2, rfl⟩ | ⟨n2, h2'⟩
      · rw [e1, e2]
      · exfalso
        rcases List.mem_insert_iff.mp hx1 with rfl | hx'
        · exact absurd (i3 u2 s2 h2' _ hx2) (Nat.lt_irrefl _)
        · cases hU : st.US_map u with
          | none => rw [hU] at hx'; simp at hx'
          | some sessions =>
            rw [hU] at hx'
            exact n2 (i5 u2 u s2 sessions x h2' hU hx2 hx')
      · exfalso
        rcases List.mem_insert_iff.mp hx2 with rfl | hx'
        · exact absurd (i3 u1 s1 h1' _ hx1) (Nat.lt_irrefl _)
        · cases hU : st.US_map u with
          | none => rw [hU] at hx'; simp at hx'
          | some sessions =>
            rw [hU] at hx'
            exact n1 (i5 u1 u s1 sessions x h1' hU hx1 hx')
      · exact i5 u1 u2 s1 s2 x h1' h2' hx1 hx2

/-- When `serve` returns without a response, no session has been opened. -/
theorem serve_no_reply (P : Params) (L : Layout β) (E : Env β) (sv sv1 : Server β)
    (username crequest : List Char) (hd : Head)
    (h : serve P L E sv username crequest hd = some (sv1, none)) :
    sv1.sess.session_id = sv.sess.session_id ∧ sv1.sess.session_max = sv.sess.session_max ∧
      sv1.sess.US_map = sv.sess.US_map := by
  have hk := session_check_keeps sv.sess username hd.session hd.sequence
  unfold serve at h
  dsimp only at h
  by_cases hty : hd.type = request_type.SESSION
  · simp only [hty, ne_eq, not_true_eq_false, if_false, if_true,
      eq_false (by decide : ¬ (true = false))] at h
    cases hp : parse_req P sv.fs.num_block_remain (List.drop hd.r crequest)
        request_type.SESSION { E.args with pathname := [] } with
    | none => rw [hp] at h; cases h; exact ⟨rfl, rfl, rfl⟩
    | some a =>
      rw [hp] at h
      dsimp only at h
      by_cases hs : hd.session = 0
      · simp only [hs, not_true_eq_false, if_false] at h
        cases ho : open_session sv.sess username hd.sequence with
        | none => rw [ho] at h; cases h; exact ⟨rfl, rfl, rfl⟩
        | some o =>
          obtain ⟨session, st⟩ := o
          rw [ho] at h
          simp [conduct_operation] at h
      · simp only [hs, not_false_eq_true, if_true] at h
        cases h; exact ⟨rfl, rfl, rfl⟩
  · simp only [hty, ne_eq, not_false_eq_true, if_true, if_false] at h
    by_cases hc : (session_check sv.sess username hd.session hd.sequence).1 = false
    · rw [if_pos hc] at h; cases h; exact hk
    · rw [if_neg hc] at h
      cases hp : parse_req P sv.fs.num_block_remain (List.drop hd.r crequest)
          hd.type { E.args with pathname := [] } with
      | none => rw [hp] at h; cases h; exact hk
      | some a =>
        rw [hp] at h
        simp only [Option.map_eq_some'] at h
        obtain ⟨res, hres, hv⟩ := h
        by_cases hok : res.1 = false
        · rw [if_pos hok] at hv; cases hv; exact hk
        · rw [if_neg hok] at hv; cases hv

/-- One request: either a session is opened, with the next id, or the ids issued are
as before. -/
theorem message_handler_inv (P : Params) (L : Layout β) (E : Env β) (sv sv1 : Server β)
    (header request_body : List Char) (orep : Option (Reply β)) (k : Nat)
    (hinv : IssuedInv sv.sess k)
    (h : message_handler P L E sv header request_body = some (sv1, orep)) :
    (issued [orep] = [k] ∧ IssuedInv sv1.sess (k + 1)) ∨
    (issued [orep] = [] ∧ IssuedInv sv1.sess k) := by
  unfold message_handler at h
  cases hdec : decode E sv.sess.UP_map header request_body with
  | none =>
    simp only [hdec, Option.some.injEq, Prod.mk.injEq] at h
    obtain ⟨h1, h2⟩ := h
    subst h1; subst h2
    exact Or.inr ⟨rfl, hinv⟩
  | some d =>
    obtain ⟨username, pw, crequest⟩ := d
    simp only [hdec] at h
    cases hph : parse_head P crequest with
    | none =>
      simp only [hph, Option.some.injEq, Prod.mk.injEq] at h
      obtain ⟨h1, h2⟩ := h
      subst h1; subst h2
      exact Or.inr ⟨rfl, hinv⟩
    | some hd =>
      simp only [hph] at h
      cases orep with
      | none =>
        obtain ⟨h1, h2, h3⟩ := serve_no_reply P L E sv sv1 username crequest hd h
        exact Or.inr ⟨rfl, IssuedInv_of_keeps hinv h1 h2 h3⟩
      | some rep =>
        obtain ⟨st, a, res, session, _, _, hsv, hrep, hcase⟩ :=
          serve_some_reply P L E sv sv1 username crequest hd rep h
        rcases hcase with ⟨hty, _, hchk⟩ | ⟨hty, _, hopen⟩
        · right
          have hk := session_check_keeps sv.sess username hd.session hd.sequence
          rw [hchk] at hk
          refine ⟨?_, ?_⟩
          · simp [issued, hrep, hty]
          · rw [hsv]; exact IssuedInv_of_keeps hinv hk.1 hk.2.1 hk.2.2
        · left
          obtain ⟨hid, hinv'⟩ := open_session_inv hinv hopen
          refine ⟨?_, ?_⟩
          · simp [issued, hrep, hty, hid]
          · rw [hsv]; exact hinv'

theorem issued_cons (o : Option (Reply β)) (reps : List (Option (Reply β))) :
    issued (o :: reps) = issued [o] ++ issued reps := by
  cases o with
  | none => simp [issued]
  | some rep =>
    by_cases h : rep.type = request_type.SESSION <;> simp [issued, h]

/-- A run of requests issues consecutive ids. -/
theorem run_inv (P : Params) (L : Layout β) (E : Env β) :
    ∀ (reqs : List (List Char × List Char)) (sv sv1 : Server β)
      (reps : List (Option (Reply β))) (k : Nat),
      IssuedInv sv.sess k → run P L E sv reqs = some (sv1, reps) →
      issued reps = List.range' k (issued reps).length ∧
        IssuedInv sv1.sess (k + (issued reps).length) := by
  intro reqs
  induction reqs with
  | nil =>
    intro sv sv1 reps k hinv h
    simp only [run, Option.some.injEq, Prod.mk.injEq] at h
    obtain ⟨h1, h2⟩ := h
    subst h1; subst h2
    exact ⟨rfl, hinv⟩
  | cons req reqs ih =>
    intro sv sv1 reps k hinv h
    simp only [run, Option.bind_eq_some, Option.map_eq_some'] at h
    obtain ⟨⟨sva, orep⟩, h1, ⟨svb, reps'⟩, h2, h3⟩ := h
    simp only [Prod.mk.injEq] at h3
    obtain ⟨h3a, h3b⟩ := h3
    subst h3a; subst h3b
    rw [issued_cons]
    rcases message_handler_inv P L E sv sva req.1 req.2 orep k hinv h1 with
      ⟨hi, hinv'⟩ | ⟨hi, hinv'⟩
    · obtain ⟨e1, e2⟩ := ih sva svb reps' (k + 1) hinv' h2
      rw [hi]
      refine ⟨?_, ?_⟩
      · simp only [List.singleton_append, List.length_cons]
        rw [List.range'_succ]
        congr 1
      · simp only [List.singleton_append, List.length_cons]
        have : k + ((issued reps').length + 1) = k + 1 + (issued reps').length := by omega
        rw [this]; exact e2
    · obtain ⟨e1, e2⟩ := ih sva svb reps' k hinv' h2
      rw [hi]
      exact ⟨e1, e2⟩

theorem sessions0_inv (UP : List Char → Option (List Char)) : IssuedInv (sessions0 UP) 0 := by
  refine ⟨fun _ => ⟨rfl, by unfold UINT_MOD; decide⟩, fun h => by simp [sessions0] at h,
    ?_, fun x hx => absurd hx (Nat.not_lt_zero x), ?_⟩
  · intro u sessions h; simp [sessions0] at h
  · intro u1 u2 s1 s2 x h; simp [sessions0] at h

/-- C9. Session ids are unique and assigned in increasing order: over any sequence of
requests handled one after the other from the start-up registry, the ids carried by the
responses to FS_SESSION requests are 0, 1, 2, ... in that order, none is issued twice,
and every id issued is in the session set of exactly one user. -/
theorem session_ids_increasing (P : Params) (L : Layout β) (E : Env β)
    (UP : List Char → Option (List Char)) (fs : State β)
    (reqs : List (List Char × List Char)) (sv1 : Server β) (reps : List (Option (Reply β)))
    (h : run P L E { sess := sessions0 UP, fs := fs } reqs = some (sv1, reps)) :
    issued reps = List.range (issued reps).length ∧ (issued reps).Nodup ∧
    ∀ id, id ∈ issued reps →
      ∃ u sessions, sv1.sess.US_map u = some sessions ∧ id ∈ sessions ∧
        ∀ u' sessions', sv1.sess.US_map u' = some sessions' → id ∈ sessions' → u' = u := by
  obtain ⟨e1, e2⟩ := run_inv P L E reqs _ sv1 reps 0 (sessions0_inv UP) h
  have e1' : issued reps = List.range (issued reps).length := by
    rw [List.range_eq_range']; exact e1
  refine ⟨e1', ?_, ?_⟩
  · rw [e1']; exact List.nodup_range _
  · intro id hid
    rw [e1'] at hid
    have hlt : id < 0 + (issued reps).length := by
      rw [Nat.zero_add]; exact List.mem_range.mp hid
    obtain ⟨u, sessions, hu, hmem⟩ := e2.2.2.2.1 id hlt
    exact ⟨u, sessions, hu, hmem, fun u' sessions' hu' hmem' =>
      e2.2.2.2.2 u' u sessions' sessions id hu' hu hmem' hmem⟩

theorem session_ids_increasing_witness :
    ∃ sv1 reps, run P0 Block.layout E0 { sess := sessions0 UP0, fs := sFile }
        [reqSession, reqRead, reqSession] = some (sv1, reps) ∧
      issued reps = [0, 1] ∧ issued reps = List.range (issued reps).length ∧
      (issued reps).Nodup := by
  have h1 : (run P0 Block.layout E0 { sess := sessions0 UP0, fs := sFile }
      [reqSession, reqRead, reqSession]).map (fun x => issued x.2) = some [0, 1] := by decide
  obtain ⟨⟨sv1, reps⟩, hr, hv⟩ := Option.map_eq_some'.mp h1
  have h := session_ids_increasing P0 Block.layout E0 UP0 sFile _ sv1 reps hr
  exact ⟨sv1, reps, hr, hv, h.1, h.2.1⟩

/-! ## Sequence numbers never decrease (P5) -/

theorem SeqLe_refl (st : Sessions) : SeqLe st st :=
  fun _ v h => ⟨v, h, Nat.le_refl v⟩

theorem SeqLe_trans {a b c : Sessions} (h1 : SeqLe a b) (h2 : SeqLe b c) : SeqLe a c := by
  intro x v h
  obtain ⟨v1, e1, l1⟩ := h1 x v h
  obtain ⟨v2, e2, l2⟩ := h2 x v1 e1
  exact ⟨v2, e2, Nat.le_trans l1 l2⟩

/-- The number `k` of ids issued is determined by the registry. -/
theorem IssuedInv_unique {st : Sessions} {k k1 : Nat} (h : IssuedInv st k)
    (h1 : IssuedInv st k1) : k = k1 := by
  obtain ⟨_, _, a3, a4, _⟩ := h
  obtain ⟨_, _, b3, b4, _⟩ := h1
  rcases Nat.lt_trichotomy k k1 with hlt | heq | hgt
  · obtain ⟨u, sessions, hu, hx⟩ := b4 k hlt
    exact absurd (a3 u sessions hu k hx) (Nat.lt_irrefl k)
  · exact heq
  · obtain ⟨u, sessions, hu, hx⟩ := a4 k1 hgt
    exact absurd (b3 u sessions hu k1 hx) (Nat.lt_irrefl k1)

/-- The session check keeps the keys of `SS_map` and never lowers an entry. -/
theorem session_check_mono (st : Sessions) (u : List Char) (s q k : Nat)
    (hinv : IssuedInv st k) (hseq : SeqInv st k) :
    SeqInv (session_check st u s q).2 k ∧ SeqLe st (session_check st u s q).2 := by
  unfold session_check
  cases hU : st.US_map u with
  | none => exact ⟨hseq, SeqLe_refl st⟩
  | some sessions =>
    dsimp only
    by_cases hmem : s ∉ sessions
    · rw [if_pos hmem]; exact ⟨hseq, SeqLe_refl st⟩
    · rw [if_neg hmem]
      have hmem' : s ∈ sessions := by
        by_contra hc; exact hmem hc
      have hlt : s < k := hinv.2.2.1 u sessions hU s hmem'
      have hsome : (st.SS_map s).isSome = true := (hseq s).mpr hlt
      cases hS : st.SS_map s with
      | none => rw [hS] at hsome; cases hsome
      | some last =>
        dsimp only
        by_cases hge : last ≥ q
        · rw [if_pos hge]; exact ⟨hseq, SeqLe_refl st⟩
        · rw [if_neg hge]
          refine ⟨?_, ?_⟩
          · intro x
            dsimp only
            by_cases hx : x = s
            · subst hx
              rw [Function.update_same]
              exact ⟨fun _ => hlt, fun _ => rfl⟩
            · rw [Function.update_noteq hx]; exact hseq x
          · intro x v hv
            dsimp only
            by_cases hx : x = s
            · subst hx
              rw [Function.update_same]
              rw [hS] at hv
              cases hv
              exact ⟨q, rfl, by omega⟩
            · rw [Function.update_noteq hx]; exact ⟨v, hv, Nat.le_refl v⟩

/-- Opening a session adds the key `k` to `SS_map` and touches no other entry. -/
theorem open_session_mono {st st1 : Sessions} {k id : Nat} {u : List Char} {q : Nat}
    (hinv : IssuedInv st k) (hseq : SeqInv st k)
    (ho : open_session st u q = some (id, st1)) :
    SeqInv st1 (k + 1) ∧ SeqLe st st1 := by
  unfold open_session at ho
  by_cases hm : st.session_max = true
  · simp [hm] at ho
  · have hm' : st.session_max = false := by simpa using hm
    simp only [hm', Bool.false_eq_true, if_false, Option.some.injEq, Prod.mk.injEq] at ho
    obtain ⟨_, hst⟩ := ho
    obtain ⟨hk, _⟩ := hinv.1 hm'
    rw [hk] at hst
    subst hst
    refine ⟨?_, ?_⟩
    · intro x
      dsimp only
      by_cases hx : x = k
      · subst hx
        rw [Function.update_same]
        exact ⟨fun _ => Nat.lt_succ_self x, fun _ => rfl⟩
      · rw [Function.update_noteq hx]
        rw [hseq x]
        omega
    · intro x v hv
      dsimp only
      have hx : x ≠ k := by
        intro hx
        have h1 : (st.SS_map x).isSome = true := by rw [hv]; rfl
        have h2 := (hseq x).mp h1
        omega
      rw [Function.update_noteq hx]; exact ⟨v, hv, Nat.le_refl v⟩

/-- The registry after `serve`: the one before, the one left by the session check, or
the one left by the opening of a session. -/
theorem serve_sess (P : Params) (L : Layout β) (E : Env β) (sv sv1 : Server β)
    (username crequest : List Char) (hd : Head) (orep : Option (Reply β))
    (h : serve P L E sv username crequest hd = some (sv1, orep)) :
    sv1.sess = sv.sess ∨
    sv1.sess = (session_check sv.sess username hd.session hd.sequence).2 ∨
    ∃ id, open_session sv.sess username hd.sequence = some (id, sv1.sess) := by
  unfold serve at h
  dsimp only at h
  by_cases hty : hd.type = request_type.SESSION
  · simp only [hty, ne_eq, not_true_eq_false, if_false, if_true,
      eq_false (by decide : ¬ (true = false))] at h
    cases hp : parse_req P sv.fs.num_block_remain (List.drop hd.r crequest)
        request_type.SESSION { E.args with pathname := [] } with
    | none => rw [hp] at h; cases h; exact Or.inl rfl
    | some a =>
      rw [hp] at h
      dsimp only at h
      by_cases hs : hd.session = 0
      · simp only [hs, not_true_eq_false, if_false] at h
        cases ho : open_session sv.sess username hd.sequence with
        | none => rw [ho] at h; cases h; exact Or.inl rfl
        | some o =>
          obtain ⟨session, st⟩ := o
          rw [ho] at h
          simp only [Option.map_eq_some'] at h
          obtain ⟨res, _, hv⟩ := h
          right; right
          refine ⟨session, ?_⟩
          by_cases hok : res.1 = false
          · rw [if_pos hok] at hv; cases hv; rfl
          · rw [if_neg hok] at hv; cases hv; rfl
      · simp only [hs, not_false_eq_true, if_true] at h
        cases h; exact Or.inl rfl
  · simp only [hty, ne_eq, not_false_eq_true, if_true, if_false] at h
    by_cases hc : (session_check sv.sess username hd.session hd.sequence).1 = false
    · rw [if_pos hc] at h; cases h; exact Or.inr (Or.inl rfl)
    · rw [if_neg hc] at h
      cases hp : parse_req P sv.fs.num_block_remain (List.drop hd.r crequest)
          hd.type { E.args with pathname := [] } with
      | none => rw [hp] at h; cases h; exact Or.inr (Or.inl rfl)
      | some a =>
        rw [hp] at h
        simp only [Option.map_eq_some'] at h
        obtain ⟨res, _, hv⟩ := h
        right; left
        by_cases hok : res.1 = false
        · rw [if_pos hok] at hv; cases hv; rfl
        · rw [if_neg hok] at hv; cases hv; rfl

/-- One request never lowers an entry of `SS_map`, and keeps its keys the ids issued. -/
theorem message_handler_mono (P : Params) (L : Layout β) (E : Env β) (sv sv1 : Server β)
    (header request_body : List Char) (orep : Option (Reply β)) (k : Nat)
    (hinv : IssuedInv sv.sess k) (hseq : SeqInv sv.sess k)
    (h : message_handler P L E sv header request_body = some (sv1, orep)) :
    (∃ k1, IssuedInv sv1.sess k1 ∧ SeqInv sv1.sess k1) ∧ SeqLe sv.sess sv1.sess := by
  unfold message_handler at h
  cases hdec : decode E sv.sess.UP_map header request_body with
  | none =>
    simp only [hdec, Option.some.injEq, Prod.mk.injEq] at h
    obtain ⟨h1, _⟩ := h
    subst h1
    exact ⟨⟨k, hinv, hseq⟩, SeqLe_refl _⟩
  | some d =>
    obtain ⟨username, pw, crequest⟩ := d
    simp only [hdec] at h
    cases hph : parse_head P crequest with
    | none =>
      simp only [hph, Option.some.injEq, Prod.mk.injEq] at h
      obtain ⟨h1, _⟩ := h
      subst h1
      exact ⟨⟨k, hinv, hseq⟩, SeqLe_refl _⟩
    | some hd =>
      simp only [hph] at h
      rcases serve_sess P L E sv sv1 username crequest hd orep h with he | he | ⟨id, ho⟩
      · rw [he]; exact ⟨⟨k, hinv, hseq⟩, SeqLe_refl _⟩
      · have hk := session_check_keeps sv.sess username hd.session hd.sequence
        have hm := session_check_mono sv.sess username hd.session hd.sequence k hinv hseq
        rw [he]
        exact ⟨⟨k, IssuedInv_of_keeps hinv hk.1 hk.2.1 hk.2.2, hm.1⟩, hm.2⟩
      · obtain ⟨_, hinv1⟩ := open_session_inv hinv ho
        obtain ⟨hseq1, hle⟩ := open_session_mono hinv hseq ho
        exact ⟨⟨k + 1, hinv1, hseq1⟩, hle⟩

/-- A run of requests never lowers an entry of `SS_map`. -/
theorem run_mono (P : Params) (L : Layout β) (E : Env β) :
    ∀ (reqs : List (List Char × List Char)) (sv sv1 : Server β)
      (reps : List (Option (Reply β))) (k : Nat),
      IssuedInv sv.sess k → SeqInv sv.sess k → run P L E sv reqs = some (sv1, reps) →
      (∃ k1, IssuedInv sv1.sess k1 ∧ SeqInv sv1.sess k1) ∧ SeqLe sv.sess sv1.sess := by
  intro reqs
  induction reqs with
  | nil =>
    intro sv sv1 reps k hinv hseq h
    simp only [run, Option.some.injEq, Prod.mk.injEq] at h
    obtain ⟨h1, _⟩ := h
    subst h1
    exact ⟨⟨k, hinv, hseq⟩, SeqLe_refl _⟩
  | cons req reqs ih =>
    intro sv sv1 reps k hinv hseq h
    simp only [run, Option.bind_eq_some, Option.map_eq_some'] at h
    obtain ⟨⟨sva, orep⟩, h1, ⟨svb, reps1⟩, h2, h3⟩ := h
    simp only [Prod.mk.injEq] at h3
    obtain ⟨h3a, _⟩ := h3
    subst h3a
    obtain ⟨⟨k1, hinv1, hseq1⟩, hle1⟩ :=
      message_handler_mono P L E sv sva req.1 req.2 orep k hinv hseq h1
    obtain ⟨hex, hle2⟩ := ih sva svb reps1 k1 hinv1 hseq1 h2
    exact ⟨hex, SeqLe_trans hle1 hle2⟩

theorem sessions0_seq (UP : List Char → Option (List Char)) : SeqInv (sessions0 UP) 0 := by
  intro x
  simp [sessions0]

/-- C11. Sequence monotonicity (P5): over any sequence of requests handled one after
the other from the start-up registry, every session id issued so far has an entry in
`SS_map`, and over any further requests (FS_SESSION requests that open later sessions
included) that entry stays and its value never decreases. -/
theorem sequence_monotone (P : Params) (L : Layout β) (E : Env β)
    (UP : List Char → Option (List Char)) (fs : State β)
    (reqs reqs1 : List (List Char × List Char)) (sv1 sv2 : Server β)
    (reps reps1 : List (Option (Reply β)))
    (h : run P L E { sess := sessions0 UP, fs := fs } reqs = some (sv1, reps))
    (h1 : run P L E sv1 reqs1 = some (sv2, reps1)) :
    (∀ s, s ∈ issued reps → (sv1.sess.SS_map s).isSome = true) ∧
    ∀ s v, sv1.sess.SS_map s = some v →
      ∃ v1, sv2.sess.SS_map s = some v1 ∧ v ≤ v1 := by
  obtain ⟨e1, e2⟩ := run_inv P L E reqs _ sv1 reps 0 (sessions0_inv UP) h
  obtain ⟨⟨k1, hinv1, hseq1⟩, _⟩ :=
    run_mono P L E reqs _ sv1 reps 0 (sessions0_inv UP) (sessions0_seq UP) h
  obtain ⟨_, hle⟩ := run_mono P L E reqs1 sv1 sv2 reps1 k1 hinv1 hseq1 h1
  refine ⟨?_, hle⟩
  intro s hs
  have hk : 0 + (issued reps).length = k1 := IssuedInv_unique e2 hinv1
  rw [e1, List.mem_range'_1] at hs
  exact (hseq1 s).mpr (by omega)

theorem sequence_monotone_witness :
    ∃ sv1 sv2 reps reps1,
      run P0 Block.layout E0 { sess := sessions0 UP0, fs := sFile } [reqSession]
        = some (sv1, reps) ∧
      run P0 Block.layout E0 sv1 [reqRead, reqSession] = some (sv2, reps1) ∧
      sv1.sess.SS_map 0 = some 1 ∧ sv2.sess.SS_map 0 = some 2 ∧
      ∃ v1, sv2.sess.SS_map 0 = some v1 ∧ 1 ≤ v1 := by
  have h0 : ((run P0 Block.layout E0 { sess := sessions0 UP0, fs := sFile } [reqSession]).bind
      fun x => (run P0 Block.layout E0 x.1 [reqRead, reqSession]).map
        fun y => (x.1.sess.SS_map 0, y.1.sess.SS_map 0)) = some (some 1, some 2) := by decide
  obtain ⟨⟨sv1, reps⟩, hr, hb⟩ := Option.bind_eq_some.mp h0
  obtain ⟨⟨sv2, reps1⟩, hr1, hv⟩ := Option.map_eq_some'.mp hb
  simp only [Prod.mk.injEq] at hv
  exact ⟨sv1, sv2, reps, reps1, hr, hr1, hv.1, hv.2,
    (sequence_monotone P0 Block.layout E0 UP0 sFile _ _ sv1 sv2 reps reps1 hr hr1).2 0 1 hv.1⟩

end Sessions

/-! ## Postconditions of the operations -/

section Ops
variable {β : Type}

/-! ### The owner check on the way down -/

/-- When the walk ends on a block, every block read on the way passed the owner check,
provided the last one does. -/
theorem walk_visits_ok (P : Params) (L : Layout β) (username : List Char)
    (rtype : request_type) :
    ∀ (ts : List (List Char)) (s s1 : State β) (ib t : Nat),
      walk P L username rtype s ib ts = some (s1, some t) →
      owner_denied (L.toInode (s.disk t)).owner username = false →
      ∀ n, n ∈ walk_visits P L username s.disk ib ts →
        owner_denied (L.toInode (s.disk n)).owner username = false := by
  intro ts
  induction ts with
  | nil =>
    intro s s1 ib t h ht n hn
    simp only [walk, Option.some.injEq, Prod.mk.injEq] at h
    obtain ⟨_, h2⟩ := h
    subst h2
    simp only [walk_visits, List.mem_singleton] at hn
    rw [hn]; exact ht
  | cons tok rest ih =>
    intro s s1 ib t h ht n hn
    obtain ⟨hty, how, c, sa, sb, hsc, ha, hb, hw⟩ := walk_cons_some P L username rtype h
    have hda : sa.disk = s.disk := by
      by_cases hc : rest = [] ∧ rtype ≠ request_type.READ
      · rw [if_pos hc] at ha; exact (w_lock_frame ha).1
      · rw [if_neg hc] at ha; exact (r_lock_frame ha).1
    have hdb : sb.disk = s.disk := (r_unlock_frame hb).1.trans hda
    rw [walk_visits] at hn
    simp only [hty, ne_eq, not_true_eq_false, if_false, how, Bool.false_eq_true, hsc,
      List.mem_cons] at hn
    rcases hn with hn | hn
    · rw [hn]; exact how
    · have := ih sb s1 c t hw (by rw [hdb]; exact ht) n (by rw [hdb]; exact hn)
      rw [hdb] at this
      exact this

theorem owner_denied_false {owner username : List Char}
    (h : owner_denied owner username = false) : owner = [] ∨ owner = username := by
  unfold owner_denied at h
  by_cases h1 : owner = username
  · exact Or.inr h1
  · by_cases h2 : owner = []
    · exact Or.inl h2
    · simp [h1, h2] at h

/-- C12. Owner check on every visited inode: when `conduct_operation` returns true for
a request that is not FS_SESSION, every inode read on the way down from the root (each
ancestor directory and the target the walk ends on) has an empty owner or the owner
`username`; so when one of them has another, non-empty owner, a call that returns
returns false. -/
theorem owner_checked (P : Params) (L : Layout β) (u : Uninit)
    (s : State β) (path username : List Char) (offset : Nat) (c : Char)
    (wd rd : β) (rtype : request_type) (res : Bool × State β × β)
    (hne : rtype ≠ request_type.SESSION)
    (h : conduct_operation P L u s path username offset c wd rd rtype = some res) :
    (res.1 = true →
      ∃ paths, parse_path P path = some paths ∧
        ∀ n, n ∈ walk_visits P L username s.disk 0 (paths.take (path_depth rtype paths)) →
          (L.toInode (s.disk n)).owner = [] ∨ (L.toInode (s.disk n)).owner = username) ∧
    ((∃ paths n, parse_path P path = some paths ∧
        n ∈ walk_visits P L username s.disk 0 (paths.take (path_depth rtype paths)) ∧
        (L.toInode (s.disk n)).owner ≠ [] ∧ (L.toInode (s.disk n)).owner ≠ username) →
      res.1 = false) := by
  have key : res.1 = true →
      ∃ paths, parse_path P path = some paths ∧
        ∀ n, n ∈ walk_visits P L username s.disk 0 (paths.take (path_depth rtype paths)) →
          (L.toInode (s.disk n)).owner = [] ∨ (L.toInode (s.disk n)).owner = username := by
    intro hres
    obtain ⟨ok, s', rb⟩ := res
    simp only at hres
    subst hres
    obtain ⟨paths, s0, s1, t, hp, h0, hw, hon⟩ := conduct_operation_target P L u hne h
    refine ⟨paths, hp, ?_⟩
    have hd0 : s0.disk = s.disk := (lock_root_frame h0).1
    have hd1 : s1.disk = s0.disk := (walk_frame P L username rtype _ s0 0 _ hw).1
    have ht : owner_denied (L.toInode (s0.disk t)).owner username = false := by
      unfold on_target at hon
      dsimp only at hon
      by_cases hd : owner_denied (L.toInode (s1.disk t)).owner username = true
      · rw [if_pos hd] at hon
        cases hu : unlock_target s1 t rtype with
        | none => rw [hu] at hon; simp at hon
        | some s2 => rw [hu] at hon; simp at hon
      · rw [← hd1]; simpa using hd
    intro n hn
    rw [← hd0] at hn ⊢
    exact owner_denied_false (walk_visits_ok P L username rtype _ s0 s1 0 t hw ht n hn)
  refine ⟨key, ?_⟩
  rintro ⟨paths, n, hp, hn, h1, h2⟩
  cases hb : res.1 with
  | false => rfl
  | true =>
    obtain ⟨paths1, hp1, hall⟩ := key hb
    rw [hp] at hp1
    cases hp1
    rcases hall n hn with h | h
    · exact absurd h h1
    · exact absurd h h2

theorem owner_checked_witness :
    ∃ res, conduct_operation P0 Block.layout u0 sFile ['/', 'f'] ['u'] 0 'f'
        (Block.data []) (Block.data []) request_type.READ = some res ∧ res.1 = true ∧
      walk_visits P0 Block.layout ['u'] sFile.disk 0 [['f']] = [0, 2] ∧
      ∃ paths, parse_path P0 ['/', 'f'] = some paths ∧
        ∀ n, n ∈ walk_visits P0 Block.layout ['u'] sFile.disk 0
            (paths.take (path_depth request_type.READ paths)) →
          (Block.layout.toInode (sFile.disk n)).owner = [] ∨
            (Block.layout.toInode (sFile.disk n)).owner = ['u'] := by
  have h1 : (conduct_operation P0 Block.layout u0 sFile ['/', 'f'] ['u'] 0 'f'
      (Block.data []) (Block.data []) request_type.READ).map (fun r => r.1) = some true := by
    decide
  obtain ⟨res, hr, hv⟩ := Option.map_eq_some'.mp h1
  exact ⟨res, hr, hv, by decide,
    (owner_checked P0 Block.layout u0 sFile ['/', 'f'] ['u'] 0 'f' (Block.data [])
      (Block.data []) request_type.READ res (by decide) hr).1 hv⟩

/-! ### Path syntax -/

theorem tokenChar_iff (c : Char) : tokenChar c = true ↔ c ≠ '/' ∧ c ≠ '\x00' := by
  unfold tokenChar; simp

theorem tokenize_nil (P : Params) (fuel : Nat) : tokenize P fuel [] = some [] := by
  cases fuel <;> rfl

/-- A string without NUL splits into its first bytes other than '/', and a rest that
is empty or begins with '/'. -/
theorem take_drop_tok : ∀ (rest : List Char), '\x00' ∉ rest →
    rest = rest.takeWhile tokenChar ++ rest.dropWhile tokenChar ∧
    '/' ∉ rest.takeWhile tokenChar ∧
    (rest.dropWhile tokenChar = [] ∨ ∃ r, rest.dropWhile tokenChar = '/' :: r) ∧
    '\x00' ∉ rest.dropWhile tokenChar := by
  intro rest
  induction rest with
  | nil => intro _; simp
  | cons c r ih =>
    intro hnul
    have hc : c ≠ '\x00' := fun h => hnul (by rw [h]; exact List.mem_cons_self _ _)
    have hr : '\x00' ∉ r := fun h => hnul (List.mem_cons_of_mem _ h)
    obtain ⟨i1, i2, i3, i4⟩ := ih hr
    by_cases h : tokenChar c = true
    · have hs : c ≠ '/' := ((tokenChar_iff c).mp h).1
      rw [List.takeWhile_cons_of_pos h, List.dropWhile_cons_of_pos h]
      refine ⟨by rw [List.cons_append, ← i1], ?_, i3, i4⟩
      intro hm
      rcases List.mem_cons.mp hm with hm | hm
      · exact hs hm.symm
      · exact i2 hm
    · have hs : c = '/' := by
        by_contra hne
        exact h ((tokenChar_iff c).mpr ⟨hne, hc⟩)
      rw [List.takeWhile_cons_of_neg h, List.dropWhile_cons_of_neg h]
      refine ⟨rfl, by simp, Or.inr ⟨r, by rw [hs]⟩, hnul⟩

/-- The tokens of an accepted string without NUL: joined with '/' they give the string
back, and each is non-empty, without '/', and of at most `FS_MAXFILENAME` bytes. -/
theorem tokenize_sound (P : Params) :
    ∀ (fuel : Nat) (l : List Char) (paths : List (List Char)),
      l.length ≤ fuel → '\x00' ∉ l → (l = [] ∨ ∃ r, l = '/' :: r) →
      tokenize P fuel l = some paths →
      concat_tokens paths = l ∧
        ∀ t, t ∈ paths → t ≠ [] ∧ '/' ∉ t ∧ t.length ≤ P.FS_MAXFILENAME := by
  intro fuel
  induction fuel with
  | zero =>
    intro l paths hlen _ _ h
    have hl : l = [] := List.length_eq_zero.mp (Nat.le_zero.mp hlen)
    subst hl
    simp only [tokenize, Option.some.injEq] at h
    subst h
    exact ⟨rfl, fun t ht => absurd ht (List.not_mem_nil t)⟩
  | succ fuel ih =>
    intro l paths hlen hnul hhead h
    rcases hhead with hl | ⟨rest, hl⟩
    · subst hl
      simp only [tokenize, Option.some.injEq] at h
      subst h
      exact ⟨rfl, fun t ht => absurd ht (List.not_mem_nil t)⟩
    · subst hl
      have hr : '\x00' ∉ rest := fun h0 => hnul (List.mem_cons_of_mem _ h0)
      obtain ⟨i1, i2, i3, i4⟩ := take_drop_tok rest hr
      rw [tokenize] at h
      by_cases h1 : rest.takeWhile tokenChar = []
      · rw [if_pos h1] at h; cases h
      · rw [if_neg h1] at h
        by_cases h2 : (rest.takeWhile tokenChar).length > P.FS_MAXFILENAME
        · rw [if_pos h2] at h; cases h
        · rw [if_neg h2] at h
          simp only [Option.map_eq_some'] at h
          obtain ⟨ts, hts, hp⟩ := h
          have hlen1 : (rest.dropWhile tokenChar).length ≤ fuel := by
            have := (List.dropWhile_suffix tokenChar (l := rest)).length_le
            simp only [List.length_cons] at hlen
            omega
          obtain ⟨e1, e2⟩ := ih _ ts hlen1 i4 i3 hts
          subst hp
          refine ⟨?_, ?_⟩
          · rw [concat_tokens, e1, List.cons_append, ← i1]
          · intro t ht
            rcases List.mem_cons.mp ht with ht | ht
            · rw [ht]; exact ⟨h1, i2, Nat.le_of_not_gt h2⟩
            · exact e2 t ht

theorem getLast?_append_cons (a : List Char) (c : Char) (r : List Char) :
    (a ++ c :: r).getLast? = (c :: r).getLast? := by
  induction a with
  | nil => rfl
  | cons x a ih =>
    cases hq : a ++ c :: r with
    | nil => simp at hq
    | cons y q =>
      rw [List.cons_append, hq, List.getLast?_cons_cons, ← hq, ih]

/-- A string without NUL that the loop rejects has one of the errors of the
specification. -/
theorem tokenize_none (P : Params) :
    ∀ (fuel : Nat) (l : List Char),
      l.length ≤ fuel → '\x00' ∉ l → (l = [] ∨ ∃ r, l = '/' :: r) →
      tokenize P fuel l = none →
      l.getLast? = some '/' ∨ (∃ a b, l = a ++ '/' :: '/' :: b) ∨
        (∃ a t b, l = a ++ t ++ b ∧ '/' ∉ t ∧ P.FS_MAXFILENAME < t.length) := by
  intro fuel
  induction fuel with
  | zero =>
    intro l _ _ _ h
    simp [tokenize] at h
  | succ fuel ih =>
    intro l hlen hnul hhead h
    rcases hhead with hl | ⟨rest, hl⟩
    · subst hl
      simp [tokenize] at h
    · subst hl
      have hr : '\x00' ∉ rest := fun h0 => hnul (List.mem_cons_of_mem _ h0)
      obtain ⟨i1, i2, i3, i4⟩ := take_drop_tok rest hr
      rw [tokenize] at h
      by_cases h1 : rest.takeWhile tokenChar = []
      · rw [h1, List.nil_append] at i1
        rcases i3 with i3 | ⟨r, i3⟩
        · rw [i3] at i1
          left; rw [i1]; rfl
        · rw [i3] at i1
          right; left
          exact ⟨[], r, by rw [i1]; rfl⟩
      · rw [if_neg h1] at h
        by_cases h2 : (rest.takeWhile tokenChar).length > P.FS_MAXFILENAME
        · right; right
          refine ⟨['/'], rest.takeWhile tokenChar, rest.dropWhile tokenChar, ?_, i2, h2⟩
          rw [List.append_assoc, ← i1]; rfl
        · rw [if_neg h2] at h
          have hlen1 : (rest.dropWhile tokenChar).length ≤ fuel := by
            have := (List.dropWhile_suffix tokenChar (l := rest)).length_le
            simp only [List.length_cons] at hlen
            omega
          have hn : tokenize P fuel (rest.dropWhile tokenChar) = none := by
            cases ht : tokenize P fuel (rest.dropWhile tokenChar) with
            | none => rfl
            | some ts => rw [ht] at h; simp at h
          rcases i3 with i3 | ⟨r, i3⟩
          · rw [i3, tokenize_nil] at hn; cases hn
          · have hl : '/' :: rest
                = ('/' :: rest.takeWhile tokenChar) ++ rest.dropWhile tokenChar := by
              rw [List.cons_append, ← i1]
            rcases ih _ hlen1 i4 (Or.inr ⟨r, i3⟩) hn with c1 | ⟨a, b, c2⟩ | ⟨a, t, b, c3, c4, c5⟩
            · left
              rw [hl, i3, getLast?_append_cons, ← i3]; exact c1
            · right; left
              refine ⟨('/' :: rest.takeWhile tokenChar) ++ a, b, ?_⟩
              rw [hl, c2, List.append_assoc]
            · right; right
              refine ⟨('/' :: rest.takeWhile tokenChar) ++ a, t, b, ?_, c4, c5⟩
              rw [hl, c3, List.append_assoc, List.append_assoc, List.append_assoc]

theorem concat_tokens_head (ts : List (List Char)) :
    concat_tokens ts = [] ∨ ∃ r, concat_tokens ts = '/' :: r := by
  cases ts with
  | nil => exact Or.inl rfl
  | cons t ts => exact Or.inr ⟨_, rfl⟩

/-- A '/' after a prefix without '/' lies after that prefix. -/
theorem slash_prefix : ∀ (t x a y : List Char), '/' ∉ t → t ++ x = a ++ '/' :: y →
    ∃ m, a = t ++ m ∧ x = m ++ '/' :: y := by
  intro t
  induction t with
  | nil => intro x a y _ h; exact ⟨a, rfl, h⟩
  | cons c t ih =>
    intro x a y ht h
    cases a with
    | nil =>
      simp only [List.cons_append, List.nil_append, List.cons.injEq] at h
      exact absurd (by rw [h.1]; exact List.mem_cons_self _ _) ht
    | cons d a =>
      simp only [List.cons_append, List.cons.injEq] at h
      obtain ⟨m, hm1, hm2⟩ := ih x a y (fun h0 => ht (List.mem_cons_of_mem _ h0)) h.2
      exact ⟨m, by rw [h.1, hm1]; rfl, hm2⟩

/-- Tokens joined with '/' never give two '/' in a row. -/
theorem concat_no_double : ∀ (paths : List (List Char)),
    (∀ t, t ∈ paths → t ≠ [] ∧ '/' ∉ t) →
    ∀ a b, concat_tokens paths ≠ a ++ '/' :: '/' :: b := by
  intro paths
  induction paths with
  | nil => intro _ a b h; simp [concat_tokens] at h
  | cons t ts ih =>
    intro hv a b h
    obtain ⟨ht1, ht2⟩ := hv t (List.mem_cons_self _ _)
    rw [concat_tokens] at h
    cases a with
    | nil =>
      cases t with
      | nil => exact ht1 rfl
      | cons c t1 =>
        simp only [List.nil_append, List.cons_append, List.cons.injEq, true_and] at h
        exact ht2 (by rw [h.1]; exact List.mem_cons_self _ _)
    | cons d a =>
      simp only [List.cons_append, List.cons.injEq] at h
      obtain ⟨m, _, hm2⟩ := slash_prefix t _ a _ ht2 h.2
      exact ih (fun t1 h1 => hv t1 (List.mem_cons_of_mem _ h1)) m b hm2

/-- Tokens joined with '/' have no run without '/' longer than the longest token. -/
theorem concat_no_long (n : Nat) : ∀ (paths : List (List Char)),
    (∀ t, t ∈ paths → t.length ≤ n) →
    ∀ a t0 b, concat_tokens paths = a ++ t0 ++ b → '/' ∉ t0 → t0.length ≤ n := by
  intro paths
  induction paths with
  | nil =>
    intro _ a t0 b h _
    have : t0 = [] := by
      have h1 := congrArg List.length h
      simp only [concat_tokens, List.length_nil, List.length_append] at h1
      exact List.length_eq_zero.mp (by omega)
    rw [this]; exact Nat.zero_le n
  | cons t ts ih =>
    intro hv a t0 b h hs
    have ht := hv t (List.mem_cons_self _ _)
    rw [concat_tokens] at h
    cases a with
    | nil =>
      cases t0 with
      | nil => exact Nat.zero_le n
      | cons c t1 =>
        simp only [List.nil_append, List.cons_append, List.cons.injEq] at h
        exact absurd (by rw [← h.1]; exact List.mem_cons_self _ _) hs
    | cons d a =>
      simp only [List.cons_append, List.cons.injEq, List.append_assoc] at h
      rcases List.append_eq_append_iff.mp h.2 with ⟨m, h1, h2⟩ | ⟨m, h1, h2⟩
      · exact ih (fun t1 h3 => hv t1 (List.mem_cons_of_mem _ h3)) m t0 b
          (by rw [h2, List.append_assoc]) hs
      · rcases List.append_eq_append_iff.mp h2 with ⟨k, h3, h4⟩ | ⟨k, h3, h4⟩
        · have e1 := congrArg List.length h1
          have e2 := congrArg List.length h3
          rw [List.length_append] at e1 e2
          omega
        · rcases concat_tokens_head ts with he | ⟨r, he⟩
          · rw [he] at h4
            have hk : k = [] := by
              cases k with
              | nil => rfl
              | cons _ _ => simp at h4
            rw [hk, List.append_nil] at h3
            have := congrArg List.length h1
            rw [List.length_append, ← h3] at this
            omega
          · rw [he] at h4
            cases k with
            | nil =>
              rw [List.append_nil] at h3
              have := congrArg List.length h1
              rw [List.length_append, ← h3] at this
              omega
            | cons c k1 =>
              simp only [List.cons_append, List.cons.injEq] at h4
              exact absurd (by rw [h3, ← h4.1]; simp) hs

/-- Two strings that begin with a token and go on with '/' or end there begin with
the same token. -/
theorem tok_eq (t t1 x y : List Char) (ht : '/' ∉ t) (ht1 : '/' ∉ t1)
    (hx : x = [] ∨ ∃ r, x = '/' :: r) (hy : y = [] ∨ ∃ r, y = '/' :: r)
    (h : t ++ x = t1 ++ y) : t = t1 ∧ x = y := by
  rcases List.append_eq_append_iff.mp h with ⟨m, h1, h2⟩ | ⟨m, h1, h2⟩
  · cases m with
    | nil => rw [List.append_nil] at h1; rw [List.nil_append] at h2; exact ⟨h1.symm, h2⟩
    | cons c m1 =>
      rcases hx with hx | ⟨r, hx⟩
      · rw [hx] at h2; simp at h2
      · rw [hx] at h2
        simp only [List.cons_append, List.cons.injEq] at h2
        exact absurd (by rw [h1, h2.1]; simp) ht1
  · cases m with
    | nil => rw [List.append_nil] at h1; rw [List.nil_append] at h2; exact ⟨h1, h2.symm⟩
    | cons c m1 =>
      rcases hy with hy | ⟨r, hy⟩
      · rw [hy] at h2; simp at h2
      · rw [hy] at h2
        simp only [List.cons_append, List.cons.injEq] at h2
        exact absurd (by rw [h1, h2.1]; simp) ht

/-- A string is the join of at most one vector of tokens without '/'. -/
theorem concat_tokens_inj : ∀ (ps qs : List (List Char)),
    (∀ t, t ∈ ps → '/' ∉ t) → (∀ t, t ∈ qs → '/' ∉ t) →
    concat_tokens ps = concat_tokens qs → ps = qs := by
  intro ps
  induction ps with
  | nil =>
    intro qs _ _ h
    cases qs with
    | nil => rfl
    | cons t ts => simp [concat_tokens] at h
  | cons t ts ih =>
    intro qs hp hq h
    cases qs with
    | nil => simp [concat_tokens] at h
    | cons t1 ts1 =>
      simp only [concat_tokens, List.cons_append, List.cons.injEq, true_and] at h
      obtain ⟨e1, e2⟩ := tok_eq t t1 _ _ (hp t (List.mem_cons_self _ _))
        (hq t1 (List.mem_cons_self _ _)) (concat_tokens_head ts) (concat_tokens_head ts1) h
      rw [e1, ih ts1 (fun x hx => hp x (List.mem_cons_of_mem _ hx))
        (fun x hx => hq x (List.mem_cons_of_mem _ hx)) e2]

/-- The tokeniser on a path without NUL: it rejects the path exactly when the path has
one of the errors of the specification. -/
theorem parse_path_spec (P : Params) (path : List Char) (hnul : '\x00' ∉ path) :
    (path_malformed P path → parse_path P path = none) ∧
    (¬ path_malformed P path → ∃ paths, parse_path P path = some paths ∧
      concat_tokens paths = path ∧ ∀ t, t ∈ paths → '/' ∉ t) := by
  have hsound : ∀ paths, parse_path P path = some paths →
      path ≠ [] ∧ path.head? = some '/' ∧ path.getLast? ≠ some '/' ∧
      concat_tokens paths = path ∧
      ∀ t, t ∈ paths → t ≠ [] ∧ '/' ∉ t ∧ t.length ≤ P.FS_MAXFILENAME := by
    intro paths h
    unfold parse_path at h
    by_cases h1 : path = []
    · rw [if_pos h1] at h; cases h
    · rw [if_neg h1] at h
      by_cases h2 : path.getLast? = some '/'
      · rw [if_pos h2] at h; cases h
      · rw [if_neg h2] at h
        by_cases h3 : path.head? ≠ some '/'
        · rw [if_pos h3] at h; cases h
        · rw [if_neg h3] at h
          have h3' : path.head? = some '/' := not_not.mp h3
          have hh : path = [] ∨ ∃ r, path = '/' :: r := by
            cases path with
            | nil => exact Or.inl rfl
            | cons c r =>
              simp only [List.head?_cons, Option.some.injEq] at h3'
              exact Or.inr ⟨r, by rw [h3']⟩
          obtain ⟨e1, e2⟩ := tokenize_sound P _ path paths (Nat.le_refl _) hnul hh h
          exact ⟨h1, h3', h2, e1, e2⟩
  refine ⟨?_, ?_⟩
  · intro hbad
    cases hp : parse_path P path with
    | none => rfl
    | some paths =>
      exfalso
      obtain ⟨s1, s2, s3, s4, s5⟩ := hsound paths hp
      rcases hbad with b | b | b | ⟨a, b, hab⟩ | ⟨a, t, b, hab, ht, hlen⟩
      · exact s1 b
      · exact b s2
      · exact s3 b
      · exact concat_no_double paths (fun t ht => ⟨(s5 t ht).1, (s5 t ht).2.1⟩) a b
          (s4.trans hab)
      · have := concat_no_long P.FS_MAXFILENAME paths (fun t ht => (s5 t ht).2.2) a t b
          (s4.trans hab) ht
        omega
  · intro hgood
    cases hp : parse_path P path with
    | some paths =>
      obtain ⟨_, _, _, s4, s5⟩ := hsound paths hp
      exact ⟨paths, rfl, s4, fun t ht => (s5 t ht).2.1⟩
    | none =>
      exfalso
      apply hgood
      unfold parse_path at hp
      by_cases h1 : path = []
      · exact Or.inl h1
      · rw [if_neg h1] at hp
        by_cases h2 : path.getLast? = some '/'
        · exact Or.inr (Or.inr (Or.inl h2))
        · rw [if_neg h2] at hp
          by_cases h3 : path.head? ≠ some '/'
          · exact Or.inr (Or.inl h3)
          · rw [if_neg h3] at hp
            have h3' : path.head? = some '/' := not_not.mp h3
            have hh : path = [] ∨ ∃ r, path = '/' :: r := by
              cases path with
              | nil => exact Or.inl rfl
              | cons c r =>
                simp only [List.head?_cons, Option.some.injEq] at h3'
                exact Or.inr ⟨r, by rw [h3']⟩
            rcases tokenize_none P _ path (Nat.le_refl _) hnul hh hp with c | c | c
            · exact absurd c h2
            · exact Or.inr (Or.inr (Or.inr (Or.inl c)))
            · exact Or.inr (Or.inr (Or.inr (Or.inr c)))

/-- C13 (amended). Path syntax, for a path without NUL byte: a call of
`conduct_operation` that is not FS_SESSION returns false, leaving the state (disk, free
list, locks and the log of lock calls) as it was, when the path is empty, does not begin
with '/', ends with '/', has two '/' in a row, or has more than `FS_MAXFILENAME` bytes
in a row without '/'; for every other path the token vector that is walked is the only
vector of tokens without '/' such that joining "/" + token gives back the path. -/
theorem path_tokens_spec (P : Params) (L : Layout β) (u : Uninit) (s : State β)
    (path username : List Char) (offset : Nat) (c : Char) (wd rd : β) (rtype : request_type)
    (hne : rtype ≠ request_type.SESSION) (hnul : '\x00' ∉ path) :
    (path_malformed P path →
      conduct_operation P L u s path username offset c wd rd rtype = some (false, s, rd)) ∧
    (¬ path_malformed P path → ∃ paths, parse_path P path = some paths ∧
      concat_tokens paths = path ∧ (∀ t, t ∈ paths → '/' ∉ t) ∧
      ∀ qs, (∀ t, t ∈ qs → '/' ∉ t) → concat_tokens qs = path → qs = paths) := by
  obtain ⟨h1, h2⟩ := parse_path_spec P path hnul
  refine ⟨?_, ?_⟩
  · intro hbad
    unfold conduct_operation
    rw [if_neg hne, h1 hbad]
  · intro hgood
    obtain ⟨paths, hp, hc, hs⟩ := h2 hgood
    exact ⟨paths, hp, hc, hs, fun qs hq hqc =>
      concat_tokens_inj qs paths hq hs (hqc.trans hc.symm)⟩

theorem path_tokens_spec_witness :
    (path_malformed P0 ['/', 'a', '/', '/', 'b'] →
      conduct_operation P0 Block.layout u0 sFile ['/', 'a', '/', '/', 'b'] ['u'] 0 'f'
        (Block.data []) (Block.data []) request_type.READ
        = some (false, sFile, Block.data [])) ∧
    (¬ path_malformed P0 ['/', 'a', '/', '/', 'b'] →
      ∃ paths, parse_path P0 ['/', 'a', '/', '/', 'b'] = some paths ∧
      concat_tokens paths = ['/', 'a', '/', '/', 'b'] ∧ (∀ t, t ∈ paths → '/' ∉ t) ∧
      ∀ qs, (∀ t, t ∈ qs → '/' ∉ t) → concat_tokens qs = ['/', 'a', '/', '/', 'b'] →
        qs = paths) :=
  path_tokens_spec P0 Block.layout u0 sFile ['/', 'a', '/', '/', 'b'] ['u'] 0 'f'
    (Block.data []) (Block.data []) request_type.READ (by decide) (by decide)

/-- C13, as stated, fails on a path with a NUL byte: the path `/a\0b` has none of the
errors listed, its only component between '/' is `a\0b`, of 3 bytes, and the token
vector walked is `a`, `b`, which joins to `/a/b`. -/
theorem nul_splits_token :
    ¬ path_malformed P0 ['/', 'a', '\x00', 'b'] ∧
    parse_path P0 ['/', 'a', '\x00', 'b'] = some [['a'], ['b']] ∧
    concat_tokens [['a'], ['b']] ≠ ['/', 'a', '\x00', 'b'] := by
  refine ⟨?_, by decide, by decide⟩
  rintro (h | h | h | ⟨a, b, h⟩ | ⟨a, t, b, h, _, hl⟩)
  · exact absurd h (by decide)
  · exact h (by decide)
  · exact absurd h (by decide)
  · have hlen := congrArg List.length h
    simp only [List.length_cons, List.length_nil, List.length_append] at hlen
    have ha : a.length ≤ 2 := by omega
    match a, ha with
    | [], _ => simp at h
    | [_], _ => simp at h
    | [_, _], _ => simp at h
    | _ :: _ :: _ :: _, ha => simp at ha
  · have hlen := congrArg List.length h
    simp only [List.length_cons, List.length_nil, List.length_append] at hlen
    have : P0.FS_MAXFILENAME = 4 := rfl
    omega

/-! ### From the call to the operation -/

/-- After the walk from a state at rest, only the lock of the target is held, in the
mode of the request; the disk and the free list are untouched. -/
theorem locked_target (P : Params) (L : Layout β) (username : List Char)
    (rtype : request_type) {kind : Nat → Kind} {s s0 s1 : State β}
    {paths : List (List Char)} {t : Nat}
    (hinv : DiskInv P L kind s) (hne : paths ≠ [])
    (h0 : lock_root s (path_depth rtype paths) rtype = some s0)
    (hw : walk P L username rtype s0 0 (paths.take (path_depth rtype paths))
      = some (s1, some t)) :
    kind t = Kind.inode ∧ s.fs_locks t = some (0, 0) ∧
    s1.fs_locks = Function.update s.fs_locks t
      (some (if rtype = request_type.READ then (1, 0) else (0, 1))) ∧
    s1.disk = s.disk ∧ s1.free_blocks = s.free_blocks ∧
    s1.num_block_remain = s.num_block_remain := by
  obtain ⟨a1, _, _, _, _, _⟩ := uint_arith
  have f0 : Frame s s0 := lock_root_frame h0
  have f1 : Frame s s1 := f0.trans (walk_frame P L username rtype _ _ _ _ hw)
  have hq0 : s.fs_locks 0 = some (0, 0) := by
    have h1 := lock_root_isSome h0
    rw [f0.2.2.2 0] at h1
    cases hl : s.fs_locks 0 with
    | none => rw [hl] at h1; cases h1
    | some v => rw [hinv.locks_free 0 v hl]
  have hlen : 0 < paths.length := List.length_pos.mpr hne
  by_cases hc : path_depth rtype paths = 0 ∧
      (rtype = request_type.DELETE ∨ rtype = request_type.CREATE)
  · unfold lock_root at h0
    rw [if_pos hc, w_lock_eq hq0] at h0
    rw [hc.1, List.take_zero] at hw
    simp only [walk, Option.some.injEq, Prod.mk.injEq] at hw
    obtain ⟨hw1, hw2⟩ := hw
    have hr : rtype ≠ request_type.READ := by
      rcases hc.2 with h | h <;> rw [h] <;> decide
    have h0' := Option.some.inj h0
    rw [← hw2, ← hw1, ← h0']
    refine ⟨hinv.typed.root_inode, hq0, ?_, rfl, rfl, rfl⟩
    rw [if_neg hr]
  · have hts : paths.take (path_depth rtype paths) ≠ [] := by
      intro h
      have h1 := congrArg List.length h
      rw [List.length_take, List.length_nil] at h1
      have hd : path_depth rtype paths = 0 := by omega
      apply hc
      refine ⟨hd, ?_⟩
      unfold path_depth at hd
      by_cases hcd : rtype = request_type.CREATE ∨ rtype = request_type.DELETE
      · exact hcd.symm
      · rw [if_neg hcd] at hd; omega
    unfold lock_root at h0
    rw [if_neg hc, r_lock_eq hq0] at h0
    have hs0 : s0.fs_locks = Function.update s.fs_locks 0 (some (1, 0)) := by
      rw [← Option.some.inj h0, a1]
    have hd0 : s0.disk = s.disk := f0.1
    obtain ⟨hk, hqt, hl1, _⟩ := walk_sim P L username rtype s.fs_locks s.disk s.disk
      hinv.locks_free hinv.typed (fun _ _ => rfl) _ s0 s0 0 s1 t hd0 hd0 hs0 hs0 hq0
      hinv.typed.root_inode hw
    refine ⟨hk, hqt, ?_, f1.1, f1.2.1, f1.2.2.1⟩
    rw [hl1]
    by_cases hr : rtype = request_type.READ
    · simp [hr]
    · simp [hr, hts]

/-- Once the walk has ended on `t`, the call is `on_target` there. -/
theorem conduct_operation_eq (P : Params) (L : Layout β) (u : Uninit)
    {s s0 s1 : State β} {path username : List Char} {offset : Nat} {c : Char}
    {wd rd : β} {rtype : request_type} {paths : List (List Char)} {t : Nat}
    (hne : rtype ≠ request_type.SESSION)
    (hp : parse_path P path = some paths)
    (h0 : lock_root s (path_depth rtype paths) rtype = some s0)
    (hw : walk P L username rtype s0 0 (paths.take (path_depth rtype paths))
      = some (s1, some t)) :
    conduct_operation P L u s path username offset c wd rd rtype
      = on_target P L u s1 t (paths.getLastD []) username offset c wd rd rtype := by
  unfold conduct_operation
  rw [if_neg hne, hp]
  simp only [h0, hw, Option.some_bind]

theorem on_target_eq (P : Params) (L : Layout β) (u : Uninit) {s1 : State β} {t : Nat}
    {name username : List Char} {offset : Nat} {c : Char} {wd rd : β}
    {rtype : request_type}
    (hown : owner_denied (L.toInode (s1.disk t)).owner username = false) :
    on_target P L u s1 t name username offset c wd rd rtype
      = dispatch P L u s1 t (L.toInode (s1.disk t)) name username offset c wd rd rtype := by
  unfold on_target
  dsimp only
  rw [if_neg (by rw [hown]; decide)]

/-- A call that returns true went through the owner check of the target. -/
theorem on_target_true (P : Params) (L : Layout β) (u : Uninit) {s1 s' : State β} {t : Nat}
    {name username : List Char} {offset : Nat} {c : Char} {wd rd rb : β}
    {rtype : request_type}
    (h : on_target P L u s1 t name username offset c wd rd rtype = some (true, s', rb)) :
    owner_denied (L.toInode (s1.disk t)).owner username = false ∧
    dispatch P L u s1 t (L.toInode (s1.disk t)) name username offset c wd rd rtype
      = some (true, s', rb) := by
  cases hd : owner_denied (L.toInode (s1.disk t)).owner username with
  | false => rw [on_target_eq P L u hd] at h; exact ⟨rfl, h⟩
  | true =>
    unfold on_target at h
    dsimp only at h
    rw [if_pos hd] at h
    cases hu : unlock_target s1 t rtype <;> simp [hu] at h

/-! ### CREATE -/

/-- A scan of a directory block that ends without a slot saw no free entry. -/
theorem create_scan_block_nofree (tmp : Nat → fs_direntry) (name : List Char) (i : Nat) :
    ∀ (js : List Nat) (sl sl1 : Slot), create_scan_block tmp name i sl js = some sl1 →
      sl1.diret_found = false →
      sl.diret_found = false ∧ ∀ k, k ∈ js → (tmp k).inode_block ≠ 0 := by
  intro js
  induction js with
  | nil =>
    intro sl sl1 h hf
    simp only [create_scan_block, Option.some.injEq] at h
    rw [h]
    exact ⟨hf, fun k hk => absurd hk (List.not_mem_nil k)⟩
  | cons j js ih =>
    intro sl sl1 h hf
    rw [create_scan_block] at h
    by_cases hc : (tmp j).inode_block ≠ 0 ∧ (tmp j).name = name
    · rw [if_pos hc] at h; exact absurd h (by simp)
    · rw [if_neg hc] at h
      obtain ⟨h1, h2⟩ := ih _ sl1 h hf
      by_cases hs : (tmp j).inode_block = 0 ∧ sl.diret_found = false
      · rw [if_pos hs] at h1; cases h1
      · rw [if_neg hs] at h1
        refine ⟨h1, ?_⟩
        intro k hk
        rcases List.mem_cons.mp hk with hk | hk
        · rw [hk]
          intro h0
          exact hs ⟨h0, h1⟩
        · exact h2 k hk

/-- A scan of the directory that ends without a slot saw no free entry. -/
theorem create_scan_nofree (P : Params) (L : Layout β) (disk : Nat → β) (inode : fs_inode)
    (name : List Char) :
    ∀ (is : List Nat) (sl sl1 : Slot),
      create_scan P L disk inode name sl is = some (some sl1) →
      sl1.diret_found = false →
      sl.diret_found = false ∧ ∀ i, i ∈ is → ∀ k, k < P.FS_DIRENTRIES →
        (L.toDirs (disk (inode.blocks i)) k).inode_block ≠ 0 := by
  intro is
  induction is with
  | nil =>
    intro sl sl1 h hf
    simp only [create_scan, Option.some.injEq] at h
    rw [h]
    exact ⟨hf, fun i hi => absurd hi (List.not_mem_nil i)⟩
  | cons i is ih =>
    intro sl sl1 h hf
    rw [create_scan] at h
    by_cases hi : i < P.FS_MAXFILEBLOCKS
    · rw [if_pos hi] at h
      cases hb : create_scan_block (L.toDirs (disk (inode.blocks i))) name i sl
          (List.range P.FS_DIRENTRIES) with
      | none => rw [hb] at h; simp at h
      | some sl2 =>
        rw [hb] at h
        obtain ⟨h1, h2⟩ := ih sl2 sl1 h hf
        obtain ⟨h3, h4⟩ := create_scan_block_nofree _ name i _ sl sl2 hb h1
        refine ⟨h3, ?_⟩
        intro i1 hi1 k hk
        rcases List.mem_cons.mp hi1 with hi1 | hi1
        · rw [hi1]; exact h4 k (List.mem_range.mpr hk)
        · exact h2 i1 hi1 k hk
    · rw [if_neg hi] at h; cases h

/-- The slot at the end of the scan of CREATE is set exactly when the directory has a
free slot. -/
theorem create_scan_found (P : Params) (L : Layout β) (u : Uninit) (disk : Nat → β)
    (inode : fs_inode) (name : List Char) (sl : Slot)
    (h : create_scan P L disk inode name (slot0 u) (List.range inode.size) = some (some sl)) :
    sl.diret_found = true ↔ has_free_slot P L disk inode := by
  constructor
  · intro hf
    rcases (create_scan_spec P L disk inode name _ _ sl h).2 with h1 | ⟨_, hbn, hdn, hfd, h0⟩
    · rw [h1] at hf; simp [slot0] at hf
    · exact ⟨sl.block_num, List.mem_range.mp hbn, sl.dir_num, hdn, by rw [← hfd]; exact h0⟩
  · rintro ⟨j, hj, k, hk, h0⟩
    cases hf : sl.diret_found with
    | true => rfl
    | false =>
      exact absurd h0 ((create_scan_nofree P L disk inode name _ _ sl h hf).2 j
        (List.mem_range.mpr hj) k hk)

/-- A successful CREATE: the checks passed and the writes made. -/
theorem op_CREATE_inv (P : Params) (L : Layout β) (u : Uninit) {s s' : State β} {t : Nat}
    {inode : fs_inode} {name username : List Char} {c : Char} {rd rb : β}
    (h : op_CREATE P L u s t inode name username c rd = some (true, s', rb)) :
    inode.type = 'd' ∧ ∃ sl,
      create_scan P L s.disk inode name (slot0 u) (List.range inode.size) = some (some sl) ∧
      blocks_needed sl ≤ s.num_block_remain ∧
      create_write P L u { s with num_block_remain := s.num_block_remain - blocks_needed sl }
        t inode name username c rd sl = some (true, s', rb) := by
  have hno : ∀ o : Option (State β),
      o.map (fun s1 => (false, s1, rd)) ≠ some (true, s', rb) := by
    intro o; cases o <;> simp
  unfold op_CREATE at h
  by_cases h1 : c ≠ 'f' ∧ c ≠ 'd'
  · rw [if_pos h1] at h; exact absurd h (hno _)
  · rw [if_neg h1] at h
    by_cases h2 : inode.type ≠ 'd'
    · rw [if_pos h2] at h; exact absurd h (hno _)
    · rw [if_neg h2] at h
      refine ⟨not_not.mp h2, ?_⟩
      cases hsc : create_scan P L s.disk inode name (slot0 u) (List.range inode.size) with
      | none => rw [hsc] at h; exact absurd h (by simp)
      | some r =>
        cases r with
        | none => rw [hsc] at h; exact absurd h (hno _)
        | some sl =>
          rw [hsc] at h
          dsimp only at h
          unfold create_commit at h
          by_cases h3 : sl.diret_found = false ∧ inode.size = P.FS_MAXFILEBLOCKS
          · rw [if_pos h3] at h; exact absurd h (hno _)
          · rw [if_neg h3] at h
            by_cases h4 : s.num_block_remain < blocks_needed sl
            · rw [if_pos h4] at h; exact absurd h (hno _)
            · rw [if_neg h4] at h
              exact ⟨sl, rfl, Nat.le_of_not_lt h4, h⟩

/-- The free list, the free count and the lock keys after the writes of CREATE. -/
theorem create_write_state (P : Params) (L : Layout β) (u : Uninit) {s1 s' : State β}
    {t : Nat} {inode : fs_inode} {name username : List Char} {c : Char} {rd rb : β}
    {sl : Slot}
    (h : create_write P L u s1 t inode name username c rd sl = some (true, s', rb)) :
    ∃ f0 rest, s1.free_blocks = f0 :: rest ∧ s'.num_block_remain = s1.num_block_remain ∧
      (∀ n, (s'.fs_locks n).isSome = (decide (n = f0) || (s1.fs_locks n).isSome)) ∧
      ((sl.diret_found = true ∧ s'.free_blocks = rest) ∨
       (sl.diret_found = false ∧ ∃ f1 rest1, rest = f1 :: rest1 ∧ s'.free_blocks = rest1)) := by
  have hlk : ∀ (f0 n : Nat), (Function.update s1.fs_locks f0 (some (0, 0)) n).isSome
      = (decide (n = f0) || (s1.fs_locks n).isSome) := by
    intro f0 n
    by_cases hn : n = f0
    · rw [hn, Function.update_same]; simp
    · rw [Function.update_noteq hn]; simp [hn]
  unfold create_write at h
  cases hf : s1.free_blocks with
  | nil => rw [hf] at h; exact absurd h (by simp)
  | cons f0 rest =>
    rw [hf] at h
    dsimp only at h
    refine ⟨f0, rest, rfl, ?_⟩
    by_cases hu : username.length > P.FS_MAXUSERNAME
    · rw [if_pos hu] at h; exact absurd h (by simp)
    · rw [if_neg hu] at h
      by_cases hd : sl.diret_found = true
      · rw [if_pos hd] at h
        simp only [Option.map_eq_some', Prod.mk.injEq] at h
        obtain ⟨s5, h5, _, h6, _⟩ := h
        subst h6
        have f := w_unlock_frame h5
        refine ⟨f.2.2.1, ?_, Or.inl ⟨hd, f.2.1⟩⟩
        intro n
        rw [f.2.2.2 n]
        exact hlk f0 n
      · rw [if_neg hd] at h
        cases rest with
        | nil => exact absurd h (by simp)
        | cons f1 rest1 =>
          dsimp only at h
          by_cases hs : inode.size < P.FS_MAXFILEBLOCKS
          · rw [if_pos hs] at h
            simp only [Option.map_eq_some', Prod.mk.injEq] at h
            obtain ⟨s7, h7, _, h8, _⟩ := h
            subst h8
            have f := w_unlock_frame h7
            refine ⟨f.2.2.1, ?_, Or.inr ⟨by simpa using hd, f1, rest1, rfl, f.2.1⟩⟩
            intro n
            rw [f.2.2.2 n]
            exact hlk f0 n
          · rw [if_neg hs] at h; exact absurd h (by simp)

/-- The postcondition of CREATE under the disk invariants: from a state satisfying the
disk invariants (a directory
block having at least one entry), when
`conduct_operation` CREATE returns true, the block `f0` taken from the front of the
free list holds an inode with the type asked for, the owner `username` and size 0; the
parent `t`, on which the walk ended, is a directory with a live entry whose name is the
last token of the path and whose `inode_block` is `f0`; when the parent had a free
slot its inode block is as before; and when it had none, the next free block `f1` is
appended at `blocks[old size]` of the parent, entry 0 of `f1` is the new entry and every
other entry of `f1` is free. -/
theorem create_postcondition (P : Params) (L : Layout β) (u : Uninit) (kind : Nat → Kind)
    (s s' : State β) (path username : List Char) (offset : Nat) (c : Char) (wd rd rb : β)
    (hD : 0 < P.FS_DIRENTRIES) (hinv : DiskInv P L kind s)
    (h : conduct_operation P L u s path username offset c wd rd request_type.CREATE
      = some (true, s', rb)) :
    ∃ paths s0 s1 t f0 rest,
      parse_path P path = some paths ∧
      lock_root s (path_depth request_type.CREATE paths) request_type.CREATE = some s0 ∧
      walk P L username request_type.CREATE s0 0
        (paths.take (path_depth request_type.CREATE paths)) = some (s1, some t) ∧
      s.free_blocks = f0 :: rest ∧
      (L.toInode (s'.disk f0)).type = c ∧ (L.toInode (s'.disk f0)).owner = username ∧
      (L.toInode (s'.disk f0)).size = 0 ∧
      (L.toInode (s'.disk t)).type = 'd' ∧
      (∃ j k, j < (L.toInode (s'.disk t)).size ∧ k < P.FS_DIRENTRIES ∧
        live (L.toDirs (s'.disk ((L.toInode (s'.disk t)).blocks j)) k) ∧
        L.toDirs (s'.disk ((L.toInode (s'.disk t)).blocks j)) k
          = { name := paths.getLastD [], inode_block := f0 }) ∧
      (has_free_slot P L s.disk (L.toInode (s.disk t)) → s'.disk t = s.disk t) ∧
      (¬ has_free_slot P L s.disk (L.toInode (s.disk t)) →
        ∃ f1 rest1, rest = f1 :: rest1 ∧
          L.toInode (s'.disk t) =
            { L.toInode (s.disk t) with
              size := (L.toInode (s.disk t)).size + 1,
              blocks := Function.update (L.toInode (s.disk t)).blocks
                (L.toInode (s.disk t)).size f1 } ∧
          L.toDirs (s'.disk f1) 0 = { name := paths.getLastD [], inode_block := f0 } ∧
          ∀ k, 0 < k → k < P.FS_DIRENTRIES → ¬ live (L.toDirs (s'.disk f1) k)) := by
  have hT := hinv.typed
  obtain ⟨paths, s0, s1, t, hp, h0, hw, hon⟩ :=
    conduct_operation_target P L u (by decide) h
  obtain ⟨hkt, _, _, hd1, hf1, _⟩ :=
    locked_target P L username request_type.CREATE hinv (parse_path_ne_nil P hp) h0 hw
  obtain ⟨_, hdis⟩ := on_target_true P L u hon
  simp only [dispatch] at hdis
  rw [hd1] at hdis
  obtain ⟨htd, sl, hsc, _, hcw⟩ := op_CREATE_inv P L u hdis
  rw [hd1] at hsc
  have hfound := create_scan_found P L u s.disk _ _ sl hsc
  obtain ⟨_, hslot⟩ := create_scan_spec P L s.disk _ _ _ _ sl hsc
  obtain ⟨f0, rest, hfree, hcase⟩ := create_write_disk P L u hcw
  have hfree' : s.free_blocks = f0 :: rest := by rw [← hf1]; exact hfree
  have hk0 : kind f0 = Kind.free :=
    hinv.free_kind f0 (by rw [hfree']; exact List.mem_cons_self _ _)
  have hf00 : f0 ≠ 0 := kind_ne_of hk0 hT.root_inode (by decide)
  have htf0 : t ≠ f0 := kind_ne_of hkt hk0 (by decide)
  refine ⟨paths, s0, s1, t, f0, rest, hp, h0, hw, hfree', ?_⟩
  rcases hcase with ⟨hf, hdisk⟩ | ⟨hnf, _, f1, rest1, hrest, hdisk⟩
  · rcases hslot with hsl | ⟨_, hbn, hdn, hfd, _⟩
    · rw [hsl] at hf; simp [slot0] at hf
    · have hbn' := List.mem_range.mp hbn
      have hkb := hT.dir_blocks t hkt htd _ hbn'
      have hf0b : f0 ≠ (L.toInode (s.disk t)).blocks sl.block_num :=
        kind_ne_of hk0 hkb (by decide)
      have htb : t ≠ (L.toInode (s.disk t)).blocks sl.block_num :=
        kind_ne_of hkt hkb (by decide)
      have hdisk' : s'.disk = Function.update (Function.update s.disk f0
          (L.ofInode { u.new_inode with type := c, size := 0, owner := username }))
          ((L.toInode (s.disk t)).blocks sl.block_num)
          (L.ofDirs (Function.update sl.fd_direts sl.dir_num
            { name := paths.getLastD [], inode_block := f0 })) := by
        rw [hdisk, hd1]
      have e0 : s'.disk f0
          = L.ofInode { u.new_inode with type := c, size := 0, owner := username } := by
        rw [hdisk', Function.update_noteq hf0b, Function.update_same]
      have et : s'.disk t = s.disk t := by
        rw [hdisk', Function.update_noteq htb, Function.update_noteq htf0]
      have eb : s'.disk ((L.toInode (s.disk t)).blocks sl.block_num)
          = L.ofDirs (Function.update sl.fd_direts sl.dir_num
            { name := paths.getLastD [], inode_block := f0 }) := by
        rw [hdisk', Function.update_same]
      rw [e0, et, L.toInode_ofInode]
      refine ⟨rfl, rfl, rfl, htd, ⟨sl.block_num, sl.dir_num, hbn', hdn, ?_, ?_⟩,
        fun _ => rfl, fun hno => absurd (hfound.mp hf) hno⟩
      · rw [eb, L.toDirs_ofDirs, Function.update_same]; exact hf00
      · rw [eb, L.toDirs_ofDirs, Function.update_same]
  · have hk1 : kind f1 = Kind.free :=
      hinv.free_kind f1 (by rw [hfree', hrest]; simp)
    have hne : f0 ≠ f1 := by
      have := hinv.free_nodup
      rw [hfree', hrest] at this
      intro h0
      rw [h0] at this
      simp at this
    have htf1 : t ≠ f1 := kind_ne_of hkt hk1 (by decide)
    have hdisk' : s'.disk = Function.update (Function.update (Function.update s.disk f0
          (L.ofInode { u.new_inode with type := c, size := 0, owner := username })) f1
          (L.ofDirs (Function.update (clear_entries P sl.fd_direts) 0
            { name := paths.getLastD [], inode_block := f0 }))) t
          (L.ofInode { L.toInode (s.disk t) with
            size := (L.toInode (s.disk t)).size + 1,
            blocks := Function.update (L.toInode (s.disk t)).blocks
              (L.toInode (s.disk t)).size f1 }) := by
      rw [hdisk, hd1]
    have e0 : s'.disk f0
        = L.ofInode { u.new_inode with type := c, size := 0, owner := username } := by
      rw [hdisk', Function.update_noteq htf0.symm, Function.update_noteq hne,
        Function.update_same]
    have et : s'.disk t = L.ofInode { L.toInode (s.disk t) with
            size := (L.toInode (s.disk t)).size + 1,
            blocks := Function.update (L.toInode (s.disk t)).blocks
              (L.toInode (s.disk t)).size f1 } := by
      rw [hdisk', Function.update_same]
    have e1 : s'.disk f1 = L.ofDirs (Function.update (clear_entries P sl.fd_direts) 0
            { name := paths.getLastD [], inode_block := f0 }) := by
      rw [hdisk', Function.update_noteq htf1.symm, Function.update_same]
    have hnofree : ¬ has_free_slot P L s.disk (L.toInode (s.disk t)) := by
      intro hfs
      rw [hfound.mpr hfs] at hnf
      cases hnf
    rw [e0, et, L.toInode_ofInode, L.toInode_ofInode]
    refine ⟨rfl, rfl, rfl, htd, ⟨(L.toInode (s.disk t)).size, 0, Nat.lt_succ_self _, hD, ?_, ?_⟩,
      fun hfs => absurd hfs hnofree, fun _ => ⟨f1, rest1, hrest, rfl, ?_, ?_⟩⟩
    · dsimp only
      rw [Function.update_same, e1, L.toDirs_ofDirs, Function.update_same]; exact hf00
    · dsimp only
      rw [Function.update_same, e1, L.toDirs_ofDirs, Function.update_same]
    · rw [e1, L.toDirs_ofDirs, Function.update_same]
    · intro k hk0 hk
      rw [e1, L.toDirs_ofDirs, Function.update_noteq (by omega)]
      unfold clear_entries live
      rw [if_pos hk]
      exact fun hx => hx rfl

theorem create_postcondition_witness :
    ∃ s' rb, conduct_operation P0 Block.layout u0 sFile ['/', 'g'] ['u'] 0 'f'
        (Block.data []) (Block.data []) request_type.CREATE = some (true, s', rb) ∧
      ∃ t f0 rest, sFile.free_blocks = f0 :: rest ∧
        (Block.layout.toInode (s'.disk f0)).type = 'f' ∧
        (Block.layout.toInode (s'.disk f0)).owner = ['u'] ∧
        (Block.layout.toInode (s'.disk f0)).size = 0 ∧
        ∃ j k, j < (Block.layout.toInode (s'.disk t)).size ∧ k < P0.FS_DIRENTRIES ∧
          Block.layout.toDirs (s'.disk ((Block.layout.toInode (s'.disk t)).blocks j)) k
            = { name := ['g'], inode_block := f0 } := by
  have h1 : (conduct_operation P0 Block.layout u0 sFile ['/', 'g'] ['u'] 0 'f'
      (Block.data []) (Block.data []) request_type.CREATE).map (fun r => r.1) = some true := by
    decide
  obtain ⟨⟨ok, s', rb⟩, hr, hv⟩ := Option.map_eq_some'.mp h1
  simp only at hv
  subst hv
  obtain ⟨paths, s0, s1, t, f0, rest, hp, _, _, hf, a1, a2, a3, _, ⟨j, k, hj, hk, _, he⟩, _⟩ :=
    create_postcondition P0 Block.layout u0 kindFile sFile s' ['/', 'g'] ['u'] 0 'f'
      (Block.data []) (Block.data []) rb (by decide) sFile_inv hr
  have hp' : paths = [['g']] := by
    have : parse_path P0 ['/', 'g'] = some [['g']] := by decide
    rw [this] at hp
    exact (Option.some.inj hp).symm
  rw [hp'] at he
  exact ⟨s', rb, hr, t, f0, rest, hf, a1, a2, a3, j, k, hj, hk, he⟩

/-- The scan of CREATE ends when the size of the directory is within the array. -/
theorem create_scan_total (P : Params) (L : Layout β) (disk : Nat → β) (inode : fs_inode)
    (name : List Char) :
    ∀ (is : List Nat) (sl : Slot), (∀ i, i ∈ is → i < P.FS_MAXFILEBLOCKS) →
      ∃ r, create_scan P L disk inode name sl is = some r := by
  intro is
  induction is with
  | nil => intro sl _; exact ⟨some sl, rfl⟩
  | cons i is ih =>
    intro sl hb
    rw [create_scan, if_pos (hb i (List.mem_cons_self _ _))]
    cases hsb : create_scan_block (L.toDirs (disk (inode.blocks i))) name i sl
        (List.range P.FS_DIRENTRIES) with
    | none => exact ⟨none, rfl⟩
    | some sl1 => exact ih sl1 (fun i1 h1 => hb i1 (List.mem_cons_of_mem _ h1))

/-- C15. CREATE block demand, all or nothing: from a state satisfying the disk
invariants, a CREATE that returns true has taken exactly one block from the front of the
free list (and 1 from the free count) when the parent had a free slot, and exactly two
when it had none; and once the walk has reached the parent, CREATE returns false with
the free list and the free count unchanged when the parent has no free slot and its
size is `FS_MAXFILEBLOCKS`, or when the free count is below the demand (1 with a free
slot, 2 without). -/
theorem create_block_demand (P : Params) (L : Layout β) (u : Uninit) (kind : Nat → Kind)
    (s : State β) (path username : List Char) (offset : Nat) (c : Char) (wd rd : β)
    (hinv : DiskInv P L kind s) :
    (∀ s' rb, conduct_operation P L u s path username offset c wd rd request_type.CREATE
        = some (true, s', rb) →
      ∃ paths s0 s1 t, parse_path P path = some paths ∧
        lock_root s (path_depth request_type.CREATE paths) request_type.CREATE = some s0 ∧
        walk P L username request_type.CREATE s0 0
          (paths.take (path_depth request_type.CREATE paths)) = some (s1, some t) ∧
        (has_free_slot P L s.disk (L.toInode (s.disk t)) →
          (∃ f0, s.free_blocks = f0 :: s'.free_blocks) ∧
            s'.num_block_remain + 1 = s.num_block_remain) ∧
        (¬ has_free_slot P L s.disk (L.toInode (s.disk t)) →
          (∃ f0 f1, s.free_blocks = f0 :: f1 :: s'.free_blocks) ∧
            s'.num_block_remain + 2 = s.num_block_remain)) ∧
    (∀ paths s0 s1 t, parse_path P path = some paths →
      lock_root s (path_depth request_type.CREATE paths) request_type.CREATE = some s0 →
      walk P L username request_type.CREATE s0 0
        (paths.take (path_depth request_type.CREATE paths)) = some (s1, some t) →
      ((¬ has_free_slot P L s.disk (L.toInode (s.disk t)) ∧
          (L.toInode (s.disk t)).size = P.FS_MAXFILEBLOCKS) ∨
        (has_free_slot P L s.disk (L.toInode (s.disk t)) ∧ s.num_block_remain < 1) ∨
        (¬ has_free_slot P L s.disk (L.toInode (s.disk t)) ∧ s.num_block_remain < 2)) →
      ∃ s', conduct_operation P L u s path username offset c wd rd request_type.CREATE
          = some (false, s', rd) ∧
        s'.free_blocks = s.free_blocks ∧ s'.num_block_remain = s.num_block_remain) := by
  have hT := hinv.typed
  refine ⟨?_, ?_⟩
  · intro s' rb h
    obtain ⟨paths, s0, s1, t, hp, h0, hw, hon⟩ :=
      conduct_operation_target P L u (by decide) h
    obtain ⟨hkt, _, _, hd1, hf1, hn1⟩ :=
      locked_target P L username request_type.CREATE hinv (parse_path_ne_nil P hp) h0 hw
    obtain ⟨_, hdis⟩ := on_target_true P L u hon
    simp only [dispatch] at hdis
    rw [hd1] at hdis
    obtain ⟨htd, sl, hsc, hle, hcw⟩ := op_CREATE_inv P L u hdis
    rw [hd1] at hsc
    have hfound := create_scan_found P L u s.disk _ _ sl hsc
    obtain ⟨f0, rest, hfree, hnbr, _, hcase⟩ := create_write_state P L u hcw
    have hfree' : s.free_blocks = f0 :: rest := by rw [← hf1]; exact hfree
    have hnbr' : s'.num_block_remain = s.num_block_remain - blocks_needed sl := by
      rw [hnbr, hn1]
    rw [hn1] at hle
    refine ⟨paths, s0, s1, t, hp, h0, hw, ?_, ?_⟩
    · intro hfs
      have hf := hfound.mpr hfs
      have hb : blocks_needed sl = 1 := by simp [blocks_needed, hf]
      rw [hb] at hle hnbr'
      rcases hcase with ⟨_, hr⟩ | ⟨hnf, _⟩
      · exact ⟨⟨f0, by rw [hfree', hr]⟩, by omega⟩
      · rw [hf] at hnf; cases hnf
    · intro hfs
      have hf : sl.diret_found = false := by
        cases hx : sl.diret_found with
        | false => rfl
        | true => exact absurd (hfound.mp hx) hfs
      have hb : blocks_needed sl = 2 := by simp [blocks_needed, hf]
      rw [hb] at hle hnbr'
      rcases hcase with ⟨hy, _⟩ | ⟨_, f1, rest1, hr1, hr2⟩
      · rw [hf] at hy; cases hy
      · exact ⟨⟨f0, f1, by rw [hfree', hr1, hr2]⟩, by omega⟩
  · intro paths s0 s1 t hp h0 hw hcond
    obtain ⟨hkt, _, hl1, hd1, hf1, hn1⟩ :=
      locked_target P L username request_type.CREATE hinv (parse_path_ne_nil P hp) h0 hw
    have hlt : s1.fs_locks t = some (0, 1) := by
      rw [hl1, Function.update_same, if_neg (by decide)]
    have hun := w_unlock_eq hlt
    have f2 := w_unlock_frame hun
    rw [conduct_operation_eq P L u (by decide) hp h0 hw]
    refine ⟨_, ?_, f2.2.1.trans hf1, f2.2.2.1.trans hn1⟩
    unfold on_target
    dsimp only
    by_cases hown : owner_denied (L.toInode (s1.disk t)).owner username = true
    · rw [if_pos hown]
      simp only [unlock_target, ne_eq, reduceCtorEq, not_false_eq_true, if_true]
      rw [hun]; rfl
    · rw [if_neg hown]
      simp only [dispatch]
      unfold op_CREATE
      by_cases h1 : c ≠ 'f' ∧ c ≠ 'd'
      · rw [if_pos h1, hun]; rfl
      · rw [if_neg h1]
        by_cases h2 : (L.toInode (s1.disk t)).type ≠ 'd'
        · rw [if_pos h2, hun]; rfl
        · rw [if_neg h2]
          have hsz := hT.size_le t hkt
          obtain ⟨r, hr⟩ := create_scan_total P L s1.disk (L.toInode (s1.disk t))
            (paths.getLastD []) (List.range (L.toInode (s1.disk t)).size) (slot0 u)
            (fun i hi => by
              rw [hd1] at hi
              exact Nat.lt_of_lt_of_le (List.mem_range.mp hi) hsz)
          rw [hr]
          cases r with
          | none => dsimp only; rw [hun]; rfl
          | some sl =>
            dsimp only
            have hfound := create_scan_found P L u s1.disk _ _ sl hr
            rw [hd1] at hfound
            unfold create_commit
            by_cases h3 : sl.diret_found = false ∧
                (L.toInode (s1.disk t)).size = P.FS_MAXFILEBLOCKS
            · rw [if_pos h3, hun]; rfl
            · rw [if_neg h3]
              have h4 : s1.num_block_remain < blocks_needed sl := by
                rw [hn1]
                rcases hcond with ⟨hnf, hsz1⟩ | ⟨hfs, hlt1⟩ | ⟨hnf, hlt2⟩
                · exfalso
                  apply h3
                  rw [hd1]
                  refine ⟨?_, hsz1⟩
                  cases hx : sl.diret_found with
                  | false => rfl
                  | true => exact absurd (hfound.mp hx) hnf
                · have hb1 : 1 ≤ blocks_needed sl := by
                    unfold blocks_needed
                    split
                    · exact Nat.le_refl 1
                    · exact Nat.le_succ 1
                  omega
                · have hf : sl.diret_found = false := by
                    cases hx : sl.diret_found with
                    | false => rfl
                    | true => exact absurd (hfound.mp hx) hnf
                  simp only [blocks_needed, hf]
                  exact hlt2
              rw [if_pos h4, hun]; rfl

theorem create_block_demand_witness :
    ∃ s' rb, conduct_operation P0 Block.layout u0 sFile ['/', 'g'] ['u'] 0 'f'
        (Block.data []) (Block.data []) request_type.CREATE = some (true, s', rb) ∧
      has_free_slot P0 Block.layout sFile.disk (Block.layout.toInode (sFile.disk 0)) ∧
      sFile.free_blocks = 4 :: s'.free_blocks ∧ s'.num_block_remain + 1 = 4 := by
  have h1 : (conduct_operation P0 Block.layout u0 sFile ['/', 'g'] ['u'] 0 'f'
      (Block.data []) (Block.data []) request_type.CREATE).map (fun r => r.1) = some true := by
    decide
  obtain ⟨⟨ok, s', rb⟩, hr, hv⟩ := Option.map_eq_some'.mp h1
  simp only at hv
  subst hv
  have hfs : has_free_slot P0 Block.layout sFile.disk (Block.layout.toInode (sFile.disk 0)) :=
    ⟨0, by decide, 1, by decide, by decide⟩
  obtain ⟨paths, s0, s1, t, hp, _, hw, hyes, _⟩ :=
    (create_block_demand P0 Block.layout u0 kindFile sFile ['/', 'g'] ['u'] 0 'f'
      (Block.data []) (Block.data []) sFile_inv).1 s' rb hr
  have hp' : paths = [['g']] := by
    have : parse_path P0 ['/', 'g'] = some [['g']] := by decide
    rw [this] at hp
    exact (Option.some.inj hp).symm
  subst hp'
  have ht : t = 0 := by
    simp only [path_depth, List.length_singleton, Nat.sub_self, List.take_zero, walk,
      Option.some.injEq, Prod.mk.injEq] at hw
    exact hw.2.symm
  subst ht
  obtain ⟨⟨f0, hf0⟩, hn⟩ := hyes hfs
  refine ⟨s', rb, hr, hfs, ?_, hn⟩
  have h4 : sFile.free_blocks = [4, 5, 6, 7] := rfl
  rw [h4] at hf0 ⊢
  simp only [List.cons.injEq] at hf0
  rw [← hf0.2]

/-! ### WRITE -/

/-- The branch WRITE returns, and returns true exactly when the inode is a file, the
offset is within the file or just after it and within the array, and a block is free
when one is needed. -/
theorem op_WRITE_returns (P : Params) (L : Layout β) {s1 : State β} {t : Nat}
    {inode : fs_inode} {offset : Nat} {wd rd : β}
    (hl : (s1.fs_locks t).isSome = true) (hc : FreeCount s1) :
    ∃ ok s', op_WRITE P L s1 t inode offset wd rd = some (ok, s', rd) ∧
      (ok = true ↔ inode.type = 'f' ∧ offset ≤ inode.size ∧ offset < P.FS_MAXFILEBLOCKS ∧
        (offset < inode.size ∨ s1.free_blocks ≠ [])) := by
  unfold FreeCount at hc
  obtain ⟨s2, h2⟩ := w_unlock_of_isSome hl
  unfold op_WRITE
  by_cases h1 : inode.type ≠ 'f' ∨ offset > inode.size ∨ offset ≥ P.FS_MAXFILEBLOCKS
  · rw [if_pos h1]
    refine ⟨false, s2, by rw [h2]; rfl, ?_⟩
    constructor
    · intro h; cases h
    · rintro ⟨a, b, c, _⟩
      rcases h1 with h1 | h1 | h1
      · exact absurd a h1
      · omega
      · omega
  · rw [if_neg h1]
    simp only [not_or, not_not, not_lt, ge_iff_le, gt_iff_lt, not_le] at h1
    obtain ⟨c1, c2, c3⟩ := h1
    by_cases he : offset = inode.size
    · rw [if_pos he]
      by_cases hn : s1.num_block_remain < 1
      · rw [if_pos hn]
        refine ⟨false, s2, by rw [h2]; rfl, ?_⟩
        constructor
        · intro h; cases h
        · rintro ⟨_, _, _, d⟩
          rcases d with d | d
          · omega
          · have : s1.free_blocks.length = 0 := by omega
            exact absurd (List.length_eq_zero.mp this) d
      · rw [if_neg hn]
        cases hf : s1.free_blocks with
        | nil => rw [hf] at hc; simp at hc; omega
        | cons f0 rest =>
          dsimp only
          obtain ⟨s4, h4⟩ := w_unlock_of_isSome
            (s := disk_writeblock (disk_writeblock
              { s1 with num_block_remain := s1.num_block_remain - 1, free_blocks := rest }
              f0 wd) t (L.ofInode { inode with
                size := inode.size + 1,
                blocks := Function.update inode.blocks offset f0 })) (t := t) hl
          refine ⟨true, s4, by rw [h4]; rfl, ?_⟩
          constructor
          · intro _
            exact ⟨c1, c2, c3, Or.inr (by simp)⟩
          · intro _; rfl
    · rw [if_neg he]
      obtain ⟨s4, h4⟩ := w_unlock_of_isSome
        (s := disk_writeblock s1 (inode.blocks offset) wd) (t := t) hl
      refine ⟨true, s4, by dsimp only; rw [h4]; rfl, ?_⟩
      constructor
      · intro _
        exact ⟨c1, c2, c3, Or.inl (by omega)⟩
      · intro _; rfl

/-- A reachable inode block has the role of an inode. -/
theorem reach_kind (P : Params) (L : Layout β) {kind : Nat → Kind} {disk : Nat → β}
    (hT : DiskTyped P L kind disk) {n : Nat} (h : ReachInode P L disk n) :
    kind n = Kind.inode := by
  induction h with
  | root => exact hT.root_inode
  | child n j k _ hty hj hk hl ih =>
    exact hT.entries _ (hT.dir_blocks n ih hty j hj) k hk hl

/-- The child found by the scan is named by an entry of the directory. -/
theorem walk_scan_entry (P : Params) (L : Layout β) (disk : Nat → β) (inode : fs_inode)
    (tok : List Char) {c : Nat} :
    ∀ js : List Nat, walk_scan P L disk inode tok js = some (some c) →
      ∃ j, j ∈ js ∧ ∃ k, k < P.FS_DIRENTRIES ∧
        (L.toDirs (disk (inode.blocks j)) k).name = tok ∧
        c = (L.toDirs (disk (inode.blocks j)) k).inode_block := by
  intro js
  induction js with
  | nil => intro h; simp [walk_scan] at h
  | cons j js ih =>
    intro h
    rw [walk_scan] at h
    by_cases hj : j < P.FS_MAXFILEBLOCKS
    · rw [if_pos hj] at h
      dsimp only at h
      cases hf : find_entry P (L.toDirs (disk (inode.blocks j))) tok with
      | none =>
        rw [hf] at h
        obtain ⟨j1, hj1, r⟩ := ih h
        exact ⟨j1, List.mem_cons_of_mem _ hj1, r⟩
      | some k =>
        rw [hf] at h
        simp only [Option.some.injEq] at h
        obtain ⟨hk, hn⟩ := find_entry_lt hf
        exact ⟨j, List.mem_cons_self _ _, k, hk, hn, h.symm⟩
    · rw [if_neg hj] at h; exact absurd h (by simp)

/-- The walk from a reachable inode ends on a reachable inode. -/
theorem walk_reach (P : Params) (L : Layout β) (username : List Char) (rtype : request_type) :
    ∀ (ts : List (List Char)) (s s1 : State β) (ib t : Nat),
      ReachInode P L s.disk ib →
      walk P L username rtype s ib ts = some (s1, some t) → ReachInode P L s.disk t := by
  intro ts
  induction ts with
  | nil =>
    intro s s1 ib t hr h
    simp only [walk, Option.some.injEq, Prod.mk.injEq] at h
    rw [← h.2]; exact hr
  | cons tok rest ih =>
    intro s s1 ib t hr h
    obtain ⟨hty, _, c, sa, sb, hsc, ha, hb, hw⟩ := walk_cons_some P L username rtype h
    have hda : sa.disk = s.disk := by
      by_cases hc : rest = [] ∧ rtype ≠ request_type.READ
      · rw [if_pos hc] at ha; exact (w_lock_frame ha).1
      · rw [if_neg hc] at ha; exact (r_lock_frame ha).1
    have hdb : sb.disk = s.disk := (r_unlock_frame hb).1.trans hda
    obtain ⟨j, hj, k, hk, _, hc⟩ := walk_scan_entry P L s.disk _ tok _ hsc
    have hrc : ReachInode P L s.disk c := by
      by_cases hz : (L.toDirs (s.disk ((L.toInode (s.disk ib)).blocks j)) k).inode_block = 0
      · rw [hc, hz]; exact ReachInode.root
      · rw [hc]
        exact ReachInode.child ib j k hr hty (List.mem_range.mp hj) hk hz
    have := ih sb s1 c t (by rw [hdb]; exact hrc) hw
    rw [hdb] at this
    exact this

theorem sFile_reach_inode {n : Nat} (h : ReachInode P0 Block.layout sFile.disk n) :
    n = 0 ∨ n = 2 := by
  induction h with
  | root => exact Or.inl rfl
  | child n j k _ hty hj hk hl ih =>
    rcases ih with rfl | rfl
    · have hj' : j < 1 := hj
      have hk' : k < 2 := hk
      have hj0 : j = 0 := by omega
      subst hj0
      interval_cases k <;> revert hl <;> decide
    · exact absurd hty (by decide)

theorem sFile_P4 : P4 P0 Block.layout sFile := by
  intro n
  constructor
  · intro h
    have hn : n = 0 ∨ n = 2 := by
      by_contra hc
      simp only [not_or] at hc
      have : sFile.fs_locks n = none := by
        show mklocks [0, 2] n = none
        simp [mklocks, hc.1, hc.2]
      rw [this] at h
      cases h
    rcases hn with rfl | rfl
    · exact ReachInode.root
    · exact ReachInode.child 0 0 0 ReachInode.root (by decide) (by decide) (by decide)
        (by decide)
  · intro h
    rcases sFile_reach_inode h with rfl | rfl
    · decide
    · decide

theorem sFile_entries_inj : entries_inj P0 Block.layout kindFile sFile.disk := by
  intro b1 b2 h1 h2 k1 hk1 k2 hk2 hl1 hl2 _
  have e1 := kindFile_dir h1
  have e2 := kindFile_dir h2
  subst e1; subst e2
  have hk1' : k1 < 2 := hk1
  have hk2' : k2 < 2 := hk2
  refine ⟨rfl, ?_⟩
  interval_cases k1 <;> interval_cases k2 <;> revert hl1 hl2 <;> decide

/-- The release loop appends the blocks in order and counts each of them. -/
theorem release_blocks_state (P : Params) (blocks : Nat → Nat) :
    ∀ (is : List Nat) (s s1 : State β), release_blocks P blocks s is = some s1 →
      s1.free_blocks = s.free_blocks ++ is.map blocks ∧
      s1.num_block_remain % UINT_MOD = (s.num_block_remain + is.length) % UINT_MOD := by
  intro is
  induction is with
  | nil =>
    intro s s1 h
    simp only [release_blocks, Option.some.injEq] at h
    rw [← h]
    exact ⟨by simp, rfl⟩
  | cons i is ih =>
    intro s s1 h
    rw [release_blocks] at h
    by_cases hi : i < P.FS_MAXFILEBLOCKS
    · rw [if_pos hi] at h
      obtain ⟨h1, h2⟩ := ih _ s1 h
      refine ⟨by rw [h1]; simp, ?_⟩
      rw [h2]
      simp only [List.length_cons]
      unfold UINT_MOD
      omega
    · rw [if_neg hi] at h; cases h

/-- The free list and the free count after the directory update of DELETE. -/
theorem delete_entry_state (P : Params) (L : Layout β) {s1 s3 : State β} {t : Nat}
    {inode : fs_inode} {sl : Slot}
    (h : delete_entry P L s1 t inode sl = some s3) :
    s3.fs_locks = s1.fs_locks ∧
    ∃ ev : List Nat, ev.length = (if count_live P sl.fd_direts = 1 then 1 else 0) ∧
      s3.free_blocks = s1.free_blocks ++ ev ∧
      s3.num_block_remain % UINT_MOD = (s1.num_block_remain + ev.length) % UINT_MOD := by
  unfold delete_entry at h
  by_cases hc : count_live P sl.fd_direts = 1
  · rw [if_pos hc] at h
    simp only [Option.map_eq_some'] at h
    obtain ⟨b1, _, h⟩ := h
    rw [← h, if_pos hc]
    exact ⟨rfl, [b1 sl.block_num], rfl, rfl, by
      simp only [disk_writeblock, List.length_singleton, Nat.mod_mod]⟩
  · rw [if_neg hc] at h
    simp only [Option.some.injEq] at h
    rw [← h, if_neg hc]
    exact ⟨rfl, [], rfl, by simp [disk_writeblock], by simp [disk_writeblock]⟩

/-- The free list and the free count after the reclaim of the deleted inode. -/
theorem delete_reclaim_state (P : Params) {s3 s5 : State β} {inode_del : fs_inode} {idx : Nat}
    (h : delete_reclaim P s3 inode_del idx = some s5) :
    s5.fs_locks = s3.fs_locks ∧
    ∃ data : List Nat,
      data = (if inode_del.type = 'f' then
        (List.range (if inode_del.size < 2 ^ 31 then inode_del.size else 0)).map inode_del.blocks
        else []) ∧
      s5.free_blocks = s3.free_blocks ++ data ++ [idx] ∧
      s5.num_block_remain = (s3.num_block_remain + data.length + 1) % UINT_MOD := by
  unfold delete_reclaim at h
  simp only [Option.map_eq_some'] at h
  obtain ⟨s4, h4, h⟩ := h
  by_cases hf : inode_del.type = 'f'
  · rw [if_pos hf] at h4
    obtain ⟨e1, e2⟩ := release_blocks_state P _ _ s3 s4 h4
    have e3 := (release_blocks_disk P _ _ s3 s4 h4).2
    rw [← h, if_pos hf]
    refine ⟨e3, _, rfl, by rw [e1], ?_⟩
    simp only [List.length_map, List.length_range] at e2 ⊢
    show (s4.num_block_remain + 1) % UINT_MOD = _
    revert e2
    unfold UINT_MOD
    omega
  · rw [if_neg hf] at h4
    simp only [Option.some.injEq] at h4
    rw [← h, if_neg hf, ← h4]
    exact ⟨rfl, [], rfl, by simp, by simp⟩

/-- A successful DELETE: the entry found, and the steps made. -/
theorem op_DELETE_inv (P : Params) (L : Layout β) {s s' : State β} {t : Nat}
    {inode : fs_inode} {name username : List Char} {rd rb : β}
    (h : op_DELETE P L s t inode name username rd = some (true, s', rb)) :
    inode.type = 'd' ∧ ∃ sl,
      delete_scan P L s.disk inode name (List.range inode.size) = some (some sl) ∧
      ∃ sA s3 s5 s6, w_lock s (sl.fd_direts sl.dir_num).inode_block = some sA ∧
        ¬ (((L.toInode (s.disk (sl.fd_direts sl.dir_num).inode_block)).type = 'd' ∧
            (L.toInode (s.disk (sl.fd_direts sl.dir_num).inode_block)).size > 0) ∨
          (L.toInode (s.disk (sl.fd_direts sl.dir_num).inode_block)).owner ≠ username) ∧
        delete_entry P L sA t inode sl = some s3 ∧
        delete_reclaim P s3 (L.toInode (s.disk (sl.fd_direts sl.dir_num).inode_block))
          (sl.fd_direts sl.dir_num).inode_block = some s5 ∧
        w_unlock s5 (sl.fd_direts sl.dir_num).inode_block = some s6 ∧
        w_unlock (delete_lock s6 (sl.fd_direts sl.dir_num).inode_block) t = some s' := by
  have hno : ∀ o : Option (State β),
      o.map (fun s1 => (false, s1, rd)) ≠ some (true, s', rb) := by
    intro o; cases o <;> simp
  unfold op_DELETE at h
  by_cases h2 : inode.type ≠ 'd'
  · rw [if_pos h2] at h; exact absurd h (hno _)
  · rw [if_neg h2] at h
    refine ⟨not_not.mp h2, ?_⟩
    cases hsc : delete_scan P L s.disk inode name (List.range inode.size) with
    | none => rw [hsc] at h; exact absurd h (by simp)
    | some r =>
      cases r with
      | none => rw [hsc] at h; exact absurd h (hno _)
      | some sl =>
        rw [hsc] at h
        dsimp only at h
        refine ⟨sl, rfl, ?_⟩
        unfold delete_commit at h
        simp only [Option.bind_eq_some] at h
        obtain ⟨sA, hA, h⟩ := h
        have hdA : sA.disk = s.disk := (w_lock_frame hA).1
        rw [hdA] at h
        by_cases hc : ((L.toInode (s.disk (sl.fd_direts sl.dir_num).inode_block)).type = 'd' ∧
            (L.toInode (s.disk (sl.fd_direts sl.dir_num).inode_block)).size > 0) ∨
            (L.toInode (s.disk (sl.fd_direts sl.dir_num).inode_block)).owner ≠ username
        · rw [if_pos hc] at h
          simp only [Option.bind_eq_some] at h
          obtain ⟨s2, _, h⟩ := h
          exact absurd h (hno _)
        · rw [if_neg hc] at h
          simp only [Option.bind_eq_some, Option.map_eq_some', Prod.mk.injEq, true_and] at h
          obtain ⟨s3, h3, s5, h5, s6, h6, s7, h7, h8, _⟩ := h
          rw [h8] at h7
          exact ⟨sA, s3, s5, s6, hA, hc, h3, h5, h6, h7⟩

/-- C18. DELETE reclaims the child: from a state satisfying the disk invariants (with
`FS_MAXFILEBLOCKS` below 2^31), a DELETE that returns true has removed a live entry
with the name of the parent `t`, and has appended to the free list: one block when that
entry was the only live one of its directory block (the block is evicted), then the
data blocks `blocks[0..size)` of the child in order when the child is a file, nothing
when it is a directory, then the inode block of the child; the free count has grown, as
an `unsigned int`, by the number of blocks appended. -/
theorem delete_reclaims (P : Params) (L : Layout β) (u : Uninit) (kind : Nat → Kind)
    (s s' : State β) (path username : List Char) (offset : Nat) (c : Char) (wd rd rb : β)
    (hM : P.FS_MAXFILEBLOCKS < 2 ^ 31) (hinv : DiskInv P L kind s)
    (h : conduct_operation P L u s path username offset c wd rd request_type.DELETE
      = some (true, s', rb)) :
    ∃ paths s0 s1 t j k,
      parse_path P path = some paths ∧
      lock_root s (path_depth request_type.DELETE paths) request_type.DELETE = some s0 ∧
      walk P L username request_type.DELETE s0 0
        (paths.take (path_depth request_type.DELETE paths)) = some (s1, some t) ∧
      j < (L.toInode (s.disk t)).size ∧ k < P.FS_DIRENTRIES ∧
      live (L.toDirs (s.disk ((L.toInode (s.disk t)).blocks j)) k) ∧
      (L.toDirs (s.disk ((L.toInode (s.disk t)).blocks j)) k).name = paths.getLastD [] ∧
      ∃ child ev data, child = (L.toDirs (s.disk ((L.toInode (s.disk t)).blocks j)) k).inode_block ∧
        ev.length = (if count_live P (L.toDirs (s.disk ((L.toInode (s.disk t)).blocks j))) = 1
          then 1 else 0) ∧
        data = (if (L.toInode (s.disk child)).type = 'f' then
          (List.range (L.toInode (s.disk child)).size).map (L.toInode (s.disk child)).blocks
          else []) ∧
        s'.free_blocks = s.free_blocks ++ ev ++ data ++ [child] ∧
        s'.num_block_remain
          = (s.num_block_remain + ev.length + data.length + 1) % UINT_MOD := by
  have hT := hinv.typed
  obtain ⟨paths, s0, s1, t, hp, h0, hw, hon⟩ :=
    conduct_operation_target P L u (by decide) h
  obtain ⟨hkt, _, _, hd1, hf1, hn1⟩ :=
    locked_target P L username request_type.DELETE hinv (parse_path_ne_nil P hp) h0 hw
  obtain ⟨_, hdis⟩ := on_target_true P L u hon
  simp only [dispatch] at hdis
  rw [hd1] at hdis
  obtain ⟨htd, sl, hsc, sA, s3, s5, s6, hA, _, h3, h5, h6, h7⟩ := op_DELETE_inv P L hdis
  rw [hd1] at hsc h5
  obtain ⟨hbn, hdn, hfd, hlv, hnm⟩ := delete_scan_spec P L s.disk _ _ _ sl hsc
  have hbn' := List.mem_range.mp hbn
  have hkb := hT.dir_blocks t hkt htd _ hbn'
  have hkc : kind (sl.fd_direts sl.dir_num).inode_block = Kind.inode := by
    have := hT.entries _ hkb sl.dir_num hdn (by rw [← hfd]; exact hlv)
    rw [← hfd] at this
    exact this
  have hsz := hT.size_le _ hkc
  have fA := w_lock_frame hA
  obtain ⟨_, ev, hev, hf3, hn3⟩ := delete_entry_state P L h3
  obtain ⟨_, data, hdata, hf5, hn5⟩ := delete_reclaim_state P h5
  have f6 := w_unlock_frame h6
  have f7 := w_unlock_frame h7
  have hlt : (L.toInode (s.disk (sl.fd_direts sl.dir_num).inode_block)).size < 2 ^ 31 :=
    Nat.lt_of_le_of_lt hsz hM
  rw [if_pos hlt] at hdata
  refine ⟨paths, s0, s1, t, sl.block_num, sl.dir_num, hp, h0, hw, hbn', hdn,
    by rw [← hfd]; exact hlv, by rw [← hfd]; exact hnm,
    (sl.fd_direts sl.dir_num).inode_block, ev, data, by rw [hfd], by rw [← hfd]; exact hev,
    hdata, ?_, ?_⟩
  · have e7 : s'.free_blocks = s6.free_blocks := f7.2.1
    rw [e7, f6.2.1, hf5, hf3, fA.2.1, hf1]
  · have e7 : s'.num_block_remain = s6.num_block_remain := f7.2.2.1
    rw [e7, f6.2.2.1, hn5]
    rw [fA.2.2.1, hn1] at hn3
    revert hn3
    unfold UINT_MOD
    omega

theorem delete_reclaims_witness :
    ∃ s' rb, conduct_operation P0 Block.layout u0 sFile ['/', 'f'] ['u'] 0 'f'
        (Block.data []) (Block.data []) request_type.DELETE = some (true, s', rb) ∧
      ∃ child ev data, ev.length ≤ 1 ∧
        s'.free_blocks = sFile.free_blocks ++ ev ++ data ++ [child] ∧
        s'.num_block_remain
          = (sFile.num_block_remain + ev.length + data.length + 1) % UINT_MOD := by
  have h1 : (conduct_operation P0 Block.layout u0 sFile ['/', 'f'] ['u'] 0 'f'
      (Block.data []) (Block.data []) request_type.DELETE).map (fun r => r.1) = some true := by
    decide
  obtain ⟨⟨ok, s', rb⟩, hr, hv⟩ := Option.map_eq_some'.mp h1
  simp only at hv
  subst hv
  obtain ⟨_, _, _, _, _, _, _, _, _, _, _, _, _, child, ev, data, _, hev, _, hf, hn⟩ :=
    delete_reclaims P0 Block.layout u0 kindFile sFile s' ['/', 'f'] ['u'] 0 'f'
      (Block.data []) (Block.data []) rb (by decide) sFile_inv hr
  refine ⟨s', rb, hr, child, ev, data, ?_, hf, hn⟩
  rw [hev]
  split
  · exact Nat.le_refl 1
  · exact Nat.zero_le 1

/-! ### The children of an inode, before and after an operation -/

theorem reach_child (P : Params) (L : Layout β) {disk : Nat → β} {n m : Nat}
    (hn : ReachInode P L disk n) (hc : ChildOf P L disk n m) : ReachInode P L disk m := by
  obtain ⟨hty, j, hj, k, hk, hl, he⟩ := hc
  rw [← he]
  exact ReachInode.child n j k hn hty hj hk hl

/-- The children and the directory blocks of an inode only depend on its inode block
and on its directory blocks. -/
theorem children_congr (P : Params) (L : Layout β) {disk disk' : Nat → β} {n : Nat}
    (h1 : disk' n = disk n)
    (h2 : (L.toInode (disk n)).type = 'd' → ∀ j, j < (L.toInode (disk n)).size →
      disk' ((L.toInode (disk n)).blocks j) = disk ((L.toInode (disk n)).blocks j)) :
    (∀ m, ChildOf P L disk' n m ↔ ChildOf P L disk n m) ∧
    (BlocksLive P L disk n → BlocksLive P L disk' n) := by
  refine ⟨?_, ?_⟩
  · intro m
    unfold ChildOf
    rw [h1]
    constructor
    · rintro ⟨hty, j, hj, k, hk, hl, he⟩
      rw [h2 hty j hj] at hl he
      exact ⟨hty, j, hj, k, hk, hl, he⟩
    · rintro ⟨hty, j, hj, k, hk, hl, he⟩
      rw [← h2 hty j hj] at hl he
      exact ⟨hty, j, hj, k, hk, hl, he⟩
  · intro h
    unfold BlocksLive at h ⊢
    rw [h1]
    intro hty j hj
    rw [h2 hty j hj]
    exact h hty j hj

/-- An inode of the tree other than `t` keeps its inode block and its directory blocks
when the disk changes only at free blocks, at data blocks, at the inode `t` and at
directory blocks of `t`. -/
theorem other_unchanged (P : Params) (L : Layout β) {kind : Nat → Kind}
    {disk disk' : Nat → β} (hT : DiskTyped P L kind disk) {t n : Nat}
    (ht : kind t = Kind.inode) (hn : kind n = Kind.inode) (hnt : n ≠ t)
    (hch : ∀ b, disk' b ≠ disk b → kind b = Kind.free ∨ kind b = Kind.data ∨ b = t ∨
      ((L.toInode (disk t)).type = 'd' ∧
        ∃ j, j < (L.toInode (disk t)).size ∧ b = (L.toInode (disk t)).blocks j)) :
    disk' n = disk n ∧
    ((L.toInode (disk n)).type = 'd' → ∀ j, j < (L.toInode (disk n)).size →
      disk' ((L.toInode (disk n)).blocks j) = disk ((L.toInode (disk n)).blocks j)) := by
  refine ⟨?_, ?_⟩
  · by_contra hne
    rcases hch n hne with h | h | h | ⟨htd, j, hj, h⟩
    · rw [hn] at h; cases h
    · rw [hn] at h; cases h
    · exact hnt h
    · have := hT.dir_blocks t ht htd j hj
      rw [← h, hn] at this; cases this
  · intro hty j hj
    by_contra hne
    have hkd := hT.dir_blocks n hn hty j hj
    rcases hch _ hne with h | h | h | ⟨htd, j', hj', h⟩
    · rw [hkd] at h; cases h
    · rw [hkd] at h; cases h
    · rw [h, ht] at hkd; cases hkd
    · exact hnt (hT.dir_inj n t hn ht hty htd j hj j' hj' h).1

theorem children_other (P : Params) (L : Layout β) {kind : Nat → Kind}
    {disk disk' : Nat → β} (hT : DiskTyped P L kind disk) {t n : Nat}
    (ht : kind t = Kind.inode) (hn : kind n = Kind.inode) (hnt : n ≠ t)
    (hch : ∀ b, disk' b ≠ disk b → kind b = Kind.free ∨ kind b = Kind.data ∨ b = t ∨
      ((L.toInode (disk t)).type = 'd' ∧
        ∃ j, j < (L.toInode (disk t)).size ∧ b = (L.toInode (disk t)).blocks j)) :
    (∀ m, ChildOf P L disk' n m ↔ ChildOf P L disk n m) ∧
    (BlocksLive P L disk n → BlocksLive P L disk' n) := by
  obtain ⟨h1, h2⟩ := other_unchanged P L hT ht hn hnt hch
  exact children_congr P L h1 h2

/-- When one entry of a block is live and the block counts one live entry, it is the
only live entry. -/
theorem count_live_one (P : Params) (fd : Nat → fs_direntry) {dn : Nat}
    (hc : count_live P fd = 1) (hdn : dn < P.FS_DIRENTRIES) (hl : live (fd dn)) :
    ∀ k, k < P.FS_DIRENTRIES → live (fd k) → k = dn := by
  unfold count_live at hc
  obtain ⟨a, ha⟩ := List.length_eq_one.mp hc
  have hmem : ∀ k, k < P.FS_DIRENTRIES → live (fd k) → k = a := by
    intro k hk hlk
    have : k ∈ (List.range P.FS_DIRENTRIES).filter
        (fun i => decide ((fd i).inode_block ≠ 0)) := by
      rw [List.mem_filter]
      exact ⟨List.mem_range.mpr hk, by simpa using hlk⟩
    rw [ha] at this
    exact List.mem_singleton.mp this
  intro k hk hlk
  rw [hmem k hk hlk, hmem dn hdn hl]

/-- When one entry of a block is live and the block does not count one live entry,
another entry is live. -/
theorem count_live_other (P : Params) (fd : Nat → fs_direntry) {dn : Nat}
    (hc : count_live P fd ≠ 1) (hdn : dn < P.FS_DIRENTRIES) (hl : live (fd dn)) :
    ∃ k, k < P.FS_DIRENTRIES ∧ k ≠ dn ∧ live (fd k) := by
  unfold count_live at hc
  have hnd : ((List.range P.FS_DIRENTRIES).filter
      (fun i => decide ((fd i).inode_block ≠ 0))).Nodup :=
    (List.nodup_range _).filter _
  have hin : ∀ k, k ∈ (List.range P.FS_DIRENTRIES).filter
      (fun i => decide ((fd i).inode_block ≠ 0)) → k < P.FS_DIRENTRIES ∧ live (fd k) := by
    intro k hk
    rw [List.mem_filter] at hk
    exact ⟨List.mem_range.mp hk.1, by simpa using hk.2⟩
  have hmem : dn ∈ (List.range P.FS_DIRENTRIES).filter
      (fun i => decide ((fd i).inode_block ≠ 0)) := by
    rw [List.mem_filter]
    exact ⟨List.mem_range.mpr hdn, by simpa using hl⟩
  cases hlist : (List.range P.FS_DIRENTRIES).filter
      (fun i => decide ((fd i).inode_block ≠ 0)) with
  | nil => rw [hlist] at hmem; cases hmem
  | cons a rest =>
    cases rest with
    | nil => rw [hlist] at hc; exact absurd rfl hc
    | cons b rest1 =>
      rw [hlist] at hnd hin
      have hab : a ≠ b := by
        intro h
        rw [h] at hnd
        simp at hnd
      by_cases had : a = dn
      · exact ⟨b, (hin b (by simp)).1, fun h => hab (had.trans h.symm), (hin b (by simp)).2⟩
      · exact ⟨a, (hin a (by simp)).1, had, (hin a (by simp)).2⟩

/-- The children after a WRITE to the file `t`. -/
theorem children_write (P : Params) (L : Layout β) {kind : Nat → Kind}
    {disk disk' : Nat → β} (hT : DiskTyped P L kind disk) {t : Nat}
    (ht : kind t = Kind.inode) (hty : (L.toInode (disk t)).type = 'f')
    (hty' : (L.toInode (disk' t)).type = 'f')
    (hch : ∀ b, disk' b ≠ disk b → kind b = Kind.free ∨ kind b = Kind.data ∨ b = t) :
    ∀ n, kind n = Kind.inode →
      (∀ m, ChildOf P L disk' n m ↔ ChildOf P L disk n m) ∧
      (BlocksLive P L disk n → BlocksLive P L disk' n) := by
  intro n hn
  by_cases hnt : n = t
  · subst hnt
    refine ⟨?_, ?_⟩
    · intro m
      constructor
      · rintro ⟨h, _⟩
        rw [hty'] at h; exact absurd h (by decide)
      · rintro ⟨h, _⟩
        rw [hty] at h; exact absurd h (by decide)
    · intro _ h
      rw [hty'] at h; exact absurd h (by decide)
  · exact @children_other β P L kind disk disk' hT t n ht hn hnt (fun b hb => by
      rcases hch b hb with h | h | h
      · exact Or.inl h
      · exact Or.inr (Or.inl h)
      · exact Or.inr (Or.inr (Or.inl h)))

/-- The children after a CREATE that used a free slot of the directory `t`. -/
theorem children_create_slot (P : Params) (L : Layout β) {kind : Nat → Kind}
    {disk disk' : Nat → β} (hT : DiskTyped P L kind disk) {t f0 bn dn : Nat}
    {name : List Char} {x : β}
    (ht : kind t = Kind.inode) (htd : (L.toInode (disk t)).type = 'd')
    (hk0 : kind f0 = Kind.free) (hbn : bn < (L.toInode (disk t)).size)
    (hdn : dn < P.FS_DIRENTRIES)
    (hdead : (L.toDirs (disk ((L.toInode (disk t)).blocks bn)) dn).inode_block = 0)
    (hdisk : disk' = Function.update (Function.update disk f0 x)
      ((L.toInode (disk t)).blocks bn)
      (L.ofDirs (Function.update (L.toDirs (disk ((L.toInode (disk t)).blocks bn))) dn
        { name := name, inode_block := f0 }))) :
    ∀ n, kind n = Kind.inode →
      (∀ m, ChildOf P L disk' n m ↔ ChildOf P L disk n m ∨ (n = t ∧ m = f0)) ∧
      (BlocksLive P L disk n → BlocksLive P L disk' n) := by
  have hf00 : f0 ≠ 0 := kind_ne_of hk0 hT.root_inode (by decide)
  have hkb := hT.dir_blocks t ht htd bn hbn
  have hf0b : f0 ≠ (L.toInode (disk t)).blocks bn := kind_ne_of hk0 hkb (by decide)
  have htb : t ≠ (L.toInode (disk t)).blocks bn := kind_ne_of ht hkb (by decide)
  have htf0 : t ≠ f0 := kind_ne_of ht hk0 (by decide)
  have hdt : disk' t = disk t := by
    rw [hdisk, Function.update_noteq htb, Function.update_noteq htf0]
  have hE : ∀ j, j < (L.toInode (disk t)).size → ∀ k,
      L.toDirs (disk' ((L.toInode (disk t)).blocks j)) k
        = if j = bn ∧ k = dn then { name := name, inode_block := f0 }
          else L.toDirs (disk ((L.toInode (disk t)).blocks j)) k := by
    intro j hj k
    by_cases hjb : j = bn
    · subst hjb
      rw [hdisk, Function.update_same, L.toDirs_ofDirs]
      by_cases hkd : k = dn
      · rw [if_pos ⟨rfl, hkd⟩, hkd, Function.update_same]
      · rw [if_neg (fun h => hkd h.2), Function.update_noteq hkd]
    · rw [if_neg (fun h => hjb h.1)]
      have h1 : (L.toInode (disk t)).blocks j ≠ (L.toInode (disk t)).blocks bn := by
        intro h
        exact hjb (hT.dir_inj t t ht ht htd htd j hj bn hbn h).2
      have h2 : (L.toInode (disk t)).blocks j ≠ f0 :=
        kind_ne_of (hT.dir_blocks t ht htd j hj) hk0 (by decide)
      rw [hdisk, Function.update_noteq h1, Function.update_noteq h2]
  intro n hn
  by_cases hnt : n = t
  · subst hnt
    refine ⟨?_, ?_⟩
    · intro m
      unfold ChildOf
      rw [hdt]
      constructor
      · rintro ⟨hty, j, hj, k, hk, hl, he⟩
        rw [hE j hj k] at hl he
        by_cases hpos : j = bn ∧ k = dn
        · rw [if_pos hpos] at he
          exact Or.inr ⟨rfl, he.symm⟩
        · rw [if_neg hpos] at hl he
          exact Or.inl ⟨hty, j, hj, k, hk, hl, he⟩
      · rintro (⟨hty, j, hj, k, hk, hl, he⟩ | ⟨_, hm⟩)
        · have hpos : ¬ (j = bn ∧ k = dn) := by
            rintro ⟨h1, h2⟩
            rw [h1, h2] at hl
            exact hl hdead
          refine ⟨hty, j, hj, k, hk, ?_, ?_⟩
          · rw [hE j hj k, if_neg hpos]; exact hl
          · rw [hE j hj k, if_neg hpos]; exact he
        · refine ⟨htd, bn, hbn, dn, hdn, ?_, ?_⟩
          · rw [hE bn hbn dn, if_pos ⟨rfl, rfl⟩]; exact hf00
          · rw [hE bn hbn dn, if_pos ⟨rfl, rfl⟩]; exact hm.symm
    · intro h
      unfold BlocksLive at h ⊢
      rw [hdt]
      intro hty j hj
      obtain ⟨k, hk, hl⟩ := h hty j hj
      have hpos : ¬ (j = bn ∧ k = dn) := by
        rintro ⟨h1, h2⟩
        rw [h1, h2] at hl
        exact hl hdead
      exact ⟨k, hk, by rw [hE j hj k, if_neg hpos]; exact hl⟩
  · obtain ⟨c1, c2⟩ := @children_other β P L kind disk disk' hT t n ht hn hnt (fun b hb => by
      by_cases h1 : b = (L.toInode (disk t)).blocks bn
      · exact Or.inr (Or.inr (Or.inr ⟨htd, bn, hbn, h1⟩))
      · by_cases h2 : b = f0
        · rw [h2]; exact Or.inl hk0
        · exact absurd (by rw [hdisk, Function.update_noteq h1, Function.update_noteq h2]) hb)
    refine ⟨fun m => ?_, c2⟩
    rw [c1 m]
    constructor
    · exact fun h => Or.inl h
    · rintro (h | ⟨h, _⟩)
      · exact h
      · exact absurd h hnt

/-- The children after a CREATE that appended a directory block to the directory `t`. -/
theorem children_create_block (P : Params) (L : Layout β) {kind : Nat → Kind}
    {disk disk' : Nat → β} (hT : DiskTyped P L kind disk) {t f0 f1 : Nat}
    {name : List Char} {x : β} {fd : Nat → fs_direntry}
    (hD : 0 < P.FS_DIRENTRIES)
    (ht : kind t = Kind.inode) (htd : (L.toInode (disk t)).type = 'd')
    (hk0 : kind f0 = Kind.free) (hk1 : kind f1 = Kind.free)
    (hdisk : disk' = Function.update (Function.update (Function.update disk f0 x) f1
        (L.ofDirs (Function.update (clear_entries P fd) 0
          { name := name, inode_block := f0 }))) t
        (L.ofInode { L.toInode (disk t) with
          size := (L.toInode (disk t)).size + 1,
          blocks := Function.update (L.toInode (disk t)).blocks
            (L.toInode (disk t)).size f1 })) :
    ∀ n, kind n = Kind.inode →
      (∀ m, ChildOf P L disk' n m ↔ ChildOf P L disk n m ∨ (n = t ∧ m = f0)) ∧
      (BlocksLive P L disk n → BlocksLive P L disk' n) := by
  have hf00 : f0 ≠ 0 := kind_ne_of hk0 hT.root_inode (by decide)
  have htf0 : t ≠ f0 := kind_ne_of ht hk0 (by decide)
  have htf1 : t ≠ f1 := kind_ne_of ht hk1 (by decide)
  have hdt : L.toInode (disk' t) = { L.toInode (disk t) with
      size := (L.toInode (disk t)).size + 1,
      blocks := Function.update (L.toInode (disk t)).blocks (L.toInode (disk t)).size f1 } := by
    rw [hdisk, Function.update_same, L.toInode_ofInode]
  have hnew : ∀ k, L.toDirs (disk' f1) k
      = Function.update (clear_entries P fd) 0 { name := name, inode_block := f0 } k := by
    intro k
    rw [hdisk, Function.update_noteq htf1.symm, Function.update_same, L.toDirs_ofDirs]
  have hold : ∀ j, j < (L.toInode (disk t)).size →
      disk' ((L.toInode (disk t)).blocks j) = disk ((L.toInode (disk t)).blocks j) := by
    intro j hj
    have hkj := hT.dir_blocks t ht htd j hj
    rw [hdisk, Function.update_noteq (kind_ne_of hkj ht (by decide)),
      Function.update_noteq (kind_ne_of hkj hk1 (by decide)),
      Function.update_noteq (kind_ne_of hkj hk0 (by decide))]
  have hlive_new : ∀ k, k < P.FS_DIRENTRIES → live (L.toDirs (disk' f1) k) → k = 0 := by
    intro k hk hl
    by_contra hk0'
    rw [hnew k, Function.update_noteq hk0'] at hl
    unfold clear_entries live at hl
    rw [if_pos hk] at hl
    exact hl rfl
  intro n hn
  by_cases hnt : n = t
  · subst hnt
    refine ⟨?_, ?_⟩
    · intro m
      unfold ChildOf
      rw [hdt]
      dsimp only
      constructor
      · rintro ⟨hty, j, hj, k, hk, hl, he⟩
        by_cases hjs : j = (L.toInode (disk n)).size
        · rw [hjs, Function.update_same] at hl he
          have hk0' := hlive_new k hk hl
          rw [hk0', hnew 0, Function.update_same] at he
          exact Or.inr ⟨rfl, he.symm⟩
        · rw [Function.update_noteq hjs] at hl he
          have hj' : j < (L.toInode (disk n)).size := by omega
          rw [hold j hj'] at hl he
          exact Or.inl ⟨hty, j, hj', k, hk, hl, he⟩
      · rintro (⟨hty, j, hj, k, hk, hl, he⟩ | ⟨_, hm⟩)
        · have hjs : j ≠ (L.toInode (disk n)).size := by omega
          refine ⟨hty, j, by omega, k, hk, ?_, ?_⟩
          · rw [Function.update_noteq hjs, hold j hj]; exact hl
          · rw [Function.update_noteq hjs, hold j hj]; exact he
        · refine ⟨htd, (L.toInode (disk n)).size, Nat.lt_succ_self _, 0, hD, ?_, ?_⟩
          · rw [Function.update_same, hnew 0, Function.update_same]; exact hf00
          · rw [Function.update_same, hnew 0, Function.update_same]; exact hm.symm
    · intro h
      unfold BlocksLive at h ⊢
      rw [hdt]
      dsimp only
      intro hty j hj
      by_cases hjs : j = (L.toInode (disk n)).size
      · refine ⟨0, hD, ?_⟩
        rw [hjs, Function.update_same, hnew 0, Function.update_same]; exact hf00
      · have hj' : j < (L.toInode (disk n)).size := by omega
        obtain ⟨k, hk, hl⟩ := h hty j hj'
        exact ⟨k, hk, by rw [Function.update_noteq hjs, hold j hj']; exact hl⟩
  · obtain ⟨c1, c2⟩ := @children_other β P L kind disk disk' hT t n ht hn hnt (fun b hb => by
      by_cases h1 : b = t
      · exact Or.inr (Or.inr (Or.inl h1))
      · by_cases h2 : b = f1
        · rw [h2]; exact Or.inl hk1
        · by_cases h3 : b = f0
          · rw [h3]; exact Or.inl hk0
          · exact absurd (by rw [hdisk, Function.update_noteq h1, Function.update_noteq h2,
              Function.update_noteq h3]) hb)
    refine ⟨fun m => ?_, c2⟩
    rw [c1 m]
    constructor
    · exact fun h => Or.inl h
    · rintro (h | ⟨h, _⟩)
      · exact h
      · exact absurd h hnt

/-- The children after a DELETE that cleared an entry of a directory block of `t`. -/
theorem children_delete_clear (P : Params) (L : Layout β) {kind : Nat → Kind}
    {disk disk' : Nat → β} (hT : DiskTyped P L kind disk) {t bn dn : Nat}
    (ht : kind t = Kind.inode) (htd : (L.toInode (disk t)).type = 'd')
    (hbn : bn < (L.toInode (disk t)).size) (hdn : dn < P.FS_DIRENTRIES)
    (hlive : live (L.toDirs (disk ((L.toInode (disk t)).blocks bn)) dn))
    (hcnt : count_live P (L.toDirs (disk ((L.toInode (disk t)).blocks bn))) ≠ 1)
    (hdisk : disk' = Function.update disk ((L.toInode (disk t)).blocks bn)
      (L.ofDirs (Function.update (L.toDirs (disk ((L.toInode (disk t)).blocks bn))) dn
        { name := [], inode_block := 0 }))) :
    ∀ n, kind n = Kind.inode →
      (∀ m, ChildOf P L disk' n m → ChildOf P L disk n m ∧
        (entries_inj P L kind disk →
          m ≠ (L.toDirs (disk ((L.toInode (disk t)).blocks bn)) dn).inode_block)) ∧
      (∀ m, ChildOf P L disk n m →
        ¬ (n = t ∧ m = (L.toDirs (disk ((L.toInode (disk t)).blocks bn)) dn).inode_block) →
        ChildOf P L disk' n m) ∧
      (BlocksLive P L disk n → BlocksLive P L disk' n) := by
  have hkb := hT.dir_blocks t ht htd bn hbn
  have htb : t ≠ (L.toInode (disk t)).blocks bn := kind_ne_of ht hkb (by decide)
  have hdt : disk' t = disk t := by
    rw [hdisk, Function.update_noteq htb]
  have hE : ∀ j, j < (L.toInode (disk t)).size → ∀ k,
      L.toDirs (disk' ((L.toInode (disk t)).blocks j)) k
        = if j = bn ∧ k = dn then { name := [], inode_block := 0 }
          else L.toDirs (disk ((L.toInode (disk t)).blocks j)) k := by
    intro j hj k
    by_cases hjb : j = bn
    · subst hjb
      rw [hdisk, Function.update_same, L.toDirs_ofDirs]
      by_cases hkd : k = dn
      · rw [if_pos ⟨rfl, hkd⟩, hkd, Function.update_same]
      · rw [if_neg (fun h => hkd h.2), Function.update_noteq hkd]
    · rw [if_neg (fun h => hjb h.1)]
      have h1 : (L.toInode (disk t)).blocks j ≠ (L.toInode (disk t)).blocks bn := by
        intro h
        exact hjb (hT.dir_inj t t ht ht htd htd j hj bn hbn h).2
      rw [hdisk, Function.update_noteq h1]
  -- an entry of another position that names the child contradicts `entries_inj`
  have hinj : entries_inj P L kind disk → ∀ n, kind n = Kind.inode →
      (L.toInode (disk n)).type = 'd' → ∀ j, j < (L.toInode (disk n)).size →
      ∀ k, k < P.FS_DIRENTRIES → live (L.toDirs (disk ((L.toInode (disk n)).blocks j)) k) →
      (L.toDirs (disk ((L.toInode (disk n)).blocks j)) k).inode_block
        = (L.toDirs (disk ((L.toInode (disk t)).blocks bn)) dn).inode_block →
      n = t ∧ j = bn ∧ k = dn := by
    intro hEi n hn hty j hj k hk hl he
    obtain ⟨e1, e2⟩ := hEi _ _ (hT.dir_blocks n hn hty j hj) hkb k hk dn hdn hl hlive he
    obtain ⟨e3, e4⟩ := hT.dir_inj n t hn ht hty htd j hj bn hbn e1
    exact ⟨e3, e4, e2⟩
  intro n hn
  by_cases hnt : n = t
  · subst hnt
    refine ⟨?_, ?_, ?_⟩
    · intro m
      unfold ChildOf
      rw [hdt]
      rintro ⟨hty, j, hj, k, hk, hl, he⟩
      rw [hE j hj k] at hl he
      by_cases hpos : j = bn ∧ k = dn
      · rw [if_pos hpos] at hl
        exact absurd rfl hl
      · rw [if_neg hpos] at hl he
        refine ⟨⟨hty, j, hj, k, hk, hl, he⟩, ?_⟩
        intro hEi hm
        obtain ⟨_, e1, e2⟩ := hinj hEi n hn hty j hj k hk hl (he.trans hm)
        exact hpos ⟨e1, e2⟩
    · intro m
      unfold ChildOf
      rw [hdt]
      rintro ⟨hty, j, hj, k, hk, hl, he⟩ hnot
      have hpos : ¬ (j = bn ∧ k = dn) := by
        rintro ⟨h1, h2⟩
        rw [h1, h2] at he
        exact hnot ⟨rfl, he.symm⟩
      refine ⟨hty, j, hj, k, hk, ?_, ?_⟩
      · rw [hE j hj k, if_neg hpos]; exact hl
      · rw [hE j hj k, if_neg hpos]; exact he
    · intro h
      unfold BlocksLive at h ⊢
      rw [hdt]
      intro hty j hj
      by_cases hjb : j = bn
      · obtain ⟨k, hk, hkd, hl⟩ := count_live_other P _ hcnt hdn hlive
        refine ⟨k, hk, ?_⟩
        rw [hE j hj k, if_neg (fun h => hkd h.2), hjb]
        exact hl
      · obtain ⟨k, hk, hl⟩ := h hty j hj
        exact ⟨k, hk, by rw [hE j hj k, if_neg (fun h => hjb h.1)]; exact hl⟩
  · obtain ⟨c1, c2⟩ := @children_other β P L kind disk disk' hT t n ht hn hnt (fun b hb => by
      by_cases h1 : b = (L.toInode (disk t)).blocks bn
      · exact Or.inr (Or.inr (Or.inr ⟨htd, bn, hbn, h1⟩))
      · exact absurd (by rw [hdisk, Function.update_noteq h1]) hb)
    refine ⟨?_, ?_, c2⟩
    · intro m hm
      have hm' := (c1 m).mp hm
      refine ⟨hm', ?_⟩
      intro hEi he
      obtain ⟨hty, j, hj, k, hk, hl, he'⟩ := hm'
      exact hnt (hinj hEi n hn hty j hj k hk hl (he'.trans he)).1
    · intro m hm _
      exact (c1 m).mpr hm

/-- The children after a DELETE that removed a directory block from the directory `t`. -/
theorem children_delete_evict (P : Params) (L : Layout β) {kind : Nat → Kind}
    {disk disk' : Nat → β} (hT : DiskTyped P L kind disk) {t bn dn : Nat}
    {blocks1 : Nat → Nat}
    (ht : kind t = Kind.inode) (htd : (L.toInode (disk t)).type = 'd')
    (hbn : bn < (L.toInode (disk t)).size) (hdn : dn < P.FS_DIRENTRIES)
    (hlt : (L.toInode (disk t)).size < UINT_MOD)
    (hlive : live (L.toDirs (disk ((L.toInode (disk t)).blocks bn)) dn))
    (hcnt : count_live P (L.toDirs (disk ((L.toInode (disk t)).blocks bn))) = 1)
    (hb1 : ∀ j, blocks1 j = if bn ≤ j ∧ j + 1 < (L.toInode (disk t)).size
      then (L.toInode (disk t)).blocks (j + 1) else (L.toInode (disk t)).blocks j)
    (hdisk : disk' = Function.update disk t
      (L.ofInode { L.toInode (disk t) with
        blocks := blocks1,
        size := ((L.toInode (disk t)).size + UINT_MOD - 1) % UINT_MOD })) :
    ∀ n, kind n = Kind.inode →
      (∀ m, ChildOf P L disk' n m → ChildOf P L disk n m ∧
        (entries_inj P L kind disk →
          m ≠ (L.toDirs (disk ((L.toInode (disk t)).blocks bn)) dn).inode_block)) ∧
      (∀ m, ChildOf P L disk n m →
        ¬ (n = t ∧ m = (L.toDirs (disk ((L.toInode (disk t)).blocks bn)) dn).inode_block) →
        ChildOf P L disk' n m) ∧
      (BlocksLive P L disk n → BlocksLive P L disk' n) := by
  have hkb := hT.dir_blocks t ht htd bn hbn
  have hsz : ((L.toInode (disk t)).size + UINT_MOD - 1) % UINT_MOD
      = (L.toInode (disk t)).size - 1 := by
    have h1 : (L.toInode (disk t)).size + UINT_MOD - 1
        = ((L.toInode (disk t)).size - 1) + UINT_MOD := by unfold UINT_MOD; omega
    rw [h1, Nat.add_mod_right, Nat.mod_eq_of_lt (by omega)]
  have hdt : L.toInode (disk' t) = { L.toInode (disk t) with
      blocks := blocks1, size := (L.toInode (disk t)).size - 1 } := by
    rw [hdisk, Function.update_same, L.toInode_ofInode, hsz]
  have hsame : ∀ b, kind b = Kind.dir → disk' b = disk b := by
    intro b hb
    rw [hdisk, Function.update_noteq (kind_ne_of hb ht (by decide))]
  have hinj : entries_inj P L kind disk → ∀ n, kind n = Kind.inode →
      (L.toInode (disk n)).type = 'd' → ∀ j, j < (L.toInode (disk n)).size →
      ∀ k, k < P.FS_DIRENTRIES → live (L.toDirs (disk ((L.toInode (disk n)).blocks j)) k) →
      (L.toDirs (disk ((L.toInode (disk n)).blocks j)) k).inode_block
        = (L.toDirs (disk ((L.toInode (disk t)).blocks bn)) dn).inode_block →
      n = t ∧ j = bn ∧ k = dn := by
    intro hEi n hn hty j hj k hk hl he
    obtain ⟨e1, e2⟩ := hEi _ _ (hT.dir_blocks n hn hty j hj) hkb k hk dn hdn hl hlive he
    obtain ⟨e3, e4⟩ := hT.dir_inj n t hn ht hty htd j hj bn hbn e1
    exact ⟨e3, e4, e2⟩
  -- position `j` of the new array is position `j` or `j+1` of the old one
  have hpos : ∀ j, j < (L.toInode (disk t)).size - 1 →
      ∃ j1, j1 < (L.toInode (disk t)).size ∧ j1 ≠ bn ∧
        blocks1 j = (L.toInode (disk t)).blocks j1 := by
    intro j hj
    by_cases hle : bn ≤ j
    · exact ⟨j + 1, by omega, by omega, by rw [hb1 j, if_pos ⟨hle, by omega⟩]⟩
    · exact ⟨j, by omega, by omega, by rw [hb1 j, if_neg (fun h => hle h.1)]⟩
  intro n hn
  by_cases hnt : n = t
  · subst hnt
    refine ⟨?_, ?_, ?_⟩
    · intro m
      unfold ChildOf
      rw [hdt]
      dsimp only
      rintro ⟨hty, j, hj, k, hk, hl, he⟩
      obtain ⟨j1, hj1, hjb, hbl⟩ := hpos j hj
      rw [hbl, hsame _ (hT.dir_blocks n hn htd j1 hj1)] at hl he
      refine ⟨⟨hty, j1, hj1, k, hk, hl, he⟩, ?_⟩
      intro hEi hm
      exact hjb (hinj hEi n hn hty j1 hj1 k hk hl (he.trans hm)).2.1
    · intro m
      unfold ChildOf
      rw [hdt]
      dsimp only
      rintro ⟨hty, j, hj, k, hk, hl, he⟩ hnot
      have hjb : j ≠ bn := by
        intro h
        rw [h] at hl he
        have := count_live_one P _ hcnt hdn hlive k hk hl
        rw [this] at he
        exact hnot ⟨rfl, he.symm⟩
      have hkj := hT.dir_blocks n hn htd j hj
      by_cases hlt2 : j < bn
      · refine ⟨hty, j, by omega, k, hk, ?_, ?_⟩
        · rw [hb1 j, if_neg (by omega), hsame _ hkj]; exact hl
        · rw [hb1 j, if_neg (by omega), hsame _ hkj]; exact he
      · have hj1 : j - 1 + 1 = j := by omega
        refine ⟨hty, j - 1, by omega, k, hk, ?_, ?_⟩
        · rw [hb1 (j - 1), if_pos ⟨by omega, by omega⟩, hj1, hsame _ hkj]; exact hl
        · rw [hb1 (j - 1), if_pos ⟨by omega, by omega⟩, hj1, hsame _ hkj]; exact he
    · intro h
      unfold BlocksLive at h ⊢
      rw [hdt]
      dsimp only
      intro hty j hj
      obtain ⟨j1, hj1, _, hbl⟩ := hpos j hj
      obtain ⟨k, hk, hl⟩ := h hty j1 hj1
      exact ⟨k, hk, by rw [hbl, hsame _ (hT.dir_blocks n hn htd j1 hj1)]; exact hl⟩
  · obtain ⟨c1, c2⟩ := @children_other β P L kind disk disk' hT t n ht hn hnt (fun b hb => by
      by_cases h1 : b = t
      · exact Or.inr (Or.inr (Or.inl h1))
      · exact absurd (by rw [hdisk, Function.update_noteq h1]) hb)
    refine ⟨?_, ?_, c2⟩
    · intro m hm
      have hm' := (c1 m).mp hm
      refine ⟨hm', ?_⟩
      intro hEi he
      obtain ⟨hty, j, hj, k, hk, hl, he'⟩ := hm'
      exact hnt (hinj hEi n hn hty j hj k hk hl (he'.trans he)).1
    · intro m hm _
      exact (c1 m).mpr hm

/-! ### Reachable inodes, before and after an operation -/

/-- The inodes reachable on `disk'` are reachable on `disk` or are in `Q`, when every
child on `disk'` of an inode reachable on `disk` is, and the inodes in `Q` have no
child on `disk'`. -/
theorem reach_sub (P : Params) (L : Layout β) (disk disk' : Nat → β) (Q : Nat → Prop)
    (hstep : ∀ n m, ReachInode P L disk n → ChildOf P L disk' n m →
      ReachInode P L disk m ∨ Q m)
    (hQ : ∀ n m, Q n → ¬ ChildOf P L disk' n m) :
    ∀ m, ReachInode P L disk' m → ReachInode P L disk m ∨ Q m := by
  intro m h
  induction h with
  | root => exact Or.inl ReachInode.root
  | child n j k _ hty hj hk hl ih =>
    rcases ih with ih | ih
    · exact hstep n _ ih ⟨hty, j, hj, k, hk, hl, rfl⟩
    · exact absurd ⟨hty, j, hj, k, hk, hl, rfl⟩ (hQ n _ ih)

/-- The inodes reachable on `disk'` are reachable on `disk` and are in `R`, when every
child on `disk'` of an inode reachable on `disk` is. -/
theorem reach_sub_and (P : Params) (L : Layout β) (disk disk' : Nat → β) (R : Nat → Prop)
    (hstep : ∀ n m, ReachInode P L disk n → ChildOf P L disk' n m →
      ReachInode P L disk m ∧ R m)
    (h0 : R 0) :
    ∀ m, ReachInode P L disk' m → ReachInode P L disk m ∧ R m := by
  intro m h
  induction h with
  | root => exact ⟨ReachInode.root, h0⟩
  | child n j k _ hty hj hk hl ih =>
    exact hstep n _ ih.1 ⟨hty, j, hj, k, hk, hl, rfl⟩

/-- The inodes reachable on `disk` that are not in `Ex` are reachable on `disk'`, when
the inodes in `Ex` have no child on `disk` and every other child on `disk` of a
reachable inode is still its child on `disk'`. -/
theorem reach_sup (P : Params) (L : Layout β) (disk disk' : Nat → β) (Ex : Nat → Prop)
    (hstep : ∀ n m, ReachInode P L disk n → ChildOf P L disk n m → ¬ Ex m →
      ChildOf P L disk' n m)
    (hEx : ∀ n m, Ex n → ¬ ChildOf P L disk n m) :
    ∀ m, ReachInode P L disk m → ¬ Ex m → ReachInode P L disk' m := by
  intro m h
  induction h with
  | root => intro _; exact ReachInode.root
  | child n j k hn hty hj hk hl ih =>
    intro hm
    have hc : ChildOf P L disk n
        (L.toDirs (disk ((L.toInode (disk n)).blocks j)) k).inode_block :=
      ⟨hty, j, hj, k, hk, hl, rfl⟩
    have hnx : ¬ Ex n := fun hx => hEx n _ hx hc
    exact reach_child P L (ih hnx) (hstep n _ hn hc hm)

/-- The children and the lock keys after a successful operation that is neither CREATE
nor DELETE. -/
theorem success_same (P : Params) (L : Layout β) (u : Uninit) (kind : Nat → Kind)
    {s s' : State β} {path username : List Char} {offset : Nat} {c : Char}
    {wd rd rb : β} {rtype : request_type} (hinv : DiskInv P L kind s)
    (hc : rtype ≠ request_type.CREATE) (hd : rtype ≠ request_type.DELETE)
    (h : conduct_operation P L u s path username offset c wd rd rtype = some (true, s', rb)) :
    (∀ n, kind n = Kind.inode →
      (∀ m, ChildOf P L s'.disk n m ↔ ChildOf P L s.disk n m) ∧
      (BlocksLive P L s.disk n → BlocksLive P L s'.disk n)) ∧
    ∀ n, (s'.fs_locks n).isSome = (s.fs_locks n).isSome := by
  have hT := hinv.typed
  have hsame : ∀ {s2 : State β}, Frame s s2 →
      (∀ n, kind n = Kind.inode →
        (∀ m, ChildOf P L s2.disk n m ↔ ChildOf P L s.disk n m) ∧
        (BlocksLive P L s.disk n → BlocksLive P L s2.disk n)) ∧
      ∀ n, (s2.fs_locks n).isSome = (s.fs_locks n).isSome := by
    intro s2 f
    refine ⟨fun n _ => ?_, f.2.2.2⟩
    rw [f.1]
    exact ⟨fun m => Iff.rfl, id⟩
  by_cases hse : rtype = request_type.SESSION
  · unfold conduct_operation at h
    rw [if_pos hse] at h
    simp only [Option.some.injEq, Prod.mk.injEq, true_and] at h
    rw [← h.1]
    exact hsame (Frame.refl s)
  · obtain ⟨paths, s0, s1, t, hp, h0, hw, hon⟩ := conduct_operation_target P L u hse h
    obtain ⟨hkt, _, _, hd1, hf1, _⟩ :=
      locked_target P L username rtype hinv (parse_path_ne_nil P hp) h0 hw
    have f1 : Frame s s1 :=
      (lock_root_frame h0).trans (walk_frame P L username rtype _ _ _ _ hw)
    obtain ⟨_, hdis⟩ := on_target_true P L u hon
    rw [hd1] at hdis
    cases rtype with
    | SESSION => exact absurd rfl hse
    | CREATE => exact absurd rfl hc
    | DELETE => exact absurd rfl hd
    | READ =>
      simp only [dispatch] at hdis
      exact hsame (f1.trans (op_READ_frame P hdis))
    | INVALID =>
      simp only [dispatch, Option.some.injEq, Prod.mk.injEq, true_and] at hdis
      rw [← hdis.1]
      exact hsame f1
    | WRITE =>
      simp only [dispatch] at hdis
      obtain ⟨hty, hle, hlt, sw, hunl, hlk, hcase⟩ := op_WRITE_true P L hdis
      have fw := w_unlock_frame hunl
      have hd' : s'.disk = sw.disk := fw.1
      refine ⟨?_, ?_⟩
      · rw [hd']
        rcases hcase with ⟨_, blk, rest, hfree, _, _, _, hdisk⟩ | ⟨hlt2, _, _, hdisk⟩
        · have hkb : kind blk = Kind.free :=
            hinv.free_kind blk (by rw [← hf1, hfree]; exact List.mem_cons_self _ _)
          rw [hd1] at hdisk
          apply children_write P L hT hkt hty
          · rw [hdisk, Function.update_same, L.toInode_ofInode]
            exact hty
          · intro b hb
            by_cases h1 : b = t
            · exact Or.inr (Or.inr h1)
            · by_cases h2 : b = blk
              · rw [h2]; exact Or.inl hkb
              · exact absurd (by rw [hdisk, Function.update_noteq h1,
                  Function.update_noteq h2]) hb
        · have hkb := hT.file_blocks t hkt hty offset hlt2
          rw [hd1] at hdisk
          have htb : t ≠ (L.toInode (s.disk t)).blocks offset := kind_ne_of hkt hkb (by decide)
          apply children_write P L hT hkt hty
          · rw [hdisk, Function.update_noteq htb]
            exact hty
          · intro b hb
            by_cases h2 : b = (L.toInode (s.disk t)).blocks offset
            · rw [h2]; exact Or.inr (Or.inl hkb)
            · exact absurd (by rw [hdisk, Function.update_noteq h2]) hb
      · intro n
        rw [fw.2.2.2 n, hlk, f1.2.2.2 n]

/-- The children and the lock keys after a successful CREATE. -/
theorem success_create (P : Params) (L : Layout β) (u : Uninit) (kind : Nat → Kind)
    {s s' : State β} {path username : List Char} {offset : Nat} {c : Char}
    {wd rd rb : β} (hD : 0 < P.FS_DIRENTRIES) (hinv : DiskInv P L kind s)
    (h : conduct_operation P L u s path username offset c wd rd request_type.CREATE
      = some (true, s', rb)) :
    ∃ t f0 rest, s.free_blocks = f0 :: rest ∧ ReachInode P L s.disk t ∧
      (∀ n, kind n = Kind.inode →
        (∀ m, ChildOf P L s'.disk n m ↔ ChildOf P L s.disk n m ∨ (n = t ∧ m = f0)) ∧
        (BlocksLive P L s.disk n → BlocksLive P L s'.disk n)) ∧
      (L.toInode (s'.disk f0)).size = 0 ∧
      ∀ n, ((s'.fs_locks n).isSome = true ↔ n = f0 ∨ (s.fs_locks n).isSome = true) := by
  have hT := hinv.typed
  obtain ⟨paths, s0, s1, t, hp, h0, hw, hon⟩ :=
    conduct_operation_target P L u (by decide) h
  obtain ⟨hkt, _, _, hd1, hf1, _⟩ :=
    locked_target P L username request_type.CREATE hinv (parse_path_ne_nil P hp) h0 hw
  have f1 : Frame s s1 :=
    (lock_root_frame h0).trans (walk_frame P L username request_type.CREATE _ _ _ _ hw)
  have hd0 : s0.disk = s.disk := (lock_root_frame h0).1
  have hrt : ReachInode P L s.disk t := by
    have := walk_reach P L username request_type.CREATE _ s0 s1 0 t
      (by rw [hd0]; exact ReachInode.root) hw
    rw [hd0] at this
    exact this
  obtain ⟨_, hdis⟩ := on_target_true P L u hon
  simp only [dispatch] at hdis
  rw [hd1] at hdis
  obtain ⟨htd, sl, hsc, _, hcw⟩ := op_CREATE_inv P L u hdis
  rw [hd1] at hsc
  obtain ⟨_, hslot⟩ := create_scan_spec P L s.disk _ _ _ _ sl hsc
  obtain ⟨f0, rest, hfree, hcase⟩ := create_write_disk P L u hcw
  obtain ⟨f0', rest', hfree', _, hkeys, _⟩ := create_write_state P L u hcw
  have hff : f0' = f0 := by
    rw [hfree] at hfree'
    simp only [List.cons.injEq] at hfree'
    exact hfree'.1.symm
  rw [hff] at hkeys
  have hfree2 : s.free_blocks = f0 :: rest := by rw [← hf1]; exact hfree
  have hk0 : kind f0 = Kind.free :=
    hinv.free_kind f0 (by rw [hfree2]; exact List.mem_cons_self _ _)
  have htf0 : t ≠ f0 := kind_ne_of hkt hk0 (by decide)
  refine ⟨t, f0, rest, hfree2, hrt, ?_, ?_, ?_⟩
  · rcases hcase with ⟨hf, hdisk⟩ | ⟨_, _, f1', rest1, hrest, hdisk⟩
    · rcases hslot with hsl | ⟨_, hbn, hdn, hfd, hz⟩
      · rw [hsl] at hf; simp [slot0] at hf
      · have hdisk' : s'.disk = Function.update (Function.update s.disk f0
            (L.ofInode { u.new_inode with type := c, size := 0, owner := username }))
            ((L.toInode (s.disk t)).blocks sl.block_num)
            (L.ofDirs (Function.update
              (L.toDirs (s.disk ((L.toInode (s.disk t)).blocks sl.block_num))) sl.dir_num
              { name := paths.getLastD [], inode_block := f0 })) := by
          rw [hdisk, hd1, hfd]
        exact children_create_slot P L hT hkt htd hk0 (List.mem_range.mp hbn) hdn
          (by rw [← hfd]; exact hz) hdisk'
    · have hk1 : kind f1' = Kind.free :=
        hinv.free_kind f1' (by rw [hfree2, hrest]; simp)
      have hdisk' : s'.disk = Function.update (Function.update (Function.update s.disk f0
            (L.ofInode { u.new_inode with type := c, size := 0, owner := username })) f1'
            (L.ofDirs (Function.update (clear_entries P sl.fd_direts) 0
              { name := paths.getLastD [], inode_block := f0 }))) t
            (L.ofInode { L.toInode (s.disk t) with
              size := (L.toInode (s.disk t)).size + 1,
              blocks := Function.update (L.toInode (s.disk t)).blocks
                (L.toInode (s.disk t)).size f1' }) := by
        rw [hdisk, hd1]
      exact children_create_block P L hT hD hkt htd hk0 hk1 hdisk'
  · rcases hcase with ⟨hf, hdisk⟩ | ⟨_, _, f1', rest1, hrest, hdisk⟩
    · rcases hslot with hsl | ⟨_, hbn, _, _, _⟩
      · rw [hsl] at hf; simp [slot0] at hf
      · have hkb := hT.dir_blocks t hkt htd _ (List.mem_range.mp hbn)
        have hf0b : f0 ≠ (L.toInode (s.disk t)).blocks sl.block_num :=
          kind_ne_of hk0 hkb (by decide)
        rw [hdisk, hd1, Function.update_noteq hf0b, Function.update_same, L.toInode_ofInode]
    · have hk1 : kind f1' = Kind.free :=
        hinv.free_kind f1' (by rw [hfree2, hrest]; simp)
      have hne : f0 ≠ f1' := by
        have := hinv.free_nodup
        rw [hfree2, hrest] at this
        intro h0
        rw [h0] at this
        simp at this
      rw [hdisk, Function.update_noteq htf0.symm, Function.update_noteq hne,
        Function.update_same, L.toInode_ofInode]
  · intro n
    rw [hkeys n]
    have e : ({ s1 with num_block_remain := s1.num_block_remain - blocks_needed sl }
        : State β).fs_locks n = s1.fs_locks n := rfl
    rw [e, f1.2.2.2 n]
    by_cases hn : n = f0
    · simp [hn]
    · simp [hn]

/-- The lock keys after a successful DELETE, and the second check it passed. -/
theorem op_DELETE_keys (P : Params) (L : Layout β) {s s' : State β} {t : Nat}
    {inode : fs_inode} {name username : List Char} {rd rb : β}
    (h : op_DELETE P L s t inode name username rd = some (true, s', rb)) :
    ∃ sl, delete_scan P L s.disk inode name (List.range inode.size) = some (some sl) ∧
      ((L.toInode (s.disk (sl.fd_direts sl.dir_num).inode_block)).type = 'd' →
        (L.toInode (s.disk (sl.fd_direts sl.dir_num).inode_block)).size = 0) ∧
      (s.fs_locks (sl.fd_direts sl.dir_num).inode_block).isSome = true ∧
      ∀ n, ((s'.fs_locks n).isSome = true ↔
        n ≠ (sl.fd_direts sl.dir_num).inode_block ∧ (s.fs_locks n).isSome = true) := by
  obtain ⟨_, sl, hsc, sA, s3, s5, s6, hA, hrej, h3, h5, h6, h7⟩ := op_DELETE_inv P L h
  refine ⟨sl, hsc, ?_, ?_, ?_⟩
  · intro hty
    by_contra hne
    exact hrej (Or.inl ⟨hty, Nat.pos_of_ne_zero hne⟩)
  · exact @lock_isSome_of_lock β _ _ _ True _ (by rw [if_pos trivial]; exact hA)
  · intro n
    have fA := w_lock_frame hA
    have e3 := (delete_entry_state P L h3).1
    have e5 := (delete_reclaim_state P h5).1
    have f6 := w_unlock_frame h6
    have f7 := w_unlock_frame h7
    rw [f7.2.2.2 n]
    unfold delete_lock
    dsimp only
    by_cases hn : n = (sl.fd_direts sl.dir_num).inode_block
    · rw [hn, Function.update_same]
      simp
    · rw [Function.update_noteq hn, f6.2.2.2 n, e5, e3, fA.2.2.2 n]
      simp [hn]

/-- The children and the lock keys after a successful DELETE. -/
theorem success_delete (P : Params) (L : Layout β) (u : Uninit) (kind : Nat → Kind)
    {s s' : State β} {path username : List Char} {offset : Nat} {c : Char}
    {wd rd rb : β} (hM : P.FS_MAXFILEBLOCKS < 2 ^ 31) (hinv : DiskInv P L kind s)
    (h : conduct_operation P L u s path username offset c wd rd request_type.DELETE
      = some (true, s', rb)) :
    ∃ t child, ReachInode P L s.disk t ∧ ChildOf P L s.disk t child ∧
      (∀ m, ¬ ChildOf P L s.disk child m) ∧
      (∀ n, kind n = Kind.inode →
        (∀ m, ChildOf P L s'.disk n m → ChildOf P L s.disk n m ∧
          (entries_inj P L kind s.disk → m ≠ child)) ∧
        (∀ m, ChildOf P L s.disk n m → ¬ (n = t ∧ m = child) → ChildOf P L s'.disk n m) ∧
        (BlocksLive P L s.disk n → BlocksLive P L s'.disk n)) ∧
      (s.fs_locks child).isSome = true ∧
      ∀ n, ((s'.fs_locks n).isSome = true ↔ n ≠ child ∧ (s.fs_locks n).isSome = true) := by
  have hT := hinv.typed
  obtain ⟨paths, s0, s1, t, hp, h0, hw, hon⟩ :=
    conduct_operation_target P L u (by decide) h
  obtain ⟨hkt, _, _, hd1, _, _⟩ :=
    locked_target P L username request_type.DELETE hinv (parse_path_ne_nil P hp) h0 hw
  have f1 : Frame s s1 :=
    (lock_root_frame h0).trans (walk_frame P L username request_type.DELETE _ _ _ _ hw)
  have hd0 : s0.disk = s.disk := (lock_root_frame h0).1
  have hrt : ReachInode P L s.disk t := by
    have := walk_reach P L username request_type.DELETE _ s0 s1 0 t
      (by rw [hd0]; exact ReachInode.root) hw
    rw [hd0] at this
    exact this
  obtain ⟨_, hdis⟩ := on_target_true P L u hon
  simp only [dispatch] at hdis
  rw [hd1] at hdis
  obtain ⟨htd, sl, hsc, hcase⟩ := op_DELETE_true P L hdis
  obtain ⟨sl', hsc', hempty, hlk, hkeys⟩ := op_DELETE_keys P L hdis
  have hsl : sl' = sl := by
    rw [hsc] at hsc'
    simp only [Option.some.injEq] at hsc'
    exact hsc'.symm
  rw [hsl] at hempty hlk hkeys
  rw [hd1] at hsc hcase hempty
  obtain ⟨hbn, hdn, hfd, hlv, _⟩ := delete_scan_spec P L s.disk _ _ _ sl hsc
  have hbn' := List.mem_range.mp hbn
  have hlt : (L.toInode (s.disk t)).size < UINT_MOD := by
    have := hT.size_le t hkt
    unfold UINT_MOD
    omega
  have hlive : live (L.toDirs (s.disk ((L.toInode (s.disk t)).blocks sl.block_num)) sl.dir_num) := by
    rw [← hfd]; exact hlv
  have hchild : (sl.fd_direts sl.dir_num).inode_block
      = (L.toDirs (s.disk ((L.toInode (s.disk t)).blocks sl.block_num)) sl.dir_num).inode_block := by
    rw [hfd]
  refine ⟨t, (sl.fd_direts sl.dir_num).inode_block, hrt,
    ⟨htd, sl.block_num, hbn', sl.dir_num, hdn, hlive, hchild.symm⟩, ?_, ?_, ?_, ?_⟩
  · rintro m ⟨hty, j, hj, _⟩
    rw [hempty hty] at hj
    exact absurd hj (Nat.not_lt_zero j)
  · rw [hchild]
    rcases hcase with ⟨hcnt, blocks1, hsh, hdisk⟩ | ⟨hcnt, hdisk⟩
    · have hb1 := shift_blocks_spec P _ _ _ _ blocks1 (by omega) hsh
      rw [hfd] at hcnt
      exact children_delete_evict P L hT hkt htd hbn' hdn hlt hlive hcnt hb1 hdisk
    · rw [hfd] at hcnt hdisk
      exact children_delete_clear P L hT hkt htd hbn' hdn hlive hcnt hdisk
  · rw [← f1.2.2.2]; exact hlk
  · intro n
    rw [hkeys n, f1.2.2.2 n]

/-- Directory-size consistency (P3) is preserved under the disk invariants: from a state
satisfying the disk
invariants (a directory block having at least one entry, `FS_MAXFILEBLOCKS` below
2^31), if every directory block `blocks[0..size)` of every directory inode of the tree
has a live entry, the same holds after any call of `conduct_operation` that returns;
and when a DELETE that returns true removes the only live entry of the directory block
at position `j` of the parent `t`, the parent inode written back has size `size-1` and
its array is the old one with position `j` removed, the later positions moved left in
order. -/
theorem dir_size_consistency (P : Params) (L : Layout β) (u : Uninit) (kind : Nat → Kind)
    (s : State β) (path username : List Char) (offset : Nat) (c : Char) (wd rd : β)
    (rtype : request_type) (res : Bool × State β × β)
    (hD : 0 < P.FS_DIRENTRIES) (hM : P.FS_MAXFILEBLOCKS < 2 ^ 31)
    (hinv : DiskInv P L kind s) (h3 : P3 P L s.disk)
    (h : conduct_operation P L u s path username offset c wd rd rtype = some res) :
    P3 P L res.2.1.disk ∧
    (rtype = request_type.DELETE → res.1 = true →
      ∃ paths s0 s1 t j k,
        parse_path P path = some paths ∧
        lock_root s (path_depth request_type.DELETE paths) request_type.DELETE = some s0 ∧
        walk P L username request_type.DELETE s0 0
          (paths.take (path_depth request_type.DELETE paths)) = some (s1, some t) ∧
        j < (L.toInode (s.disk t)).size ∧ k < P.FS_DIRENTRIES ∧
        live (L.toDirs (s.disk ((L.toInode (s.disk t)).blocks j)) k) ∧
        (L.toDirs (s.disk ((L.toInode (s.disk t)).blocks j)) k).name = paths.getLastD [] ∧
        (count_live P (L.toDirs (s.disk ((L.toInode (s.disk t)).blocks j))) = 1 →
          (L.toInode (res.2.1.disk t)).size + 1 = (L.toInode (s.disk t)).size ∧
          ∀ i, i + 1 < (L.toInode (s.disk t)).size →
            (L.toInode (res.2.1.disk t)).blocks i
              = if i < j then (L.toInode (s.disk t)).blocks i
                else (L.toInode (s.disk t)).blocks (i + 1))) := by
  have hT := hinv.typed
  obtain ⟨ok, s', rb⟩ := res
  dsimp only
  refine ⟨?_, ?_⟩
  · cases ok with
    | false =>
      rw [(conduct_operation_false_frame P L u h).1]
      exact h3
    | true =>
      by_cases hc : rtype = request_type.CREATE
      · subst hc
        obtain ⟨t, f0, rest, _, _, hch, hsz, _⟩ := success_create P L u kind hD hinv h
        have hsub := reach_sub P L s.disk s'.disk (fun m => m = f0)
          (fun n m hn hcm => by
            rcases ((hch n (reach_kind P L hT hn)).1 m).mp hcm with h1 | h1
            · exact Or.inl (reach_child P L hn h1)
            · exact Or.inr h1.2)
          (fun n m hn hcm => by
            obtain ⟨_, j, hj, _⟩ := hcm
            rw [hn, hsz] at hj
            exact absurd hj (Nat.not_lt_zero j))
        intro m hm
        rcases hsub m hm with h1 | h1
        · exact (hch m (reach_kind P L hT h1)).2 (h3 m h1)
        · intro _ j hj
          rw [h1, hsz] at hj
          exact absurd hj (Nat.not_lt_zero j)
      · by_cases hd : rtype = request_type.DELETE
        · subst hd
          obtain ⟨t, child, _, _, _, hch, _, _⟩ := success_delete P L u kind hM hinv h
          have hsub := reach_sub_and P L s.disk s'.disk (fun _ => True)
            (fun n m hn hcm =>
              ⟨reach_child P L hn ((hch n (reach_kind P L hT hn)).1 m hcm).1, trivial⟩)
            trivial
          intro m hm
          have h1 := (hsub m hm).1
          exact (hch m (reach_kind P L hT h1)).2.2 (h3 m h1)
        · obtain ⟨hch, _⟩ := success_same P L u kind hinv hc hd h
          have hsub := reach_sub_and P L s.disk s'.disk (fun _ => True)
            (fun n m hn hcm =>
              ⟨reach_child P L hn (((hch n (reach_kind P L hT hn)).1 m).mp hcm), trivial⟩)
            trivial
          intro m hm
          have h1 := (hsub m hm).1
          exact (hch m (reach_kind P L hT h1)).2 (h3 m h1)
  · intro hd hok
    subst hd
    subst hok
    obtain ⟨paths, s0, s1, t, hp, h0, hw, hon⟩ :=
      conduct_operation_target P L u (by decide) h
    obtain ⟨hkt, _, _, hd1, _, _⟩ :=
      locked_target P L username request_type.DELETE hinv (parse_path_ne_nil P hp) h0 hw
    obtain ⟨_, hdis⟩ := on_target_true P L u hon
    simp only [dispatch] at hdis
    rw [hd1] at hdis
    obtain ⟨htd, sl, hsc, hcase⟩ := op_DELETE_true P L hdis
    rw [hd1] at hsc hcase
    obtain ⟨hbn, hdn, hfd, hlv, hnm⟩ := delete_scan_spec P L s.disk _ _ _ sl hsc
    have hbn' := List.mem_range.mp hbn
    refine ⟨paths, s0, s1, t, sl.block_num, sl.dir_num, hp, h0, hw, hbn', hdn,
      by rw [← hfd]; exact hlv, by rw [← hfd]; exact hnm, ?_⟩
    intro hcnt
    rw [← hfd] at hcnt
    rcases hcase with ⟨_, blocks1, hsh, hdisk⟩ | ⟨hne, _⟩
    · have hb1 := shift_blocks_spec P _ _ _ _ blocks1 (by omega) hsh
      have hsz : ((L.toInode (s.disk t)).size + UINT_MOD - 1) % UINT_MOD + 1
          = (L.toInode (s.disk t)).size := by
        have hle := hT.size_le t hkt
        have h1 : (L.toInode (s.disk t)).size + UINT_MOD - 1
            = ((L.toInode (s.disk t)).size - 1) + UINT_MOD := by unfold UINT_MOD; omega
        rw [h1, Nat.add_mod_right, Nat.mod_eq_of_lt (by unfold UINT_MOD; omega)]
        omega
      rw [hdisk, Function.update_same, L.toInode_ofInode]
      refine ⟨hsz, ?_⟩
      intro i hi
      dsimp only
      rw [hb1 i]
      by_cases hij : i < sl.block_num
      · rw [if_pos hij, if_neg (by omega)]
      · rw [if_neg hij, if_pos ⟨by omega, hi⟩]
    · exact absurd hcnt hne

theorem sFile_P3 : P3 P0 Block.layout sFile.disk := by
  intro n hn
  rcases sFile_reach_inode hn with rfl | rfl
  · intro _ j hj
    have hj' : j < 1 := hj
    have hj0 : j = 0 := by omega
    subst hj0
    exact ⟨0, by decide, by decide⟩
  · intro hty
    exact absurd hty (by decide)

theorem dir_size_consistency_witness :
    ∃ res, conduct_operation P0 Block.layout u0 sFile ['/', 'f'] ['u'] 0 'f'
        (Block.data []) (Block.data []) request_type.DELETE = some res ∧ res.1 = true ∧
      P3 P0 Block.layout res.2.1.disk ∧
      (Block.layout.toInode (res.2.1.disk 0)).size + 1
        = (Block.layout.toInode (sFile.disk 0)).size := by
  have h1 : (conduct_operation P0 Block.layout u0 sFile ['/', 'f'] ['u'] 0 'f'
      (Block.data []) (Block.data []) request_type.DELETE).map (fun r => r.1) = some true := by
    decide
  obtain ⟨res, hr, hv⟩ := Option.map_eq_some'.mp h1
  obtain ⟨hp3, hev⟩ :=
    dir_size_consistency P0 Block.layout u0 kindFile sFile ['/', 'f'] ['u'] 0 'f'
      (Block.data []) (Block.data []) request_type.DELETE res (by decide) (by decide)
      sFile_inv sFile_P3 hr
  obtain ⟨paths, s0, s1, t, j, k, hp, _, hw, hj, _, _, _, hcase⟩ := hev rfl hv
  have hp' : paths = [['f']] := by
    have : parse_path P0 ['/', 'f'] = some [['f']] := by decide
    rw [this] at hp
    exact (Option.some.inj hp).symm
  subst hp'
  have ht : t = 0 := by
    simp only [path_depth, List.length_singleton, Nat.sub_self, List.take_zero, walk,
      Option.some.injEq, Prod.mk.injEq] at hw
    exact hw.2.symm
  subst ht
  have hj' : j < 1 := hj
  have hj0 : j = 0 := by omega
  subst hj0
  exact ⟨res, hr, hv, hp3, (hcase (by decide)).1⟩

/-- Lock hygiene (P4) is preserved under the disk invariants: from a state satisfying the
disk invariants in
which an inode is named by one entry only (a directory block having at least one entry,
`FS_MAXFILEBLOCKS` below 2^31), if the keys of the lock table are the inode blocks
reachable from the root, they still are after any call of `conduct_operation` that
returns; a CREATE that returns true adds exactly the key of the new inode, the block at
the front of the free list; a DELETE that returns true removes exactly the key of the
deleted inode, which is no longer reachable; and a call that returns false, or that is
neither CREATE nor DELETE, leaves the set of keys as it was. -/
theorem lock_hygiene (P : Params) (L : Layout β) (u : Uninit) (kind : Nat → Kind)
    (s : State β) (path username : List Char) (offset : Nat) (c : Char) (wd rd : β)
    (rtype : request_type) (res : Bool × State β × β)
    (hD : 0 < P.FS_DIRENTRIES) (hM : P.FS_MAXFILEBLOCKS < 2 ^ 31)
    (hinv : DiskInv P L kind s) (hE : entries_inj P L kind s.disk) (h4 : P4 P L s)
    (h : conduct_operation P L u s path username offset c wd rd rtype = some res) :
    P4 P L res.2.1 ∧
    (rtype = request_type.CREATE → res.1 = true →
      ∃ f0 rest, s.free_blocks = f0 :: rest ∧ (s.fs_locks f0).isSome = false ∧
        ∀ n, ((res.2.1.fs_locks n).isSome = true ↔
          n = f0 ∨ (s.fs_locks n).isSome = true)) ∧
    (rtype = request_type.DELETE → res.1 = true →
      ∃ t child, ReachInode P L s.disk t ∧ ChildOf P L s.disk t child ∧
        ¬ ReachInode P L res.2.1.disk child ∧ (s.fs_locks child).isSome = true ∧
        ∀ n, ((res.2.1.fs_locks n).isSome = true ↔
          n ≠ child ∧ (s.fs_locks n).isSome = true)) ∧
    (res.1 = false ∨ (rtype ≠ request_type.CREATE ∧ rtype ≠ request_type.DELETE) →
      ∀ n, (res.2.1.fs_locks n).isSome = (s.fs_locks n).isSome) := by
  have hT := hinv.typed
  obtain ⟨ok, s', rb⟩ := res
  dsimp only
  -- the three kinds of outcome
  have hcreate : rtype = request_type.CREATE → ok = true →
      P4 P L s' ∧ ∃ f0 rest, s.free_blocks = f0 :: rest ∧ (s.fs_locks f0).isSome = false ∧
        ∀ n, ((s'.fs_locks n).isSome = true ↔ n = f0 ∨ (s.fs_locks n).isSome = true) := by
    intro hc hok
    subst hc; subst hok
    obtain ⟨t, f0, rest, hfree, hrt, hch, hsz, hkeys⟩ := success_create P L u kind hD hinv h
    have hk0 : kind f0 = Kind.free :=
      hinv.free_kind f0 (by rw [hfree]; exact List.mem_cons_self _ _)
    have hnot : (s.fs_locks f0).isSome = false := by
      cases hx : (s.fs_locks f0).isSome with
      | false => rfl
      | true =>
        have := reach_kind P L hT ((h4 f0).mp hx)
        rw [hk0] at this
        cases this
    have hsub := reach_sub P L s.disk s'.disk (fun m => m = f0)
      (fun n m hn hcm => by
        rcases ((hch n (reach_kind P L hT hn)).1 m).mp hcm with h1 | h1
        · exact Or.inl (reach_child P L hn h1)
        · exact Or.inr h1.2)
      (fun n m hn hcm => by
        obtain ⟨_, j, hj, _⟩ := hcm
        rw [hn, hsz] at hj
        exact absurd hj (Nat.not_lt_zero j))
    have hsup := reach_sup P L s.disk s'.disk (fun _ => False)
      (fun n m hn hcm _ => ((hch n (reach_kind P L hT hn)).1 m).mpr (Or.inl hcm))
      (fun _ _ hx => False.elim hx)
    refine ⟨?_, f0, rest, hfree, hnot, hkeys⟩
    intro n
    rw [hkeys n]
    constructor
    · rintro (hn | hn)
      · rw [hn]
        exact reach_child P L (hsup t hrt id)
          (((hch t (reach_kind P L hT hrt)).1 f0).mpr (Or.inr ⟨rfl, rfl⟩))
      · exact hsup n ((h4 n).mp hn) id
    · intro hn
      rcases hsub n hn with h1 | h1
      · exact Or.inr ((h4 n).mpr h1)
      · exact Or.inl h1
  have hdelete : rtype = request_type.DELETE → ok = true →
      P4 P L s' ∧ ∃ t child, ReachInode P L s.disk t ∧ ChildOf P L s.disk t child ∧
        ¬ ReachInode P L s'.disk child ∧ (s.fs_locks child).isSome = true ∧
        ∀ n, ((s'.fs_locks n).isSome = true ↔ n ≠ child ∧ (s.fs_locks n).isSome = true) := by
    intro hd hok
    subst hd; subst hok
    obtain ⟨t, child, hrt, hct, hnoc, hch, hlk, hkeys⟩ :=
      success_delete P L u kind hM hinv h
    have hc0 : child ≠ 0 := by
      obtain ⟨_, j, _, k, _, hl, he⟩ := hct
      rw [← he]; exact hl
    have hsub := reach_sub_and P L s.disk s'.disk (fun m => m ≠ child)
      (fun n m hn hcm => by
        obtain ⟨h1, h2⟩ := (hch n (reach_kind P L hT hn)).1 m hcm
        exact ⟨reach_child P L hn h1, h2 hE⟩)
      (Ne.symm hc0)
    have hsup := reach_sup P L s.disk s'.disk (fun m => m = child)
      (fun n m hn hcm hm =>
        (hch n (reach_kind P L hT hn)).2.1 m hcm (fun hx => hm hx.2))
      (fun n m hx => by rw [hx]; exact hnoc m)
    refine ⟨?_, t, child, hrt, hct, fun hr => (hsub child hr).2 rfl, hlk, hkeys⟩
    intro n
    rw [hkeys n]
    constructor
    · rintro ⟨hn, hs⟩
      exact hsup n ((h4 n).mp hs) hn
    · intro hn
      obtain ⟨h1, h2⟩ := hsub n hn
      exact ⟨h2, (h4 n).mpr h1⟩
  have hother : ok = false ∨ (rtype ≠ request_type.CREATE ∧ rtype ≠ request_type.DELETE) →
      P4 P L s' ∧ ∀ n, (s'.fs_locks n).isSome = (s.fs_locks n).isSome := by
    intro hor
    cases ok with
    | false =>
      have f := conduct_operation_false_frame P L u h
      refine ⟨?_, f.2.2.2⟩
      intro n
      rw [f.2.2.2 n, f.1]
      exact h4 n
    | true =>
      rcases hor with hor | ⟨hc, hd⟩
      · cases hor
      · obtain ⟨hch, hkeys⟩ := success_same P L u kind hinv hc hd h
        have hsub := reach_sub_and P L s.disk s'.disk (fun _ => True)
          (fun n m hn hcm =>
            ⟨reach_child P L hn (((hch n (reach_kind P L hT hn)).1 m).mp hcm), trivial⟩)
          trivial
        have hsup := reach_sup P L s.disk s'.disk (fun _ => False)
          (fun n m hn hcm _ => ((hch n (reach_kind P L hT hn)).1 m).mpr hcm)
          (fun _ _ hx => False.elim hx)
        refine ⟨?_, hkeys⟩
        intro n
        rw [hkeys n]
        constructor
        · intro hs
          exact hsup n ((h4 n).mp hs) id
        · intro hn
          exact (h4 n).mpr (hsub n hn).1
  refine ⟨?_, fun hc hok => (hcreate hc hok).2, fun hd hok => (hdelete hd hok).2,
    fun hor => (hother hor).2⟩
  cases hok : ok with
  | false => exact (hother (Or.inl hok)).1
  | true =>
    by_cases hc : rtype = request_type.CREATE
    · exact (hcreate hc hok).1
    · by_cases hd : rtype = request_type.DELETE
      · exact (hdelete hd hok).1
      · exact (hother (Or.inr ⟨hc, hd⟩)).1

theorem lock_hygiene_witness :
    ∃ res, conduct_operation P0 Block.layout u0 sFile ['/', 'g'] ['u'] 0 'f'
        (Block.data []) (Block.data []) request_type.CREATE = some res ∧ res.1 = true ∧
      P4 P0 Block.layout res.2.1 ∧
      ∀ n, ((res.2.1.fs_locks n).isSome = true ↔ n = 4 ∨ (sFile.fs_locks n).isSome = true) := by
  have h1 : (conduct_operation P0 Block.layout u0 sFile ['/', 'g'] ['u'] 0 'f'
      (Block.data []) (Block.data []) request_type.CREATE).map (fun r => r.1) = some true := by
    decide
  obtain ⟨res, hr, hv⟩ := Option.map_eq_some'.mp h1
  obtain ⟨hp4, hcr, _, _⟩ :=
    lock_hygiene P0 Block.layout u0 kindFile sFile ['/', 'g'] ['u'] 0 'f'
      (Block.data []) (Block.data []) request_type.CREATE res (by decide) (by decide)
      sFile_inv sFile_entries_inj sFile_P4 hr
  obtain ⟨f0, rest, hf, _, hkeys⟩ := hcr rfl hv
  have h4 : sFile.free_blocks = [4, 5, 6, 7] := rfl
  rw [h4] at hf
  simp only [List.cons.injEq] at hf
  rw [← hf.1] at hkeys
  exact ⟨res, hr, hv, hp4, hkeys⟩

end Ops

/-! ## Numbers, locks, requests and the start-up -/

section Wire
variable {β : Type}
theorem wrap64_small (x : Int) (h0 : 0 ≤ x) (h1 : x < 2 ^ 63) : wrap64 x = x := by
  unfold wrap64
  omega

theorem cvt_loop_nondigit (s : List Char) (a : Int) (c : Char) (hc : c ∈ s)
    (hd : isdigit c = false) : cvt_loop s a = none := by
  induction s generalizing a with
  | nil => cases hc
  | cons d ds ih =>
    rw [cvt_loop]
    by_cases hdd : isdigit d = true
    · rw [if_pos hdd]
      rcases List.mem_cons.mp hc with h | h
      · subst h
        rw [hd] at hdd
        cases hdd
      · exact ih _ h
    · rw [if_neg hdd]

theorem isdigit_ge (c : Char) (h : isdigit c = true) : 48 ≤ c.toNat ∧ c.toNat ≤ 57 := by
  unfold isdigit at h
  simpa using h

theorem cvt_loop_digits (s : List Char) (a k : Nat) (ha : a < 10 ^ k)
    (hk : k + s.length ≤ 18) (hd : ∀ c, c ∈ s → isdigit c = true) :
    cvt_loop s (a : Int) = some ((s.foldl (fun v c => v * 10 + (c.toNat - 48)) a : Nat) : Int) ∧
    s.foldl (fun v c => v * 10 + (c.toNat - 48)) a < 10 ^ (k + s.length) := by
  induction s generalizing a k with
  | nil => exact ⟨rfl, ha⟩
  | cons d ds ih =>
    have hdd := hd d (List.mem_cons_self _ _)
    obtain ⟨h48, h57⟩ := isdigit_ge d hdd
    rw [cvt_loop, if_pos hdd]
    have hlen : (d :: ds).length = ds.length + 1 := rfl
    have hnew : a * 10 + (d.toNat - 48) < 10 ^ (k + 1) := by
      rw [pow_succ]
      omega
    have hle : (10 : Nat) ^ (k + 1) ≤ 10 ^ 18 :=
      Nat.pow_le_pow_right (by decide) (by omega)
    have hcast : ((a : Int) * 10 + ((d.toNat : Int) - 48)) = ((a * 10 + (d.toNat - 48) : Nat) : Int) := by
      omega
    have hw : wrap64 ((a : Int) * 10 + ((d.toNat : Int) - 48)) =
        ((a * 10 + (d.toNat - 48) : Nat) : Int) := by
      rw [hcast]
      apply wrap64_small
      · omega
      · have : (10 : Nat) ^ 18 < 2 ^ 63 := by norm_num
        omega
    rw [hw]
    have := ih (a * 10 + (d.toNat - 48)) (k + 1) hnew (by rw [hlen] at hk; omega)
      (fun c hc => hd c (List.mem_cons_of_mem _ hc))
    rw [List.foldl_cons, hlen]
    refine ⟨this.1, ?_⟩
    have h2 := this.2
    rw [show k + 1 + ds.length = k + (ds.length + 1) by omega] at h2
    exact h2

/-- On strings of at most 18 bytes `cvt_int` is exact decimal parsing: it returns a
number exactly for the canonical numerals of value at most 2^32 - 1, and the number is
that value. -/
theorem cvt_int_exact (s : List Char) (hlen : s.length ≤ 18) (v : Nat) :
    cvt_int s = some v ↔
      canonical_decimal s ∧ decimal_value s ≤ 2 ^ 32 - 1 ∧ v = decimal_value s := by
  unfold cvt_int canonical_decimal
  by_cases h0 : s.length = 0
  · rw [if_pos h0]
    have : s = [] := List.length_eq_zero.mp h0
    constructor
    · intro h; cases h
    · intro h; exact absurd this h.1.1
  rw [if_neg h0]
  have hne : s ≠ [] := fun h => h0 (by rw [h]; rfl)
  by_cases hd : ∀ c, c ∈ s → isdigit c = true
  · obtain ⟨hl, hb⟩ := cvt_loop_digits s 0 0 (by decide) (by omega) hd
    have hl2 : cvt_loop s 0 = some ((decimal_value s : Nat) : Int) := hl
    rw [hl2]
    dsimp only
    by_cases hz : s.length > 1 ∧ s.head? = some '0'
    · rw [if_pos hz]
      constructor
      · intro h; cases h
      · intro h; exact absurd hz.2 (h.1.2.2 hz.1)
    rw [if_neg hz]
    have hz2 : s.length > 1 → s.head? ≠ some '0' := fun h1 h2 => hz ⟨h1, h2⟩
    by_cases hbig : ((decimal_value s : Nat) : Int) > 2 ^ 32 - 1
    · rw [if_pos hbig]
      constructor
      · intro h; cases h
      · intro h
        have := h.2.1
        omega
    rw [if_neg hbig]
    have hv : (((decimal_value s : Nat) : Int) % 2 ^ 32).toNat = decimal_value s := by
      omega
    rw [hv]
    constructor
    · intro h
      refine ⟨⟨hne, hd, hz2⟩, by omega, (Option.some.inj h).symm⟩
    · intro h
      rw [h.2.2]
  · have hd2 := hd
    push_neg at hd2
    obtain ⟨c, hc, hcd⟩ := hd2
    have : cvt_loop s 0 = none := cvt_loop_nondigit s 0 c hc (by simpa using hcd)
    rw [this]
    constructor
    · intro h; cases h
    · intro h; exact absurd h.1.2.1 hd

theorem cvt_int_exact_witness :
    cvt_int "42".toList = some 42 ↔
      canonical_decimal "42".toList ∧ decimal_value "42".toList ≤ 2 ^ 32 - 1 ∧
        42 = decimal_value "42".toList :=
  cvt_int_exact "42".toList (by decide) 42

set_option maxRecDepth 100000 in
/-- C28. `cvt_int` is not exact decimal parsing on every byte string: on the 19 digits
"9223372036854775808" (the number 2^63) the 64-bit accumulator wraps to a negative
number, the test against the largest unsigned int does not fire, and `cvt_int` returns
true with `num = 0`, although the string is a canonical numeral of value 2^63, which is
more than 2^32 - 1. -/
theorem cvt_int_accepts_wrapped_number :
    cvt_int "9223372036854775808".toList = some 0 ∧
    canonical_decimal "9223372036854775808".toList ∧
    decimal_value "9223372036854775808".toList = 2 ^ 63 ∧
    ¬ decimal_value "9223372036854775808".toList ≤ 2 ^ 32 - 1 := by
  refine ⟨by decide, ⟨by decide, by decide, by decide⟩, by decide, by decide⟩

theorem rw_step_inv (m m1 : Nat × Nat) (hs : rw_step m m1)
    (h : m.1 < UINT_MOD ∧ m.2 ≤ 1 ∧ (m.2 = 0 ∨ m.1 = 0)) :
    m1.1 < UINT_MOD ∧ m1.2 ≤ 1 ∧ (m1.2 = 0 ∨ m1.1 = 0) := by
  obtain ⟨r, w⟩ := m
  obtain ⟨h1, h2, h3⟩ := h
  simp only at h1 h2 h3
  cases hs with
  | read_lock _ hl =>
    unfold read_lock at hl
    simp only at hl
    by_cases hw : w > 0
    · rw [if_pos hw] at hl
      cases hl
    · rw [if_neg hw] at hl
      cases hl
      simp only
      refine ⟨Nat.mod_lt _ (by unfold UINT_MOD; decide), h2, Or.inl (by omega)⟩
  | write_lock _ hl =>
    unfold write_lock at hl
    simp only at hl
    by_cases hw : (r + w) % UINT_MOD > 0
    · rw [if_pos hw] at hl
      cases hl
    · rw [if_neg hw] at hl
      cases hl
      simp only
      have hrw : r = 0 ∧ w = 0 := by
        unfold UINT_MOD at hw h1
        omega
      obtain ⟨hr, hw0⟩ := hrw
      subst hr
      subst hw0
      refine ⟨h1, by unfold UINT_MOD; decide, Or.inr rfl⟩
  | read_unlock hr =>
    unfold read_unlock
    simp only at hr ⊢
    refine ⟨Nat.mod_lt _ (by unfold UINT_MOD; decide), h2, ?_⟩
    rcases h3 with h | h
    · exact Or.inl h
    · omega
  | write_unlock hw =>
    unfold write_unlock
    simp only at hw ⊢
    refine ⟨h1, ?_, Or.inl ?_⟩
    · have : w = 1 := by omega
      subst this
      unfold UINT_MOD; decide
    · have : w = 1 := by omega
      subst this
      unfold UINT_MOD; decide

theorem rw_reach_inv (m : Nat × Nat) (h : rw_reach m) :
    m.1 < UINT_MOD ∧ m.2 ≤ 1 ∧ (m.2 = 0 ∨ m.1 = 0) := by
  induction h with
  | init => exact ⟨by unfold UINT_MOD; decide, by decide, Or.inl rfl⟩
  | step m m1 _ hs ih => exact rw_step_inv m m1 hs ih

/-- C26. Reader/writer exclusion of `rw_mutex_t`: every pair of counters
`(reading_num, writing_num)` reachable from `(0, 0)` by completed `read_lock` and
`write_lock` calls and by unlocks of current holders has `writing_num ≤ 1`, and never
`writing_num > 0` together with `reading_num > 0`. -/
theorem rw_exclusion (m : Nat × Nat) (h : rw_reach m) :
    m.2 ≤ 1 ∧ ¬ (m.2 > 0 ∧ m.1 > 0) := by
  obtain ⟨_, h2, h3⟩ := rw_reach_inv m h
  refine ⟨h2, fun hh => ?_⟩
  omega

theorem rw_exclusion_witness :
    rw_reach (0, 1) ∧ (0, 1).2 ≤ 1 ∧ ¬ ((0, 1).2 > 0 ∧ (0, 1).1 > 0) :=
  have h : rw_reach (0, 1) :=
    rw_reach.step (0, 0) (0, 1) rw_reach.init (rw_step.write_lock (0, 0) (0, 1) (by decide))
  ⟨h, rw_exclusion (0, 1) h⟩

theorem digitChar_val (d : Nat) (h : d < 10) :
    (Nat.digitChar d).toNat - 48 = d ∧ isdigit (Nat.digitChar d) = true ∧
    (d ≠ 0 → Nat.digitChar d ≠ '0') := by
  interval_cases d <;> decide

theorem decimal_value_snoc (ds : List Char) (c : Char) :
    decimal_value (ds ++ [c]) = decimal_value ds * 10 + (c.toNat - 48) := by
  unfold decimal_value
  rw [List.foldl_append]
  rfl

theorem toDigitsCore_spec (fuel n : Nat) (acc : List Char) (h : n < fuel) :
    ∃ ds, Nat.toDigitsCore 10 fuel n acc = ds ++ acc ∧ decimal_value ds = n ∧
      (∀ c, c ∈ ds → isdigit c = true) ∧ ds ≠ [] ∧
      (n ≠ 0 → ds.head? ≠ some '0') ∧ (n = 0 → ds = ['0']) := by
  induction fuel generalizing n acc with
  | zero => omega
  | succ fuel ih =>
    rw [Nat.toDigitsCore]
    have hm : n % 10 < 10 := Nat.mod_lt _ (by decide)
    obtain ⟨hv, hd, hz⟩ := digitChar_val (n % 10) hm
    by_cases h0 : n / 10 = 0
    · rw [if_pos h0]
      have hn : n % 10 = n := by omega
      refine ⟨[Nat.digitChar (n % 10)], rfl, ?_, ?_, by simp, ?_, ?_⟩
      · show 0 * 10 + ((Nat.digitChar (n % 10)).toNat - 48) = n
        omega
      · intro c hc
        rw [List.mem_singleton.mp hc]
        exact hd
      · intro hne hh
        rw [hn] at hz
        have := hz hne
        simp only [List.head?_cons, Option.some.injEq] at hh
        rw [hn] at hh
        exact this hh
      · intro hn0
        subst hn0
        rfl
    · rw [if_neg h0]
      obtain ⟨ds, e, v, dg, ne, hh, _⟩ := ih (n / 10) (Nat.digitChar (n % 10) :: acc) (by omega)
      refine ⟨ds ++ [Nat.digitChar (n % 10)], ?_, ?_, ?_, by simp, ?_, ?_⟩
      · rw [e]
        simp
      · rw [decimal_value_snoc, v]
        omega
      · intro c hc
        rcases List.mem_append.mp hc with h1 | h1
        · exact dg c h1
        · rw [List.mem_singleton.mp h1]
          exact hd
      · intro _
        cases ds with
        | nil => exact absurd rfl ne
        | cons a as => exact hh h0
      · intro hn0
        omega

theorem to_string_spec (n : Nat) :
    canonical_decimal (to_string n) ∧ decimal_value (to_string n) = n := by
  obtain ⟨ds, e, v, dg, ne, hh, hz⟩ := toDigitsCore_spec (n + 1) n [] (by omega)
  have e2 : to_string n = ds := by
    unfold to_string Nat.toDigits
    rw [e, List.append_nil]
  rw [e2]
  refine ⟨⟨ne, dg, ?_⟩, v⟩
  intro hl
  by_cases hn : n = 0
  · rw [hz hn] at hl
    simp at hl
  · exact hh hn

theorem c_str_no_nul (str : List Char) (h : ∀ c, c ∈ str → c ≠ '\x00') : c_str str = str := by
  unfold c_str
  rw [List.takeWhile_eq_self_iff]
  intro c hc
  simpa using h c hc

theorem c_str_append_nul (str rest : List Char) (h : ∀ c, c ∈ str → c ≠ '\x00') :
    c_str (str ++ '\x00' :: rest) = str := by
  unfold c_str
  induction str with
  | nil => simp [List.takeWhile]
  | cons a as ih =>
    have ha := h a (List.mem_cons_self _ _)
    rw [List.cons_append, List.takeWhile_cons]
    have : (a != '\x00') = true := by simpa using ha
    rw [this]
    simp only [if_true]
    rw [ih (fun c hc => h c (List.mem_cons_of_mem _ hc))]

theorem digit_not_nul (c : Char) (h : isdigit c = true) : c ≠ '\x00' := by
  intro hc
  subst hc
  revert h
  decide

theorem response_head_no_nul (session_id sequence : Nat) :
    ∀ c, c ∈ to_string session_id ++ [' '] ++ to_string sequence → c ≠ '\x00' := by
  intro c hc
  rcases List.mem_append.mp hc with h | h
  · rcases List.mem_append.mp h with h1 | h1
    · exact digit_not_nul c ((to_string_spec session_id).1.2.1 c h1)
    · rw [List.mem_singleton.mp h1]
      decide
  · exact digit_not_nul c ((to_string_spec sequence).1.2.1 c h)

/-- C22. Response cleartext format: the numerals written by `send_response` are the
canonical decimal numerals of the session and of the sequence number; for every request
type other than READ the cleartext given to `fs_encrypt` is the decimal session, one
space, the decimal sequence and one NUL byte, and its length is the length of that
string plus 1; for READ it is the same bytes followed by exactly the `FS_BLOCKSIZE`
bytes of the read buffer, and its length is the string length plus 1 plus
`FS_BLOCKSIZE`.  In both cases the length given to `fs_encrypt` is the number of bytes
of the buffer. -/
theorem response_cleartext_format (P : Params) (type : request_type)
    (session_id sequence : Nat) (rd_data : Nat → Char) (uninit : Char) :
    (canonical_decimal (to_string session_id) ∧ decimal_value (to_string session_id) = session_id) ∧
    (canonical_decimal (to_string sequence) ∧ decimal_value (to_string sequence) = sequence) ∧
    (type ≠ request_type.READ →
      response_cleartext P type session_id sequence rd_data uninit =
        (to_string session_id ++ [' '] ++ to_string sequence ++ ['\x00'],
         (to_string session_id ++ [' '] ++ to_string sequence).length + 1)) ∧
    (type = request_type.READ →
      response_cleartext P type session_id sequence rd_data uninit =
        (to_string session_id ++ [' '] ++ to_string sequence ++ ['\x00'] ++
           (List.range P.FS_BLOCKSIZE).map rd_data,
         (to_string session_id ++ [' '] ++ to_string sequence).length + 1 + P.FS_BLOCKSIZE)) ∧
    (response_cleartext P type session_id sequence rd_data uninit).1.length =
      (response_cleartext P type session_id sequence rd_data uninit).2 := by
  have hn := response_head_no_nul session_id sequence
  have hc := c_str_no_nul _ hn
  have hc2 : c_str (to_string session_id ++ [' '] ++ to_string sequence ++ ['\x00']) =
      to_string session_id ++ [' '] ++ to_string sequence := c_str_append_nul _ [] hn
  have h1 : type ≠ request_type.READ →
      response_cleartext P type session_id sequence rd_data uninit =
        (to_string session_id ++ [' '] ++ to_string sequence ++ ['\x00'],
         (to_string session_id ++ [' '] ++ to_string sequence).length + 1) := by
    intro ht
    unfold response_cleartext
    dsimp only
    rw [if_pos ht, hc, Nat.sub_self, List.replicate_zero, List.append_nil, hc2]
  have h2 : type = request_type.READ →
      response_cleartext P type session_id sequence rd_data uninit =
        (to_string session_id ++ [' '] ++ to_string sequence ++ ['\x00'] ++
           (List.range P.FS_BLOCKSIZE).map rd_data,
         (to_string session_id ++ [' '] ++ to_string sequence).length + 1 + P.FS_BLOCKSIZE) := by
    intro ht
    unfold response_cleartext
    dsimp only
    rw [if_neg (not_not.mpr ht), hc, Nat.sub_self, List.replicate_zero, List.append_nil]
  refine ⟨to_string_spec session_id, to_string_spec sequence, h1, h2, ?_⟩
  by_cases ht : type = request_type.READ
  · rw [h2 ht]
    simp only [List.length_append, List.length_map, List.length_range, List.length_singleton]
  · rw [h1 ht]
    simp only [List.length_append, List.length_singleton]

/-- C24. The path walk also follows entries that are not live.  The disk `sDead` is a
well-formed tree; block 4 of its directory `/a` (inode 2) has entry 1 free
(`inode_block == 0`) with the bytes `n` left in the name.  The search of the walk for
the token `n` selects that entry, so on the path `/a/n` the walk steps from the
directory `/a` back into block 0: it takes the read lock of inode 0 a second time and
ends on inode 0. -/
theorem walk_follows_free_entry :
    DiskInv P0 Block.layout kindDead sDead ∧
    find_entry P0 (Block.layout.toDirs (sDead.disk 4)) ['n'] = some 1 ∧
    (Block.layout.toDirs (sDead.disk 4) 1).inode_block = 0 ∧
    walk_scan P0 Block.layout sDead.disk (Block.layout.toInode (sDead.disk 2)) ['n']
      (List.range (Block.layout.toInode (sDead.disk 2)).size) = some (some 0) ∧
    ((lock_root sDead 2 request_type.READ).bind fun s0 =>
      (walk P0 Block.layout ['u'] request_type.READ s0 0 [['a'], ['n']]).map
        fun r => (r.2, r.1.log)) =
      some (some 0, [LockEv.r_lock 0, LockEv.r_lock 2, LockEv.r_unlock 0,
                     LockEv.r_lock 0, LockEv.r_unlock 2]) :=
  ⟨sDead_inv, by decide, by decide, by decide, by decide⟩

/-! ### The free count -/

/-- The lock of the inode on which the walk ends exists. -/
theorem walk_locked (P : Params) (L : Layout β) (username : List Char) (rtype : request_type) :
    ∀ (ts : List (List Char)) (s s1 : State β) (ib t : Nat),
      (s.fs_locks ib).isSome = true →
      walk P L username rtype s ib ts = some (s1, some t) →
      (s1.fs_locks t).isSome = true := by
  intro ts
  induction ts with
  | nil =>
    intro s s1 ib t hl h
    simp only [walk, Option.some.injEq, Prod.mk.injEq] at h
    obtain ⟨h1, h2⟩ := h
    subst h1; subst h2
    exact hl
  | cons tok rest ih =>
    intro s s1 ib t _ h
    obtain ⟨_, _, c, sa, sb, _, ha, hb, hw⟩ := walk_cons_some P L username rtype h
    have f1 : Frame s sa := by
      split at ha
      · exact w_lock_frame ha
      · exact r_lock_frame ha
    have f2 : Frame s sb := f1.trans (r_unlock_frame hb)
    have hlc : (sb.fs_locks c).isSome = true := by
      rw [f2.2.2.2 c]; exact lock_isSome_of_lock ha
    exact ih sb s1 c t hlc hw

theorem FreeCount_frame {s s1 : State β} (f : Frame s s1) (hc : FreeCount s) : FreeCount s1 := by
  unfold FreeCount at hc ⊢
  rw [f.2.2.1, f.2.1]
  exact hc

theorem release_blocks_bound (P : Params) (blocks : Nat → Nat) :
    ∀ (is : List Nat) (s s1 : State β), release_blocks P blocks s is = some s1 →
      ∀ i, i ∈ is → i < P.FS_MAXFILEBLOCKS := by
  intro is
  induction is with
  | nil => intro s s1 _ i hi; cases hi
  | cons j js ih =>
    intro s s1 h i hi
    rw [release_blocks] at h
    by_cases hj : j < P.FS_MAXFILEBLOCKS
    · rw [if_pos hj] at h
      rcases List.mem_cons.mp hi with e | e
      · rw [e]; exact hj
      · exact ih _ s1 h i e
    · rw [if_neg hj] at h
      cases h

theorem delete_reclaim_bound (P : Params) {s3 s5 : State β} {inode_del : fs_inode} {idx : Nat}
    (h : delete_reclaim P s3 inode_del idx = some s5) :
    (if inode_del.type = 'f' then
        (List.range (if inode_del.size < 2 ^ 31 then inode_del.size else 0)).map inode_del.blocks
      else []).length ≤ P.FS_MAXFILEBLOCKS := by
  unfold delete_reclaim at h
  simp only [Option.map_eq_some'] at h
  obtain ⟨s4, h4, _⟩ := h
  by_cases hf : inode_del.type = 'f'
  · rw [if_pos hf] at h4 ⊢
    rw [List.length_map, List.length_range]
    have hb := release_blocks_bound P _ _ s3 s4 h4
    by_cases hn : (if inode_del.size < 2 ^ 31 then inode_del.size else 0) = 0
    · rw [hn]; exact Nat.zero_le _
    · have := hb ((if inode_del.size < 2 ^ 31 then inode_del.size else 0) - 1)
        (List.mem_range.mpr (by omega))
      omega
  · rw [if_neg hf]
    exact Nat.zero_le _

/-- A successful operation keeps the free count equal to the length of the free
list. -/
theorem dispatch_true_count (P : Params) (L : Layout β) (u : Uninit) {s1 s' : State β}
    {t : Nat} {inode : fs_inode} {name username : List Char} {offset : Nat} {c : Char}
    {wd rd rb : β} {rtype : request_type}
    (hc : FreeCount s1)
    (hfit : s1.free_blocks.length + P.FS_MAXFILEBLOCKS + 2 < UINT_MOD)
    (h : dispatch P L u s1 t inode name username offset c wd rd rtype = some (true, s', rb)) :
    FreeCount s' := by
  cases rtype with
  | READ => exact FreeCount_frame (op_READ_frame P h) hc
  | WRITE =>
    obtain ⟨_, _, _, sw, hu, _, hcase⟩ := op_WRITE_true P L h
    have f := w_unlock_frame hu
    unfold FreeCount at hc ⊢
    rw [f.2.2.1, f.2.1]
    rcases hcase with ⟨_, blk, rest, e1, e2, e3, e4, _⟩ | ⟨_, e1, e2, _⟩
    · rw [e2, e3, hc, e1]
      rfl
    · rw [e1, e2]
      exact hc
  | CREATE =>
    obtain ⟨_, sl, _, hn, hw⟩ := op_CREATE_inv P L u h
    obtain ⟨f0, rest, e1, e2, _, hcase⟩ := create_write_state P L u hw
    unfold FreeCount at hc ⊢
    simp only at e1 e2
    rw [e2]
    unfold blocks_needed at hn ⊢
    rcases hcase with ⟨hd, e3⟩ | ⟨hd, f1, rest1, e3, e4⟩
    · rw [e3, hd, hc, e1]
      simp
    · rw [e4, hd, hc, e1, e3]
      simp
  | DELETE =>
    obtain ⟨_, sl, _, sA, s3, s5, s6, hA, _, h3, h5, h6, h7⟩ := op_DELETE_inv P L h
    have fA := w_lock_frame hA
    obtain ⟨_, ev, hev, e3, n3⟩ := delete_entry_state P L h3
    have hb := delete_reclaim_bound P h5
    obtain ⟨_, data, hdata, e5, n5⟩ := delete_reclaim_state P h5
    rw [← hdata] at hb
    have f6 := w_unlock_frame h6
    have f7 := w_unlock_frame h7
    unfold FreeCount at hc ⊢
    rw [f7.2.2.1, f7.2.1]
    show s6.num_block_remain = s6.free_blocks.length
    rw [f6.2.2.1, f6.2.1, n5, e5, e3, fA.2.1]
    rw [fA.2.2.1] at n3
    simp only [List.length_append, List.length_singleton]
    have hev2 : ev.length ≤ 1 := by
      rw [hev]; split <;> omega
    unfold UINT_MOD at *
    omega
  | SESSION =>
    simp only [dispatch, Option.some.injEq, Prod.mk.injEq, true_and] at h
    rw [← h.1]; exact hc
  | INVALID =>
    simp only [dispatch, Option.some.injEq, Prod.mk.injEq, true_and] at h
    rw [← h.1]; exact hc

/-- The commit of CREATE returns: when it allocates, the free list holds the one or
two blocks it takes. -/
theorem create_commit_returns (P : Params) (L : Layout β) (u : Uninit) {s : State β} {t : Nat}
    {inode : fs_inode} {name username : List Char} {c : Char} {rd : β} {sl : Slot}
    (hl : (s.fs_locks t).isSome = true) (hc : FreeCount s)
    (hu : username.length ≤ P.FS_MAXUSERNAME) (hs : inode.size ≤ P.FS_MAXFILEBLOCKS) :
    (create_commit P L u s t inode name username c rd sl).isSome = true := by
  unfold FreeCount at hc
  obtain ⟨s2, h2⟩ := w_unlock_of_isSome hl
  unfold create_commit
  by_cases h1 : sl.diret_found = false ∧ inode.size = P.FS_MAXFILEBLOCKS
  · rw [if_pos h1, h2]; rfl
  rw [if_neg h1]
  by_cases h3 : s.num_block_remain < blocks_needed sl
  · rw [if_pos h3, h2]; rfl
  rw [if_neg h3]
  unfold create_write
  have hlk : ∀ (st : State β) (f0 : Nat), st.fs_locks = Function.update s.fs_locks f0 (some (0, 0)) →
      ∀ g : State β → Bool × State β × β, ((w_unlock st t).map g).isSome = true := by
    intro st f0 e g
    have : (st.fs_locks t).isSome = true := by
      rw [e]
      by_cases htf : t = f0
      · rw [htf, Function.update_same]; rfl
      · rw [Function.update_noteq htf]; exact hl
    obtain ⟨s9, h9⟩ := w_unlock_of_isSome this
    rw [h9]; rfl
  cases hf : s.free_blocks with
  | nil =>
    rw [hf] at hc
    unfold blocks_needed at h3
    simp only [List.length_nil] at hc
    split at h3 <;> omega
  | cons f0 rest =>
    simp only
    rw [if_neg (by omega)]
    cases hd : sl.diret_found with
    | true =>
      simp only [if_true]
      exact hlk _ f0 rfl _
    | false =>
      simp only [Bool.false_eq_true, if_false]
      cases hr : rest with
      | nil =>
        rw [hf, hr] at hc
        unfold blocks_needed at h3
        rw [hd] at h3
        simp at hc h3
        omega
      | cons f1 rest1 =>
        simp only
        have : inode.size < P.FS_MAXFILEBLOCKS := by
          rcases Nat.lt_or_ge inode.size P.FS_MAXFILEBLOCKS with h | h
          · exact h
          · exact absurd ⟨hd, Nat.le_antisymm hs h⟩ h1
        rw [if_pos this]
        exact hlk _ f0 rfl _

theorem op_CREATE_returns (P : Params) (L : Layout β) (u : Uninit) {s : State β} {t : Nat}
    {inode : fs_inode} {name username : List Char} {c : Char} {rd : β}
    (hl : (s.fs_locks t).isSome = true) (hc : FreeCount s)
    (hu : username.length ≤ P.FS_MAXUSERNAME) (hs : inode.size ≤ P.FS_MAXFILEBLOCKS) :
    (op_CREATE P L u s t inode name username c rd).isSome = true := by
  obtain ⟨s2, h2⟩ := w_unlock_of_isSome hl
  unfold op_CREATE
  by_cases h1 : c ≠ 'f' ∧ c ≠ 'd'
  · rw [if_pos h1, h2]; rfl
  rw [if_neg h1]
  by_cases h3 : inode.type ≠ 'd'
  · rw [if_pos h3, h2]; rfl
  rw [if_neg h3]
  obtain ⟨r, hr⟩ := create_scan_total P L s.disk inode name (List.range inode.size) (slot0 u)
    (fun i hi => Nat.lt_of_lt_of_le (List.mem_range.mp hi) hs)
  rw [hr]
  cases r with
  | none => simp only; rw [h2]; rfl
  | some sl => exact create_commit_returns P L u hl hc hu hs

/-- C29. Free-count consistency: from a state in which `num_block_remain` is the number
of entries of `free_blocks` (and that number, with `FS_MAXFILEBLOCKS + 2` more, fits in
an unsigned int), every call of `conduct_operation` that returns, for every verb and
outcome, leaves `num_block_remain` equal to the number of entries of `free_blocks`; and
once the walk has reached the target, a WRITE returns, and so does a CREATE by a user
whose name fits in `FS_MAXUSERNAME` in a directory of at most `FS_MAXFILEBLOCKS`
blocks: the calls `free_blocks.front()` of the two branches find the one or two
entries they take, and never an empty list. -/
theorem free_count_consistency (P : Params) (L : Layout β) (u : Uninit) (s : State β)
    (path username : List Char) (offset : Nat) (c : Char) (wd rd : β) (rtype : request_type)
    (hc : FreeCount s)
    (hfit : s.free_blocks.length + P.FS_MAXFILEBLOCKS + 2 < UINT_MOD) :
    (∀ ok s' rb, conduct_operation P L u s path username offset c wd rd rtype
        = some (ok, s', rb) → FreeCount s') ∧
    (∀ paths s0 s1 t, parse_path P path = some paths →
      lock_root s (path_depth rtype paths) rtype = some s0 →
      walk P L username rtype s0 0 (paths.take (path_depth rtype paths)) = some (s1, some t) →
      FreeCount s1 ∧
      (rtype = request_type.WRITE →
        (conduct_operation P L u s path username offset c wd rd rtype).isSome = true) ∧
      (rtype = request_type.CREATE → username.length ≤ P.FS_MAXUSERNAME →
        (L.toInode (s1.disk t)).size ≤ P.FS_MAXFILEBLOCKS →
        (conduct_operation P L u s path username offset c wd rd rtype).isSome = true)) := by
  constructor
  · intro ok s' rb h
    cases ok with
    | false => exact FreeCount_frame (conduct_operation_false_frame P L u h) hc
    | true =>
      by_cases hne : rtype = request_type.SESSION
      · unfold conduct_operation at h
        rw [if_pos hne] at h
        simp only [Option.some.injEq, Prod.mk.injEq, true_and] at h
        rw [← h.1]; exact hc
      · obtain ⟨paths, s0, s1, t, _, h0, hw, ht⟩ := conduct_operation_target P L u hne h
        have f : Frame s s1 :=
          (lock_root_frame h0).trans (walk_frame P L username rtype _ _ _ _ hw)
        obtain ⟨_, hd⟩ := on_target_true P L u ht
        exact dispatch_true_count P L u (FreeCount_frame f hc) (by rw [f.2.1]; exact hfit) hd
  · intro paths s0 s1 t hp h0 hw
    have f : Frame s s1 :=
      (lock_root_frame h0).trans (walk_frame P L username rtype _ _ _ _ hw)
    have hc1 : FreeCount s1 := FreeCount_frame f hc
    have hl : (s1.fs_locks t).isSome = true :=
      walk_locked P L username rtype _ s0 s1 0 t (lock_root_isSome h0) hw
    have hden : ∀ rt : request_type, rt ≠ request_type.READ →
        ((unlock_target s1 t rt).map (fun s2 => (false, s2, rd))).isSome = true := by
      intro rt hrt
      obtain ⟨s2, h2⟩ := w_unlock_of_isSome hl
      unfold unlock_target
      rw [if_pos hrt, h2]; rfl
    refine ⟨hc1, ?_, ?_⟩
    · intro hr
      subst hr
      rw [conduct_operation_eq P L u (by decide) hp h0 hw]
      unfold on_target
      dsimp only
      by_cases hown : owner_denied (L.toInode (s1.disk t)).owner username = true
      · rw [if_pos hown]; exact hden _ (by decide)
      · rw [if_neg hown]
        obtain ⟨ok, s', h, _⟩ :=
          @op_WRITE_returns β P L s1 t (L.toInode (s1.disk t)) offset wd rd hl hc1
        show (op_WRITE P L s1 t (L.toInode (s1.disk t)) offset wd rd).isSome = true
        rw [h]; rfl
    · intro hr hu hs
      subst hr
      rw [conduct_operation_eq P L u (by decide) hp h0 hw]
      unfold on_target
      dsimp only
      by_cases hown : owner_denied (L.toInode (s1.disk t)).owner username = true
      · rw [if_pos hown]; exact hden _ (by decide)
      · rw [if_neg hown]
        exact op_CREATE_returns P L u hl hc1 hu hs

theorem free_count_consistency_witness :
    ∃ s' rb, conduct_operation P0 Block.layout u0 sFile ['/', 'g'] ['u'] 0 'd'
        (Block.data []) (Block.data []) request_type.CREATE = some (true, s', rb) ∧
      FreeCount sFile ∧ FreeCount s' := by
  have hres : (conduct_operation P0 Block.layout u0 sFile ['/', 'g'] ['u'] 0 'd'
      (Block.data []) (Block.data []) request_type.CREATE).map (fun r => r.1)
      = some true := by decide
  obtain ⟨⟨ok, s', rb⟩, h, hv⟩ := Option.map_eq_some'.mp hres
  simp only at hv
  subst hv
  exact ⟨s', rb, h, rfl,
    (free_count_consistency P0 Block.layout u0 sFile ['/', 'g'] ['u'] 0 'd'
      (Block.data []) (Block.data []) request_type.CREATE rfl (by decide)).1 true s' rb h⟩

/-! ### The lock discipline of one operation -/

theorem r_lock_log {s s1 : State β} {n : Nat} (h : r_lock s n = some s1) :
    s1.log = s.log ++ [LockEv.r_lock n] := by
  unfold r_lock at h
  split at h
  · cases h
  · split at h
    · cases h
    · cases h; rfl

theorem w_lock_log {s s1 : State β} {n : Nat} (h : w_lock s n = some s1) :
    s1.log = s.log ++ [LockEv.w_lock n] := by
  unfold w_lock at h
  split at h
  · cases h
  · split at h
    · cases h
    · cases h; rfl

theorem r_unlock_log {s s1 : State β} {n : Nat} (h : r_unlock s n = some s1) :
    s1.log = s.log ++ [LockEv.r_unlock n] := by
  unfold r_unlock at h
  split at h
  · cases h
  · cases h; rfl

theorem w_unlock_log {s s1 : State β} {n : Nat} (h : w_unlock s n = some s1) :
    s1.log = s.log ++ [LockEv.w_unlock n] := by
  unfold w_unlock at h
  split at h
  · cases h
  · cases h; rfl

theorem lock_seg_discipline : ∀ (tr : List LockEv) (held held1 : List (Nat × Bool))
    (tr2 : List LockEv), lock_seg held tr = some held1 → lock_discipline held1 tr2 = true →
    lock_discipline held (tr ++ tr2) = true := by
  intro tr
  induction tr with
  | nil =>
    intro held held1 tr2 h hd
    simp only [lock_seg, Option.some.injEq] at h
    subst h
    exact hd
  | cons ev evs ih =>
    intro held held1 tr2 h hd
    rw [lock_seg] at h
    rw [List.cons_append, lock_discipline]
    cases hs : lock_step held ev with
    | none => rw [hs] at h; cases h
    | some h1 =>
      rw [hs] at h
      simp only at h ⊢
      by_cases hc : h1.length ≤ 2 ∧ h1 ≠ []
      · rw [if_pos hc] at h
        have hne : h1.isEmpty = false := by
          cases h1 with
          | nil => exact absurd rfl hc.2
          | cons a as => rfl
        rw [ih h1 held1 tr2 h hd, hne]
        simp [hc.1]
      · rw [if_neg hc] at h
        cases h

theorem lock_seg_append : ∀ (tr : List LockEv) (held held1 held2 : List (Nat × Bool))
    (tr2 : List LockEv), lock_seg held tr = some held1 → lock_seg held1 tr2 = some held2 →
    lock_seg held (tr ++ tr2) = some held2 := by
  intro tr
  induction tr with
  | nil =>
    intro held held1 held2 tr2 h hd
    simp only [lock_seg, Option.some.injEq] at h
    subst h
    exact hd
  | cons ev evs ih =>
    intro held held1 held2 tr2 h hd
    rw [lock_seg] at h
    rw [List.cons_append, lock_seg]
    cases hs : lock_step held ev with
    | none => rw [hs] at h; cases h
    | some h1 =>
      rw [hs] at h
      simp only at h ⊢
      by_cases hc : h1.length ≤ 2 ∧ h1 ≠ []
      · rw [if_pos hc] at h ⊢
        exact ih h1 held1 held2 tr2 h hd
      · rw [if_neg hc] at h
        cases h

theorem seg_hand_over_r (ib c : Nat) :
    lock_seg [(ib, false)] [LockEv.r_lock c, LockEv.r_unlock ib] = some [(c, false)] := by
  by_cases h : c = ib
  · subst h
    simp [lock_seg, lock_step]
  · simp [lock_seg, lock_step, h]

theorem seg_hand_over_w (ib c : Nat) :
    lock_seg [(ib, false)] [LockEv.w_lock c, LockEv.r_unlock ib] = some [(c, true)] := by
  simp [lock_seg, lock_step]

theorem discipline_r_unlock (ib : Nat) :
    lock_discipline [(ib, false)] [LockEv.r_unlock ib] = true := by
  simp [lock_discipline, lock_step]

theorem discipline_w_unlock (ib : Nat) :
    lock_discipline [(ib, true)] [LockEv.w_unlock ib] = true := by
  simp [lock_discipline, lock_step]

theorem discipline_create (ib n : Nat) :
    lock_discipline [(ib, true)] [LockEv.add_lock n, LockEv.w_unlock ib] = true := by
  simp [lock_discipline, lock_step]

theorem discipline_delete_reject (ib c : Nat) :
    lock_discipline [(ib, true)] [LockEv.w_lock c, LockEv.w_unlock c, LockEv.w_unlock ib]
      = true := by
  simp [lock_discipline, lock_step]

theorem discipline_delete (ib c : Nat) :
    lock_discipline [(ib, true)]
      [LockEv.w_lock c, LockEv.w_unlock c, LockEv.delete_lock c, LockEv.w_unlock ib]
      = true := by
  simp [lock_discipline, lock_step]

/-- The calls made by the walk, started with a read lock on `ib` and at least one token
to resolve: when the walk returns false the discipline holds to the end; when it ends
on `t`, the calls made so far follow the discipline and the caller holds the lock of `t`
alone, in write mode unless the request is a READ. -/
theorem walk_log (P : Params) (L : Layout β) (username : List Char) (rtype : request_type) :
    ∀ (ts : List (List Char)) (s : State β) (ib : Nat) (r : State β × Option Nat),
      ts ≠ [] → walk P L username rtype s ib ts = some r →
      ∃ tr, r.1.log = s.log ++ tr ∧
        (r.2 = none → lock_discipline [(ib, false)] tr = true) ∧
        (∀ t, r.2 = some t →
          lock_seg [(ib, false)] tr = some [(t, decide (rtype ≠ request_type.READ))]) := by
  intro ts
  induction ts with
  | nil => intro s ib r h; exact absurd rfl h
  | cons tok rest ih =>
    intro s ib r _ h
    have hfail : ∀ r, (r_unlock s ib).map (fun s1 => (s1, (none : Option Nat))) = some r →
        ∃ tr, r.1.log = s.log ++ tr ∧
        (r.2 = none → lock_discipline [(ib, false)] tr = true) ∧
        (∀ t, r.2 = some t →
          lock_seg [(ib, false)] tr = some [(t, decide (rtype ≠ request_type.READ))]) := by
      intro r hr
      cases hu : r_unlock s ib with
      | none => rw [hu] at hr; exact absurd hr (by simp)
      | some s1 =>
        rw [hu] at hr
        simp only [Option.map_some', Option.some.injEq] at hr
        subst hr
        exact ⟨_, r_unlock_log hu, fun _ => discipline_r_unlock ib, fun t ht => by cases ht⟩
    rw [walk] at h
    split at h
    · exact hfail r h
    · split at h
      · exact hfail r h
      · split at h
        · exact absurd h (by simp)
        · exact hfail r h
        · rename_i child _
          simp only [Option.bind_eq_some] at h
          obtain ⟨s1, h1, s2, h2, h3⟩ := h
          have l2 := r_unlock_log h2
          by_cases hrest : rest = []
          · subst hrest
            simp only [walk, Option.some.injEq] at h3
            subst h3
            by_cases hread : rtype = request_type.READ
            · rw [if_neg (by simp [hread])] at h1
              have l1 := r_lock_log h1
              refine ⟨[LockEv.r_lock child, LockEv.r_unlock ib], ?_, (fun hn => by cases hn), ?_⟩
              · show s2.log = _
                rw [l2, l1, List.append_assoc]; rfl
              · intro t ht
                simp only [Option.some.injEq] at ht
                subst ht
                rw [seg_hand_over_r]
                simp [hread]
            · rw [if_pos ⟨rfl, hread⟩] at h1
              have l1 := w_lock_log h1
              refine ⟨[LockEv.w_lock child, LockEv.r_unlock ib], ?_, (fun hn => by cases hn), ?_⟩
              · show s2.log = _
                rw [l2, l1, List.append_assoc]; rfl
              · intro t ht
                simp only [Option.some.injEq] at ht
                subst ht
                rw [seg_hand_over_w]
                simp [hread]
          · rw [if_neg (fun hh => hrest hh.1)] at h1
            have l1 := r_lock_log h1
            obtain ⟨tr, e, hn, hs⟩ := ih s2 child r hrest h3
            refine ⟨[LockEv.r_lock child, LockEv.r_unlock ib] ++ tr, ?_, ?_, ?_⟩
            · rw [e, l2, l1]
              simp only [List.append_assoc, List.singleton_append, List.cons_append,
                List.nil_append]
            · intro hr
              exact lock_seg_discipline _ _ _ _ (seg_hand_over_r ib child) (hn hr)
            · intro t ht
              exact lock_seg_append _ _ _ _ _ (seg_hand_over_r ib child) (hs t ht)

theorem map_some_state {o : Option (State β)} {b ok : Bool} {rd rb : β} {s' : State β}
    (h : o.map (fun s1 => (b, s1, rd)) = some (ok, s', rb)) : o = some s' := by
  cases o with
  | none => cases h
  | some s1 =>
    simp only [Option.map_some', Option.some.injEq, Prod.mk.injEq] at h
    rw [h.2.1]

theorem op_READ_log (P : Params) {s s' : State β} {t : Nat} {inode : fs_inode}
    {offset : Nat} {rd rb : β} {ok : Bool}
    (h : op_READ P s t inode offset rd = some (ok, s', rb)) :
    s'.log = s.log ++ [LockEv.r_unlock t] := by
  unfold op_READ at h
  split at h
  · exact r_unlock_log (map_some_state h)
  · split at h
    · exact r_unlock_log (map_some_state h)
    · cases h

theorem op_WRITE_log (P : Params) (L : Layout β) {s s' : State β} {t : Nat} {inode : fs_inode}
    {offset : Nat} {wd rd rb : β} {ok : Bool}
    (h : op_WRITE P L s t inode offset wd rd = some (ok, s', rb)) :
    s'.log = s.log ++ [LockEv.w_unlock t] := by
  unfold op_WRITE at h
  split at h
  · exact w_unlock_log (map_some_state h)
  · split at h
    · split at h
      · exact w_unlock_log (map_some_state h)
      · split at h
        · cases h
        · have := w_unlock_log (map_some_state h)
          exact this
    · have := w_unlock_log (map_some_state h)
      exact this

theorem create_write_log (P : Params) (L : Layout β) (u : Uninit) {s1 s' : State β}
    {t : Nat} {inode : fs_inode} {name username : List Char} {c : Char} {rd rb : β}
    {sl : Slot} {ok : Bool}
    (h : create_write P L u s1 t inode name username c rd sl = some (ok, s', rb)) :
    ∃ n, s'.log = s1.log ++ [LockEv.add_lock n, LockEv.w_unlock t] := by
  unfold create_write at h
  split at h
  · cases h
  · rename_i idx rest _
    split at h
    · cases h
    · split at h
      · refine ⟨idx, ?_⟩
        rw [w_unlock_log (map_some_state h)]
        simp [disk_writeblock, add_lock]
      · split at h
        · cases h
        · split at h
          · refine ⟨idx, ?_⟩
            rw [w_unlock_log (map_some_state h)]
            simp [disk_writeblock, add_lock]
          · cases h

theorem op_CREATE_log (P : Params) (L : Layout β) (u : Uninit) {s s' : State β} {t : Nat}
    {inode : fs_inode} {name username : List Char} {c : Char} {rd rb : β} {ok : Bool}
    (h : op_CREATE P L u s t inode name username c rd = some (ok, s', rb)) :
    ∃ tr, s'.log = s.log ++ tr ∧ lock_discipline [(t, true)] tr = true := by
  have hf : ∀ o : Option (State β), o = w_unlock s t →
      o.map (fun s1 => (false, s1, rd)) = some (ok, s', rb) →
      ∃ tr, s'.log = s.log ++ tr ∧ lock_discipline [(t, true)] tr = true := by
    intro o ho hm
    have := map_some_state hm
    rw [ho] at this
    exact ⟨_, w_unlock_log this, discipline_w_unlock t⟩
  unfold op_CREATE at h
  split at h
  · exact hf _ rfl h
  · split at h
    · exact hf _ rfl h
    · split at h
      · cases h
      · exact hf _ rfl h
      · unfold create_commit at h
        split at h
        · exact hf _ rfl h
        · split at h
          · exact hf _ rfl h
          · obtain ⟨n, e⟩ := create_write_log P L u h
            exact ⟨_, e, discipline_create t n⟩

theorem release_blocks_log (P : Params) (blocks : Nat → Nat) :
    ∀ (is : List Nat) (s s1 : State β), release_blocks P blocks s is = some s1 →
      s1.log = s.log := by
  intro is
  induction is with
  | nil =>
    intro s s1 h
    simp only [release_blocks, Option.some.injEq] at h
    rw [← h]
  | cons i is ih =>
    intro s s1 h
    rw [release_blocks] at h
    split at h
    · have := ih _ s1 h
      exact this
    · cases h

theorem delete_entry_log (P : Params) (L : Layout β) {s1 s3 : State β} {t : Nat}
    {inode : fs_inode} {sl : Slot}
    (h : delete_entry P L s1 t inode sl = some s3) : s3.log = s1.log := by
  unfold delete_entry at h
  split at h
  · simp only [Option.map_eq_some'] at h
    obtain ⟨b1, _, h⟩ := h
    rw [← h]
    rfl
  · simp only [Option.some.injEq] at h
    rw [← h]
    rfl

theorem delete_reclaim_log (P : Params) {s3 s5 : State β} {inode_del : fs_inode} {idx : Nat}
    (h : delete_reclaim P s3 inode_del idx = some s5) : s5.log = s3.log := by
  unfold delete_reclaim at h
  simp only [Option.map_eq_some'] at h
  obtain ⟨s4, h4, h⟩ := h
  rw [← h]
  show s4.log = s3.log
  split at h4
  · exact release_blocks_log P _ _ s3 s4 h4
  · simp only [Option.some.injEq] at h4
    rw [← h4]

theorem op_DELETE_log (P : Params) (L : Layout β) {s s' : State β} {t : Nat}
    {inode : fs_inode} {name username : List Char} {rd rb : β} {ok : Bool}
    (h : op_DELETE P L s t inode name username rd = some (ok, s', rb)) :
    ∃ tr, s'.log = s.log ++ tr ∧ lock_discipline [(t, true)] tr = true := by
  have hf : ∀ o : Option (State β), o = w_unlock s t →
      o.map (fun s1 => (false, s1, rd)) = some (ok, s', rb) →
      ∃ tr, s'.log = s.log ++ tr ∧ lock_discipline [(t, true)] tr = true := by
    intro o ho hm
    have := map_some_state hm
    rw [ho] at this
    exact ⟨_, w_unlock_log this, discipline_w_unlock t⟩
  unfold op_DELETE at h
  split at h
  · exact hf _ rfl h
  · split at h
    · cases h
    · exact hf _ rfl h
    · rename_i sl _
      unfold delete_commit at h
      simp only [Option.bind_eq_some] at h
      obtain ⟨sA, hA, h⟩ := h
      have lA := w_lock_log hA
      split at h
      · simp only [Option.bind_eq_some] at h
        obtain ⟨s2, h2, h⟩ := h
        have l3 := w_unlock_log (map_some_state h)
        refine ⟨_, ?_, discipline_delete_reject t (sl.fd_direts sl.dir_num).inode_block⟩
        rw [l3, w_unlock_log h2, lA]
        simp only [List.append_assoc, List.singleton_append, List.cons_append, List.nil_append]
      · simp only [Option.bind_eq_some] at h
        obtain ⟨s3, h3, s5, h5, s6, h6, h⟩ := h
        have l7 := w_unlock_log (map_some_state h)
        refine ⟨_, ?_, discipline_delete t (sl.fd_direts sl.dir_num).inode_block⟩
        rw [l7]
        show (s6.log ++ [LockEv.delete_lock _]) ++ _ = _
        rw [w_unlock_log h6, delete_reclaim_log P h5, delete_entry_log P L h3, lA]
        simp only [List.append_assoc, List.singleton_append, List.cons_append, List.nil_append]

theorem on_target_log (P : Params) (L : Layout β) (u : Uninit) {s1 s' : State β}
    {t : Nat} {name username : List Char} {offset : Nat} {c : Char} {wd rd rb : β}
    {rtype : request_type} {ok : Bool}
    (hs : rtype ≠ request_type.SESSION) (hi : rtype ≠ request_type.INVALID)
    (h : on_target P L u s1 t name username offset c wd rd rtype = some (ok, s', rb)) :
    ∃ tr, s'.log = s1.log ++ tr ∧
      lock_discipline [(t, decide (rtype ≠ request_type.READ))] tr = true := by
  unfold on_target at h
  dsimp only at h
  split at h
  · have hu := map_some_state h
    unfold unlock_target at hu
    by_cases hr : rtype = request_type.READ
    · rw [if_neg (not_not.mpr hr)] at hu
      refine ⟨_, r_unlock_log hu, ?_⟩
      rw [hr]
      exact discipline_r_unlock t
    · rw [if_pos hr] at hu
      refine ⟨_, w_unlock_log hu, ?_⟩
      rw [decide_eq_true hr]
      exact discipline_w_unlock t
  · cases rtype with
    | READ => exact ⟨_, op_READ_log P h, discipline_r_unlock t⟩
    | WRITE => exact ⟨_, op_WRITE_log P L h, discipline_w_unlock t⟩
    | CREATE => exact op_CREATE_log P L u h
    | DELETE => exact op_DELETE_log P L h
    | SESSION => exact absurd rfl hs
    | INVALID => exact absurd rfl hi

/-- C25. Lock discipline of a single operation: for every verb, every path and every
outcome, the calls of the lock manager made by a call of `conduct_operation` that
returns follow the discipline `lock_discipline`: each unlock matches in mode a lock the
caller holds on that inode, the caller holds at most two locks at any point, a lock is
released only after the next one is taken (as long as calls follow, a lock is held),
and no lock is held when the function returns. -/
theorem lock_discipline_holds (P : Params) (L : Layout β) (u : Uninit) (s s' : State β)
    (path username : List Char) (offset : Nat) (c : Char) (wd rd rb : β)
    (rtype : request_type) (ok : Bool)
    (hi : rtype ≠ request_type.INVALID)
    (h : conduct_operation P L u s path username offset c wd rd rtype = some (ok, s', rb)) :
    ∃ tr, s'.log = s.log ++ tr ∧ lock_discipline [] tr = true := by
  unfold conduct_operation at h
  by_cases hs : rtype = request_type.SESSION
  · rw [if_pos hs] at h
    simp only [Option.some.injEq, Prod.mk.injEq] at h
    rw [← h.2.1]
    exact ⟨[], (List.append_nil _).symm, rfl⟩
  rw [if_neg hs] at h
  cases hp : parse_path P path with
  | none =>
    rw [hp] at h
    simp only [Option.some.injEq, Prod.mk.injEq] at h
    rw [← h.2.1]
    exact ⟨[], (List.append_nil _).symm, rfl⟩
  | some paths =>
    rw [hp] at h
    simp only [Option.bind_eq_some] at h
    obtain ⟨s0, h0, r, hw, h⟩ := h
    have hne : paths ≠ [] := parse_path_ne_nil P hp
    have hlen : 0 < paths.length := List.length_pos.mpr hne
    unfold lock_root at h0
    by_cases hd : path_depth rtype paths = 0
    · have hcd : rtype = request_type.DELETE ∨ rtype = request_type.CREATE := by
        unfold path_depth at hd
        by_cases hc : rtype = request_type.CREATE ∨ rtype = request_type.DELETE
        · exact hc.symm
        · rw [if_neg hc] at hd
          omega
      rw [if_pos ⟨hd, hcd⟩] at h0
      have l0 := w_lock_log h0
      rw [hd] at hw
      simp only [List.take_zero, walk, Option.some.injEq] at hw
      subst hw
      simp only at h
      obtain ⟨tr, e, hdisc⟩ := on_target_log P L u hs hi h
      have hmode : decide (rtype ≠ request_type.READ) = true := by
        rcases hcd with hh | hh <;> rw [hh] <;> decide
      rw [hmode] at hdisc
      refine ⟨[LockEv.w_lock 0] ++ tr, ?_, ?_⟩
      · rw [e, l0, List.append_assoc]
      · exact lock_seg_discipline [LockEv.w_lock 0] [] [(0, true)] tr
          (by simp [lock_seg, lock_step]) hdisc
    · rw [if_neg (fun hh => hd hh.1)] at h0
      have l0 := r_lock_log h0
      have hts : paths.take (path_depth rtype paths) ≠ [] := by
        intro hh
        have := congrArg List.length hh
        rw [List.length_take] at this
        simp only [List.length_nil] at this
        omega
      obtain ⟨trw, ew, hn, hsm⟩ := walk_log P L username rtype _ s0 0 r hts hw
      have hseg0 : lock_seg [] [LockEv.r_lock 0] = some [(0, false)] := by
        simp [lock_seg, lock_step]
      cases hr2 : r.2 with
      | none =>
        rw [hr2] at h
        simp only [Option.some.injEq, Prod.mk.injEq] at h
        rw [← h.2.1]
        refine ⟨[LockEv.r_lock 0] ++ trw, ?_, ?_⟩
        · rw [ew, l0, List.append_assoc]
        · exact lock_seg_discipline _ _ _ _ hseg0 (hn hr2)
      | some t =>
        rw [hr2] at h
        simp only at h
        obtain ⟨tr, e, hdisc⟩ := on_target_log P L u hs hi h
        refine ⟨([LockEv.r_lock 0] ++ trw) ++ tr, ?_, ?_⟩
        · rw [e, ew, l0]
          simp only [List.append_assoc]
        · exact lock_seg_discipline _ _ _ _
            (lock_seg_append _ _ _ _ _ hseg0 (hsm t hr2)) hdisc

theorem lock_discipline_holds_witness :
    ∃ s' rb, conduct_operation P0 Block.layout u0 sFile ['/', 'f'] ['u'] 0 'f'
        (Block.data []) (Block.data []) request_type.DELETE = some (true, s', rb) ∧
      ∃ tr, s'.log = sFile.log ++ tr ∧ lock_discipline [] tr = true := by
  have hres : (conduct_operation P0 Block.layout u0 sFile ['/', 'f'] ['u'] 0 'f'
      (Block.data []) (Block.data []) request_type.DELETE).map (fun r => r.1)
      = some true := by decide
  obtain ⟨⟨ok, s', rb⟩, h, hv⟩ := Option.map_eq_some'.mp hres
  simp only at hv
  subst hv
  exact ⟨s', rb, h,
    lock_discipline_holds P0 Block.layout u0 sFile s' ['/', 'f'] ['u'] 0 'f'
      (Block.data []) (Block.data []) rb request_type.DELETE true (by decide) h⟩

/-- The traces that `lock_discipline` refuses: a lock still held at the end, an unlock in
the wrong mode, a lock released before the next one is taken, three locks held at
once; and the trace of a DELETE two levels down, which it accepts. -/
theorem lock_discipline_examples :
    lock_discipline [] [LockEv.r_lock 0] = false ∧
    lock_discipline [] [LockEv.r_lock 0, LockEv.w_unlock 0] = false ∧
    lock_discipline [] [LockEv.r_lock 0, LockEv.r_unlock 0, LockEv.r_lock 2,
      LockEv.r_unlock 2] = false ∧
    lock_discipline [] [LockEv.r_lock 0, LockEv.r_lock 2, LockEv.r_lock 5, LockEv.r_unlock 0,
      LockEv.r_unlock 2, LockEv.r_unlock 5] = false ∧
    lock_discipline [] [LockEv.r_lock 0, LockEv.w_lock 2, LockEv.r_unlock 0, LockEv.w_lock 5,
      LockEv.w_unlock 5, LockEv.delete_lock 5, LockEv.w_unlock 2] = true := by
  decide

/-! ### The arguments of a WRITE request -/

theorem takeWhile_take_split (q : Char → Bool) : ∀ (d : List Char) (m : Nat),
    ∃ suffix, d = (d.take m).takeWhile q ++ suffix ∧
      (∀ x, x ∈ (d.take m).takeWhile q → q x = true) ∧
      (((d.take m).takeWhile q).length < m →
        suffix = [] ∨ ∃ c rest, suffix = c :: rest ∧ q c = false) := by
  intro d
  induction d with
  | nil => intro m; exact ⟨[], by simp, by simp, fun _ => Or.inl rfl⟩
  | cons x xs ih =>
    intro m
    cases m with
    | zero => exact ⟨x :: xs, by simp, by simp, fun h => by simp at h⟩
    | succ m =>
      rw [List.take_succ_cons]
      by_cases hx : q x = true
      · rw [List.takeWhile_cons_of_pos hx]
        obtain ⟨suffix, e, hall, hs⟩ := ih m
        refine ⟨suffix, ?_, ?_, ?_⟩
        · rw [List.cons_append, ← e]
        · intro y hy
          rcases List.mem_cons.mp hy with h | h
          · rw [h]; exact hx
          · exact hall y h
        · intro hl
          simp only [List.length_cons] at hl
          exact hs (by omega)
      · rw [List.takeWhile_cons_of_neg hx]
        exact ⟨x :: xs, rfl, by simp, fun _ => Or.inr ⟨x, xs, rfl, by simpa using hx⟩⟩

theorem takeWhile_append_stop (q : Char → Bool) : ∀ (p : List Char) (c : Char) (t : List Char),
    (∀ x, x ∈ p → q x = true) → q c = false → (p ++ c :: t).takeWhile q = p := by
  intro p
  induction p with
  | nil =>
    intro c t _ hc
    rw [List.nil_append, List.takeWhile_cons_of_neg (by simp [hc])]
  | cons a as ih =>
    intro c t hp hc
    rw [List.cons_append, List.takeWhile_cons_of_pos (hp a (List.mem_cons_self _ _)),
      ih c t (fun x hx => hp x (List.mem_cons_of_mem _ hx)) hc]

theorem take_append_cons : ∀ (p : List Char) (c : Char) (t : List Char) (m : Nat),
    p.length + 1 ≤ m → ∃ t1, (p ++ c :: t).take m = p ++ c :: t1 := by
  intro p
  induction p with
  | nil =>
    intro c t m hm
    cases m with
    | zero => simp at hm
    | succ m => exact ⟨t.take m, rfl⟩
  | cons a as ih =>
    intro c t m hm
    cases m with
    | zero => simp at hm
    | succ m =>
      simp only [List.length_cons] at hm
      obtain ⟨t1, e⟩ := ih c t m (by omega)
      exact ⟨t1, by rw [List.cons_append, List.take_succ_cons, e, List.cons_append]⟩

/-- What one scan of `parse_req` has read when bytes are left after it: a field free
of the stop byte, then the stop byte, then the bytes left. -/
theorem scan_req_split (stop : Char → Bool) (buf : List Char) (l size : Nat)
    (hsz : size = (buf.drop l).length)
    (hleft : size - (scan_req stop buf l size - l + 1) ≠ 0) :
    ∃ c, stop c = true ∧
      (∀ x, x ∈ (buf.drop l).take (scan_req stop buf l size - l) → stop x = false) ∧
      ((buf.drop l).take (scan_req stop buf l size - l)).length = scan_req stop buf l size - l ∧
      buf.drop l = (buf.drop l).take (scan_req stop buf l size - l) ++
        c :: buf.drop (scan_req stop buf l size + 1) ∧
      size - (scan_req stop buf l size - l + 1) = (buf.drop (scan_req stop buf l size + 1)).length := by
  obtain ⟨suffix, e, hall, hs⟩ :=
    takeWhile_take_split (fun c => !stop c) (buf.drop l) (size - 1)
  have hr : scan_req stop buf l size - l =
      (((buf.drop l).take (size - 1)).takeWhile (fun c => !stop c)).length := by
    unfold scan_req
    omega
  rw [hr] at hleft ⊢
  generalize hk : (((buf.drop l).take (size - 1)).takeWhile (fun c => !stop c)) = tw at *
  have hlen : (buf.drop l).length = tw.length + suffix.length := by
    rw [e, List.length_append]
  have htake : (buf.drop l).take tw.length = tw := by
    rw [e, List.take_left']
    rfl
  have hsr : scan_req stop buf l size = l + tw.length := by
    unfold scan_req
    rw [hk]
  rcases hs (by omega) with h | ⟨c, rest, h, hc⟩
  · rw [h] at hlen
    simp only [List.length_nil] at hlen
    omega
  · refine ⟨c, by simpa using hc, ?_, ?_, ?_, ?_⟩
    · intro x hx
      rw [htake] at hx
      simpa using hall x hx
    · rw [htake]
    · have hd : buf.drop (scan_req stop buf l size + 1) = rest := by
        rw [hsr, show l + tw.length + 1 = l + (tw.length + 1) by omega, ← List.drop_drop, e, h]
        rw [List.drop_append_eq_append_drop]
        simp
      rw [hd, htake, ← h]
      exact e
    · have hd : buf.drop (scan_req stop buf l size + 1) = rest := by
        rw [hsr, show l + tw.length + 1 = l + (tw.length + 1) by omega, ← List.drop_drop, e, h]
        rw [List.drop_append_eq_append_drop]
        simp
      rw [hd]
      rw [h] at hlen
      simp only [List.length_cons] at hlen
      omega

/-- The scan of a field that is followed by its stop byte and by more bytes ends on
the stop byte. -/
theorem scan_req_of_split (stop : Char → Bool) (buf : List Char) (l : Nat)
    (p : List Char) (c : Char) (rest : List Char)
    (h : buf.drop l = p ++ c :: rest) (hp : ∀ x, x ∈ p → stop x = false)
    (hc : stop c = true) (hne : rest ≠ []) :
    scan_req stop buf l (buf.drop l).length = l + p.length ∧
    (buf.drop l).take p.length = p ∧ buf.drop (l + p.length + 1) = rest ∧
    (buf.drop l).length - (p.length + 1) = rest.length := by
  have hlen : (buf.drop l).length = p.length + 1 + rest.length := by
    rw [h]; simp; omega
  have hr : 0 < rest.length := List.length_pos.mpr hne
  refine ⟨?_, ?_, ?_, ?_⟩
  · unfold scan_req
    obtain ⟨t1, e⟩ := take_append_cons p c rest ((buf.drop l).length - 1) (by omega)
    rw [h] at e ⊢
    rw [e, takeWhile_append_stop _ p c t1 (fun x hx => by simp [hp x hx]) (by simp [hc])]
  · rw [h, List.take_left']
    rfl
  · rw [show l + p.length + 1 = l + (p.length + 1) by omega, ← List.drop_drop, h,
      List.drop_append_eq_append_drop]
    simp
  · omega

theorem isspace_space_stop (p : List Char) (h : ∀ c, c ∈ p → isspace c = false) :
    ∀ x, x ∈ p → (fun c => c == ' ') x = false := by
  intro x hx
  have := h x hx
  simp only [beq_eq_false_iff_ne]
  intro hh
  rw [hh] at this
  revert this
  decide

theorem cvt_int_digits {str : List Char} {v : Nat} (h : cvt_int str = some v) :
    ∀ c, c ∈ str → isdigit c = true := by
  intro c hc
  by_contra hd
  have hn := cvt_loop_nondigit str 0 c hc (by simpa using hd)
  unfold cvt_int at h
  rw [hn] at h
  split at h <;> cases h

/-- C27 (amended). WRITE argument parsing, with `FS_BLOCKSIZE` not 0: `parse_req` with
type WRITE returns true iff the bytes are one space, a path of at most `FS_MAXPATHNAME`
bytes containing no whitespace (a NUL byte is let in), one space, a string on which
`cvt_int` returns a number smaller than `FS_MAXFILEBLOCKS`, one NUL byte, then exactly
`FS_BLOCKSIZE` further bytes; when true the path is appended to `pathname`, and `block`
and `data` are that number and those bytes. -/
theorem parse_req_write (P : Params) (num_block_remain : Nat) (req : List Char) (a out : Args)
    (hB : 0 < P.FS_BLOCKSIZE) :
    parse_req P num_block_remain req request_type.WRITE a = some out ↔
      ∃ path num block data,
        req = ' ' :: path ++ ' ' :: num ++ '\x00' :: data ∧
        path.length ≤ P.FS_MAXPATHNAME ∧ (∀ c, c ∈ path → isspace c = false) ∧
        cvt_int num = some block ∧ block < P.FS_MAXFILEBLOCKS ∧
        data.length = P.FS_BLOCKSIZE ∧
        out = { a with pathname := a.pathname ++ path, block := block, data := data } := by
  constructor
  · intro h
    unfold parse_req at h
    dsimp only at h
    by_cases h0 : req.length = 0
    · rw [if_pos h0] at h; cases h
    rw [if_neg h0, if_neg (by decide)] at h
    by_cases h1 : req.head? ≠ some ' '
    · rw [if_pos h1] at h; cases h
    rw [if_neg h1] at h
    by_cases h2 : req.length - 1 = 0
    · rw [if_pos h2] at h; cases h
    rw [if_neg h2] at h
    by_cases h3 : (List.take (scan_req (fun c => c == ' ') req 1 (req.length - 1) - 1)
        (List.drop 1 req)).any isspace = true
    · rw [if_pos h3] at h; cases h
    rw [if_neg h3] at h
    by_cases h4 : scan_req (fun c => c == ' ') req 1 (req.length - 1) - 1 > P.FS_MAXPATHNAME
    · rw [if_pos h4] at h; cases h
    rw [if_neg h4] at h
    by_cases h5 : req.length - 1 - (scan_req (fun c => c == ' ') req 1 (req.length - 1) - 1 + 1) = 0
    · rw [if_pos h5] at h; cases h
    rw [if_neg h5] at h
    obtain ⟨c1, hc1, _, hl1, e1, z1⟩ := scan_req_split (fun c => c == ' ') req 1
      (req.length - 1) (by rw [List.length_drop]) h5
    generalize hr1 : scan_req (fun c => c == ' ') req 1 (req.length - 1) = r1 at *
    generalize hf1 : List.take (r1 - 1) (List.drop 1 req) = fld1 at *
    rw [z1] at h
    cases hcv : cvt_int (List.take
        (scan_req (fun c => c == '\x00') req (r1 + 1) (List.drop (r1 + 1) req).length - (r1 + 1))
        (List.drop (r1 + 1) req)) with
    | none => rw [hcv] at h; cases h
    | some block =>
      rw [hcv] at h
      dsimp only at h
      by_cases h7 : block ≥ P.FS_MAXFILEBLOCKS
      · rw [if_pos h7] at h; cases h
      rw [if_neg h7] at h
      by_cases h8 : (List.drop (r1 + 1) req).length -
          (scan_req (fun c => c == '\x00') req (r1 + 1) (List.drop (r1 + 1) req).length
            - (r1 + 1) + 1) ≠ P.FS_BLOCKSIZE
      · rw [if_pos h8] at h; cases h
      rw [if_neg h8] at h
      have h8e := not_not.mp h8
      obtain ⟨c2, hc2, _, hl2, e2, z2⟩ := scan_req_split (fun c => c == '\x00') req (r1 + 1)
        (List.drop (r1 + 1) req).length rfl (by rw [h8e]; omega)
      generalize hr2 : scan_req (fun c => c == '\x00') req (r1 + 1)
        (List.drop (r1 + 1) req).length = r2 at *
      generalize hf2 : List.take (r2 - (r1 + 1)) (List.drop (r1 + 1) req) = fld2 at *
      have hc1e : c1 = ' ' := by simpa using hc1
      have hc2e : c2 = '\x00' := by simpa using hc2
      subst hc1e
      subst hc2e
      have hreq : req = ' ' :: List.drop 1 req := by
        cases req with
        | nil => exact absurd rfl h0
        | cons x xs =>
          simp only [List.head?_cons, ne_eq, Option.some.injEq, not_not] at h1
          rw [h1]; rfl
      have hdata : List.take ((List.drop (r1 + 1) req).length - (r2 - (r1 + 1) + 1))
          (List.drop (r2 + 1) req) = List.drop (r2 + 1) req := by
        rw [z2, List.take_length]
      rw [hdata] at h
      refine ⟨fld1, fld2, block, List.drop (r2 + 1) req, ?_, ?_, ?_, hcv, by omega, ?_, ?_⟩
      · have hr : req = ' ' :: (fld1 ++ ' ' :: (fld2 ++ '\x00' :: List.drop (r2 + 1) req)) := by
          rw [← e2, ← e1]
          exact hreq
        exact hr.trans (by simp)
      · omega
      · intro c hc
        cases hs : isspace c with
        | false => rfl
        | true => exact absurd (List.any_eq_true.mpr ⟨c, hc, hs⟩) h3
      · rw [← z2, h8e]
      · exact (Option.some.inj h).symm
  · rintro ⟨path, num, block, data, hreq, hpl, hps, hcv, hbl, hdl, hout⟩
    have hdne : data ≠ [] := by
      intro hd
      rw [hd] at hdl
      simp only [List.length_nil] at hdl
      omega
    have hd1 : List.drop 1 req = path ++ ' ' :: (num ++ '\x00' :: data) := by
      rw [hreq]
      simp
    obtain ⟨s1, t1, d1, z1⟩ := scan_req_of_split (fun c => c == ' ') req 1 path ' '
      (num ++ '\x00' :: data) hd1 (isspace_space_stop path hps) (by decide) (by simp)
    have hnum : ∀ x, x ∈ num → (fun c => c == '\x00') x = false := by
      intro x hx
      have := digit_not_nul x (cvt_int_digits hcv x hx)
      simpa using this
    obtain ⟨s2, t2, d2, z2⟩ := scan_req_of_split (fun c => c == '\x00') req
      (1 + path.length + 1) num '\x00' data d1 hnum (by decide) hdne
    have hlen1 : (List.drop 1 req).length = req.length - 1 := by rw [List.length_drop]
    rw [hlen1] at s1 z1
    unfold parse_req
    dsimp only
    have h0 : ¬ req.length = 0 := by rw [hreq]; simp
    have h1 : ¬ req.head? ≠ some ' ' := by rw [hreq]; simp
    have h2 : ¬ req.length - 1 = 0 := by
      rw [← hlen1, hd1]; simp
    rw [if_neg h0, if_neg (by decide), if_neg h1, if_neg h2, s1]
    rw [show 1 + path.length - 1 = path.length by omega, t1]
    have h3 : ¬ path.any isspace = true := by
      intro hh
      obtain ⟨c, hc, hs⟩ := List.any_eq_true.mp hh
      rw [hps c hc] at hs
      cases hs
    rw [if_neg h3, if_neg (by omega), z1]
    have h5 : ¬ (num ++ '\x00' :: data).length = 0 := by simp
    rw [if_neg h5]
    have hl2 : (num ++ '\x00' :: data).length = (List.drop (1 + path.length + 1) req).length := by
      rw [d1]
    rw [hl2, s2]
    rw [show 1 + path.length + 1 + num.length - (1 + path.length + 1) = num.length by omega,
      t2, hcv]
    dsimp only
    rw [if_neg (by omega), z2, if_neg (not_not.mpr hdl), d2, List.take_length, hout]

theorem parse_req_write_witness :
    0 < P0.FS_BLOCKSIZE ∧
    parse_req P0 0 [' ', 'a', ' ', '2', '\x00', 'D', 'A', 'T', 'A'] request_type.WRITE
        { pathname := [], block := 0, cr_type := 'f', data := [] } =
      some { pathname := ['a'], block := 2, cr_type := 'f', data := ['D', 'A', 'T', 'A'] } :=
  ⟨by decide,
   (parse_req_write P0 0 [' ', 'a', ' ', '2', '\x00', 'D', 'A', 'T', 'A']
      { pathname := [], block := 0, cr_type := 'f', data := [] }
      { pathname := ['a'], block := 2, cr_type := 'f', data := ['D', 'A', 'T', 'A'] }
      (by decide)).mpr
     ⟨['a'], ['2'], 2, ['D', 'A', 'T', 'A'], rfl, by decide, by decide, by decide, by decide,
       rfl, rfl⟩⟩

set_option maxRecDepth 100000 in
/-- C27, as stated, fails in two ways.  The request ` a\0b 0\0DATA` is accepted although
its path holds a NUL byte, and the path returned is `a\0b`.  The request
` a 9223372036854775808\0DATA` is accepted with block 0, although its number is the
canonical numeral of 2^63, which is not smaller than `FS_MAXFILEBLOCKS`. -/
theorem parse_req_write_accepts_more :
    parse_req P0 0 [' ', 'a', '\x00', 'b', ' ', '0', '\x00', 'D', 'A', 'T', 'A']
        request_type.WRITE { pathname := [], block := 0, cr_type := 'f', data := [] } =
      some { pathname := ['a', '\x00', 'b'], block := 0, cr_type := 'f',
             data := ['D', 'A', 'T', 'A'] } ∧
    parse_req P0 0 ([' ', 'a', ' '] ++ "9223372036854775808".toList ++
          ['\x00', 'D', 'A', 'T', 'A'])
        request_type.WRITE { pathname := [], block := 0, cr_type := 'f', data := [] } =
      some { pathname := ['a'], block := 0, cr_type := 'f', data := ['D', 'A', 'T', 'A'] } ∧
    canonical_decimal "9223372036854775808".toList ∧
    ¬ decimal_value "9223372036854775808".toList < P0.FS_MAXFILEBLOCKS := by
  refine ⟨by decide, by decide, ⟨by decide, by decide, by decide⟩, by decide⟩

/-! ### The start-up -/

theorem erase_remove_nodup {l : List Nat} {x : Nat} (hn : l.Nodup) (hx : x ∈ l) :
    erase_remove l x = some (l.filter (fun y => decide (y ≠ x))) := by
  unfold erase_remove
  rw [if_pos hx, List.count_eq_one_of_mem hn hx]
  have : l.length - 1 + 1 = l.length := by
    have := List.length_pos_of_mem hx
    omega
  rw [this, List.drop_length, List.append_nil]

theorem TraversePost_refl (s : State β) (h : s.num_block_remain < UINT_MOD) :
    TraversePost s [] [] s := by
  refine ⟨rfl, ?_, rfl, h, fun n => by simp⟩
  simp

theorem TraversePost_trans {s s1 s2 : State β} {l1 l2 i1 i2 : List Nat}
    (h1 : TraversePost s l1 i1 s1) (h2 : TraversePost s1 l2 i2 s2) :
    TraversePost s (l1 ++ l2) (i1 ++ i2) s2 := by
  obtain ⟨a1, a2, a3, _, a5⟩ := h1
  obtain ⟨b1, b2, b3, b4, b5⟩ := h2
  refine ⟨b1.trans a1, ?_, ?_, b4, ?_⟩
  · rw [b2, a2, List.filter_filter]
    congr 1
    funext b
    simp only [List.mem_append, not_or, Bool.decide_and]
    exact Bool.and_comm _ _
  · rw [List.length_append]
    unfold UINT_MOD at *
    omega
  · intro n
    rw [b5 n, a5 n]
    by_cases hi2 : n ∈ i2
    · rw [if_pos hi2, if_pos (List.mem_append.mpr (Or.inr hi2))]
    · rw [if_neg hi2]
      by_cases hi1 : n ∈ i1
      · rw [if_pos hi1, if_pos (List.mem_append.mpr (Or.inl hi1))]
      · rw [if_neg hi1, if_neg (fun h => (List.mem_append.mp h).elim hi1 hi2)]

theorem TraversePost_mem {s s1 : State β} {l ins : List Nat} (h : TraversePost s l ins s1)
    {b : Nat} (hb : b ∈ s.free_blocks) (hl : b ∉ l) : b ∈ s1.free_blocks := by
  rw [h.2.1, List.mem_filter]
  exact ⟨hb, by simpa using hl⟩

theorem TraversePost_nodup {s s1 : State β} {l ins : List Nat} (h : TraversePost s l ins s1)
    (hn : s.free_blocks.Nodup) : s1.free_blocks.Nodup := by
  rw [h.2.1]
  exact hn.filter _

theorem traverse_take_post {s : State β} {b : Nat} (hn : s.free_blocks.Nodup)
    (hb : b ∈ s.free_blocks) :
    ∃ s1, traverse_take s b = some s1 ∧ TraversePost s [b] [] s1 ∧ s1.log = s.log := by
  unfold traverse_take
  rw [erase_remove_nodup hn hb]
  refine ⟨_, rfl, ⟨rfl, ?_, ?_, ?_, fun n => by simp⟩, rfl⟩
  · show s.free_blocks.filter _ = _
    congr 1
    funext y
    simp
  · show ((s.num_block_remain + UINT_MOD - 1) % UINT_MOD + 1) % UINT_MOD = _
    unfold UINT_MOD
    omega
  · exact Nat.mod_lt _ (by unfold UINT_MOD; decide)

theorem traverse_take_blocks_post (P : Params) (inode : fs_inode) :
    ∀ (is : List Nat) (s : State β), (∀ i, i ∈ is → i < P.FS_MAXFILEBLOCKS) →
      s.free_blocks.Nodup → s.num_block_remain < UINT_MOD → (is.map inode.blocks).Nodup →
      (∀ b, b ∈ is.map inode.blocks → b ∈ s.free_blocks) →
      ∃ s1, traverse_take_blocks P inode s is = some s1 ∧
        TraversePost s (is.map inode.blocks) [] s1 ∧ s1.log = s.log := by
  intro is
  induction is with
  | nil =>
    intro s _ _ hlt _ _
    exact ⟨s, rfl, TraversePost_refl s hlt, rfl⟩
  | cons i is ih =>
    intro s hi hn hlt hnd hm
    rw [List.map_cons] at hnd hm
    rw [traverse_take_blocks, if_pos (hi i (List.mem_cons_self _ _))]
    obtain ⟨s1, e1, p1, l1⟩ := traverse_take_post hn (hm _ (List.mem_cons_self _ _))
    rw [e1]
    obtain ⟨s2, e2, p2, l2⟩ := ih s1 (fun j hj => hi j (List.mem_cons_of_mem _ hj))
      (TraversePost_nodup p1 hn) p1.2.2.2.1 (List.nodup_cons.mp hnd).2
      (fun b hb => TraversePost_mem p1 (hm b (List.mem_cons_of_mem _ hb)) (by
        intro hh
        rw [List.mem_singleton] at hh
        rw [hh] at hb
        exact (List.nodup_cons.mp hnd).1 hb))
    refine ⟨s2, e2, ?_, l2.trans l1⟩
    have := TraversePost_trans p1 p2
    simpa using this

theorem traverse_take_disk {s s1 : State β} {b : Nat} (h : traverse_take s b = some s1) :
    s1.disk = s.disk := by
  unfold traverse_take at h
  simp only [Option.map_eq_some'] at h
  obtain ⟨l, _, h⟩ := h
  rw [← h]

theorem traverse_take_blocks_disk (P : Params) (inode : fs_inode) :
    ∀ (is : List Nat) (s s1 : State β), traverse_take_blocks P inode s is = some s1 →
      s1.disk = s.disk := by
  intro is
  induction is with
  | nil =>
    intro s s1 h
    simp only [traverse_take_blocks, Option.some.injEq] at h
    rw [← h]
  | cons i is ih =>
    intro s s1 h
    rw [traverse_take_blocks] at h
    split at h
    · simp only [Option.bind_eq_some] at h
      obtain ⟨s2, h2, h3⟩ := h
      exact (ih s2 s1 h3).trans (traverse_take_disk h2)
    · cases h

theorem traverse_entries_disk (visit : State β → Nat → Option (State β))
    (hv : ∀ s n s1, visit s n = some s1 → s1.disk = s.disk) (d : Nat → fs_direntry) :
    ∀ (js : List Nat) (s s1 : State β), traverse_entries visit d s js = some s1 →
      s1.disk = s.disk := by
  intro js
  induction js with
  | nil =>
    intro s s1 h
    simp only [traverse_entries, Option.some.injEq] at h
    rw [← h]
  | cons j js ih =>
    intro s s1 h
    rw [traverse_entries] at h
    split at h
    · exact ih s s1 h
    · simp only [Option.bind_eq_some] at h
      obtain ⟨s2, h2, h3⟩ := h
      exact (ih s2 s1 h3).trans (hv _ _ _ h2)

theorem traverse_blocks_disk (P : Params) (L : Layout β)
    (visit : State β → Nat → Option (State β))
    (hv : ∀ s n s1, visit s n = some s1 → s1.disk = s.disk) (inode : fs_inode) :
    ∀ (is : List Nat) (s s1 : State β), traverse_blocks P L visit inode s is = some s1 →
      s1.disk = s.disk := by
  intro is
  induction is with
  | nil =>
    intro s s1 h
    simp only [traverse_blocks, Option.some.injEq] at h
    rw [← h]
  | cons i is ih =>
    intro s s1 h
    rw [traverse_blocks] at h
    split at h
    · simp only [Option.bind_eq_some] at h
      obtain ⟨s2, h2, h3⟩ := h
      exact (ih s2 s1 h3).trans (traverse_entries_disk visit hv _ _ _ _ h2)
    · cases h

theorem traverse_fs_disk (P : Params) (L : Layout β) :
    ∀ (fuel : Nat) (s : State β) (n : Nat) (s1 : State β),
      traverse_fs P L fuel s n = some s1 → s1.disk = s.disk := by
  intro fuel
  induction fuel with
  | zero => intro s n s1 h; cases h
  | succ fuel ih =>
    intro s n s1 h
    rw [traverse_fs] at h
    simp only [Option.bind_eq_some] at h
    obtain ⟨s2, h2, s3, h3, h⟩ := h
    have d3 : s3.disk = s.disk :=
      (traverse_take_blocks_disk P _ _ _ _ h3).trans (traverse_take_disk h2)
    split at h
    · simp only [Option.some.injEq] at h
      rw [← h]
      exact d3
    · have := traverse_blocks_disk P L _ ih _ _ _ _ h
      exact this.trans d3

/-- The live entries of a directory block, as the inodes they name. -/
theorem traverse_entries_fold (visit : State β → Nat → Option (State β))
    (d : Nat → fs_direntry) :
    ∀ (js : List Nat) (s : State β), traverse_entries visit d s js =
      ((js.filter fun k => decide ((d k).inode_block ≠ 0)).map
        fun k => (d k).inode_block).foldlM visit s := by
  intro js
  induction js with
  | nil => intro s; rfl
  | cons j js ih =>
    intro s
    rw [traverse_entries]
    by_cases h0 : (d j).inode_block = 0
    · rw [if_pos h0, List.filter_cons_of_neg (by simpa using h0)]
      exact ih s
    · rw [if_neg h0, List.filter_cons_of_pos (by simpa using h0), List.map_cons,
        List.foldlM_cons]
      show _ = (visit s (d j).inode_block).bind _
      congr 1
      funext s1
      exact ih s1

theorem foldlM_disk (visit : State β → Nat → Option (State β))
    (hv : ∀ s n s1, visit s n = some s1 → s1.disk = s.disk) :
    ∀ (l : List Nat) (s s1 : State β), l.foldlM visit s = some s1 → s1.disk = s.disk := by
  intro l
  induction l with
  | nil =>
    intro s s1 h
    simp only [List.foldlM_nil] at h
    cases h
    rfl
  | cons a l ih =>
    intro s s1 h
    rw [List.foldlM_cons] at h
    have h' : (visit s a).bind (fun s2 => l.foldlM visit s2) = some s1 := h
    simp only [Option.bind_eq_some] at h'
    obtain ⟨s2, h2, h3⟩ := h'
    exact (ih s2 s1 h3).trans (hv _ _ _ h2)

theorem traverse_blocks_fold (P : Params) (L : Layout β)
    (visit : State β → Nat → Option (State β))
    (hv : ∀ s n s1, visit s n = some s1 → s1.disk = s.disk) (inode : fs_inode) :
    ∀ (is : List Nat) (s : State β), (∀ i, i ∈ is → i < P.FS_MAXFILEBLOCKS) →
      traverse_blocks P L visit inode s is =
        (is.flatMap fun j =>
          ((List.range P.FS_DIRENTRIES).filter fun k =>
            decide ((L.toDirs (s.disk (inode.blocks j)) k).inode_block ≠ 0)).map
            fun k => (L.toDirs (s.disk (inode.blocks j)) k).inode_block).foldlM visit s := by
  intro is
  induction is with
  | nil => intro s _; rfl
  | cons i is ih =>
    intro s hi
    rw [traverse_blocks, if_pos (hi i (List.mem_cons_self _ _)), traverse_entries_fold,
      List.flatMap_cons, List.foldlM_append]
    show Option.bind _ _ = Option.bind _ _
    cases hf : List.foldlM visit s
        (List.map (fun k => (L.toDirs (s.disk (inode.blocks i)) k).inode_block)
          (List.filter (fun k => decide ((L.toDirs (s.disk (inode.blocks i)) k).inode_block ≠ 0))
            (List.range P.FS_DIRENTRIES))) with
    | none => rfl
    | some s1 =>
      simp only [Option.some_bind]
      rw [ih s1 (fun j hj => hi j (List.mem_cons_of_mem _ hj)), foldlM_disk visit hv _ _ _ hf]

theorem forest_nil (P : Params) (L : Layout β) (disk : Nat → β) {l ins : List Nat}
    (h : Forest P L disk [] l ins) : l = [] ∧ ins = [] := by
  cases h
  exact ⟨rfl, rfl⟩

theorem add_lock_post (s : State β) (n : Nat) (h : s.num_block_remain < UINT_MOD) :
    TraversePost s [] [n] (add_lock s n) := by
  refine ⟨rfl, ?_, rfl, h, ?_⟩
  · show s.free_blocks = _
    simp
  · intro m
    show Function.update s.fs_locks n (some (0, 0)) m = _
    by_cases hm : m = n
    · rw [hm, Function.update_same, if_pos (List.mem_singleton.mpr rfl)]
    · rw [Function.update_noteq hm, if_neg (fun hh => hm (List.mem_singleton.mp hh))]

/-- The traversal of the trees of a forest whose blocks are all in the free list, each
once: it returns, having taken exactly the blocks of the trees from the free list and
from the free count, and having added a lock for exactly their inodes. -/
theorem forest_traverse (P : Params) (L : Layout β) (disk : Nat → β)
    {roots l ins : List Nat} (h : Forest P L disk roots l ins) :
    ∃ fuel0, ∀ fuel, fuel0 ≤ fuel → ∀ s : State β, s.disk = disk → s.free_blocks.Nodup →
      s.num_block_remain < UINT_MOD → l.Nodup → (∀ b, b ∈ l → b ∈ s.free_blocks) →
      ∃ s1, roots.foldlM (traverse_fs P L fuel) s = some s1 ∧ TraversePost s l ins s1 := by
  induction h with
  | nil =>
    refine ⟨0, fun fuel _ s _ _ hlt _ _ => ⟨s, rfl, TraversePost_refl s hlt⟩⟩
  | cons n roots lsub isub l ins hty hsz hsub _ ih_sub ih_rest =>
    obtain ⟨f1, ih1⟩ := ih_sub
    obtain ⟨f2, ih2⟩ := ih_rest
    refine ⟨max (f1 + 1) f2, ?_⟩
    intro fuel hfuel s hd hn hlt hnd hm
    obtain ⟨f, hf⟩ : ∃ f, fuel = f + 1 := ⟨fuel - 1, by omega⟩
    have hf1 : f1 ≤ f := by omega
    have hf2 : f2 ≤ fuel := by omega
    -- the parts of the list
    rw [List.append_assoc, List.cons_append] at hnd hm
    have hnd' := List.nodup_cons.mp hnd
    have happ := List.nodup_append.mp hnd'.2
    have happ2 := List.nodup_append.mp happ.2.1
    -- the inode itself
    obtain ⟨s1, e1, p1, _⟩ := traverse_take_post hn (hm n (List.mem_cons_self _ _))
    -- its blocks
    obtain ⟨s2, e2, p2, _⟩ := traverse_take_blocks_post P (L.toInode (disk n))
      (List.range (L.toInode (disk n)).size) s1
      (fun i hi => Nat.lt_of_lt_of_le (List.mem_range.mp hi) hsz)
      (TraversePost_nodup p1 hn) p1.2.2.2.1 happ.1
      (fun b hb => TraversePost_mem p1
        (hm b (List.mem_cons_of_mem _ (List.mem_append.mpr (Or.inl hb))))
        (by
          intro hh
          rw [List.mem_singleton] at hh
          rw [hh] at hb
          exact hnd'.1 (List.mem_append.mpr (Or.inl hb))))
    have p12 := TraversePost_trans p1 p2
    have p3 := add_lock_post s2 n p2.2.2.2.1
    have p123 := TraversePost_trans p12 p3
    have hd3 : (add_lock s2 n).disk = disk := p123.1.trans hd
    have hn3 : (add_lock s2 n).free_blocks.Nodup := TraversePost_nodup p123 hn
    -- the children
    have hkids : ∃ s4, (if (L.toInode (disk n)).type = 'f' ∨ (L.toInode (disk n)).size = 0
          then some (add_lock s2 n)
          else traverse_blocks P L (traverse_fs P L f) (L.toInode (disk n)) (add_lock s2 n)
            (List.range (L.toInode (disk n)).size)) = some s4 ∧
        TraversePost (add_lock s2 n) lsub isub s4 := by
      have hsubm : ∀ b, b ∈ lsub → b ∈ (add_lock s2 n).free_blocks := by
        intro b hb
        refine TraversePost_mem p123
          (hm b (List.mem_cons_of_mem _ (List.mem_append.mpr
            (Or.inr (List.mem_append.mpr (Or.inl hb)))))) ?_
        intro hh
        simp only [List.append_nil, List.singleton_append, List.mem_cons] at hh
        rcases hh with hh | hh
        · rw [hh] at hb
          exact hnd'.1 (List.mem_append.mpr (Or.inr (List.mem_append.mpr (Or.inl hb))))
        · exact happ.2.2 hh (List.mem_append.mpr (Or.inl hb))
      obtain ⟨s4, e4, p4⟩ := ih1 f hf1 (add_lock s2 n) hd3 hn3 p3.2.2.2.1 happ2.1 hsubm
      by_cases hleaf : (L.toInode (disk n)).type = 'f' ∨ (L.toInode (disk n)).size = 0
      · rw [if_pos hleaf]
        have hc : child_inodes P L disk n = [] := by
          unfold child_inodes
          rcases hleaf with hh | hh
          · rw [if_neg (by rw [hh]; decide)]
          · rw [hh]
            simp
        rw [hc] at e4
        simp only [List.foldlM_nil] at e4
        exact ⟨s4, e4, p4⟩
      · rw [if_neg hleaf]
        have htd : (L.toInode (disk n)).type = 'd' := by
          rcases hty with hh | hh
          · exact absurd (Or.inl hh) hleaf
          · exact hh
        rw [traverse_blocks_fold P L _ (traverse_fs_disk P L f) _ _ _
          (fun i hi => Nat.lt_of_lt_of_le (List.mem_range.mp hi) hsz), hd3]
        unfold child_inodes at e4
        rw [if_pos htd] at e4
        exact ⟨s4, e4, p4⟩
    obtain ⟨s4, e4, p4⟩ := hkids
    have p1234 := TraversePost_trans p123 p4
    -- the other roots
    obtain ⟨s5, e5, p5⟩ := ih2 fuel hf2 s4 (p1234.1.trans hd) (TraversePost_nodup p1234 hn)
      p4.2.2.2.1 happ2.2.1 (by
        intro b hb
        refine TraversePost_mem p1234
          (hm b (List.mem_cons_of_mem _ (List.mem_append.mpr
            (Or.inr (List.mem_append.mpr (Or.inr hb)))))) ?_
        intro hh
        simp only [List.append_nil, List.singleton_append, List.mem_append, List.mem_cons] at hh
        rcases hh with (hh | hh) | hh
        · rw [hh] at hb
          exact hnd'.1 (List.mem_append.mpr (Or.inr (List.mem_append.mpr (Or.inr hb))))
        · exact happ.2.2 hh (List.mem_append.mpr (Or.inr hb))
        · exact happ2.2.2 hh hb)
    have pall := TraversePost_trans p1234 p5
    refine ⟨s5, ?_, ?_⟩
    · rw [List.foldlM_cons]
      show (traverse_fs P L fuel s n).bind _ = _
      have hstep : traverse_fs P L fuel s n = some s4 := by
        rw [hf, traverse_fs]
        dsimp only
        rw [hd, e1]
        simp only [Option.some_bind]
        rw [e2]
        simp only [Option.some_bind]
        exact e4
      rw [hstep]
      exact e5
    · have e : [n] ++ List.map (L.toInode (disk n)).blocks (List.range (L.toInode (disk n)).size)
          ++ [] ++ lsub ++ l =
          n :: List.map (L.toInode (disk n)).blocks (List.range (L.toInode (disk n)).size)
            ++ lsub ++ l := by simp
      have e' : ([] : List Nat) ++ [] ++ [n] ++ isub ++ ins = n :: isub ++ ins := by simp
      rw [e, e'] at pall
      exact pall

theorem mem_child_inodes (P : Params) (L : Layout β) (disk : Nat → β) (n m : Nat) :
    m ∈ child_inodes P L disk n ↔ ChildOf P L disk n m := by
  unfold child_inodes ChildOf live
  by_cases htd : (L.toInode (disk n)).type = 'd'
  · rw [if_pos htd]
    simp only [List.mem_flatMap, List.mem_range, List.mem_map, List.mem_filter,
      decide_eq_true_eq]
    constructor
    · rintro ⟨j, hj, k, ⟨hk, hl⟩, e⟩
      exact ⟨htd, j, hj, k, hk, hl, e⟩
    · rintro ⟨_, j, hj, k, hk, hl, e⟩
      exact ⟨j, hj, k, ⟨hk, hl⟩, e⟩
  · rw [if_neg htd]
    constructor
    · intro h; cases h
    · intro h; exact absurd h.1 htd

theorem forest_roots_sub (P : Params) (L : Layout β) (disk : Nat → β)
    {roots l ins : List Nat} (h : Forest P L disk roots l ins) :
    ∀ r, r ∈ roots → r ∈ ins := by
  induction h with
  | nil => intro r hr; cases hr
  | cons n roots lsub isub l ins _ _ _ _ _ ih_rest =>
    intro r hr
    rcases List.mem_cons.mp hr with e | e
    · rw [e]
      exact List.mem_append.mpr (Or.inl (List.mem_cons_self _ _))
    · exact List.mem_append.mpr (Or.inr (ih_rest r e))

theorem forest_ins_reach (P : Params) (L : Layout β) (disk : Nat → β)
    {roots l ins : List Nat} (h : Forest P L disk roots l ins) :
    (∀ r, r ∈ roots → ReachInode P L disk r) → ∀ n, n ∈ ins → ReachInode P L disk n := by
  induction h with
  | nil => intro _ n hn; cases hn
  | cons n roots lsub isub l ins _ _ _ _ ih_sub ih_rest =>
    intro hr m hm
    have hn : ReachInode P L disk n := hr n (List.mem_cons_self _ _)
    rw [List.cons_append] at hm
    rcases List.mem_cons.mp hm with e | e
    · rw [e]; exact hn
    · rcases List.mem_append.mp e with e1 | e1
      · refine ih_sub ?_ m e1
        intro c hc
        obtain ⟨htd, j, hj, k, hk, hl, e2⟩ := (mem_child_inodes P L disk n c).mp hc
        rw [← e2]
        exact ReachInode.child n j k hn htd hj hk hl
      · exact ih_rest (fun r hr1 => hr r (List.mem_cons_of_mem _ hr1)) m e1

theorem forest_child_mem (P : Params) (L : Layout β) (disk : Nat → β)
    {roots l ins : List Nat} (h : Forest P L disk roots l ins) :
    ∀ n, n ∈ ins → ∀ m, ChildOf P L disk n m → m ∈ ins := by
  induction h with
  | nil => intro n hn; cases hn
  | cons n roots lsub isub l ins _ _ hsub _ ih_sub ih_rest =>
    intro x hx m hc
    rw [List.cons_append] at hx ⊢
    rcases List.mem_cons.mp hx with e | e
    · rw [e] at hc
      exact List.mem_cons_of_mem _ (List.mem_append.mpr (Or.inl
        (forest_roots_sub P L disk hsub m ((mem_child_inodes P L disk n m).mpr hc))))
    · rcases List.mem_append.mp e with e1 | e1
      · exact List.mem_cons_of_mem _ (List.mem_append.mpr (Or.inl (ih_sub x e1 m hc)))
      · exact List.mem_cons_of_mem _ (List.mem_append.mpr (Or.inr (ih_rest x e1 m hc)))

theorem forest_blocks (P : Params) (L : Layout β) (disk : Nat → β)
    {roots l ins : List Nat} (h : Forest P L disk roots l ins) :
    ∀ b, b ∈ l ↔ ∃ n, n ∈ ins ∧
      (b = n ∨ ∃ j, j < (L.toInode (disk n)).size ∧ b = (L.toInode (disk n)).blocks j) := by
  induction h with
  | nil =>
    intro b
    constructor
    · intro hb; cases hb
    · rintro ⟨n, hn, _⟩; cases hn
  | cons n roots lsub isub l ins _ _ _ _ ih_sub ih_rest =>
    intro b
    simp only [List.cons_append, List.mem_cons, List.mem_append, List.mem_map, List.mem_range,
      ih_sub b, ih_rest b]
    constructor
    · rintro (e | ((⟨j, hj, e⟩ | ⟨m, hm, hb⟩) | ⟨m, hm, hb⟩))
      · exact ⟨n, Or.inl rfl, Or.inl e⟩
      · exact ⟨n, Or.inl rfl, Or.inr ⟨j, hj, e.symm⟩⟩
      · exact ⟨m, Or.inr (Or.inl hm), hb⟩
      · exact ⟨m, Or.inr (Or.inr hm), hb⟩
    · rintro ⟨m, (e | (hm | hm)), hb⟩
      · rw [e] at hb
        rcases hb with hb | ⟨j, hj, hb⟩
        · exact Or.inl hb
        · exact Or.inr (Or.inl (Or.inl ⟨j, hj, hb.symm⟩))
      · exact Or.inr (Or.inl (Or.inr ⟨m, hm, hb⟩))
      · exact Or.inr (Or.inr ⟨m, hm, hb⟩)

theorem length_filter_ne {F : List Nat} {a : Nat} (hn : F.Nodup) (ha : a ∈ F) :
    (F.filter (fun y => decide (y ≠ a))).length + 1 = F.length := by
  have e : (fun y => decide (y ≠ a)) = fun y => y != a := by
    funext y
    by_cases h : y = a
    · simp [h]
    · simp [h]
  rw [e, ← hn.erase_eq_filter a, List.length_erase_of_mem ha]
  have := List.length_pos_of_mem ha
  omega

theorem length_filter_not_mem : ∀ (l F : List Nat), l.Nodup → F.Nodup →
    (∀ b, b ∈ l → b ∈ F) →
    (F.filter (fun b => decide (b ∉ l))).length + l.length = F.length := by
  intro l
  induction l with
  | nil => intro F _ _ _; simp
  | cons a l ih =>
    intro F hl hF hsub
    have ha := List.nodup_cons.mp hl
    have h1 := length_filter_ne hF (hsub a (List.mem_cons_self _ _))
    have h2 := ih (F.filter (fun y => decide (y ≠ a))) ha.2 (hF.filter _) (by
      intro b hb
      rw [List.mem_filter]
      refine ⟨hsub b (List.mem_cons_of_mem _ hb), ?_⟩
      simp only [decide_eq_true_eq]
      intro hh
      rw [hh] at hb
      exact ha.1 hb)
    rw [List.filter_filter] at h2
    have e : (fun b => decide (b ∉ a :: l)) = fun b => (decide (b ∉ l) && decide (b ≠ a)) := by
      funext b
      simp only [List.mem_cons, not_or, Bool.decide_and]
      exact Bool.and_comm _ _
    rw [e, List.length_cons]
    omega

/-- C21. Startup reconstruction: for every disk image that is a well-formed tree rooted
at block 0 (no block referenced twice, every block referenced below `FS_DISKSIZE`),
with `FS_DISKSIZE` below 2^32, the call `traverse_fs(0)` made after the free list is
seeded with 0..`FS_DISKSIZE`-1 returns (for every bound on the depth of the recursion
from some bound on), leaves the disk as it was and the free list holding exactly the
blocks of the disk that are not reachable from the root, each once, `num_block_remain`
equal to the length of that list, and a lock registered for exactly the reachable inode
blocks. -/
theorem startup_reconstruction (P : Params) (L : Layout β) (disk : Nat → β)
    (hD : P.FS_DISKSIZE < UINT_MOD) (hwf : WellFormedTree P L disk) :
    ∃ fuel0, ∀ fuel, fuel0 ≤ fuel →
      ∃ s1, traverse_fs P L fuel (startup_state P disk) 0 = some s1 ∧ s1.disk = disk ∧
        s1.free_blocks.Nodup ∧
        (∀ b, b ∈ s1.free_blocks ↔ b < P.FS_DISKSIZE ∧ ¬ Reachable P L disk b) ∧
        s1.num_block_remain = s1.free_blocks.length ∧
        (∀ n, (s1.fs_locks n).isSome = true ↔ ReachInode P L disk n) := by
  obtain ⟨l, ins, hf, hnd, hlt⟩ := hwf
  obtain ⟨fuel0, h⟩ := forest_traverse P L disk hf
  refine ⟨fuel0, fun fuel hfuel => ?_⟩
  have hsub : ∀ b, b ∈ l → b ∈ (startup_state P disk).free_blocks := fun b hb =>
    List.mem_range.mpr (hlt b hb)
  obtain ⟨s1, e, p⟩ := h fuel hfuel (startup_state P disk) rfl (List.nodup_range _) hD hnd hsub
  have e1 : traverse_fs P L fuel (startup_state P disk) 0 = some s1 := by
    rw [List.foldlM_cons] at e
    cases ht : traverse_fs P L fuel (startup_state P disk) 0 with
    | none => rw [ht] at e; cases e
    | some s2 =>
      rw [ht] at e
      simp only [List.foldlM_nil] at e
      exact e
  have hins : ∀ n, n ∈ ins ↔ ReachInode P L disk n := by
    intro n
    constructor
    · refine forest_ins_reach P L disk hf ?_ n
      intro r hr
      rw [List.mem_singleton.mp hr]
      exact ReachInode.root
    · intro hr
      induction hr with
      | root => exact forest_roots_sub P L disk hf 0 (List.mem_singleton.mpr rfl)
      | child n j k _ htd hj hk hl ih =>
        exact forest_child_mem P L disk hf n ih _ ⟨htd, j, hj, k, hk, hl, rfl⟩
  have hreach : ∀ b, b ∈ l ↔ Reachable P L disk b := by
    intro b
    rw [forest_blocks P L disk hf b]
    unfold Reachable
    constructor
    · rintro ⟨n, hn, hb⟩
      exact ⟨n, (hins n).mp hn, hb⟩
    · rintro ⟨n, hn, hb⟩
      exact ⟨n, (hins n).mpr hn, hb⟩
  obtain ⟨p1, p2, p3, p4, p5⟩ := p
  have hlen := length_filter_not_mem l (List.range P.FS_DISKSIZE) hnd (List.nodup_range _)
    (fun b hb => List.mem_range.mpr (hlt b hb))
  refine ⟨s1, e1, p1, ?_, ?_, ?_, ?_⟩
  · rw [p2]
    exact (List.nodup_range _).filter _
  · intro b
    rw [p2, List.mem_filter, ← hreach b]
    simp only [decide_eq_true_eq]
    show b ∈ List.range P.FS_DISKSIZE ∧ _ ↔ _
    rw [List.mem_range]
  · rw [p2]
    have h3 : (s1.num_block_remain + l.length) % UINT_MOD = P.FS_DISKSIZE % UINT_MOD := p3
    have hl : (List.filter (fun b => decide (b ∉ l)) (startup_state P disk).free_blocks).length
        + l.length = P.FS_DISKSIZE := by
      have := hlen
      rw [List.length_range] at this
      exact this
    unfold UINT_MOD at *
    omega
  · intro n
    rw [p5 n, ← hins n]
    by_cases hn : n ∈ ins
    · rw [if_pos hn]
      simp [hn]
    · rw [if_neg hn]
      simp [hn, startup_state]

theorem sFile_well_formed : WellFormedTree P0 Block.layout sFile.disk := by
  have h2 : Forest P0 Block.layout sFile.disk [2] _ _ :=
    Forest.cons 2 [] [] [] [] [] (by decide) (by decide)
      ((by decide : child_inodes P0 Block.layout sFile.disk 2 = []) ▸ Forest.nil) Forest.nil
  have h0 : Forest P0 Block.layout sFile.disk [0] _ _ :=
    Forest.cons 0 [] _ _ [] [] (by decide) (by decide)
      ((by decide : child_inodes P0 Block.layout sFile.disk 0 = [2]) ▸ h2) Forest.nil
  exact ⟨_, _, h0, by decide, by decide⟩

theorem startup_reconstruction_witness :
    P0.FS_DISKSIZE < UINT_MOD ∧ WellFormedTree P0 Block.layout sFile.disk ∧
    ∃ fuel s1, traverse_fs P0 Block.layout fuel (startup_state P0 sFile.disk) 0 = some s1 ∧
      s1.free_blocks.Nodup ∧
      (∀ b, b ∈ s1.free_blocks ↔ b < P0.FS_DISKSIZE ∧ ¬ Reachable P0 Block.layout sFile.disk b) ∧
      s1.num_block_remain = s1.free_blocks.length ∧
      (∀ n, (s1.fs_locks n).isSome = true ↔ ReachInode P0 Block.layout sFile.disk n) := by
  obtain ⟨fuel0, h⟩ :=
    startup_reconstruction P0 Block.layout sFile.disk (by decide) sFile_well_formed
  obtain ⟨s1, e, _, hn, hm, hc, hl⟩ := h fuel0 (Nat.le_refl _)
  exact ⟨by decide, sFile_well_formed, fuel0, s1, e, hn, hm, hc, hl⟩

/-- The start-up on the disk of `sFile`, run: blocks 0 to 3 are in use, the free list
is 4, 5, 6, 7, the free count 4, and locks are added for the inodes 0 and 2. -/
theorem startup_run :
    (traverse_fs P0 Block.layout 2 (startup_state P0 sFile.disk) 0).map
      (fun s => (s.free_blocks, s.num_block_remain, s.log)) =
      some ([4, 5, 6, 7], 4, [LockEv.add_lock 0, LockEv.add_lock 2]) := by
  decide

/-! ### Operations on a state changed from outside -/

theorem app_disk (o : Overlay β) (x : State β) (b : Nat) (h : o.Zd b = false) :
    (o.app x).disk b = x.disk b := by
  show (if o.Zd b then o.vd b else x.disk b) = _
  rw [h]
  rfl

/-- The inodes reachable from the root are in a list that holds the root and, with a
directory, the inodes of its live entries. -/
theorem reach_in_list (P : Params) (L : Layout β) (disk : Nat → β) (l : List Nat)
    (h0 : 0 ∈ l)
    (hcl : ListClosed P L disk l)
    {n : Nat} (h : ReachInode P L disk n) : n ∈ l := by
  induction h with
  | root => exact h0
  | child n j k _ hty hj hk hl ih => exact hcl n ih hty j hj k hk hl

theorem kindReuse_inode {n : Nat} (h : kindReuse n = Kind.inode) :
    n = 0 ∨ n = 4 ∨ n = 5 ∨ n = 6 := by
  rcases n with _ | _ | _ | _ | _ | _ | _ | n <;> simp_all [kindReuse]

theorem kindReuse_dir {n : Nat} (h : kindReuse n = Kind.dir) : n = 1 ∨ n = 2 ∨ n = 3 := by
  rcases n with _ | _ | _ | _ | _ | _ | _ | n <;> simp_all [kindReuse]

set_option synthInstance.maxSize 2000 in
theorem sReuse_inv : DiskInv P0 Block.layout kindReuse sReuse where
  typed :=
    { root_inode := rfl
      size_le := by
        intro n hn
        rcases kindReuse_inode hn with rfl | rfl | rfl | rfl <;> decide
      dir_blocks := by
        intro n hn
        rcases kindReuse_inode hn with rfl | rfl | rfl | rfl <;> decide
      dir_inj := by
        intro n1 n2 h1 h2
        rcases kindReuse_inode h1 with rfl | rfl | rfl | rfl <;>
          rcases kindReuse_inode h2 with rfl | rfl | rfl | rfl <;> decide
      file_blocks := by
        intro n hn
        rcases kindReuse_inode hn with rfl | rfl | rfl | rfl <;> decide
      entries := by
        intro b hb
        rcases kindReuse_dir hb with rfl | rfl | rfl <;> decide
      names := by
        intro n hn
        rcases kindReuse_inode hn with rfl | rfl | rfl | rfl <;>
          unfold names_distinct <;> decide }
  free_kind := by decide
  free_nodup := by decide
  locks_free := mklocks_free _

theorem sReuse_P2 : P2 P0 Block.layout sReuse.disk := fun n hn =>
  sReuse_inv.typed.names n (reach_kind P0 Block.layout sReuse_inv.typed hn)

set_option maxRecDepth 100000 in
/-- C6. Name uniqueness (P2) is not preserved.  The disk `sReuse` satisfies the disk
invariants and P2.  DELETE of `/a` returns true and leaves a state that satisfies P2, in
which the root's directory block 2 is on the free list (the defect of C2 and C3).  On
that state CREATE of `/e/c` returns true: it takes block 2 as the new directory block of
`/e` and writes the entry `c` into it, so that the root, whose `blocks[0]` is block 2
and whose `blocks[1]` holds the entry `c` of the file of inode 6, has two live entries
named `c`, and P2 fails. -/
theorem create_breaks_names :
    DiskInv P0 Block.layout kindReuse sReuse ∧ P2 P0 Block.layout sReuse.disk ∧
    ∃ s1 s2 rb1 rb2,
      conduct_operation P0 Block.layout u0 sReuse ['/', 'a'] ['u'] 0 'f'
        (Block.data []) (Block.data []) request_type.DELETE = some (true, s1, rb1) ∧
      P2 P0 Block.layout s1.disk ∧
      conduct_operation P0 Block.layout u0 s1 ['/', 'e', '/', 'c'] ['u'] 0 'f'
        (Block.data []) (Block.data []) request_type.CREATE = some (true, s2, rb2) ∧
      (Block.layout.toInode (s2.disk 0)).type = 'd' ∧
      (Block.layout.toInode (s2.disk 0)).size = 2 ∧
      Block.layout.toDirs (s2.disk ((Block.layout.toInode (s2.disk 0)).blocks 0)) 0
        = { name := ['c'], inode_block := 7 } ∧
      Block.layout.toDirs (s2.disk ((Block.layout.toInode (s2.disk 0)).blocks 1)) 0
        = { name := ['c'], inode_block := 6 } ∧
      ¬ P2 P0 Block.layout s2.disk := by
  refine ⟨sReuse_inv, sReuse_P2, ?_⟩
  have hrun : ((conduct_operation P0 Block.layout u0 sReuse ['/', 'a'] ['u'] 0 'f'
        (Block.data []) (Block.data []) request_type.DELETE).bind fun (r1 : Bool × State Block × Block) =>
      (conduct_operation P0 Block.layout u0 r1.2.1 ['/', 'e', '/', 'c'] ['u'] 0 'f'
        (Block.data []) (Block.data []) request_type.CREATE).map
        fun (r2 : Bool × State Block × Block) =>
        (r1.1, r2.1,
         decide (ListClosed P0 Block.layout r1.2.1.disk [0, 5, 6] ∧
          ∀ n : Nat, n ∈ ([0, 5, 6] : List Nat) → names_distinct P0 Block.layout r1.2.1.disk n),
         decide ((Block.layout.toInode (r2.2.1.disk 0)).type = 'd' ∧
          (Block.layout.toInode (r2.2.1.disk 0)).size = 2 ∧
          Block.layout.toDirs (r2.2.1.disk ((Block.layout.toInode (r2.2.1.disk 0)).blocks 0)) 0
            = { name := ['c'], inode_block := 7 } ∧
          Block.layout.toDirs (r2.2.1.disk ((Block.layout.toInode (r2.2.1.disk 0)).blocks 1)) 0
            = { name := ['c'], inode_block := 6 })))
      = some (true, true, true, true) := by decide
  obtain ⟨⟨ok1, s1, rb1⟩, e1, hrun⟩ := Option.bind_eq_some.mp hrun
  obtain ⟨⟨ok2, s2, rb2⟩, e2, hrun⟩ := Option.map_eq_some'.mp hrun
  simp only [Prod.mk.injEq, decide_eq_true_eq] at hrun
  obtain ⟨h1, h2, ⟨hcl, hnd⟩, hty, hsz, hc0, hc1⟩ := hrun
  subst h1 h2
  refine ⟨s1, s2, rb1, rb2, e1, ?_, e2, hty, hsz, hc0, hc1, ?_⟩
  · intro n hn
    exact hnd n (reach_in_list P0 Block.layout s1.disk [0, 5, 6] (by decide) hcl hn)
  · intro hp
    have := hp 0 ReachInode.root hty 0 (by rw [hsz]; decide) 1 (by rw [hsz]; decide)
      0 (by decide) 0 (by decide)
      (by rw [hc0]; decide) (by rw [hc1]; decide) (by rw [hc0, hc1])
    exact absurd this.1 (by decide)

theorem sReuse_reach_inode {n : Nat} (h : ReachInode P0 Block.layout sReuse.disk n) :
    n ∈ [0, 4, 5, 6] :=
  reach_in_list P0 Block.layout sReuse.disk [0, 4, 5, 6] (by decide) (by decide) h

theorem sReuse_P3 : P3 P0 Block.layout sReuse.disk := by
  intro n hn
  have h : ∀ m : Nat, m ∈ ([0, 4, 5, 6] : List Nat) → BlocksLive P0 Block.layout sReuse.disk m := by
    decide
  exact h n (sReuse_reach_inode hn)

theorem sReuse_P4 : P4 P0 Block.layout sReuse := by
  intro n
  constructor
  · intro h
    have hn : n = 0 ∨ n = 4 ∨ n = 5 ∨ n = 6 := by
      by_contra hc
      simp only [not_or] at hc
      have : sReuse.fs_locks n = none := by
        show mklocks [0, 4, 5, 6] n = none
        simp [mklocks, hc.1, hc.2.1, hc.2.2.1, hc.2.2.2]
      rw [this] at h
      cases h
    have r0 : ReachInode P0 Block.layout sReuse.disk 0 := ReachInode.root
    rcases hn with rfl | rfl | rfl | rfl
    · exact r0
    · exact ReachInode.child 0 0 0 r0 (by decide) (by decide) (by decide) (by decide)
    · exact ReachInode.child 0 1 0 r0 (by decide) (by decide) (by decide) (by decide)
    · exact ReachInode.child 0 2 0 r0 (by decide) (by decide) (by decide) (by decide)
  · intro h
    have hm := sReuse_reach_inode h
    have hall : ∀ m : Nat, m ∈ ([0, 4, 5, 6] : List Nat) → (sReuse.fs_locks m).isSome = true := by
      decide
    exact hall n hm

theorem sReuse_entries_inj : entries_inj P0 Block.layout kindReuse sReuse.disk := by
  intro b1 b2 h1 h2 k1 hk1 k2 hk2 hl1 hl2 he
  have hk1' : k1 < 2 := hk1
  have hk2' : k2 < 2 := hk2
  rcases kindReuse_dir h1 with rfl | rfl | rfl <;>
    rcases kindReuse_dir h2 with rfl | rfl | rfl <;>
    interval_cases k1 <;> interval_cases k2 <;> revert hl1 hl2 he <;> decide

set_option maxRecDepth 100000 in
/-- C19. Directory-size consistency (P3) is not preserved.  The disk `sReuse` satisfies
the disk invariants and P3.  DELETE of `/a` returns true and puts the root's directory
block 2 on the free list (the defect of C2 and C3); a WRITE that appends block 0 to the
file `/c` returns true, and the state it leaves satisfies P3.  On that state the WRITE
that appends block 1 (of NUL bytes) to `/c` returns true and takes block 2 as the data
block: afterwards block 2 is `blocks[1]` of the file and still `blocks[0]` of the root,
it has no live entry, and P3 fails. -/
theorem write_breaks_dir_size :
    DiskInv P0 Block.layout kindReuse sReuse ∧ P3 P0 Block.layout sReuse.disk ∧
    ∃ s1 s2 s3 rb1 rb2 rb3,
      conduct_operation P0 Block.layout u0 sReuse ['/', 'a'] ['u'] 0 'f'
        (Block.data []) (Block.data []) request_type.DELETE = some (true, s1, rb1) ∧
      conduct_operation P0 Block.layout u0 s1 ['/', 'c'] ['u'] 0 'f'
        (Block.data [0, 0, 0, 0]) (Block.data []) request_type.WRITE = some (true, s2, rb2) ∧
      P3 P0 Block.layout s2.disk ∧
      conduct_operation P0 Block.layout u0 s2 ['/', 'c'] ['u'] 1 'f'
        (Block.data [0, 0, 0, 0]) (Block.data []) request_type.WRITE = some (true, s3, rb3) ∧
      (Block.layout.toInode (s3.disk 0)).type = 'd' ∧
      0 < (Block.layout.toInode (s3.disk 0)).size ∧
      (Block.layout.toInode (s3.disk 0)).blocks 0 = 2 ∧
      (Block.layout.toInode (s3.disk 6)).blocks 1 = 2 ∧
      (∀ k, k < P0.FS_DIRENTRIES → ¬ live (Block.layout.toDirs (s3.disk 2) k)) ∧
      ¬ P3 P0 Block.layout s3.disk := by
  refine ⟨sReuse_inv, sReuse_P3, ?_⟩
  have hrun : ((conduct_operation P0 Block.layout u0 sReuse ['/', 'a'] ['u'] 0 'f'
        (Block.data []) (Block.data []) request_type.DELETE).bind
      fun (r1 : Bool × State Block × Block) =>
      (conduct_operation P0 Block.layout u0 r1.2.1 ['/', 'c'] ['u'] 0 'f'
        (Block.data [0, 0, 0, 0]) (Block.data []) request_type.WRITE).bind
      fun (r2 : Bool × State Block × Block) =>
      (conduct_operation P0 Block.layout u0 r2.2.1 ['/', 'c'] ['u'] 1 'f'
        (Block.data [0, 0, 0, 0]) (Block.data []) request_type.WRITE).map
      fun (r3 : Bool × State Block × Block) =>
        (r1.1, r2.1, r3.1,
         decide (ListClosed P0 Block.layout r2.2.1.disk [0, 5, 6] ∧
          ∀ n : Nat, n ∈ ([0, 5, 6] : List Nat) → BlocksLive P0 Block.layout r2.2.1.disk n),
         decide ((Block.layout.toInode (r3.2.1.disk 0)).type = 'd' ∧
          0 < (Block.layout.toInode (r3.2.1.disk 0)).size ∧
          (Block.layout.toInode (r3.2.1.disk 0)).blocks 0 = 2 ∧
          (Block.layout.toInode (r3.2.1.disk 6)).blocks 1 = 2 ∧
          ∀ k, k < P0.FS_DIRENTRIES → ¬ live (Block.layout.toDirs (r3.2.1.disk 2) k))))
      = some (true, true, true, true, true) := by decide
  obtain ⟨⟨ok1, s1, rb1⟩, e1, hrun⟩ := Option.bind_eq_some.mp hrun
  obtain ⟨⟨ok2, s2, rb2⟩, e2, hrun⟩ := Option.bind_eq_some.mp hrun
  obtain ⟨⟨ok3, s3, rb3⟩, e3, hrun⟩ := Option.map_eq_some'.mp hrun
  simp only [Prod.mk.injEq, decide_eq_true_eq] at hrun
  obtain ⟨h1, h2, h3, ⟨hcl, hbl⟩, hty, hsz, hb0, hb1, hdead⟩ := hrun
  subst h1 h2 h3
  refine ⟨s1, s2, s3, rb1, rb2, rb3, e1, e2, ?_, e3, hty, hsz, hb0, hb1, hdead, ?_⟩
  · intro n hn
    exact hbl n (reach_in_list P0 Block.layout s2.disk [0, 5, 6] (by decide) hcl hn)
  · intro hp
    obtain ⟨k, hk, hl⟩ := hp 0 ReachInode.root hty 0 hsz
    rw [hb0] at hl
    exact hdead k hk hl

set_option maxRecDepth 100000 in
/-- C20. Lock hygiene (P4) is not preserved.  The disk `sReuse` satisfies the disk
invariants and P4.  DELETE of `/a` returns true and leaves a state that satisfies P4, in
which the root's directory block 2, which holds the entry of the directory `/e`
(inode 5), is on the free list (the defect of C2 and C3).  On that state CREATE of
`/e/c` returns true and takes block 2 as the new directory block of `/e`, which
overwrites the entry of `/e` in the root: afterwards inode 5 still has its lock and is
no longer reachable from the root, and P4 fails. -/
theorem create_breaks_lock_hygiene :
    DiskInv P0 Block.layout kindReuse sReuse ∧ P4 P0 Block.layout sReuse ∧
    ∃ s1 s2 rb1 rb2,
      conduct_operation P0 Block.layout u0 sReuse ['/', 'a'] ['u'] 0 'f'
        (Block.data []) (Block.data []) request_type.DELETE = some (true, s1, rb1) ∧
      P4 P0 Block.layout s1 ∧
      conduct_operation P0 Block.layout u0 s1 ['/', 'e', '/', 'c'] ['u'] 0 'f'
        (Block.data []) (Block.data []) request_type.CREATE = some (true, s2, rb2) ∧
      (s2.fs_locks 5).isSome = true ∧
      ¬ ReachInode P0 Block.layout s2.disk 5 ∧
      ¬ P4 P0 Block.layout s2 := by
  refine ⟨sReuse_inv, sReuse_P4, ?_⟩
  have hrun : ((conduct_operation P0 Block.layout u0 sReuse ['/', 'a'] ['u'] 0 'f'
        (Block.data []) (Block.data []) request_type.DELETE).bind
      fun (r1 : Bool × State Block × Block) =>
      (conduct_operation P0 Block.layout u0 r1.2.1 ['/', 'e', '/', 'c'] ['u'] 0 'f'
        (Block.data []) (Block.data []) request_type.CREATE).map
      fun (r2 : Bool × State Block × Block) =>
        (r1.1, r2.1, (r2.2.1.fs_locks 5).isSome,
         decide (ListClosed P0 Block.layout r2.2.1.disk [0, 6, 7])))
      = some (true, true, true, true) := by decide
  obtain ⟨⟨ok1, s1, rb1⟩, e1, hrun⟩ := Option.bind_eq_some.mp hrun
  obtain ⟨⟨ok2, s2, rb2⟩, e2, hrun⟩ := Option.map_eq_some'.mp hrun
  simp only [Prod.mk.injEq, decide_eq_true_eq] at hrun
  obtain ⟨h1, h2, hlk, hcl⟩ := hrun
  subst h1 h2
  have hnr : ¬ ReachInode P0 Block.layout s2.disk 5 := by
    intro h
    have := reach_in_list P0 Block.layout s2.disk [0, 6, 7] (by decide) hcl h
    revert this
    decide
  refine ⟨s1, s2, rb1, rb2, e1, ?_, e2, hlk, hnr, fun hp => hnr ((hp 5).mp hlk)⟩
  exact (lock_hygiene P0 Block.layout u0 kindReuse sReuse ['/', 'a'] ['u'] 0 'f'
    (Block.data []) (Block.data []) request_type.DELETE (true, s1, rb1)
    (by decide) (by decide) sReuse_inv sReuse_entries_inj sReuse_P4 e1).1

set_option maxRecDepth 100000 in
/-- C14. The postcondition of CREATE fails on a disk the server reaches from a freshly
formatted one.  After `/a`, `/x` and the directory `/e` are created, `/x` and `/a` are
deleted, `/e/p` is created and a block is appended to it, every call returning true, the
free list is `[5, 1]` and block 5 is the only directory block of the root (the defect of
C2 and C3 has put it on the free list).  CREATE of the file `/g` by `u` then returns
true; it takes block 5 for the new inode, writes the inode to it, and then writes the
root's directory block, which is block 5 too, over it: afterwards block 5 holds the
entries `e` and `g`, the entry `g` names block 5 itself, and block 5 read as an inode
has neither the type `f` nor the owner `u`. -/
theorem create_overwrites_new_inode :
    ∃ s, run_ops P0 Block.layout u0 sEmpty
        [ (request_type.CREATE, ['/', 'a'], 'f'),
          (request_type.CREATE, ['/', 'x'], 'f'),
          (request_type.CREATE, ['/', 'e'], 'd'),
          (request_type.DELETE, ['/', 'x'], 'f'),
          (request_type.DELETE, ['/', 'a'], 'f'),
          (request_type.CREATE, ['/', 'e', '/', 'p'], 'f'),
          (request_type.WRITE, ['/', 'e', '/', 'p'], 'f') ]
        = some (s, [true, true, true, true, true, true, true]) ∧
      s.free_blocks = [5, 1] ∧
      (Block.layout.toInode (s.disk 0)).size = 1 ∧
      (Block.layout.toInode (s.disk 0)).blocks 0 = 5 ∧
      ∃ s' rb, conduct_operation P0 Block.layout u0 s ['/', 'g'] ['u'] 0 'f'
          (Block.data []) (Block.data []) request_type.CREATE = some (true, s', rb) ∧
        Block.layout.toDirs (s'.disk 5) 0 = { name := ['e'], inode_block := 4 } ∧
        Block.layout.toDirs (s'.disk 5) 1 = { name := ['g'], inode_block := 5 } ∧
        (Block.layout.toInode (s'.disk 5)).type ≠ 'f' ∧
        (Block.layout.toInode (s'.disk 5)).owner ≠ ['u'] := by
  have hrun : ((run_ops P0 Block.layout u0 sEmpty
        [ (request_type.CREATE, ['/', 'a'], 'f'),
          (request_type.CREATE, ['/', 'x'], 'f'),
          (request_type.CREATE, ['/', 'e'], 'd'),
          (request_type.DELETE, ['/', 'x'], 'f'),
          (request_type.DELETE, ['/', 'a'], 'f'),
          (request_type.CREATE, ['/', 'e', '/', 'p'], 'f'),
          (request_type.WRITE, ['/', 'e', '/', 'p'], 'f') ]).bind
      fun (r : State Block × List Bool) =>
      (conduct_operation P0 Block.layout u0 r.1 ['/', 'g'] ['u'] 0 'f'
          (Block.data []) (Block.data []) request_type.CREATE).map
        fun (r2 : Bool × State Block × Block) =>
        (r.2, r.1.free_blocks, r2.1,
          decide ((Block.layout.toInode (r.1.disk 0)).size = 1 ∧
            (Block.layout.toInode (r.1.disk 0)).blocks 0 = 5 ∧
            Block.layout.toDirs (r2.2.1.disk 5) 0 = { name := ['e'], inode_block := 4 } ∧
            Block.layout.toDirs (r2.2.1.disk 5) 1 = { name := ['g'], inode_block := 5 } ∧
            (Block.layout.toInode (r2.2.1.disk 5)).type ≠ 'f' ∧
            (Block.layout.toInode (r2.2.1.disk 5)).owner ≠ ['u'])))
      = some ([true, true, true, true, true, true, true], [5, 1], true, true) := by decide
  obtain ⟨⟨s, oks⟩, e1, hrun⟩ := Option.bind_eq_some.mp hrun
  obtain ⟨⟨ok, s', rb⟩, e2, hrun⟩ := Option.map_eq_some'.mp hrun
  simp only [Prod.mk.injEq, decide_eq_true_eq] at hrun
  obtain ⟨h1, h2, h3, h4, h5, h6, h7, h8, h9⟩ := hrun
  subst h1 h3
  exact ⟨s, e1, h2, h4, h5, s', rb, e2, h6, h7, h8, h9⟩

/-! ### A free list changed from outside -/

theorem ext_free (suf : List Nat) (y : State β) (l : List Nat) :
    ({ (extend suf).app y with free_blocks := l ++ suf } : State β) =
      (extend suf).app { y with free_blocks := l } := rfl

end Wire

end FS
